import Mathlib

/-!
# A verification development for the treap-backed bijective map

The C++ sources (`cartesian_tree.h`, `cartesian_tree.cpp`, `bimap.h`) are embedded as
executable Lean functions over an explicit memory of `node_base` objects.

* A `node_base*` is an `Option Ptr` (`none` is `nullptr`).
* The memory maps every address to the `node_base` stored there (if any).
* Recursion and loops over pointers carry a fuel argument; running out of fuel,
  dereferencing `nullptr` and dereferencing a dangling address are reported as faults.
* `std::size_t sz` is an unbounded natural number: the entries occupy distinct
  addresses, so the count cannot reach `2^64`.
* The draws of the random generator are arguments of the operations that construct nodes.
* Several containers may live in one state: container `c` owns the sentinels
  `Ptr.sentinel c _` and the count `sz c`; the entries are numbered by one allocator.
-/

set_option autoImplicit false
set_option linter.dupNamespace false

/-- The two projections (`left_tag`, `right_tag`) of a paired entry. -/
inductive Side where
  | left
  | right
  deriving DecidableEq, Repr

/-- The opposite projection. -/
def Side.other : Side → Side
  | .left => .right
  | .right => .left

/-- Addresses of `node_base` objects: the sentinel owned by tree `s` of container `c`,
or the `s`-side base subobject of the paired entry `e`. -/
inductive Ptr where
  | sentinel (c : Nat) (s : Side)
  | node (e : Nat) (s : Side)
  deriving DecidableEq, Repr

/-- Ways an execution can fail to produce a value. -/
inductive Fault where
  | out_of_range
  | null_deref
  | invalid_ptr
  | out_of_fuel
  deriving DecidableEq, Repr

namespace details

/-- The struct `node_base`: three links and a priority. -/
structure node_base where
  left : Option Ptr
  right : Option Ptr
  parent : Option Ptr
  priority : Nat
  deriving DecidableEq, Repr

/-- Memory of `node_base` objects. -/
abbrev Mem := Ptr → Option node_base

/-- Reading `*v`. -/
def deref (m : Mem) : Option Ptr → Except Fault node_base
  | none => .error .null_deref
  | some p =>
    match m p with
    | none => .error .invalid_ptr
    | some nb => .ok nb

/-- The assignment `v->left = x`. -/
def write_left (m : Mem) (v : Option Ptr) (x : Option Ptr) : Except Fault Mem :=
  match v with
  | none => .error .null_deref
  | some p =>
    match m p with
    | none => .error .invalid_ptr
    | some nb => .ok (Function.update m p (some { nb with left := x }))

/-- The assignment `v->right = x`. -/
def write_right (m : Mem) (v : Option Ptr) (x : Option Ptr) : Except Fault Mem :=
  match v with
  | none => .error .null_deref
  | some p =>
    match m p with
    | none => .error .invalid_ptr
    | some nb => .ok (Function.update m p (some { nb with right := x }))

/-- The assignment `v->parent = x`. -/
def write_parent (m : Mem) (v : Option Ptr) (x : Option Ptr) : Except Fault Mem :=
  match v with
  | none => .error .null_deref
  | some p =>
    match m p with
    | none => .error .invalid_ptr
    | some nb => .ok (Function.update m p (some { nb with parent := x }))

/-- `set_parent(node, parent)`: assigns the parent link unless `node` is null. -/
def set_parent (m : Mem) (node parent : Option Ptr) : Except Fault Mem :=
  match node with
  | none => .ok m
  | some p => write_parent m (some p) parent

/-- `is_right_son(node, son)`. -/
def is_right_son (m : Mem) (node son : Option Ptr) : Except Fault Bool :=
  match node, son with
  | none, _ => .ok false
  | some _, none => .ok false
  | some p, some q =>
    match deref m (some p) with
    | .error e => .error e
    | .ok nb => .ok (decide (nb.right = some q))

/-- `is_left_son(node, son)`. -/
def is_left_son (m : Mem) (node son : Option Ptr) : Except Fault Bool :=
  match node, son with
  | none, _ => .ok false
  | some _, none => .ok false
  | some p, some q =>
    match deref m (some p) with
    | .error e => .error e
    | .ok nb => .ok (decide (nb.left = some q))

/-- The loop `while (v->left != nullptr) v = v->left; return v;`. -/
def get_leftmost_loop (m : Mem) : Nat → Ptr → Except Fault Ptr
  | 0, _ => .error .out_of_fuel
  | fuel + 1, v =>
    match m v with
    | none => .error .invalid_ptr
    | some nb =>
      match nb.left with
      | none => .ok v
      | some l => get_leftmost_loop m fuel l

/-- `get_leftmost(v)`. -/
def get_leftmost (m : Mem) (fuel : Nat) : Option Ptr → Except Fault (Option Ptr)
  | none => .ok none
  | some v =>
    match get_leftmost_loop m fuel v with
    | .error e => .error e
    | .ok r => .ok (some r)

/-- The loop `while (v->right != nullptr) v = v->right; return v;`. -/
def get_rightmost_loop (m : Mem) : Nat → Ptr → Except Fault Ptr
  | 0, _ => .error .out_of_fuel
  | fuel + 1, v =>
    match m v with
    | none => .error .invalid_ptr
    | some nb =>
      match nb.right with
      | none => .ok v
      | some r => get_rightmost_loop m fuel r

/-- `get_rightmost(v)`. -/
def get_rightmost (m : Mem) (fuel : Nat) : Option Ptr → Except Fault (Option Ptr)
  | none => .ok none
  | some v =>
    match get_rightmost_loop m fuel v with
    | .error e => .error e
    | .ok r => .ok (some r)

/-- The loop `while (is_right_son(v->parent, v)) v = v->parent; return v->parent;`. -/
def get_next_loop (m : Mem) : Nat → Option Ptr → Except Fault (Option Ptr)
  | 0, _ => .error .out_of_fuel
  | fuel + 1, v =>
    match deref m v with
    | .error e => .error e
    | .ok nb =>
      match is_right_son m nb.parent v with
      | .error e => .error e
      | .ok true => get_next_loop m fuel nb.parent
      | .ok false => .ok nb.parent

/-- `get_next(v)`: the in-order successor through child and parent links. -/
def get_next (m : Mem) (fuel : Nat) : Option Ptr → Except Fault (Option Ptr)
  | none => .ok none
  | some v =>
    match m v with
    | none => .error .invalid_ptr
    | some nb =>
      match nb.right with
      | some r => get_leftmost m fuel (some r)
      | none => get_next_loop m fuel (some v)

/-- The loop `while (is_left_son(v->parent, v)) v = v->parent; return v->parent;`. -/
def get_prev_loop (m : Mem) : Nat → Option Ptr → Except Fault (Option Ptr)
  | 0, _ => .error .out_of_fuel
  | fuel + 1, v =>
    match deref m v with
    | .error e => .error e
    | .ok nb =>
      match is_left_son m nb.parent v with
      | .error e => .error e
      | .ok true => get_prev_loop m fuel nb.parent
      | .ok false => .ok nb.parent

/-- `get_prev(v)`: the in-order predecessor through child and parent links. -/
def get_prev (m : Mem) (fuel : Nat) : Option Ptr → Except Fault (Option Ptr)
  | none => .ok none
  | some v =>
    match m v with
    | none => .error .invalid_ptr
    | some nb =>
      match nb.left with
      | some l => get_rightmost m fuel (some l)
      | none => get_prev_loop m fuel (some v)

/-- `get_value<T, Tag>(x)`: the key stored in the `tree_node` at `x`. -/
def get_value {T : Type} (val : Ptr → Option T) : Option Ptr → Except Fault T
  | none => .error .null_deref
  | some p =>
    match val p with
    | none => .error .invalid_ptr
    | some x => .ok x

namespace tree

variable {T : Type}

/-- `tree::greater_or_equal`. -/
def greater_or_equal (cmp : T → T → Bool) (x y : T) : Bool := !cmp x y

/-- `tree::less_or_equal`. -/
def less_or_equal (cmp : T → T → Bool) (x y : T) : Bool := greater_or_equal cmp y x

/-- `tree::less`. -/
def less (cmp : T → T → Bool) (x y : T) : Bool := cmp x y

/-- `tree::greater`. -/
def greater (cmp : T → T → Bool) (x y : T) : Bool := less cmp y x

/-- `tree::equal`. -/
def equal (cmp : T → T → Bool) (x y : T) : Bool :=
  less_or_equal cmp x y && less_or_equal cmp y x

/-- `tree::root()`: the left link of the sentinel `s`. -/
def root (m : Mem) (s : Ptr) : Except Fault (Option Ptr) :=
  match m s with
  | none => .error .invalid_ptr
  | some sb => .ok sb.left

/-- `tree::end()` and `tree::get_sentinel()`: the address of the sentinel. -/
def end_ (s : Ptr) : Option Ptr := some s

/-- `tree::set_root(new_root)`. -/
def set_root (m : Mem) (s : Ptr) (new_root : Option Ptr) : Except Fault Mem :=
  match write_left m (some s) new_root with
  | .error e => .error e
  | .ok m1 => set_parent m1 new_root (some s)

/-- `tree::set_another_tree_pointer(other_tree_sentinel)`. -/
def set_another_tree_pointer (m : Mem) (s : Ptr) (other_tree_sentinel : Option Ptr) :
    Except Fault Mem :=
  write_right m (some s) other_tree_sentinel

/-- `tree::split(v, value, inclusive)`. -/
def split (cmp : T → T → Bool) (val : Ptr → Option T) :
    Nat → Mem → Option Ptr → T → Bool → Except Fault (Mem × Option Ptr × Option Ptr)
  | 0, _, _, _, _ => .error .out_of_fuel
  | _ + 1, m, none, _, _ => .ok (m, none, none)
  | fuel + 1, m, some v, value, inclusive =>
    match get_value val (some v) with
    | .error e => .error e
    | .ok x =>
      let go_left := if inclusive then less_or_equal cmp value x else less cmp value x
      match m v with
      | none => .error .invalid_ptr
      | some vb =>
        if go_left then
          match split cmp val fuel m vb.left value inclusive with
          | .error e => .error e
          | .ok (m1, first, second) =>
            match write_left m1 (some v) second with
            | .error e => .error e
            | .ok m2 =>
              match set_parent m2 second (some v) with
              | .error e => .error e
              | .ok m3 => .ok (m3, first, some v)
        else
          match split cmp val fuel m vb.right value inclusive with
          | .error e => .error e
          | .ok (m1, first, second) =>
            match write_right m1 (some v) first with
            | .error e => .error e
            | .ok m2 =>
              match set_parent m2 first (some v) with
              | .error e => .error e
              | .ok m3 => .ok (m3, some v, second)

/-- `tree::merge(left, right)`. -/
def merge : Nat → Mem → Option Ptr → Option Ptr → Except Fault (Mem × Option Ptr)
  | 0, _, _, _ => .error .out_of_fuel
  | _ + 1, m, none, none => .ok (m, none)
  | _ + 1, m, none, some r => .ok (m, some r)
  | _ + 1, m, some l, none => .ok (m, some l)
  | fuel + 1, m, some l, some r =>
    match m l, m r with
    | none, _ => .error .invalid_ptr
    | some _, none => .error .invalid_ptr
    | some lb, some rb =>
      if lb.priority ≥ rb.priority then
        match merge fuel m lb.right (some r) with
        | .error e => .error e
        | .ok (m1, merged) =>
          match write_right m1 (some l) merged with
          | .error e => .error e
          | .ok m2 =>
            match set_parent m2 merged (some l) with
            | .error e => .error e
            | .ok m3 => .ok (m3, some l)
      else
        match merge fuel m (some l) rb.left with
        | .error e => .error e
        | .ok (m1, merged) =>
          match write_left m1 (some r) merged with
          | .error e => .error e
          | .ok m2 =>
            match set_parent m2 merged (some r) with
            | .error e => .error e
            | .ok m3 => .ok (m3, some r)

/-- `tree::find(v, value)`: descent by the comparator; the sentinel when absent. -/
def find_from (cmp : T → T → Bool) (val : Ptr → Option T) (m : Mem) (s : Ptr) :
    Nat → Option Ptr → T → Except Fault (Option Ptr)
  | 0, _, _ => .error .out_of_fuel
  | _ + 1, none, _ => .ok (end_ s)
  | fuel + 1, some v, value =>
    match get_value val (some v) with
    | .error e => .error e
    | .ok x =>
      match m v with
      | none => .error .invalid_ptr
      | some vb =>
        if less cmp value x then find_from cmp val m s fuel vb.left value
        else if greater cmp value x then find_from cmp val m s fuel vb.right value
        else .ok (some v)

/-- `tree::find(value)`. -/
def find (cmp : T → T → Bool) (val : Ptr → Option T) (m : Mem) (s : Ptr) (fuel : Nat)
    (value : T) : Except Fault (Option Ptr) :=
  match root m s with
  | .error e => .error e
  | .ok r => find_from cmp val m s fuel r value

/-- `tree::begin()`. -/
def begin (m : Mem) (s : Ptr) (fuel : Nat) : Except Fault (Option Ptr) :=
  get_leftmost m fuel (some s)

/-- `tree::insert(new_node)`. -/
def insert (cmp : T → T → Bool) (val : Ptr → Option T) (fuel : Nat) (m : Mem) (s : Ptr)
    (new_node : Ptr) : Except Fault (Mem × Option Ptr) :=
  match root m s with
  | .error e => .error e
  | .ok none =>
    match set_root m s (some new_node) with
    | .error e => .error e
    | .ok m1 => .ok (m1, some new_node)
  | .ok (some r) =>
    match get_value val (some new_node) with
    | .error e => .error e
    | .ok x =>
      match split cmp val fuel m (some r) x true with
      | .error e => .error e
      | .ok (m1, first, second) =>
        match merge fuel m1 (some new_node) second with
        | .error e => .error e
        | .ok (m2, second1) =>
          match merge fuel m2 first second1 with
          | .error e => .error e
          | .ok (m3, r1) =>
            match set_root m3 s r1 with
            | .error e => .error e
            | .ok m4 => .ok (m4, some new_node)

/-- `tree::erase_helper(v)`. -/
def erase_helper (fuel : Nat) (m : Mem) (v : Option Ptr) : Except Fault Mem :=
  match deref m v with
  | .error e => .error e
  | .ok vb =>
    match merge fuel m vb.left vb.right with
    | .error e => .error e
    | .ok (m1, new_son) =>
      match deref m1 v with
      | .error e => .error e
      | .ok vb1 =>
        match (match new_son with
               | none => Except.ok m1
               | some n => write_parent m1 (some n) vb1.parent) with
        | .error e => .error e
        | .ok m2 =>
          match deref m2 v with
          | .error e => .error e
          | .ok vb2 =>
            match is_left_son m2 vb2.parent v with
            | .error e => .error e
            | .ok true => write_left m2 vb2.parent new_son
            | .ok false =>
              match is_right_son m2 vb2.parent v with
              | .error e => .error e
              | .ok true => write_right m2 vb2.parent new_son
              | .ok false => .ok m2

end tree

end details

/-- The whole program state: the memory of `node_base` objects, the keys stored in the
`tree_node` objects of either side, the field `sz` of every container, and the next
address handed out by `new`. -/
structure Heap (L R : Type) where
  mem : details.Mem
  left_value : Ptr → Option L
  right_value : Ptr → Option R
  sz : Nat → Nat
  next : Nat

/-- The state before any object is constructed. -/
def Heap.init (L R : Type) : Heap L R :=
  { mem := fun _ => none, left_value := fun _ => none, right_value := fun _ => none,
    sz := fun _ => 0, next := 0 }

namespace bimap

open details

variable {L R : Type}

/-- The static casts between the two `tree_node` bases of one paired entry
(`to_bimap_node` followed by `to_tree_node`). -/
def cross_cast : Option Ptr → Except Fault (Option Ptr)
  | none => .error .null_deref
  | some (Ptr.sentinel _ _) => .error .invalid_ptr
  | some (Ptr.node e s) => .ok (some (Ptr.node e s.other))

/-- `base_iterator::flip`. -/
def flip (m : Mem) (ptr : Option Ptr) : Except Fault (Option Ptr) :=
  match deref m ptr with
  | .error e => .error e
  | .ok nb =>
    match nb.parent with
    | none => .ok nb.right
    | some _ => cross_cast ptr

/-- `share_pointers()`. -/
def share_pointers (m : Mem) (c : Nat) : Except Fault Mem :=
  match tree.set_another_tree_pointer m (Ptr.sentinel c .left) (some (Ptr.sentinel c .right)) with
  | .error e => .error e
  | .ok m1 =>
    tree.set_another_tree_pointer m1 (Ptr.sentinel c .right) (some (Ptr.sentinel c .left))

/-- The constructor `bimap(compare_left, compare_right)` of container `c`: the two
sentinels are constructed with the priorities `p1`, `p2`, `sz` is `0`, then
`share_pointers()` runs. -/
def bimap (h : Heap L R) (c : Nat) (p1 p2 : Nat) : Except Fault (Heap L R) :=
  let m0 := Function.update (Function.update h.mem (Ptr.sentinel c .left)
      (some { left := none, right := none, parent := none, priority := p1 }))
      (Ptr.sentinel c .right)
      (some { left := none, right := none, parent := none, priority := p2 })
  match share_pointers m0 c with
  | .error e => .error e
  | .ok m1 => .ok { h with mem := m1, sz := Function.update h.sz c 0 }

/-- `begin_left()`. -/
def begin_left (h : Heap L R) (c : Nat) (fuel : Nat) : Except Fault (Option Ptr) :=
  tree.begin h.mem (Ptr.sentinel c .left) fuel

/-- `end_left()`. -/
def end_left (c : Nat) : Option Ptr := tree.end_ (Ptr.sentinel c .left)

/-- `begin_right()`. -/
def begin_right (h : Heap L R) (c : Nat) (fuel : Nat) : Except Fault (Option Ptr) :=
  tree.begin h.mem (Ptr.sentinel c .right) fuel

/-- `end_right()`. -/
def end_right (c : Nat) : Option Ptr := tree.end_ (Ptr.sentinel c .right)

/-- `size()`. -/
def size (h : Heap L R) (c : Nat) : Nat := h.sz c

/-- `empty()`. -/
def empty (h : Heap L R) (c : Nat) : Bool := decide (size h c = 0)

/-- The expression `new node_t(left, right)`: the entry gets the address `h.next`; its two
`node_base` parts have null links and the priorities `pl`, `pr`. -/
def new_node (h : Heap L R) (left : L) (right : R) (pl pr : Nat) : Heap L R :=
  { mem := Function.update (Function.update h.mem (Ptr.node h.next .left)
        (some { left := none, right := none, parent := none, priority := pl }))
        (Ptr.node h.next .right)
        (some { left := none, right := none, parent := none, priority := pr })
    left_value := Function.update h.left_value (Ptr.node h.next .left) (some left)
    right_value := Function.update h.right_value (Ptr.node h.next .right) (some right)
    sz := h.sz
    next := h.next + 1 }

/-- The statement `delete casted_e` for the paired entry `e`. -/
def delete_node (h : Heap L R) (e : Nat) : Heap L R :=
  { mem := Function.update (Function.update h.mem (Ptr.node e .left) none)
        (Ptr.node e .right) none
    left_value := Function.update h.left_value (Ptr.node e .left) none
    right_value := Function.update h.right_value (Ptr.node e .right) none
    sz := h.sz
    next := h.next }

/-- `find_left(left)`. -/
def find_left (cl : L → L → Bool) (fuel : Nat) (h : Heap L R) (c : Nat) (left : L) :
    Except Fault (Option Ptr) :=
  tree.find cl h.left_value h.mem (Ptr.sentinel c .left) fuel left

/-- `find_right(right)`. -/
def find_right (cr : R → R → Bool) (fuel : Nat) (h : Heap L R) (c : Nat) (right : R) :
    Except Fault (Option Ptr) :=
  tree.find cr h.right_value h.mem (Ptr.sentinel c .right) fuel right

/-- `insert(left, right)`; `pl` and `pr` are the priorities drawn for the two parts of
the new entry. -/
def insert (cl : L → L → Bool) (cr : R → R → Bool) (fuel : Nat) (h : Heap L R) (c : Nat)
    (left : L) (right : R) (pl pr : Nat) : Except Fault (Heap L R × Option Ptr) :=
  match tree.find cl h.left_value h.mem (Ptr.sentinel c .left) fuel left with
  | .error e => .error e
  | .ok f =>
    if f ≠ tree.end_ (Ptr.sentinel c .left) then .ok (h, end_left c)
    else
      match tree.find cr h.right_value h.mem (Ptr.sentinel c .right) fuel right with
      | .error e => .error e
      | .ok g =>
        if g ≠ tree.end_ (Ptr.sentinel c .right) then .ok (h, end_left c)
        else
          let h1 := new_node h left right pl pr
          match tree.insert cl h1.left_value fuel h1.mem (Ptr.sentinel c .left)
              (Ptr.node h.next .left) with
          | .error e => .error e
          | .ok (m1, result) =>
            match tree.insert cr h1.right_value fuel m1 (Ptr.sentinel c .right)
                (Ptr.node h.next .right) with
            | .error e => .error e
            | .ok (m2, _) =>
              .ok ({ h1 with mem := m2, sz := Function.update h1.sz c (h1.sz c + 1) }, result)

/-- `erase_left(left_iterator it)`. -/
def erase_left (fuel : Nat) (h : Heap L R) (c : Nat) (it : Option Ptr) :
    Except Fault (Heap L R × Option Ptr) :=
  if it = end_left c then .ok (h, none)
  else
    match flip h.mem it with
    | .error e => .error e
    | .ok right_it =>
      match get_next h.mem fuel it with
      | .error e => .error e
      | .ok res =>
        match tree.erase_helper fuel h.mem it with
        | .error e => .error e
        | .ok m1 =>
          match tree.erase_helper fuel m1 right_it with
          | .error e => .error e
          | .ok m2 =>
            match it with
            | some (Ptr.node e _) =>
              .ok (delete_node { h with mem := m2, sz := Function.update h.sz c (h.sz c - 1) } e,
                   res)
            | _ => .error .invalid_ptr

/-- `erase_left(left_t const& left)`. -/
def erase_left_key (cl : L → L → Bool) (fuel : Nat) (h : Heap L R) (c : Nat) (left : L) :
    Except Fault (Heap L R × Bool) :=
  match tree.find cl h.left_value h.mem (Ptr.sentinel c .left) fuel left with
  | .error e => .error e
  | .ok found =>
    match erase_left fuel h c found with
    | .error e => .error e
    | .ok (h1, res) => .ok (h1, decide (res ≠ none))

/-- `erase_right(right_iterator it)`. -/
def erase_right (fuel : Nat) (h : Heap L R) (c : Nat) (it : Option Ptr) :
    Except Fault (Heap L R × Option Ptr) :=
  if it = end_right c then .ok (h, none)
  else
    match flip h.mem it with
    | .error e => .error e
    | .ok left_it =>
      match erase_left fuel h c left_it with
      | .error e => .error e
      | .ok (h1, res) =>
        match flip h1.mem res with
        | .error e => .error e
        | .ok r => .ok (h1, r)

/-- `erase_right(right_t const& right)`. -/
def erase_right_key (cr : R → R → Bool) (fuel : Nat) (h : Heap L R) (c : Nat) (right : R) :
    Except Fault (Heap L R × Bool) :=
  match tree.find cr h.right_value h.mem (Ptr.sentinel c .right) fuel right with
  | .error e => .error e
  | .ok found =>
    match erase_right fuel h c found with
    | .error e => .error e
    | .ok (h1, res) => .ok (h1, decide (res ≠ none))

/-- `at_left(key)`. -/
def at_left (cl : L → L → Bool) (fuel : Nat) (h : Heap L R) (c : Nat) (key : L) :
    Except Fault R :=
  match tree.find cl h.left_value h.mem (Ptr.sentinel c .left) fuel key with
  | .error e => .error e
  | .ok found_node =>
    if found_node = tree.end_ (Ptr.sentinel c .left) then .error .out_of_range
    else
      match cross_cast found_node with
      | .error e => .error e
      | .ok q => get_value h.right_value q

/-- `at_right(key)`. -/
def at_right (cr : R → R → Bool) (fuel : Nat) (h : Heap L R) (c : Nat) (key : R) :
    Except Fault L :=
  match tree.find cr h.right_value h.mem (Ptr.sentinel c .right) fuel key with
  | .error e => .error e
  | .ok found_node =>
    if found_node = tree.end_ (Ptr.sentinel c .right) then .error .out_of_range
    else
      match cross_cast found_node with
      | .error e => .error e
      | .ok q => get_value h.left_value q

/-- The expression `*insert(key, default_value).flip()` of `at_left_or_default`. -/
def insert_flip_deref (cl : L → L → Bool) (cr : R → R → Bool) (fuel : Nat) (h : Heap L R)
    (c : Nat) (left : L) (right : R) (pl pr : Nat) : Except Fault (Heap L R × R) :=
  match insert cl cr fuel h c left right pl pr with
  | .error e => .error e
  | .ok (h1, p) =>
    match flip h1.mem p with
    | .error e => .error e
    | .ok q =>
      match get_value h1.right_value q with
      | .error e => .error e
      | .ok v => .ok (h1, v)

/-- `at_left_or_default(key)`. -/
def at_left_or_default [Inhabited R] (cl : L → L → Bool) (cr : R → R → Bool) (fuel : Nat)
    (h : Heap L R) (c : Nat) (key : L) (pl pr : Nat) : Except Fault (Heap L R × R) :=
  match tree.find cl h.left_value h.mem (Ptr.sentinel c .left) fuel key with
  | .error e => .error e
  | .ok f =>
    if f = tree.end_ (Ptr.sentinel c .left) then
      let default_value : R := default
      match tree.find cr h.right_value h.mem (Ptr.sentinel c .right) fuel default_value with
      | .error e => .error e
      | .ok found =>
        if found ≠ tree.end_ (Ptr.sentinel c .right) then
          match flip h.mem found with
          | .error e => .error e
          | .ok it =>
            match erase_left fuel h c it with
            | .error e => .error e
            | .ok (h1, _) => insert_flip_deref cl cr fuel h1 c key default_value pl pr
        else insert_flip_deref cl cr fuel h c key default_value pl pr
    else
      match at_left cl fuel h c key with
      | .error e => .error e
      | .ok v => .ok (h, v)

/-- The expression `*insert(default_value, key)` of `at_right_or_default`. -/
def insert_deref (cl : L → L → Bool) (cr : R → R → Bool) (fuel : Nat) (h : Heap L R)
    (c : Nat) (left : L) (right : R) (pl pr : Nat) : Except Fault (Heap L R × L) :=
  match insert cl cr fuel h c left right pl pr with
  | .error e => .error e
  | .ok (h1, p) =>
    match get_value h1.left_value p with
    | .error e => .error e
    | .ok v => .ok (h1, v)

/-- `at_right_or_default(key)`. -/
def at_right_or_default [Inhabited L] (cl : L → L → Bool) (cr : R → R → Bool) (fuel : Nat)
    (h : Heap L R) (c : Nat) (key : R) (pl pr : Nat) : Except Fault (Heap L R × L) :=
  match tree.find cr h.right_value h.mem (Ptr.sentinel c .right) fuel key with
  | .error e => .error e
  | .ok f =>
    if f = tree.end_ (Ptr.sentinel c .right) then
      let default_value : L := default
      match tree.find cl h.left_value h.mem (Ptr.sentinel c .left) fuel default_value with
      | .error e => .error e
      | .ok found =>
        if found ≠ tree.end_ (Ptr.sentinel c .right) then
          match flip h.mem found with
          | .error e => .error e
          | .ok it =>
            match erase_right fuel h c it with
            | .error e => .error e
            | .ok (h1, _) => insert_deref cl cr fuel h1 c default_value key pl pr
        else insert_deref cl cr fuel h c default_value key pl pr
    else
      match at_right cr fuel h c key with
      | .error e => .error e
      | .ok v => .ok (h, v)

/-- The loop `while (first != last) { visit(first); first++; }` of the copy constructor,
the destructor and `operator==`, returning the positions visited; `n` bounds the number
of iterations. -/
def positions (m : Mem) (fuel : Nat) : Nat → Option Ptr → Option Ptr →
    Except Fault (List (Option Ptr))
  | 0, _, _ => .error .out_of_fuel
  | n + 1, first, last =>
    if first = last then .ok []
    else
      match get_next m fuel first with
      | .error e => .error e
      | .ok nxt =>
        match positions m fuel n nxt last with
        | .error e => .error e
        | .ok rest => .ok (first :: rest)

/-- The positions from `begin_left()` up to `end_left()`. -/
def positions_left (fuel : Nat) (h : Heap L R) (c : Nat) : Except Fault (List (Option Ptr)) :=
  match begin_left h c fuel with
  | .error e => .error e
  | .ok b => positions h.mem fuel fuel b (end_left c)

/-- The positions from `begin_right()` up to `end_right()`. -/
def positions_right (fuel : Nat) (h : Heap L R) (c : Nat) : Except Fault (List (Option Ptr)) :=
  match begin_right h c fuel with
  | .error e => .error e
  | .ok b => positions h.mem fuel fuel b (end_right c)

end bimap

/-! ## Observations used to state the contract -/

namespace bimap

open details

variable {L R : Type}

/-- Reads the pair `(*it, *it.flip())` at every left position of the list, as the copy
constructor does. -/
def pairs_at_left (h : Heap L R) : List (Option Ptr) → Except Fault (List (L × R))
  | [] => .ok []
  | it :: rest =>
    match get_value h.left_value it with
    | .error e => .error e
    | .ok l =>
      match flip h.mem it with
      | .error e => .error e
      | .ok q =>
        match get_value h.right_value q with
        | .error e => .error e
        | .ok r =>
          match pairs_at_left h rest with
          | .error e => .error e
          | .ok ps => .ok ((l, r) :: ps)

/-- Reads the pair `(*it.flip(), *it)` at every right position of the list. -/
def pairs_at_right (h : Heap L R) : List (Option Ptr) → Except Fault (List (L × R))
  | [] => .ok []
  | it :: rest =>
    match get_value h.right_value it with
    | .error e => .error e
    | .ok r =>
      match flip h.mem it with
      | .error e => .error e
      | .ok q =>
        match get_value h.left_value q with
        | .error e => .error e
        | .ok l =>
          match pairs_at_right h rest with
          | .error e => .error e
          | .ok ps => .ok ((l, r) :: ps)

/-- The pairs of container `c` enumerated from `begin_left()` to `end_left()`. -/
def entries_left (fuel : Nat) (h : Heap L R) (c : Nat) : Except Fault (List (L × R)) :=
  match positions_left fuel h c with
  | .error e => .error e
  | .ok ps => pairs_at_left h ps

/-- The pairs of container `c` enumerated from `begin_right()` to `end_right()`. -/
def entries_right (fuel : Nat) (h : Heap L R) (c : Nat) : Except Fault (List (L × R)) :=
  match positions_right fuel h c with
  | .error e => .error e
  | .ok ps => pairs_at_right h ps

end bimap

/-! ## Abstraction: the binary tree a region of memory represents -/

/-- A binary tree of addresses with the key and the priority stored at each address. -/
inductive PTree (T : Type) where
  | nil
  | node (l : PTree T) (p : Ptr) (k : T) (pr : Nat) (r : PTree T)

namespace PTree

variable {T : Type}

/-- The address of the root, null for the empty tree. -/
def root : PTree T → Option Ptr
  | nil => none
  | node _ p _ _ _ => some p

/-- The addresses in in-order. -/
def ptrs : PTree T → List Ptr
  | nil => []
  | node l p _ _ r => l.ptrs ++ p :: r.ptrs

/-- The keys in in-order. -/
def keys : PTree T → List T
  | nil => []
  | node l _ k _ r => l.keys ++ k :: r.keys

/-- The addresses with their keys in in-order. -/
def toList : PTree T → List (Ptr × T)
  | nil => []
  | node l p k _ r => l.toList ++ (p, k) :: r.toList

/-- The number of nodes. -/
def size : PTree T → Nat
  | nil => 0
  | node l _ _ _ r => l.size + 1 + r.size

/-- The abstract counterpart of `tree::split`. -/
def split (cmp : T → T → Bool) (value : T) (inclusive : Bool) : PTree T → PTree T × PTree T
  | nil => (nil, nil)
  | node l p k pr r =>
    if (if inclusive then details.tree.less_or_equal cmp value k
        else details.tree.less cmp value k) then
      ((split cmp value inclusive l).1, node (split cmp value inclusive l).2 p k pr r)
    else
      (node l p k pr (split cmp value inclusive r).1, (split cmp value inclusive r).2)

/-- The abstract counterpart of `tree::merge`. -/
def merge : PTree T → PTree T → PTree T
  | nil, b => b
  | node ll p k pr lr, nil => node ll p k pr lr
  | node ll p k pr lr, node rl q k2 pr2 rr =>
    if pr ≥ pr2 then node ll p k pr (merge lr (node rl q k2 pr2 rr))
    else node (merge (node ll p k pr lr) rl) q k2 pr2 rr
termination_by a b => a.size + b.size
decreasing_by
  all_goals simp_wf
  all_goals simp only [size]
  all_goals omega

/-- The abstract counterpart of the descent of `tree::find`. -/
def lookup (cmp : T → T → Bool) (value : T) : PTree T → Option Ptr
  | nil => none
  | node l p k _ r =>
    if details.tree.less cmp value k then lookup cmp value l
    else if details.tree.greater cmp value k then lookup cmp value r
    else some p

/-- The abstract counterpart of `tree::erase_helper`: the node at `v` is replaced by the
merge of its children. -/
def erase (v : Ptr) : PTree T → PTree T
  | nil => nil
  | node l p k pr r =>
    if p = v then merge l r
    else if v ∈ l.ptrs then node (erase v l) p k pr r
    else node l p k pr (erase v r)

/-- The tree of the single node `p`. -/
def single (p : Ptr) (k : T) (pr : Nat) : PTree T := node nil p k pr nil

/-- The priority stored at the root, none for the empty tree. -/
def rootPrio : PTree T → Option Nat
  | nil => none
  | node _ _ _ pr _ => some pr

/-- The max-heap property: the priority of every node is at least the priority of each
of its children. -/
def HeapOrdered : PTree T → Prop
  | nil => True
  | node l _ _ pr r =>
    (∀ x ∈ l.rootPrio, x ≤ pr) ∧ (∀ x ∈ r.rootPrio, x ≤ pr) ∧ l.HeapOrdered ∧ r.HeapOrdered

end PTree

namespace details

variable {T : Type}

/-- The node at `c`, when `c` is not null, has the parent link `p`. -/
def ParentIs (m : Mem) (c : Option Ptr) (p : Ptr) : Prop :=
  ∀ q, c = some q → ∃ nb, m q = some nb ∧ nb.parent = some p

/-- The memory `m` with the keys `val` holds the tree `t`: every node of `t` is
allocated, its key, priority and child links are those of `t`, and the parent link of
every child points back to the node. The parent link of the root is left open. -/
def Rep (m : Mem) (val : Ptr → Option T) : PTree T → Prop
  | .nil => True
  | .node l p k pr r =>
    val p = some k ∧ ∃ nb, m p = some nb ∧ nb.priority = pr ∧
      nb.left = l.root ∧ nb.right = r.root ∧
      Rep m val l ∧ Rep m val r ∧ ParentIs m l.root p ∧ ParentIs m r.root p

/-- A comparator that is a strict weak order. -/
structure StrictWeakOrder (cmp : T → T → Bool) : Prop where
  irrefl : ∀ a, cmp a a = false
  trans : ∀ a b c, cmp a b = true → cmp b c = true → cmp a c = true
  equal_trans : ∀ a b c, tree.equal cmp a b = true → tree.equal cmp b c = true →
    tree.equal cmp a c = true

/-- The tree with sentinel `s` is well formed and represents `t`: the sentinel anchors
the root, has no parent, the nodes are distinct, the keys strictly increase and the
priorities satisfy the max-heap property. -/
structure TreeWF (cmp : T → T → Bool) (m : Mem) (val : Ptr → Option T) (s : Ptr)
    (t : PTree T) : Prop where
  sent : ∃ sb, m s = some sb ∧ sb.left = t.root ∧ sb.parent = none
  rep : Rep m val t
  root_parent : ParentIs m t.root s
  nodup : t.ptrs.Nodup
  sorted : t.keys.Pairwise (fun a b => cmp a b = true)
  s_notin : s ∉ t.ptrs
  heap : t.HeapOrdered

end details

namespace bimap

open details

variable {L R : Type}

/-- Container `c` of state `h` is well formed and its two trees represent `tl` and `tr`;
no node beyond the allocation counter is allocated (`fresh`). Other containers may live
in the same state. -/
structure WF (cl : L → L → Bool) (cr : R → R → Bool) (h : Heap L R) (c : Nat)
    (tl : PTree L) (tr : PTree R) : Prop where
  left_tree : TreeWF cl h.mem h.left_value (Ptr.sentinel c .left) tl
  right_tree : TreeWF cr h.mem h.right_value (Ptr.sentinel c .right) tr
  left_cross : ∃ sb, h.mem (Ptr.sentinel c .left) = some sb ∧
    sb.right = some (Ptr.sentinel c .right)
  right_cross : ∃ sb, h.mem (Ptr.sentinel c .right) = some sb ∧
    sb.right = some (Ptr.sentinel c .left)
  left_side : ∀ p ∈ tl.ptrs, ∃ e, p = Ptr.node e .left
  right_side : ∀ p ∈ tr.ptrs, ∃ e, p = Ptr.node e .right
  paired : ∀ e, Ptr.node e .left ∈ tl.ptrs ↔ Ptr.node e .right ∈ tr.ptrs
  size_eq : h.sz c = tl.size
  fresh : ∀ e s, h.next ≤ e → h.mem (Ptr.node e s) = none

/-- The invariants of container `c`: both trees are search trees over the same entries,
the sentinels are cross-linked and `sz` counts the entries. -/
def Inv (cl : L → L → Bool) (cr : R → R → Bool) (h : Heap L R) (c : Nat) : Prop :=
  ∃ tl tr, WF cl cr h c tl tr

end bimap


namespace PTree

variable {T : Type}

/-- The abstract counterpart of `tree::insert`: the tree is split at the new key and the
new node is merged between the two parts. -/
def insert (cmp : T → T → Bool) (n : Ptr) (x : T) (pr : Nat) (t : PTree T) : PTree T :=
  merge (split cmp x true t).1 (merge (single n x pr) (split cmp x true t).2)

end PTree

namespace details

/-- The child link of `parb` selected by `isLeft` is replaced by `x`. -/
def relink (isLeft : Bool) (parb : node_base) (x : Option Ptr) : node_base :=
  if isLeft then { parb with left := x } else { parb with right := x }

end details

namespace details

/-- Along the list `xs`, `get_next` leads from every address to the following one and
from the last address to `nx`. -/
def NextChain (m : Mem) (fuel : Nat) : List Ptr → Ptr → Prop
  | [], _ => True
  | x :: rest, nx =>
    get_next m fuel (some x) = .ok (some (rest.head?.getD nx)) ∧ NextChain m fuel rest nx

end details

namespace bimap

variable {L R : Type}

/-- The address of the other `tree_node` base of the same paired entry; the sentinel of
the other tree for a sentinel. -/
def partner : Ptr → Ptr
  | .sentinel c s => .sentinel c s.other
  | .node e s => .node e s.other

/-- The pair of keys stored in the paired entry that owns the address `p`. -/
def entry_at (h : Heap L R) : Ptr → Option (L × R)
  | .sentinel _ _ => none
  | .node e _ =>
    match h.left_value (.node e .left), h.right_value (.node e .right) with
    | some l, some r => some (l, r)
    | _, _ => none

/-- The pairs stored at a list of addresses. -/
def pairs_of (h : Heap L R) (ps : List Ptr) : List (L × R) := ps.filterMap (entry_at h)

end bimap

namespace bimap

open details

variable {L R : Type}

/-- `erase_left(first, last)`: the loop `while (first != last) erase_left(first++);`,
`n` bounds the number of iterations. -/
def erase_left_range (fuel : Nat) : Nat → Heap L R → Nat → Option Ptr → Option Ptr →
    Except Fault (Heap L R × Option Ptr)
  | 0, _, _, _, _ => .error .out_of_fuel
  | n + 1, h, c, first, last =>
    if first = last then .ok (h, last)
    else
      match get_next h.mem fuel first with
      | .error e => .error e
      | .ok nxt =>
        match erase_left fuel h c first with
        | .error e => .error e
        | .ok (h1, _) => erase_left_range fuel n h1 c nxt last

/-- `erase_right(first, last)`: the loop `while (first != last) erase_right(first++);`,
`n` bounds the number of iterations. -/
def erase_right_range (fuel : Nat) : Nat → Heap L R → Nat → Option Ptr → Option Ptr →
    Except Fault (Heap L R × Option Ptr)
  | 0, _, _, _, _ => .error .out_of_fuel
  | n + 1, h, c, first, last =>
    if first = last then .ok (h, last)
    else
      match get_next h.mem fuel first with
      | .error e => .error e
      | .ok nxt =>
        match erase_right fuel h c first with
        | .error e => .error e
        | .ok (h1, _) => erase_right_range fuel n h1 c nxt last

/-- The range `[first, last)` is valid for a side whose positions are `ps` and whose end
position is `e`: `last` is reached from `first` by `++` without passing the end. -/
def ValidRange (ps : List (Option Ptr)) (e first last : Option Ptr) : Prop :=
  ∃ pre mid post, ps ++ [e] = pre ++ mid ++ last :: post ∧
    (mid ++ [last]).head? = some first

/-- The states of container `c` reachable from the freshly constructed empty container
by the mutating operations of the interface, each run with enough fuel to complete;
positions passed to an erasure are positions of the container or its end, ranges are
valid. -/
inductive Reachable [Inhabited L] [Inhabited R] (cl : L → L → Bool) (cr : R → R → Bool) :
    Heap L R → Nat → Prop where
  | construct (c p1 p2 : Nat) (h : Heap L R) :
      bimap (Heap.init L R) c p1 p2 = .ok h → Reachable cl cr h c
  | insert {h : Heap L R} {c : Nat} (fuel : Nat) (left : L) (right : R) (pl pr : Nat)
      (h2 : Heap L R) (p : Option Ptr) :
      Reachable cl cr h c → size h c + 2 ≤ fuel →
      insert cl cr fuel h c left right pl pr = .ok (h2, p) → Reachable cl cr h2 c
  | erase_left {h : Heap L R} {c : Nat} (fuel : Nat) (ps : List (Option Ptr))
      (it : Option Ptr) (h2 : Heap L R) (res : Option Ptr) :
      Reachable cl cr h c → size h c + 2 ≤ fuel → positions_left fuel h c = .ok ps →
      (it ∈ ps ∨ it = end_left c) →
      erase_left fuel h c it = .ok (h2, res) → Reachable cl cr h2 c
  | erase_left_key {h : Heap L R} {c : Nat} (fuel : Nat) (left : L) (h2 : Heap L R)
      (res : Bool) :
      Reachable cl cr h c → size h c + 2 ≤ fuel →
      erase_left_key cl fuel h c left = .ok (h2, res) → Reachable cl cr h2 c
  | erase_right {h : Heap L R} {c : Nat} (fuel : Nat) (ps : List (Option Ptr))
      (it : Option Ptr) (h2 : Heap L R) (res : Option Ptr) :
      Reachable cl cr h c → size h c + 2 ≤ fuel → positions_right fuel h c = .ok ps →
      (it ∈ ps ∨ it = end_right c) →
      erase_right fuel h c it = .ok (h2, res) → Reachable cl cr h2 c
  | erase_right_key {h : Heap L R} {c : Nat} (fuel : Nat) (right : R) (h2 : Heap L R)
      (res : Bool) :
      Reachable cl cr h c → size h c + 2 ≤ fuel →
      erase_right_key cr fuel h c right = .ok (h2, res) → Reachable cl cr h2 c
  | erase_left_range {h : Heap L R} {c : Nat} (fuel : Nat) (ps : List (Option Ptr))
      (first last : Option Ptr) (h2 : Heap L R) (res : Option Ptr) :
      Reachable cl cr h c → size h c + 2 ≤ fuel → positions_left fuel h c = .ok ps →
      ValidRange ps (end_left c) first last →
      erase_left_range fuel fuel h c first last = .ok (h2, res) → Reachable cl cr h2 c
  | erase_right_range {h : Heap L R} {c : Nat} (fuel : Nat) (ps : List (Option Ptr))
      (first last : Option Ptr) (h2 : Heap L R) (res : Option Ptr) :
      Reachable cl cr h c → size h c + 2 ≤ fuel → positions_right fuel h c = .ok ps →
      ValidRange ps (end_right c) first last →
      erase_right_range fuel fuel h c first last = .ok (h2, res) → Reachable cl cr h2 c
  | at_left_or_default {h : Heap L R} {c : Nat} (fuel : Nat) (key : L) (pl pr : Nat)
      (h2 : Heap L R) (v : R) :
      Reachable cl cr h c → size h c + 2 ≤ fuel →
      at_left_or_default cl cr fuel h c key pl pr = .ok (h2, v) → Reachable cl cr h2 c
  | at_right_or_default {h : Heap L R} {c : Nat} (fuel : Nat) (key : R) (pl pr : Nat)
      (h2 : Heap L R) (v : L) :
      Reachable cl cr h c → size h c + 2 ≤ fuel →
      at_right_or_default cl cr fuel h c key pl pr = .ok (h2, v) → Reachable cl cr h2 c

end bimap

/-! ## A concrete scenario -/

namespace Scenario

open bimap

/-- The comparator `std::less<int>` on natural numbers. -/
def ltNat (a b : Nat) : Bool := decide (a < b)

/-- The comparator `std::less<std::string>`: lexicographic comparison of the characters. -/
def ltStr (a b : String) : Bool := decide (a.data < b.data)

/-- The state of a successful step, the initial state otherwise. -/
def stateOf {α : Type} (x : Except Fault (Heap Nat String × α)) : Heap Nat String :=
  match x with
  | .ok (h, _) => h
  | .error _ => Heap.init Nat String

/-- The empty container number `0`. -/
def s0 : Heap Nat String :=
  match bimap.bimap (Heap.init Nat String) 0 11 12 with
  | .ok h => h
  | .error _ => Heap.init Nat String

/-- After `insert(1, "a")`. -/
def s1 : Heap Nat String := stateOf (insert ltNat ltStr 5 s0 0 1 "a" 5 9)

/-- After `insert(2, "b")`. -/
def s2 : Heap Nat String := stateOf (insert ltNat ltStr 5 s1 0 2 "b" 7 3)

/-- After `insert(3, "c")`. -/
def s3 : Heap Nat String := stateOf (insert ltNat ltStr 5 s2 0 3 "c" 6 8)

/-- After `erase_left(2)`. -/
def s4 : Heap Nat String := stateOf (erase_left_key ltNat 5 s3 0 2)

/-- After `insert(4, "")` into the state `s3`. -/
def s5 : Heap Nat String := stateOf (insert ltNat ltStr 6 s3 0 4 "" 2 4)

end Scenario

namespace bimap

variable {L R : Type}

/-- The number of live entries of the state: the entries created by `new` (numbered
below the allocation counter) of which a node has not been released by `delete`. -/
def live_entries (h : Heap L R) : Nat :=
  ((List.range h.next).filter (fun e =>
    (h.mem (Ptr.node e .left)).isSome || (h.mem (Ptr.node e .right)).isSome)).length

end bimap


namespace details

/-- The memories `m` and `m2` have the same allocated addresses. -/
def SameDom (m m2 : Mem) : Prop := ∀ q, (m2 q).isSome = (m q).isSome

end details


namespace bimap

variable {L R : Type}

/-- The count `sz` of container `c` agrees with the live entries of the state, and no
entry beyond the allocation counter is allocated. -/
def Tidy (h : Heap L R) (c : Nat) : Prop :=
  live_entries h = h.sz c ∧ ∀ e s, h.next ≤ e → h.mem (Ptr.node e s) = none

end bimap


namespace details

namespace tree

variable {T : Type}

/-- `tree::search(v, value, inclusive)`: the node holding a key equivalent to `value`,
otherwise the last node on the descent, null for the empty subtree. -/
def search (cmp : T → T → Bool) (val : Ptr → Option T) (m : Mem) :
    Nat → Option Ptr → T → Bool → Except Fault (Option Ptr)
  | 0, _, _, _ => .error .out_of_fuel
  | _ + 1, none, _, _ => .ok none
  | fuel + 1, some v, value, inclusive =>
    match get_value val (some v) with
    | .error e => .error e
    | .ok x =>
      if equal cmp value x then .ok (some v)
      else
        match m v with
        | none => .error .invalid_ptr
        | some vb =>
          if (inclusive && less_or_equal cmp value x) || (!inclusive && less cmp value x) then
            match search cmp val m fuel vb.left value inclusive with
            | .error e => .error e
            | .ok none => .ok (some v)
            | .ok (some found) => .ok (some found)
          else
            match search cmp val m fuel vb.right value inclusive with
            | .error e => .error e
            | .ok none => .ok (some v)
            | .ok (some found) => .ok (some found)

/-- `tree::lower_bound(value)`. -/
def lower_bound (cmp : T → T → Bool) (val : Ptr → Option T) (m : Mem) (s : Ptr) (fuel : Nat)
    (value : T) : Except Fault (Option Ptr) :=
  match root m s with
  | .error e => .error e
  | .ok r =>
    match search cmp val m fuel r value true with
    | .error e => .error e
    | .ok found =>
      match get_value val found with
      | .error e => .error e
      | .ok x =>
        if equal cmp x value then .ok found
        else if less cmp x value then get_next m fuel found
        else .ok found

/-- `tree::upper_bound(value)`. -/
def upper_bound (cmp : T → T → Bool) (val : Ptr → Option T) (m : Mem) (s : Ptr) (fuel : Nat)
    (value : T) : Except Fault (Option Ptr) :=
  match root m s with
  | .error e => .error e
  | .ok r =>
    match search cmp val m fuel r value false with
    | .error e => .error e
    | .ok found =>
      match get_value val found with
      | .error e => .error e
      | .ok x =>
        if equal cmp x value then get_next m fuel found
        else if less cmp x value then get_next m fuel found
        else .ok found

/-- The move constructor `tree(tree&& other)` building the sentinel `s` from the sentinel
`other`: the four fields are copied, then the root, if any, gets `s` as its parent. -/
def move (m : Mem) (s other : Ptr) : Except Fault Mem :=
  match deref m (some other) with
  | .error e => .error e
  | .ok ob =>
    let m1 := Function.update m s (some ob)
    match ob.left with
    | none => .ok m1
    | some r => write_parent m1 (some r) (some s)

end tree

end details

namespace bimap

open details

variable {L R : Type}

/-- `lower_bound_left(left)`. -/
def lower_bound_left (cl : L → L → Bool) (fuel : Nat) (h : Heap L R) (c : Nat) (left : L) :
    Except Fault (Option Ptr) :=
  tree.lower_bound cl h.left_value h.mem (Ptr.sentinel c .left) fuel left

/-- `upper_bound_left(left)`. -/
def upper_bound_left (cl : L → L → Bool) (fuel : Nat) (h : Heap L R) (c : Nat) (left : L) :
    Except Fault (Option Ptr) :=
  tree.upper_bound cl h.left_value h.mem (Ptr.sentinel c .left) fuel left

/-- `lower_bound_right(right)`. -/
def lower_bound_right (cr : R → R → Bool) (fuel : Nat) (h : Heap L R) (c : Nat) (right : R) :
    Except Fault (Option Ptr) :=
  tree.lower_bound cr h.right_value h.mem (Ptr.sentinel c .right) fuel right

/-- `upper_bound_right(right)`. -/
def upper_bound_right (cr : R → R → Bool) (fuel : Nat) (h : Heap L R) (c : Nat) (right : R) :
    Except Fault (Option Ptr) :=
  tree.upper_bound cr h.right_value h.mem (Ptr.sentinel c .right) fuel right

/-- The loop of `operator==` over container `c`, `b_it` running over the other
container; `n` bounds the number of iterations. -/
def operator_eq_loop (cl : L → L → Bool) (cr : R → R → Bool) (fuel : Nat) (h : Heap L R)
    (c : Nat) : Nat → Option Ptr → Option Ptr → Except Fault Bool
  | 0, _, _ => .error .out_of_fuel
  | n + 1, a_it, b_it =>
    if a_it = end_left c then .ok true
    else
      match get_value h.left_value a_it with
      | .error e => .error e
      | .ok la =>
        match get_value h.left_value b_it with
        | .error e => .error e
        | .ok lb =>
          if !tree.equal cl la lb then .ok false
          else
            match flip h.mem a_it with
            | .error e => .error e
            | .ok qa =>
              match get_value h.right_value qa with
              | .error e => .error e
              | .ok ra =>
                match flip h.mem b_it with
                | .error e => .error e
                | .ok qb =>
                  match get_value h.right_value qb with
                  | .error e => .error e
                  | .ok rb =>
                    if !tree.equal cr ra rb then .ok false
                    else
                      match get_next h.mem fuel a_it with
                      | .error e => .error e
                      | .ok a_next =>
                        match get_next h.mem fuel b_it with
                        | .error e => .error e
                        | .ok b_next => operator_eq_loop cl cr fuel h c n a_next b_next

/-- `operator==` of container `c` with container `b`. -/
def operator_eq (cl : L → L → Bool) (cr : R → R → Bool) (fuel : Nat) (h : Heap L R)
    (c b : Nat) : Except Fault Bool :=
  if c = b then .ok true
  else if size h c ≠ size h b then .ok false
  else
    match begin_left h c fuel with
    | .error e => .error e
    | .ok a_it =>
      match begin_left h b fuel with
      | .error e => .error e
      | .ok b_it => operator_eq_loop cl cr fuel h c fuel a_it b_it

/-- `operator!=`. -/
def operator_ne (cl : L → L → Bool) (cr : R → R → Bool) (fuel : Nat) (h : Heap L R)
    (a b : Nat) : Except Fault Bool :=
  match operator_eq cl cr fuel h a b with
  | .error e => .error e
  | .ok r => .ok (!r)

/-- The loop of the copy constructor of container `c` over the container `other`:
`insert(*left_it, *left_it.flip()); left_it++;`. The `i`-th insertion draws the
priorities `prio i`; `n` bounds the number of iterations. -/
def copy_loop (cl : L → L → Bool) (cr : R → R → Bool) (fuel : Nat) (prio : Nat → Nat × Nat)
    (c other : Nat) : Nat → Nat → Heap L R → Option Ptr → Except Fault (Heap L R)
  | 0, _, _, _ => .error .out_of_fuel
  | n + 1, i, h, left_it =>
    if left_it = end_left other then .ok h
    else
      match get_value h.left_value left_it with
      | .error e => .error e
      | .ok l =>
        match flip h.mem left_it with
        | .error e => .error e
        | .ok q =>
          match get_value h.right_value q with
          | .error e => .error e
          | .ok r =>
            match insert cl cr fuel h c l r (prio i).1 (prio i).2 with
            | .error e => .error e
            | .ok (h1, _) =>
              match get_next h1.mem fuel left_it with
              | .error e => .error e
              | .ok nxt => copy_loop cl cr fuel prio c other n (i + 1) h1 nxt

/-- The copy constructor `bimap(bimap const& other)` of container `c`: the sentinels are
constructed with the priorities `p1`, `p2`, then every pair of `other` is inserted in
left order. -/
def bimap_copy (cl : L → L → Bool) (cr : R → R → Bool) (fuel : Nat) (h : Heap L R)
    (c other : Nat) (p1 p2 : Nat) (prio : Nat → Nat × Nat) : Except Fault (Heap L R) :=
  match bimap h c p1 p2 with
  | .error e => .error e
  | .ok h0 =>
    match begin_left h0 other fuel with
    | .error e => .error e
    | .ok left_it => copy_loop cl cr fuel prio c other fuel 0 h0 left_it

/-- The move constructor `bimap(bimap&& other)` of container `c`: both trees are
move-constructed, the member `sz` keeps its default initialiser `0`, then
`share_pointers()` runs. -/
def bimap_move (h : Heap L R) (c other : Nat) : Except Fault (Heap L R) :=
  match tree.move h.mem (Ptr.sentinel c .left) (Ptr.sentinel other .left) with
  | .error e => .error e
  | .ok m1 =>
    match tree.move m1 (Ptr.sentinel c .right) (Ptr.sentinel other .right) with
    | .error e => .error e
    | .ok m2 =>
      match share_pointers m2 c with
      | .error e => .error e
      | .ok m3 => .ok { h with mem := m3, sz := Function.update h.sz c 0 }

end bimap


namespace details

/-- The node at `p` is allocated and dominates its children: every child is one of the
addresses `ps`, its priority is at most the priority of `p`, and its parent link points
back to `p`. -/
def ChildrenOk (m : Mem) (ps : List (Option Ptr)) (p : Ptr) : Prop :=
  ∃ nb, m p = some nb ∧ ∀ q, (nb.left = some q ∨ nb.right = some q) →
    some q ∈ ps ∧ ∃ qb, m q = some qb ∧ qb.priority ≤ nb.priority ∧ qb.parent = some p

/-- The root, if any, of the tree with sentinel `s` is one of the addresses `ps` and its
parent link is the sentinel. -/
def RootOk (m : Mem) (ps : List (Option Ptr)) (s : Ptr) : Prop :=
  ∃ sb, m s = some sb ∧ ∀ r, sb.left = some r →
    some r ∈ ps ∧ ∃ rb, m r = some rb ∧ rb.parent = some s

end details


namespace Scenario

open bimap

/-- Container `1` move-constructed from the container of state `s3`. -/
def s6 : Heap Nat String :=
  match bimap_move s3 1 0 with
  | .ok h => h
  | .error _ => Heap.init Nat String

/-- The left tree of the state `s3`. -/
def t3 : PTree Nat :=
  .node (.node .nil (Ptr.node 0 .left) 1 5 .nil) (Ptr.node 1 .left) 2 7
    (.node .nil (Ptr.node 2 .left) 3 6 .nil)

end Scenario


namespace PTree

variable {T : Type}

/-- The abstract counterpart of `tree::search`. -/
def search (cmp : T → T → Bool) (value : T) (inclusive : Bool) : PTree T → Option Ptr
  | nil => none
  | node l p k _ r =>
    if details.tree.equal cmp value k then some p
    else if (inclusive && details.tree.less_or_equal cmp value k) ||
        (!inclusive && details.tree.less cmp value k) then
      some ((search cmp value inclusive l).getD p)
    else some ((search cmp value inclusive r).getD p)

end PTree


namespace bimap

variable {L R : Type}

/-- Container `a` looks the same in the states `h` and `h2`: same size, same positions
and same pairs from either side. -/
def Unchanged (fuel : Nat) (h h2 : Heap L R) (a : Nat) : Prop :=
  size h2 a = size h a ∧ positions_left fuel h2 a = positions_left fuel h a ∧
    positions_right fuel h2 a = positions_right fuel h a ∧
    entries_left fuel h2 a = entries_left fuel h a ∧
    entries_right fuel h2 a = entries_right fuel h a

end bimap

namespace Scenario

open bimap

/-- Container `1` copy-constructed from the container of state `s3`. -/
def s7 : Heap Nat String :=
  match bimap_copy ltNat ltStr 5 s3 1 0 21 22 (fun i => (i + 3, 7 - i)) with
  | .ok h => h
  | .error _ => Heap.init Nat String

/-- After `insert(4, "d")` into container `1` of the state `s7`. -/
def s8 : Heap Nat String := stateOf (insert ltNat ltStr 5 s7 1 4 "d" 1 2)

end Scenario


namespace Scenario

open details bimap

/-- After `insert(0, "z")` into the state `s3`: the left order is 0, 1, 2, 3 and the right
order is "a", "b", "c", "z". -/
def s9 : Heap Nat String := stateOf (insert ltNat ltStr 6 s3 0 0 "z" 4 1)

end Scenario


namespace details

/-- The call `std::swap(x->parent, y->parent)` on two node addresses: both nodes are read,
then each parent link is assigned the former value of the other. -/
def swap_parent (m : Mem) (x y : Option Ptr) : Except Fault Mem :=
  match deref m x with
  | .error e => .error e
  | .ok xb =>
    match deref m y with
    | .error e => .error e
    | .ok yb =>
      match write_parent m x yb.parent with
      | .error e => .error e
      | .ok m1 => write_parent m1 y xb.parent

/-- `actualize_children_parents(x, y)`: `std::swap(x.left->parent, y.left->parent);`
`std::swap(x.right->parent, y.right->parent);`, with no check of the four links. -/
def actualize_children_parents (m : Mem) (x y : Ptr) : Except Fault Mem :=
  match deref m (some x) with
  | .error e => .error e
  | .ok xb =>
    match deref m (some y) with
    | .error e => .error e
    | .ok yb =>
      match swap_parent m xb.left yb.left with
      | .error e => .error e
      | .ok m1 =>
        match deref m1 (some x) with
        | .error e => .error e
        | .ok xb1 =>
          match deref m1 (some y) with
          | .error e => .error e
          | .ok yb1 => swap_parent m1 xb1.right yb1.right

/-- `swap_sentinel(x, y)`: after `actualize_children_parents(x, y)` the fields `left`,
`right`, `parent` and `priority` of the two sentinels are exchanged one by one. -/
def swap_sentinel (m : Mem) (x y : Ptr) : Except Fault Mem :=
  match actualize_children_parents m x y with
  | .error e => .error e
  | .ok m1 =>
    match deref m1 (some x) with
    | .error e => .error e
    | .ok xb =>
      match deref m1 (some y) with
      | .error e => .error e
      | .ok yb =>
        .ok (Function.update
          (Function.update m1 x
            (some { left := yb.left, right := yb.right, parent := yb.parent,
                    priority := yb.priority }))
          y (some { left := xb.left, right := xb.right, parent := xb.parent,
                    priority := xb.priority }))

namespace tree

/-- `tree::swap(other)` on the trees with the sentinels `s` and `other`:
`swap_sentinel(sentinel, other.sentinel)`. The exchange of the two comparators that follows
has no counterpart: the trees of one side share the comparator of the model. -/
def swap (m : Mem) (s other : Ptr) : Except Fault Mem := swap_sentinel m s other

end tree

end details

namespace bimap

open details

variable {L R : Type}

/-- `swap(other)` of container `c`: the left trees are swapped, the right trees are
swapped, the two counts are exchanged, then `share_pointers()` runs on either container. -/
def swap (h : Heap L R) (c other : Nat) : Except Fault (Heap L R) :=
  match tree.swap h.mem (Ptr.sentinel c .left) (Ptr.sentinel other .left) with
  | .error e => .error e
  | .ok m1 =>
    match tree.swap m1 (Ptr.sentinel c .right) (Ptr.sentinel other .right) with
    | .error e => .error e
    | .ok m2 =>
      match share_pointers m2 c with
      | .error e => .error e
      | .ok m3 =>
        match share_pointers m3 other with
        | .error e => .error e
        | .ok m4 =>
          let sz2 := Function.update (Function.update h.sz c (h.sz other)) other (h.sz c)
          .ok { h with mem := m4, sz := sz2 }

/-- The destructor `~bimap()` of container `c`: the loop
`it = begin_left(); while (it != end_left()) erase_left(it++);`, after which the two
sentinels cease to exist. -/
def bimap_destroy (fuel : Nat) (h : Heap L R) (c : Nat) : Except Fault (Heap L R) :=
  match begin_left h c fuel with
  | .error e => .error e
  | .ok it =>
    match erase_left_range fuel fuel h c it (end_left c) with
    | .error e => .error e
    | .ok (h1, _) =>
      let m2 := Function.update (Function.update h1.mem (Ptr.sentinel c .left) none)
        (Ptr.sentinel c .right) none
      .ok { h1 with mem := m2 }

/-- The copy assignment `operator=(bimap const& other)` of container `c`: nothing happens
on self-assignment; otherwise the temporary `t` is copy-constructed from `other`, swapped
with `c` and destroyed. -/
def operator_assign (cl : L → L → Bool) (cr : R → R → Bool) (fuel : Nat) (h : Heap L R)
    (c other t : Nat) (p1 p2 : Nat) (prio : Nat → Nat × Nat) : Except Fault (Heap L R) :=
  if other = c then .ok h
  else
    match bimap_copy cl cr fuel h t other p1 p2 prio with
    | .error e => .error e
    | .ok h1 =>
      match swap h1 t c with
      | .error e => .error e
      | .ok h2 => bimap_destroy fuel h2 t

/-- The move assignment `operator=(bimap&& other)` of container `c`: nothing happens on
self-assignment; otherwise the temporary `t` is move-constructed from `other`, swapped
with `c` and destroyed. -/
def operator_assign_move (fuel : Nat) (h : Heap L R) (c other t : Nat) :
    Except Fault (Heap L R) :=
  if other = c then .ok h
  else
    match bimap_move h t other with
    | .error e => .error e
    | .ok h1 =>
      match swap h1 t c with
      | .error e => .error e
      | .ok h2 => bimap_destroy fuel h2 t

end bimap

namespace Scenario

open bimap

/-- The state `s3` after the construction of the empty container `1`. -/
def s10 : Heap Nat String :=
  match bimap.bimap s3 1 21 22 with
  | .ok h => h
  | .error _ => Heap.init Nat String

end Scenario


/-! ## The abstract trees -/

namespace PTree

variable {T : Type}

theorem ptrs_eq_map (t : PTree T) : t.ptrs = t.toList.map Prod.fst := by
  induction t with
  | nil => rfl
  | node l p k pr r ihl ihr => simp [ptrs, toList, ihl, ihr]

theorem keys_eq_map (t : PTree T) : t.keys = t.toList.map Prod.snd := by
  induction t with
  | nil => rfl
  | node l p k pr r ihl ihr => simp [keys, toList, ihl, ihr]

theorem length_ptrs (t : PTree T) : t.ptrs.length = t.size := by
  induction t with
  | nil => rfl
  | node l p k pr r ihl ihr => simp [ptrs, size, ihl, ihr]; omega

theorem root_mem {t : PTree T} {q : Ptr} (h : t.root = some q) : q ∈ t.ptrs := by
  cases t with
  | nil => simp [root] at h
  | node l p k pr r =>
    simp only [root, Option.some.injEq] at h
    subst h
    simp [ptrs]

theorem root_none_iff (t : PTree T) : t.root = none ↔ t = nil := by
  cases t <;> simp [root]

theorem split_toList (cmp : T → T → Bool) (value : T) (incl : Bool) (t : PTree T) :
    (split cmp value incl t).1.toList ++ (split cmp value incl t).2.toList = t.toList := by
  induction t with
  | nil => rfl
  | node l p k pr r ihl ihr =>
    simp only [split]
    by_cases hg : (if incl = true then details.tree.less_or_equal cmp value k
        else details.tree.less cmp value k) = true
    · rw [if_pos hg]
      simp only [toList]
      rw [← List.append_assoc, ihl]
    · rw [if_neg hg]
      simp only [toList]
      rw [List.append_assoc, List.cons_append, ihr]

theorem split_ptrs (cmp : T → T → Bool) (value : T) (incl : Bool) (t : PTree T) :
    (split cmp value incl t).1.ptrs ++ (split cmp value incl t).2.ptrs = t.ptrs := by
  rw [ptrs_eq_map, ptrs_eq_map, ptrs_eq_map, ← List.map_append, split_toList]

theorem split_size (cmp : T → T → Bool) (value : T) (incl : Bool) (t : PTree T) :
    (split cmp value incl t).1.size + (split cmp value incl t).2.size = t.size := by
  rw [← length_ptrs, ← length_ptrs, ← length_ptrs, ← List.length_append, split_ptrs]

theorem merge_nil_right (a : PTree T) : merge a nil = a := by
  cases a with
  | nil => rw [merge]
  | node l p k pr r => rw [merge]

theorem merge_toList : ∀ (n : Nat) (a b : PTree T), a.size + b.size ≤ n →
    (merge a b).toList = a.toList ++ b.toList := by
  intro n
  induction n with
  | zero =>
    intro a b h
    cases a with
    | nil => rw [merge]; rfl
    | node l p k pr r => simp [size] at h
  | succ n ih =>
    intro a b h
    cases a with
    | nil => rw [merge]; rfl
    | node ll p k pr lr =>
      cases b with
      | nil => rw [merge]; simp [toList]
      | node rl q k2 pr2 rr =>
        rw [merge]
        split
        · simp only [toList]
          rw [ih lr (node rl q k2 pr2 rr) (by simp only [size] at h ⊢; omega)]
          simp [toList]
        · simp only [toList]
          rw [ih (node ll p k pr lr) rl (by simp only [size] at h ⊢; omega)]
          simp [toList]

theorem merge_toList_eq (a b : PTree T) : (merge a b).toList = a.toList ++ b.toList :=
  merge_toList _ a b (Nat.le_refl _)

theorem merge_ptrs (a b : PTree T) : (merge a b).ptrs = a.ptrs ++ b.ptrs := by
  rw [ptrs_eq_map, ptrs_eq_map, ptrs_eq_map, ← List.map_append, merge_toList_eq]

theorem merge_keys (a b : PTree T) : (merge a b).keys = a.keys ++ b.keys := by
  rw [keys_eq_map, keys_eq_map, keys_eq_map, ← List.map_append, merge_toList_eq]

theorem merge_size (a b : PTree T) : (merge a b).size = a.size + b.size := by
  rw [← length_ptrs, ← length_ptrs, ← length_ptrs, merge_ptrs, List.length_append]

theorem split_heap (cmp : T → T → Bool) (value : T) (incl : Bool) :
    ∀ t : PTree T, t.HeapOrdered →
      (split cmp value incl t).1.HeapOrdered ∧ (split cmp value incl t).2.HeapOrdered ∧
      ∀ B, (∀ x ∈ t.rootPrio, x ≤ B) →
        (∀ x ∈ (split cmp value incl t).1.rootPrio, x ≤ B) ∧
        (∀ x ∈ (split cmp value incl t).2.rootPrio, x ≤ B) := by
  intro t
  induction t with
  | nil =>
    intro _
    exact ⟨trivial, trivial, fun B _ => ⟨fun x hx => (by cases hx), fun x hx => (by cases hx)⟩⟩
  | node l p k pr r ihl ihr =>
    intro hh
    obtain ⟨hl, hr, hhl, hhr⟩ := hh
    obtain ⟨il1, il2, il3⟩ := ihl hhl
    obtain ⟨ir1, ir2, ir3⟩ := ihr hhr
    by_cases hg : (if incl = true then details.tree.less_or_equal cmp value k
        else details.tree.less cmp value k) = true
    · have e : split cmp value incl (node l p k pr r) =
          ((split cmp value incl l).1, node (split cmp value incl l).2 p k pr r) := by
        simp only [split]; rw [if_pos hg]
      rw [e]
      refine ⟨il1, ⟨(il3 pr hl).2, hr, il2, hhr⟩, ?_⟩
      intro B hB
      have hprB : pr ≤ B := hB pr rfl
      refine ⟨?_, ?_⟩
      · exact (il3 B (fun x hx => Nat.le_trans (hl x hx) hprB)).1
      · intro x hx
        cases hx
        exact hprB
    · have e : split cmp value incl (node l p k pr r) =
          (node l p k pr (split cmp value incl r).1, (split cmp value incl r).2) := by
        simp only [split]; rw [if_neg hg]
      rw [e]
      refine ⟨⟨hl, (ir3 pr hr).1, hhl, ir1⟩, ir2, ?_⟩
      intro B hB
      have hprB : pr ≤ B := hB pr rfl
      refine ⟨?_, ?_⟩
      · intro x hx
        cases hx
        exact hprB
      · exact (ir3 B (fun x hx => Nat.le_trans (hr x hx) hprB)).2

theorem merge_heap : ∀ (n : Nat) (a b : PTree T), a.size + b.size ≤ n →
    a.HeapOrdered → b.HeapOrdered →
    (merge a b).HeapOrdered ∧
    ∀ B, (∀ x ∈ a.rootPrio, x ≤ B) → (∀ x ∈ b.rootPrio, x ≤ B) →
      ∀ x ∈ (merge a b).rootPrio, x ≤ B := by
  intro n
  induction n with
  | zero =>
    intro a b h ha hb
    cases a with
    | nil => rw [merge]; exact ⟨hb, fun B _ h2 => h2⟩
    | node l p k pr r => simp [size] at h
  | succ n ih =>
    intro a b h ha hb
    cases a with
    | nil => rw [merge]; exact ⟨hb, fun B _ h2 => h2⟩
    | node ll p k pr lr =>
      cases b with
      | nil => rw [merge]; exact ⟨ha, fun B h1 _ => h1⟩
      | node rl q k2 pr2 rr =>
        obtain ⟨a1, a2, a3, a4⟩ := ha
        obtain ⟨b1, b2, b3, b4⟩ := hb
        rw [merge]
        split
        · rename_i hge
          obtain ⟨i1, i2⟩ := ih lr (node rl q k2 pr2 rr)
            (by simp only [size] at h ⊢; omega) a4 ⟨b1, b2, b3, b4⟩
          refine ⟨⟨a1, i2 pr a2 (fun x hx => by cases hx; exact hge), a3, i1⟩, ?_⟩
          intro B h1 _ x hx
          cases hx
          exact h1 pr rfl
        · rename_i hlt
          obtain ⟨i1, i2⟩ := ih (node ll p k pr lr) rl
            (by simp only [size] at h ⊢; omega) ⟨a1, a2, a3, a4⟩ b3
          refine ⟨⟨i2 pr2 (fun x hx => by cases hx; omega) b1, b2, i1, b4⟩, ?_⟩
          intro B _ h2 x hx
          cases hx
          exact h2 pr2 rfl

theorem insert_heap (cmp : T → T → Bool) (n : Ptr) (x : T) (pr : Nat) (t : PTree T)
    (hh : t.HeapOrdered) : (insert cmp n x pr t).HeapOrdered := by
  obtain ⟨h1, h2, _⟩ := split_heap cmp x true t hh
  have hs : (single n x pr : PTree T).HeapOrdered :=
    ⟨fun x hx => (by cases hx), fun x hx => (by cases hx), trivial, trivial⟩
  exact (merge_heap _ _ _ (Nat.le_refl _) h1
    (merge_heap _ _ _ (Nat.le_refl _) hs h2).1).1

theorem erase_heap (v : Ptr) : ∀ t : PTree T, t.HeapOrdered →
    (erase v t).HeapOrdered ∧ ∀ B, (∀ x ∈ t.rootPrio, x ≤ B) →
      ∀ x ∈ (erase v t).rootPrio, x ≤ B := by
  intro t
  induction t with
  | nil => intro _; exact ⟨trivial, fun B _ x hx => by cases hx⟩
  | node l p k pr r ihl ihr =>
    intro hh
    obtain ⟨hl, hr, hhl, hhr⟩ := hh
    simp only [erase]
    by_cases hpv : p = v
    · rw [if_pos hpv]
      obtain ⟨i1, i2⟩ := merge_heap _ l r (Nat.le_refl _) hhl hhr
      refine ⟨i1, ?_⟩
      intro B hB
      have hprB : pr ≤ B := hB pr rfl
      exact i2 B (fun x hx => Nat.le_trans (hl x hx) hprB)
        (fun x hx => Nat.le_trans (hr x hx) hprB)
    · rw [if_neg hpv]
      by_cases hvl : v ∈ l.ptrs
      · rw [if_pos hvl]
        obtain ⟨i1, i2⟩ := ihl hhl
        exact ⟨⟨i2 pr hl, hr, i1, hhr⟩, fun B hB x hx => by cases hx; exact hB pr rfl⟩
      · rw [if_neg hvl]
        obtain ⟨i1, i2⟩ := ihr hhr
        exact ⟨⟨hl, i2 pr hr, hhl, i1⟩, fun B hB x hx => by cases hx; exact hB pr rfl⟩

end PTree

/-! ## Memory representation lemmas -/

namespace details

variable {T : Type}

theorem ParentIs_none (m : Mem) (p : Ptr) : ParentIs m none p := by
  intro q hq; cases hq

theorem ParentIs_congr {m m2 : Mem} {c : Option Ptr} {p : Ptr}
    (h : ∀ q, c = some q → m2 q = m q) (hp : ParentIs m c p) : ParentIs m2 c p := by
  intro q hq
  obtain ⟨nb, h1, h2⟩ := hp q hq
  exact ⟨nb, by rw [h q hq]; exact h1, h2⟩

theorem Rep_congr {m m2 : Mem} {val val2 : Ptr → Option T} :
    ∀ t : PTree T, (∀ q ∈ t.ptrs, m2 q = m q) → (∀ q ∈ t.ptrs, val2 q = val q) →
      Rep m val t → Rep m2 val2 t := by
  intro t
  induction t with
  | nil => intro _ _ _; trivial
  | node l p k pr r ihl ihr =>
    intro hm hv hrep
    obtain ⟨hk, nb, hnb, hpr, hl, hr, hrl, hrr, hpl, hpr2⟩ := hrep
    have hml : ∀ q ∈ l.ptrs, m2 q = m q := fun q hq => hm q (by simp [PTree.ptrs, hq])
    have hmr : ∀ q ∈ r.ptrs, m2 q = m q := fun q hq => hm q (by simp [PTree.ptrs, hq])
    refine ⟨?_, nb, ?_, hpr, hl, hr, ?_, ?_, ?_, ?_⟩
    · rw [hv p (by simp [PTree.ptrs])]; exact hk
    · rw [hm p (by simp [PTree.ptrs])]; exact hnb
    · exact ihl hml (fun q hq => hv q (by simp [PTree.ptrs, hq])) hrl
    · exact ihr hmr (fun q hq => hv q (by simp [PTree.ptrs, hq])) hrr
    · exact ParentIs_congr (fun q hq => hml q (PTree.root_mem hq)) hpl
    · exact ParentIs_congr (fun q hq => hmr q (PTree.root_mem hq)) hpr2

theorem Rep_alloc {m : Mem} {val : Ptr → Option T} :
    ∀ t : PTree T, Rep m val t → ∀ q ∈ t.ptrs, ∃ nb, m q = some nb := by
  intro t
  induction t with
  | nil => intro _ q hq; simp [PTree.ptrs] at hq
  | node l p k pr r ihl ihr =>
    intro hrep q hq
    obtain ⟨hk, nb, hnb, hpr, hl, hr, hrl, hrr, hpl, hpr2⟩ := hrep
    simp only [PTree.ptrs, List.mem_append, List.mem_cons] at hq
    rcases hq with hq | hq | hq
    · exact ihl hrl q hq
    · subst hq; exact ⟨nb, hnb⟩
    · exact ihr hrr q hq

theorem Rep_val {m : Mem} {val : Ptr → Option T} :
    ∀ t : PTree T, Rep m val t → ∀ e ∈ t.toList, val e.1 = some e.2 := by
  intro t
  induction t with
  | nil => intro _ q hq; simp [PTree.toList] at hq
  | node l p k pr r ihl ihr =>
    intro hrep q hq
    obtain ⟨hk, nb, hnb, hpr, hl, hr, hrl, hrr, hpl, hpr2⟩ := hrep
    simp only [PTree.toList, List.mem_append, List.mem_cons] at hq
    rcases hq with hq | hq | hq
    · exact ihl hrl q hq
    · subst hq; exact hk
    · exact ihr hrr q hq

/-- Changing the parent link of the root keeps the representation. -/
theorem Rep_update_root_parent {m : Mem} {val : Ptr → Option T} {t : PTree T} {q : Ptr}
    {qb : node_base} (x : Option Ptr) (hrep : Rep m val t) (hroot : t.root = some q)
    (hq : m q = some qb) (hnd : t.ptrs.Nodup) :
    Rep (Function.update m q (some { qb with parent := x })) val t := by
  cases t with
  | nil => trivial
  | node l p k pr r =>
    simp only [PTree.root, Option.some.injEq] at hroot
    subst hroot
    obtain ⟨hk, nb, hnb, hpr, hl, hr, hrl, hrr, hpl, hpr2⟩ := hrep
    rw [hq] at hnb
    simp only [Option.some.injEq] at hnb
    subst hnb
    simp only [PTree.ptrs] at hnd
    have hnd2 := List.nodup_append.mp hnd
    have hpl_notin : p ∉ l.ptrs := fun hmem => hnd2.2.2 hmem (by simp)
    have hpr_notin : p ∉ r.ptrs := (List.nodup_cons.mp hnd2.2.1).1
    have hml : ∀ q ∈ l.ptrs, Function.update m p (some { qb with parent := x }) q = m q := by
      intro q1 hq1
      rw [Function.update_noteq]
      rintro rfl; exact hpl_notin hq1
    have hmr : ∀ q ∈ r.ptrs, Function.update m p (some { qb with parent := x }) q = m q := by
      intro q1 hq1
      rw [Function.update_noteq]
      rintro rfl; exact hpr_notin hq1
    refine ⟨hk, { qb with parent := x }, by simp, hpr, hl, hr, ?_, ?_, ?_, ?_⟩
    · exact Rep_congr l hml (fun _ _ => rfl) hrl
    · exact Rep_congr r hmr (fun _ _ => rfl) hrr
    · exact ParentIs_congr (fun q hq => hml q (PTree.root_mem hq)) hpl
    · exact ParentIs_congr (fun q hq => hmr q (PTree.root_mem hq)) hpr2

end details


namespace details

variable {T : Type}

theorem write_left_eq {m : Mem} {p : Ptr} {nb : node_base} (x : Option Ptr)
    (h : m p = some nb) :
    write_left m (some p) x = .ok (Function.update m p (some { nb with left := x })) := by
  simp [write_left, h]

theorem write_right_eq {m : Mem} {p : Ptr} {nb : node_base} (x : Option Ptr)
    (h : m p = some nb) :
    write_right m (some p) x = .ok (Function.update m p (some { nb with right := x })) := by
  simp [write_right, h]

theorem write_parent_eq {m : Mem} {p : Ptr} {nb : node_base} (x : Option Ptr)
    (h : m p = some nb) :
    write_parent m (some p) x = .ok (Function.update m p (some { nb with parent := x })) := by
  simp [write_parent, h]

/-- Linking the tree `b` as the left child of the node `p` (`p->left = b; set_parent(b, p)`). -/
theorem attach_left {m : Mem} {val : Ptr → Option T} {p : Ptr} {nb : node_base} {k : T}
    {pr : Nat} (b r : PTree T) (hp : m p = some nb) (hv : val p = some k)
    (hpr : nb.priority = pr) (hr : nb.right = r.root) (hb : Rep m val b) (hrr : Rep m val r)
    (hpar : ParentIs m r.root p) (hnd : (b.ptrs ++ p :: r.ptrs).Nodup) :
    ∃ m2 m3, write_left m (some p) b.root = .ok m2 ∧ set_parent m2 b.root (some p) = .ok m3 ∧
      Rep m3 val (.node b p k pr r) ∧ (∀ q, q ≠ p → some q ≠ b.root → m3 q = m q) ∧
      (∃ nb3, m3 p = some nb3 ∧ nb3.parent = nb.parent) := by
  have hnd2 := List.nodup_append.mp hnd
  have hpb : p ∉ b.ptrs := fun hmem => hnd2.2.2 hmem (by simp)
  have hprn : p ∉ r.ptrs := (List.nodup_cons.mp hnd2.2.1).1
  have hdisj : ∀ q, q ∈ b.ptrs → q ∉ r.ptrs := fun q h1 h2 => hnd2.2.2 h1 (by simp [h2])
  cases hroot : b.root with
  | none =>
    refine ⟨_, _, write_left_eq _ hp, rfl, ?_, ?_, ?_⟩
    · have hmb : ∀ q ∈ b.ptrs, Function.update m p (some { nb with left := none }) q = m q := by
        intro q hq; rw [Function.update_noteq]; rintro rfl; exact hpb hq
      have hmr : ∀ q ∈ r.ptrs, Function.update m p (some { nb with left := none }) q = m q := by
        intro q hq; rw [Function.update_noteq]; rintro rfl; exact hprn hq
      refine ⟨hv, { nb with left := none }, by simp, hpr, ?_, hr, ?_, ?_, ?_, ?_⟩
      · simp [hroot]
      · exact Rep_congr b hmb (fun _ _ => rfl) hb
      · exact Rep_congr r hmr (fun _ _ => rfl) hrr
      · rw [hroot]; exact ParentIs_none _ _
      · exact ParentIs_congr (fun q hq => hmr q (PTree.root_mem hq)) hpar
    · intro q hq _; rw [Function.update_noteq hq]
    · exact ⟨{ nb with left := none }, by simp, rfl⟩
  | some c =>
    have hcb : c ∈ b.ptrs := PTree.root_mem hroot
    have hcp : c ≠ p := by rintro rfl; exact hpb hcb
    obtain ⟨cb, hcb2⟩ := Rep_alloc b hb c hcb
    have hc1 : Function.update m p (some { nb with left := some c }) c = some cb := by
      rw [Function.update_noteq hcp]; exact hcb2
    refine ⟨_, _, write_left_eq _ hp,
      (by simp only [set_parent]; exact write_parent_eq _ hc1), ?_, ?_, ?_⟩
    · have hb1 : Rep (Function.update m p (some { nb with left := some c })) val b :=
        Rep_congr b (fun q hq => by rw [Function.update_noteq]; rintro rfl; exact hpb hq)
          (fun _ _ => rfl) hb
      have hb2 := Rep_update_root_parent (some p) hb1 hroot hc1 hnd2.1
      have hmr : ∀ q ∈ r.ptrs, Function.update (Function.update m p
          (some { nb with left := some c })) c (some { cb with parent := some p }) q = m q := by
        intro q hq
        rw [Function.update_noteq, Function.update_noteq]
        · rintro rfl; exact hprn hq
        · rintro rfl; exact hdisj _ hcb hq
      refine ⟨hv, { nb with left := some c }, ?_, hpr, ?_, hr, hb2, ?_, ?_, ?_⟩
      · rw [Function.update_noteq (Ne.symm hcp)]; simp
      · simp [hroot]
      · exact Rep_congr r hmr (fun _ _ => rfl) hrr
      · intro q hq
        rw [hroot] at hq
        simp only [Option.some.injEq] at hq
        subst hq
        exact ⟨{ cb with parent := some p }, by simp, rfl⟩
      · exact ParentIs_congr (fun q hq => hmr q (PTree.root_mem hq)) hpar
    · intro q hq hqc
      have : q ≠ c := fun h => hqc (by rw [h])
      rw [Function.update_noteq this, Function.update_noteq hq]
    · exact ⟨{ nb with left := some c }, by rw [Function.update_noteq (Ne.symm hcp)]; simp, rfl⟩

/-- Linking the tree `b` as the right child of the node `p`
(`p->right = b; set_parent(b, p)`). -/
theorem attach_right {m : Mem} {val : Ptr → Option T} {p : Ptr} {nb : node_base} {k : T}
    {pr : Nat} (l b : PTree T) (hp : m p = some nb) (hv : val p = some k)
    (hpr : nb.priority = pr) (hl : nb.left = l.root) (hb : Rep m val b) (hll : Rep m val l)
    (hpar : ParentIs m l.root p) (hnd : (l.ptrs ++ p :: b.ptrs).Nodup) :
    ∃ m2 m3, write_right m (some p) b.root = .ok m2 ∧ set_parent m2 b.root (some p) = .ok m3 ∧
      Rep m3 val (.node l p k pr b) ∧ (∀ q, q ≠ p → some q ≠ b.root → m3 q = m q) ∧
      (∃ nb3, m3 p = some nb3 ∧ nb3.parent = nb.parent) := by
  have hnd2 := List.nodup_append.mp hnd
  have hpl : p ∉ l.ptrs := fun hmem => hnd2.2.2 hmem (by simp)
  have hpbn : p ∉ b.ptrs := (List.nodup_cons.mp hnd2.2.1).1
  have hbnd : b.ptrs.Nodup := (List.nodup_cons.mp hnd2.2.1).2
  have hdisj : ∀ q, q ∈ l.ptrs → q ∉ b.ptrs := fun q h1 h2 => hnd2.2.2 h1 (by simp [h2])
  cases hroot : b.root with
  | none =>
    refine ⟨_, _, write_right_eq _ hp, rfl, ?_, ?_, ?_⟩
    · have hmb : ∀ q ∈ b.ptrs, Function.update m p (some { nb with right := none }) q = m q := by
        intro q hq; rw [Function.update_noteq]; rintro rfl; exact hpbn hq
      have hml : ∀ q ∈ l.ptrs, Function.update m p (some { nb with right := none }) q = m q := by
        intro q hq; rw [Function.update_noteq]; rintro rfl; exact hpl hq
      refine ⟨hv, { nb with right := none }, by simp, hpr, hl, ?_, ?_, ?_, ?_, ?_⟩
      · simp [hroot]
      · exact Rep_congr l hml (fun _ _ => rfl) hll
      · exact Rep_congr b hmb (fun _ _ => rfl) hb
      · exact ParentIs_congr (fun q hq => hml q (PTree.root_mem hq)) hpar
      · rw [hroot]; exact ParentIs_none _ _
    · intro q hq _; rw [Function.update_noteq hq]
    · exact ⟨{ nb with right := none }, by simp, rfl⟩
  | some c =>
    have hcb : c ∈ b.ptrs := PTree.root_mem hroot
    have hcp : c ≠ p := by rintro rfl; exact hpbn hcb
    obtain ⟨cb, hcb2⟩ := Rep_alloc b hb c hcb
    have hc1 : Function.update m p (some { nb with right := some c }) c = some cb := by
      rw [Function.update_noteq hcp]; exact hcb2
    refine ⟨_, _, write_right_eq _ hp,
      (by simp only [set_parent]; exact write_parent_eq _ hc1), ?_, ?_, ?_⟩
    · have hb1 : Rep (Function.update m p (some { nb with right := some c })) val b :=
        Rep_congr b (fun q hq => by rw [Function.update_noteq]; rintro rfl; exact hpbn hq)
          (fun _ _ => rfl) hb
      have hb2 := Rep_update_root_parent (some p) hb1 hroot hc1 hbnd
      have hml : ∀ q ∈ l.ptrs, Function.update (Function.update m p
          (some { nb with right := some c })) c (some { cb with parent := some p }) q = m q := by
        intro q hq
        rw [Function.update_noteq, Function.update_noteq]
        · rintro rfl; exact hpl hq
        · rintro rfl; exact hdisj _ hq hcb
      refine ⟨hv, { nb with right := some c }, ?_, hpr, hl, ?_, ?_, hb2, ?_, ?_⟩
      · rw [Function.update_noteq (Ne.symm hcp)]; simp
      · simp [hroot]
      · exact Rep_congr l hml (fun _ _ => rfl) hll
      · exact ParentIs_congr (fun q hq => hml q (PTree.root_mem hq)) hpar
      · intro q hq
        rw [hroot] at hq
        simp only [Option.some.injEq] at hq
        subst hq
        exact ⟨{ cb with parent := some p }, by simp, rfl⟩
    · intro q hq hqc
      have : q ≠ c := fun h => hqc (by rw [h])
      rw [Function.update_noteq this, Function.update_noteq hq]
    · exact ⟨{ nb with right := some c }, by rw [Function.update_noteq (Ne.symm hcp)]; simp, rfl⟩

end details


namespace details

variable {T : Type}

theorem root_node (l r : PTree T) (p : Ptr) (k : T) (pr : Nat) :
    (PTree.node l p k pr r).root = some p := rfl

/-- `tree::split` refines the abstract split. -/
theorem split_spec (cmp : T → T → Bool) (val : Ptr → Option T) (value : T) (incl : Bool) :
    ∀ (t : PTree T) (fuel : Nat) (m : Mem), Rep m val t → t.ptrs.Nodup → t.size < fuel →
      ∃ m2, tree.split cmp val fuel m t.root value incl =
          .ok (m2, (PTree.split cmp value incl t).1.root, (PTree.split cmp value incl t).2.root) ∧
        Rep m2 val (PTree.split cmp value incl t).1 ∧
        Rep m2 val (PTree.split cmp value incl t).2 ∧
        (∀ q, q ∉ t.ptrs → m2 q = m q) := by
  intro t
  induction t with
  | nil =>
    intro fuel m _ _ hf
    obtain ⟨f, rfl⟩ : ∃ f, fuel = f + 1 := ⟨fuel - 1, by omega⟩
    exact ⟨m, rfl, trivial, trivial, fun _ _ => rfl⟩
  | node l p k pr r ihl ihr =>
    intro fuel m hrep hnd hf
    obtain ⟨f, rfl⟩ : ∃ f, fuel = f + 1 := ⟨fuel - 1, by omega⟩
    obtain ⟨hk, nb, hnb, hpr, hl, hr, hrl, hrr, hpl, hpr2⟩ := hrep
    simp only [PTree.size] at hf
    simp only [PTree.ptrs] at hnd
    have hnd2 := List.nodup_append.mp hnd
    have hp_l : p ∉ l.ptrs := fun hmem => hnd2.2.2 hmem (by simp)
    have hp_r : p ∉ r.ptrs := (List.nodup_cons.mp hnd2.2.1).1
    have hr_nd : r.ptrs.Nodup := (List.nodup_cons.mp hnd2.2.1).2
    have hdisj : ∀ q, q ∈ l.ptrs → q ∉ r.ptrs := fun q h1 h2 => hnd2.2.2 h1 (by simp [h2])
    by_cases hgo : (if incl = true then tree.less_or_equal cmp value k
        else tree.less cmp value k) = true
    · -- the node goes to the right part, its left subtree is split
      obtain ⟨m1, hs, hra, hrb, hfr⟩ := ihl f m hrl hnd2.1 (by omega)
      have hab := PTree.split_ptrs cmp value incl l
      have hab_nd : ((PTree.split cmp value incl l).1.ptrs ++
          (PTree.split cmp value incl l).2.ptrs).Nodup := by rw [hab]; exact hnd2.1
      have hab2 := List.nodup_append.mp hab_nd
      have hb_sub : ∀ q, q ∈ (PTree.split cmp value incl l).2.ptrs → q ∈ l.ptrs := by
        intro q hq; rw [← hab]; exact List.mem_append_right _ hq
      have ha_sub : ∀ q, q ∈ (PTree.split cmp value incl l).1.ptrs → q ∈ l.ptrs := by
        intro q hq; rw [← hab]; exact List.mem_append_left _ hq
      have hm1p : m1 p = some nb := by rw [hfr p hp_l]; exact hnb
      have hr1 : Rep m1 val r :=
        Rep_congr r (fun q hq => hfr q (fun h => hdisj q h hq)) (fun _ _ => rfl) hrr
      have hpar1 : ParentIs m1 r.root p :=
        ParentIs_congr (fun q hq => hfr q (fun h => hdisj q h (PTree.root_mem hq))) hpr2
      have hnd3 : ((PTree.split cmp value incl l).2.ptrs ++ p :: r.ptrs).Nodup := by
        refine List.nodup_append.mpr ⟨hab2.2.1, hnd2.2.1, ?_⟩
        intro q h1 h2
        exact hnd2.2.2 (hb_sub q h1) h2
      obtain ⟨m2, m3, hw, hsp, hrep3, hfr3, _⟩ :=
        attach_left (PTree.split cmp value incl l).2 r hm1p hk hpr hr hrb hr1 hpar1 hnd3
      have e : PTree.split cmp value incl (.node l p k pr r) =
          ((PTree.split cmp value incl l).1, .node (PTree.split cmp value incl l).2 p k pr r) := by
        simp only [PTree.split]; rw [if_pos hgo]
      rw [e]
      refine ⟨m3, ?_, ?_, ?_, ?_⟩
      · simp only [root_node, tree.split, get_value, hk, hnb, hgo, if_true, hl, hs, hw, hsp]
      · refine Rep_congr _ ?_ (fun _ _ => rfl) hra
        intro q hq
        refine hfr3 q ?_ ?_
        · rintro rfl; exact hp_l (ha_sub _ hq)
        · intro h
          exact hab2.2.2 hq (PTree.root_mem h.symm)
      · exact hrep3
      · intro q hq
        simp only [PTree.ptrs, List.mem_append, List.mem_cons, not_or] at hq
        rw [hfr3 q hq.2.1 (fun h => hq.1 (hb_sub _ (PTree.root_mem h.symm)))]
        exact hfr q hq.1
    · -- the node goes to the left part, its right subtree is split
      obtain ⟨m1, hs, hra, hrb, hfr⟩ := ihr f m hrr hr_nd (by omega)
      have hab := PTree.split_ptrs cmp value incl r
      have hab_nd : ((PTree.split cmp value incl r).1.ptrs ++
          (PTree.split cmp value incl r).2.ptrs).Nodup := by rw [hab]; exact hr_nd
      have hab2 := List.nodup_append.mp hab_nd
      have hb_sub : ∀ q, q ∈ (PTree.split cmp value incl r).2.ptrs → q ∈ r.ptrs := by
        intro q hq; rw [← hab]; exact List.mem_append_right _ hq
      have ha_sub : ∀ q, q ∈ (PTree.split cmp value incl r).1.ptrs → q ∈ r.ptrs := by
        intro q hq; rw [← hab]; exact List.mem_append_left _ hq
      have hm1p : m1 p = some nb := by rw [hfr p hp_r]; exact hnb
      have hl1 : Rep m1 val l :=
        Rep_congr l (fun q hq => hfr q (hdisj q hq)) (fun _ _ => rfl) hrl
      have hpar1 : ParentIs m1 l.root p :=
        ParentIs_congr (fun q hq => hfr q (hdisj q (PTree.root_mem hq))) hpl
      have hnd3 : (l.ptrs ++ p :: (PTree.split cmp value incl r).1.ptrs).Nodup := by
        refine List.nodup_append.mpr ⟨hnd2.1, List.nodup_cons.mpr
          ⟨fun h => hp_r (ha_sub _ h), hab2.1⟩, ?_⟩
        intro q h1 h2
        rcases List.mem_cons.mp h2 with h3 | h3
        · exact hp_l (h3 ▸ h1)
        · exact hdisj q h1 (ha_sub q h3)
      obtain ⟨m2, m3, hw, hsp, hrep3, hfr3, _⟩ :=
        attach_right l (PTree.split cmp value incl r).1 hm1p hk hpr hl hra hl1 hpar1 hnd3
      have e : PTree.split cmp value incl (.node l p k pr r) =
          (.node l p k pr (PTree.split cmp value incl r).1, (PTree.split cmp value incl r).2) := by
        simp only [PTree.split]; rw [if_neg hgo]
      rw [e]
      refine ⟨m3, ?_, ?_, ?_, ?_⟩
      · simp only [root_node, tree.split, get_value, hk, hnb, hgo, Bool.false_eq_true, if_false,
          hr, hs, hw, hsp]
      · exact hrep3
      · refine Rep_congr _ ?_ (fun _ _ => rfl) hrb
        intro q hq
        refine hfr3 q ?_ ?_
        · rintro rfl; exact hp_r (hb_sub _ hq)
        · intro h
          exact hab2.2.2 (PTree.root_mem h.symm) hq
      · intro q hq
        simp only [PTree.ptrs, List.mem_append, List.mem_cons, not_or] at hq
        rw [hfr3 q hq.2.1 (fun h => hq.2.2 (ha_sub _ (PTree.root_mem h.symm)))]
        exact hfr q hq.2.2

end details


namespace details

variable {T : Type}

/-- `tree::merge` refines the abstract merge. -/
theorem merge_spec (val : Ptr → Option T) :
    ∀ (fuel : Nat) (a b : PTree T) (m : Mem), Rep m val a → Rep m val b →
      (a.ptrs ++ b.ptrs).Nodup → a.size + b.size < fuel →
      ∃ m2, tree.merge fuel m a.root b.root = .ok (m2, (PTree.merge a b).root) ∧
        Rep m2 val (PTree.merge a b) ∧ (∀ q, q ∉ a.ptrs → q ∉ b.ptrs → m2 q = m q) := by
  intro fuel
  induction fuel with
  | zero => intro a b m _ _ _ hf; omega
  | succ f ih =>
    intro a b m hra hrb hnd hf
    cases a with
    | nil =>
      cases b with
      | nil => exact ⟨m, by rw [PTree.merge]; rfl, by rw [PTree.merge]; trivial, fun _ _ _ => rfl⟩
      | node rl q k2 pr2 rr =>
        exact ⟨m, by rw [PTree.merge]; rfl, by rw [PTree.merge]; exact hrb, fun _ _ _ => rfl⟩
    | node ll p k pr lr =>
      cases b with
      | nil =>
        exact ⟨m, by rw [PTree.merge]; rfl, by rw [PTree.merge]; exact hra, fun _ _ _ => rfl⟩
      | node rl q k2 pr2 rr =>
        obtain ⟨hk, pb, hpb, hppr, hpl, hpr, hrll, hrlr, hpll, hplr⟩ := hra
        obtain ⟨hk2, qb, hqb, hqpr, hql, hqr, hrrl, hrrr, hprl, hprr⟩ := hrb
        have hra : Rep m val (.node ll p k pr lr) :=
          ⟨hk, pb, hpb, hppr, hpl, hpr, hrll, hrlr, hpll, hplr⟩
        have hrb : Rep m val (.node rl q k2 pr2 rr) :=
          ⟨hk2, qb, hqb, hqpr, hql, hqr, hrrl, hrrr, hprl, hprr⟩
        have hnd2 := List.nodup_append.mp hnd
        have hdisj : ∀ x, x ∈ (PTree.node ll p k pr lr).ptrs →
            x ∉ (PTree.node rl q k2 pr2 rr).ptrs := fun x h1 h2 => hnd2.2.2 h1 h2
        have hnda := List.nodup_append.mp hnd2.1
        have hndb := List.nodup_append.mp hnd2.2.1
        simp only [PTree.size] at hf
        by_cases hcmp : pr ≥ pr2
        · -- the left root stays on top
          have hnd1 : (lr.ptrs ++ (PTree.node rl q k2 pr2 rr).ptrs).Nodup := by
            refine List.nodup_append.mpr ⟨(List.nodup_cons.mp hnda.2.1).2, hnd2.2.1, ?_⟩
            intro x h1 h2
            exact hdisj x (by simp [PTree.ptrs, h1]) h2
          obtain ⟨m1, hm, hrep1, hfr1⟩ := ih lr (.node rl q k2 pr2 rr) m hrlr hrb hnd1
            (by simp only [PTree.size]; omega)
          have hp_lr : p ∉ lr.ptrs := (List.nodup_cons.mp hnda.2.1).1
          have hp_ll : p ∉ ll.ptrs := fun h => hnda.2.2 h (by simp)
          have hp_b : p ∉ (PTree.node rl q k2 pr2 rr).ptrs := hdisj p (by simp [PTree.ptrs])
          have hm1p : m1 p = some pb := by rw [hfr1 p hp_lr hp_b]; exact hpb
          have hll_fr : ∀ x ∈ ll.ptrs, m1 x = m x := by
            intro x hx
            exact hfr1 x (fun h => hnda.2.2 hx (by simp [h]))
              (hdisj x (by simp [PTree.ptrs, hx]))
          have hll1 : Rep m1 val ll := Rep_congr ll hll_fr (fun _ _ => rfl) hrll
          have hpar1 : ParentIs m1 ll.root p :=
            ParentIs_congr (fun x hx => hll_fr x (PTree.root_mem hx)) hpll
          have hnd3 : (ll.ptrs ++ p ::
              (PTree.merge lr (.node rl q k2 pr2 rr)).ptrs).Nodup := by
            rw [PTree.merge_ptrs]
            have : ll.ptrs ++ p :: (lr.ptrs ++ (PTree.node rl q k2 pr2 rr).ptrs) =
                (PTree.node ll p k pr lr).ptrs ++ (PTree.node rl q k2 pr2 rr).ptrs := by
              simp [PTree.ptrs]
            rw [this]; exact hnd
          obtain ⟨m2, m3, hw, hsp, hrep3, hfr3, _⟩ :=
            attach_right ll (PTree.merge lr (.node rl q k2 pr2 rr)) hm1p hk hppr hpl hrep1 hll1
              hpar1 hnd3
          have e : PTree.merge (.node ll p k pr lr) (.node rl q k2 pr2 rr) =
              .node ll p k pr (PTree.merge lr (.node rl q k2 pr2 rr)) := by
            rw [PTree.merge, if_pos hcmp]
          rw [e]
          refine ⟨m3, ?_, hrep3, ?_⟩
          · have hcmp2 : pb.priority ≥ qb.priority := by rw [hppr, hqpr]; exact hcmp
            simp only [root_node] at hm ⊢
            simp only [tree.merge, hpb, hqb, hcmp2, if_true, hpr, hm, hw, hsp]
          · intro x hxa hxb
            have hx1 : x ≠ p := by rintro rfl; exact hxa (by simp [PTree.ptrs])
            have hx2 : some x ≠ (PTree.merge lr (.node rl q k2 pr2 rr)).root := by
              intro h
              have := PTree.root_mem h.symm
              rw [PTree.merge_ptrs] at this
              rcases List.mem_append.mp this with h1 | h1
              · exact hxa (by simp [PTree.ptrs, h1])
              · exact hxb h1
            rw [hfr3 x hx1 hx2]
            exact hfr1 x (fun h => hxa (by simp [PTree.ptrs, h])) hxb
        · -- the right root stays on top
          have hnd1 : ((PTree.node ll p k pr lr).ptrs ++ rl.ptrs).Nodup := by
            refine List.nodup_append.mpr ⟨hnd2.1, hndb.1, ?_⟩
            intro x h1 h2
            exact hdisj x h1 (by simp [PTree.ptrs, h2])
          obtain ⟨m1, hm, hrep1, hfr1⟩ := ih (.node ll p k pr lr) rl m hra hrrl hnd1
            (by simp only [PTree.size]; omega)
          have hq_rl : q ∉ rl.ptrs := fun h => hndb.2.2 h (by simp)
          have hq_rr : q ∉ rr.ptrs := (List.nodup_cons.mp hndb.2.1).1
          have hq_a : q ∉ (PTree.node ll p k pr lr).ptrs :=
            fun h => hdisj q h (by simp [PTree.ptrs])
          have hm1q : m1 q = some qb := by rw [hfr1 q hq_a hq_rl]; exact hqb
          have hrr_fr : ∀ x ∈ rr.ptrs, m1 x = m x := by
            intro x hx
            exact hfr1 x (fun h => hdisj x h (by simp [PTree.ptrs, hx]))
              (fun h => hndb.2.2 h (by simp [hx]))
          have hrr1 : Rep m1 val rr := Rep_congr rr hrr_fr (fun _ _ => rfl) hrrr
          have hpar1 : ParentIs m1 rr.root q :=
            ParentIs_congr (fun x hx => hrr_fr x (PTree.root_mem hx)) hprr
          have hnd3 : ((PTree.merge (.node ll p k pr lr) rl).ptrs ++ q :: rr.ptrs).Nodup := by
            rw [PTree.merge_ptrs]
            have : (PTree.node ll p k pr lr).ptrs ++ rl.ptrs ++ q :: rr.ptrs =
                (PTree.node ll p k pr lr).ptrs ++ (PTree.node rl q k2 pr2 rr).ptrs := by
              simp [PTree.ptrs]
            rw [this]; exact hnd
          obtain ⟨m2, m3, hw, hsp, hrep3, hfr3, _⟩ :=
            attach_left (PTree.merge (.node ll p k pr lr) rl) rr hm1q hk2 hqpr hqr hrep1 hrr1
              hpar1 hnd3
          have e : PTree.merge (.node ll p k pr lr) (.node rl q k2 pr2 rr) =
              .node (PTree.merge (.node ll p k pr lr) rl) q k2 pr2 rr := by
            rw [PTree.merge, if_neg hcmp]
          rw [e]
          refine ⟨m3, ?_, hrep3, ?_⟩
          · have hcmp2 : ¬ pb.priority ≥ qb.priority := by rw [hppr, hqpr]; exact hcmp
            simp only [root_node] at hm ⊢
            simp only [tree.merge, hpb, hqb, hcmp2, if_false, hql, hm, hw, hsp]
          · intro x hxa hxb
            have hx1 : x ≠ q := by rintro rfl; exact hxb (by simp [PTree.ptrs])
            have hx2 : some x ≠ (PTree.merge (.node ll p k pr lr) rl).root := by
              intro h
              have := PTree.root_mem h.symm
              rw [PTree.merge_ptrs] at this
              rcases List.mem_append.mp this with h1 | h1
              · exact hxa h1
              · exact hxb (by simp [PTree.ptrs, h1])
            rw [hfr3 x hx1 hx2]
            exact hfr1 x hxa (fun h => hxb (by simp [PTree.ptrs, h]))

end details


namespace details

variable {T : Type}

theorem equal_iff (cmp : T → T → Bool) (a b : T) :
    tree.equal cmp a b = true ↔ cmp a b = false ∧ cmp b a = false := by
  simp only [tree.equal, tree.less_or_equal, tree.greater_or_equal, Bool.and_eq_true,
    Bool.not_eq_true']
  exact And.comm

theorem equal_symm (cmp : T → T → Bool) (a b : T) :
    tree.equal cmp a b = tree.equal cmp b a := by
  simp only [tree.equal, Bool.and_comm]

theorem equal_false_iff (cmp : T → T → Bool) (a b : T) :
    tree.equal cmp a b = false ↔ cmp a b = true ∨ cmp b a = true := by
  rw [← Bool.not_eq_true, equal_iff]
  cases cmp a b <;> cases cmp b a <;> simp

namespace StrictWeakOrder

variable {cmp : T → T → Bool}

theorem equal_refl (h : StrictWeakOrder cmp) (a : T) : tree.equal cmp a a = true := by
  rw [equal_iff]; exact ⟨h.irrefl a, h.irrefl a⟩

theorem asymm (h : StrictWeakOrder cmp) {a b : T} (hab : cmp a b = true) : cmp b a = false := by
  cases hba : cmp b a with
  | false => rfl
  | true =>
    have := h.trans a b a hab hba
    rw [h.irrefl] at this
    cases this

theorem lt_of_lt_of_equal (h : StrictWeakOrder cmp) {a b c : T} (hab : cmp a b = true)
    (hbc : tree.equal cmp b c = true) : cmp a c = true := by
  cases hac : cmp a c with
  | true => rfl
  | false =>
    exfalso
    cases hca : cmp c a with
    | true =>
      have hcb := h.trans c a b hca hab
      rw [equal_iff] at hbc
      rw [hbc.2] at hcb
      cases hcb
    | false =>
      have h1 : tree.equal cmp a c = true := (equal_iff cmp a c).mpr ⟨hac, hca⟩
      have h2 : tree.equal cmp c b = true := by rw [equal_symm]; exact hbc
      have h3 := h.equal_trans a c b h1 h2
      rw [equal_iff] at h3
      rw [h3.1] at hab
      cases hab

theorem lt_of_equal_of_lt (h : StrictWeakOrder cmp) {a b c : T}
    (hab : tree.equal cmp a b = true) (hbc : cmp b c = true) : cmp a c = true := by
  cases hac : cmp a c with
  | true => rfl
  | false =>
    exfalso
    cases hca : cmp c a with
    | true =>
      have hba := h.trans b c a hbc hca
      rw [equal_iff] at hab
      rw [hab.2] at hba
      cases hba
    | false =>
      have h1 : tree.equal cmp a c = true := (equal_iff cmp a c).mpr ⟨hac, hca⟩
      have h2 : tree.equal cmp b a = true := by rw [equal_symm]; exact hab
      have h3 := h.equal_trans b a c h2 h1
      rw [equal_iff] at h3
      rw [h3.1] at hbc
      cases hbc

end StrictWeakOrder

/-- The descent of `tree::find` refines the abstract lookup. -/
theorem find_from_spec (cmp : T → T → Bool) (val : Ptr → Option T) (m : Mem) (s : Ptr)
    (value : T) : ∀ (t : PTree T) (fuel : Nat), Rep m val t → t.size < fuel →
      tree.find_from cmp val m s fuel t.root value =
        .ok (some ((PTree.lookup cmp value t).getD s)) := by
  intro t
  induction t with
  | nil =>
    intro fuel _ hf
    obtain ⟨f, rfl⟩ : ∃ f, fuel = f + 1 := ⟨fuel - 1, by omega⟩
    rfl
  | node l p k pr r ihl ihr =>
    intro fuel hrep hf
    obtain ⟨f, rfl⟩ : ∃ f, fuel = f + 1 := ⟨fuel - 1, by omega⟩
    obtain ⟨hk, nb, hnb, hpr, hl, hr, hrl, hrr, hpl, hpr2⟩ := hrep
    simp only [PTree.size] at hf
    simp only [root_node, tree.find_from, get_value, hk, hnb, PTree.lookup]
    by_cases h1 : tree.less cmp value k = true
    · rw [if_pos h1, if_pos h1, hl]
      exact ihl f hrl (by omega)
    · rw [if_neg h1, if_neg h1]
      by_cases h2 : tree.greater cmp value k = true
      · rw [if_pos h2, if_pos h2, hr]
        exact ihr f hrr (by omega)
      · rw [if_neg h2, if_neg h2]
        rfl

end details

namespace PTree

open details

variable {T : Type}

theorem lookup_sound (cmp : T → T → Bool) (value : T) :
    ∀ (t : PTree T) (p : Ptr), lookup cmp value t = some p →
      ∃ k, (p, k) ∈ t.toList ∧ tree.equal cmp value k = true := by
  intro t
  induction t with
  | nil => intro p h; simp [lookup] at h
  | node l q k pr r ihl ihr =>
    intro p h
    simp only [lookup] at h
    by_cases h1 : tree.less cmp value k = true
    · rw [if_pos h1] at h
      obtain ⟨k2, hm, he⟩ := ihl p h
      exact ⟨k2, by simp [toList, hm], he⟩
    · rw [if_neg h1] at h
      by_cases h2 : tree.greater cmp value k = true
      · rw [if_pos h2] at h
        obtain ⟨k2, hm, he⟩ := ihr p h
        exact ⟨k2, by simp [toList, hm], he⟩
      · rw [if_neg h2] at h
        simp only [Option.some.injEq] at h
        subst h
        refine ⟨k, by simp [toList], ?_⟩
        rw [equal_iff]
        simp only [tree.less, tree.greater, Bool.not_eq_true] at h1 h2
        exact ⟨h1, h2⟩

theorem lookup_complete {cmp : T → T → Bool} (hc : StrictWeakOrder cmp) (value : T) :
    ∀ (t : PTree T), t.keys.Pairwise (fun a b => cmp a b = true) →
      ∀ p k, (p, k) ∈ t.toList → tree.equal cmp value k = true →
        lookup cmp value t = some p := by
  intro t
  induction t with
  | nil => intro _ p k h; simp [toList] at h
  | node l q kq pr r ihl ihr =>
    intro hs p k hm he
    simp only [keys] at hs
    have hs2 := List.pairwise_append.mp hs
    have hs3 := List.pairwise_cons.mp hs2.2.1
    simp only [toList, List.mem_append, List.mem_cons] at hm
    simp only [lookup, tree.less, tree.greater]
    rcases hm with hm | hm | hm
    · have hkl : k ∈ l.keys := by rw [keys_eq_map]; exact List.mem_map_of_mem Prod.snd hm
      have hlt : cmp k kq = true := hs2.2.2 k hkl kq (by simp)
      rw [if_pos (hc.lt_of_equal_of_lt he hlt)]
      exact ihl hs2.1 p k hm he
    · simp only [Prod.mk.injEq] at hm
      obtain ⟨rfl, rfl⟩ := hm
      rw [equal_iff] at he
      rw [if_neg (by rw [he.1]; simp), if_neg (by rw [he.2]; simp)]
    · have hkr : k ∈ r.keys := by rw [keys_eq_map]; exact List.mem_map_of_mem Prod.snd hm
      have hlt : cmp kq k = true := hs3.1 k hkr
      have he2 : tree.equal cmp k value = true := by rw [equal_symm]; exact he
      have hlt2 := hc.lt_of_lt_of_equal hlt he2
      rw [if_neg (by rw [hc.asymm hlt2]; simp), if_pos hlt2]
      exact ihr hs3.2 p k hm he

theorem lookup_none {cmp : T → T → Bool} (hc : StrictWeakOrder cmp) (value : T)
    (t : PTree T) (hs : t.keys.Pairwise (fun a b => cmp a b = true))
    (h : lookup cmp value t = none) :
    ∀ k ∈ t.keys, tree.equal cmp value k = false := by
  intro k hk
  cases he : tree.equal cmp value k with
  | false => rfl
  | true =>
    rw [keys_eq_map] at hk
    obtain ⟨⟨p, k2⟩, hm, rfl⟩ := List.mem_map.mp hk
    rw [lookup_complete hc value t hs p k2 hm he] at h
    cases h

end PTree


namespace PTree

open details

variable {T : Type}

/-- On a search tree the inclusive split sends the keys below the pivot to the first part
and all other keys to the second part. -/
theorem split_incl_toList {cmp : T → T → Bool} (hc : StrictWeakOrder cmp) (x : T) :
    ∀ t : PTree T, t.keys.Pairwise (fun a b => cmp a b = true) →
      (split cmp x true t).1.toList = t.toList.filter (fun e => cmp e.2 x) ∧
      (split cmp x true t).2.toList = t.toList.filter (fun e => !cmp e.2 x) := by
  intro t
  induction t with
  | nil => intro _; exact ⟨rfl, rfl⟩
  | node l p k pr r ihl ihr =>
    intro hs
    simp only [keys] at hs
    have hs2 := List.pairwise_append.mp hs
    have hs3 := List.pairwise_cons.mp hs2.2.1
    obtain ⟨il1, il2⟩ := ihl hs2.1
    obtain ⟨ir1, ir2⟩ := ihr hs3.2
    have hkl : ∀ e ∈ l.toList, cmp e.2 k = true := by
      intro e he
      exact hs2.2.2 e.2 (by rw [keys_eq_map]; exact List.mem_map_of_mem Prod.snd he) k (by simp)
    have hkr : ∀ e ∈ r.toList, cmp k e.2 = true := by
      intro e he
      exact hs3.1 e.2 (by rw [keys_eq_map]; exact List.mem_map_of_mem Prod.snd he)
    simp only [split, if_true, tree.less_or_equal, tree.greater_or_equal]
    cases hk : cmp k x with
    | false =>
      have hr_all : ∀ e ∈ r.toList, cmp e.2 x = false := by
        intro e he
        cases h : cmp e.2 x with
        | false => rfl
        | true => rw [hc.trans k e.2 x (hkr e he) h] at hk; cases hk
      have f1 : r.toList.filter (fun e => cmp e.2 x) = [] := by
        rw [List.filter_eq_nil_iff]
        intro e he; rw [hr_all e he]; simp
      have f2 : r.toList.filter (fun e => !cmp e.2 x) = r.toList := by
        rw [List.filter_eq_self]
        intro e he; rw [hr_all e he]; rfl
      simp only [Bool.not_false, if_true, toList, List.filter_append, List.filter_cons, hk,
        il1, il2, f1, f2, Bool.false_eq_true, if_false, List.append_nil, and_self]
    | true =>
      have hl_all : ∀ e ∈ l.toList, cmp e.2 x = true := by
        intro e he
        exact hc.trans e.2 k x (hkl e he) hk
      have f1 : l.toList.filter (fun e => cmp e.2 x) = l.toList := by
        rw [List.filter_eq_self]
        intro e he; exact hl_all e he
      have f2 : l.toList.filter (fun e => !cmp e.2 x) = [] := by
        rw [List.filter_eq_nil_iff]
        intro e he; rw [hl_all e he]; simp
      simp only [Bool.not_true, Bool.false_eq_true, if_false, toList, List.filter_append,
        List.filter_cons, hk, ir1, ir2, f1, f2, if_true, List.nil_append, and_self]

theorem insert_toList {cmp : T → T → Bool} (hc : StrictWeakOrder cmp) (n : Ptr) (x : T)
    (pr : Nat) (t : PTree T) (hs : t.keys.Pairwise (fun a b => cmp a b = true)) :
    (insert cmp n x pr t).toList =
      t.toList.filter (fun e => cmp e.2 x) ++ (n, x) :: t.toList.filter (fun e => !cmp e.2 x) := by
  obtain ⟨h1, h2⟩ := split_incl_toList hc x t hs
  simp only [insert, merge_toList_eq, single, toList, h1, h2, List.nil_append,
    List.singleton_append]

theorem insert_ptrs_perm {cmp : T → T → Bool} (hc : StrictWeakOrder cmp) (n : Ptr) (x : T)
    (pr : Nat) (t : PTree T) (hs : t.keys.Pairwise (fun a b => cmp a b = true)) :
    (insert cmp n x pr t).ptrs.Perm (n :: t.ptrs) := by
  rw [ptrs_eq_map, insert_toList hc n x pr t hs, ptrs_eq_map, List.map_append, List.map_cons]
  refine List.perm_middle.trans (List.Perm.cons _ ?_)
  rw [← List.map_append]
  exact (List.filter_append_perm _ _).map _

theorem insert_size (cmp : T → T → Bool) (n : Ptr) (x : T) (pr : Nat) (t : PTree T) :
    (insert cmp n x pr t).size = t.size + 1 := by
  simp only [insert, merge_size, single, size]
  have := split_size cmp x true t
  omega

theorem insert_sorted {cmp : T → T → Bool} (hc : StrictWeakOrder cmp) (n : Ptr) (x : T)
    (pr : Nat) (t : PTree T) (hs : t.keys.Pairwise (fun a b => cmp a b = true))
    (hx : ∀ k ∈ t.keys, tree.equal cmp x k = false) :
    (insert cmp n x pr t).keys.Pairwise (fun a b => cmp a b = true) := by
  rw [keys_eq_map, insert_toList hc n x pr t hs, List.map_append, List.map_cons]
  rw [keys_eq_map] at hs hx
  have hlo : ∀ a ∈ (t.toList.filter (fun e => cmp e.2 x)).map Prod.snd, cmp a x = true := by
    intro a ha
    obtain ⟨e, he, rfl⟩ := List.mem_map.mp ha
    exact (List.mem_filter.mp he).2
  have hhi : ∀ b ∈ (t.toList.filter (fun e => !cmp e.2 x)).map Prod.snd, cmp x b = true := by
    intro b hb
    obtain ⟨e, he, rfl⟩ := List.mem_map.mp hb
    have h1 := (List.mem_filter.mp he).2
    have h2 := hx e.2 (List.mem_map_of_mem Prod.snd (List.mem_filter.mp he).1)
    rcases (equal_false_iff cmp x e.2).mp h2 with h3 | h3
    · exact h3
    · rw [h3] at h1; cases h1
  refine List.pairwise_append.mpr ⟨?_, List.pairwise_cons.mpr ⟨hhi, ?_⟩, ?_⟩
  · exact (hs.sublist ((List.filter_sublist _).map _))
  · exact (hs.sublist ((List.filter_sublist _).map _))
  · intro a ha b hb
    rcases List.mem_cons.mp hb with rfl | hb
    · exact hlo a ha
    · exact hc.trans a x b (hlo a ha) (hhi b hb)

end PTree


namespace details

variable {T : Type}

/-- `tree::set_root` anchors a represented tree below the sentinel. -/
theorem set_root_spec {m : Mem} {val : Ptr → Option T} {s : Ptr} {sb : node_base}
    (t : PTree T) (hs : m s = some sb) (hrep : Rep m val t) (hst : s ∉ t.ptrs)
    (hnd : t.ptrs.Nodup) :
    ∃ m2, tree.set_root m s t.root = .ok m2 ∧
      m2 s = some { sb with left := t.root } ∧ Rep m2 val t ∧ ParentIs m2 t.root s ∧
      (∀ q, q ≠ s → some q ≠ t.root → m2 q = m q) := by
  have h1 : Rep (Function.update m s (some { sb with left := t.root })) val t :=
    Rep_congr t (fun q hq => by rw [Function.update_noteq]; rintro rfl; exact hst hq)
      (fun _ _ => rfl) hrep
  cases hroot : t.root with
  | none =>
    rw [hroot] at h1
    refine ⟨_, by simp only [tree.set_root, write_left_eq _ hs, set_parent], by simp, h1,
      ParentIs_none _ _, ?_⟩
    intro q hq _
    rw [Function.update_noteq hq]
  | some c =>
    rw [hroot] at h1
    have hct : c ∈ t.ptrs := PTree.root_mem hroot
    have hcs : c ≠ s := by rintro rfl; exact hst hct
    obtain ⟨cb, hcb⟩ := Rep_alloc t hrep c hct
    have hc1 : Function.update m s (some { sb with left := some c }) c = some cb := by
      rw [Function.update_noteq hcs]; exact hcb
    refine ⟨Function.update (Function.update m s (some { sb with left := some c })) c
      (some { cb with parent := some s }), ?_, ?_, ?_, ?_, ?_⟩
    · simp only [tree.set_root, write_left_eq _ hs, set_parent, write_parent_eq _ hc1]
    · rw [Function.update_noteq (Ne.symm hcs)]; simp
    · exact Rep_update_root_parent (some s) h1 hroot hc1 hnd
    · intro q hq
      simp only [Option.some.injEq] at hq
      subst hq
      exact ⟨{ cb with parent := some s }, by simp, rfl⟩
    · intro q hq hqc
      have : q ≠ c := fun h => hqc (by rw [h])
      rw [Function.update_noteq this, Function.update_noteq hq]

/-- `tree::find` on a well-formed tree returns the abstract lookup, the sentinel when the
lookup fails. -/
theorem tree_find_spec {cmp : T → T → Bool} {m : Mem} {val : Ptr → Option T} {s : Ptr}
    {t : PTree T} (hwf : TreeWF cmp m val s t) (value : T) {fuel : Nat}
    (hf : t.size < fuel) :
    tree.find cmp val m s fuel value = .ok (some ((PTree.lookup cmp value t).getD s)) := by
  obtain ⟨sb, hsb, hleft, _⟩ := hwf.sent
  simp only [tree.find, tree.root, hsb, hleft]
  exact find_from_spec cmp val m s value t fuel hwf.rep hf

/-- `tree::insert` refines the abstract insertion and keeps the tree well formed. -/
theorem tree_insert_spec {cmp : T → T → Bool} (hc : StrictWeakOrder cmp) {m : Mem}
    {val : Ptr → Option T} {s : Ptr} {t : PTree T} (hwf : TreeWF cmp m val s t)
    {n : Ptr} {x : T} {pr : Nat} {par : Option Ptr}
    (hn : m n = some { left := none, right := none, parent := par, priority := pr })
    (hv : val n = some x) (hnt : n ∉ t.ptrs) (hns : n ≠ s)
    (hx : ∀ k ∈ t.keys, tree.equal cmp x k = false) {fuel : Nat} (hf : t.size + 2 ≤ fuel) :
    ∃ m2, tree.insert cmp val fuel m s n = .ok (m2, some n) ∧
      TreeWF cmp m2 val s (PTree.insert cmp n x pr t) ∧
      (∀ q, q ∉ t.ptrs → q ≠ n → q ≠ s → m2 q = m q) ∧
      (∀ sb, m s = some sb →
        m2 s = some { sb with left := (PTree.insert cmp n x pr t).root }) := by
  obtain ⟨sb, hsb, hleft, hspar⟩ := hwf.sent
  have hsingle : ∀ m1 : Mem, m1 n = m n → Rep m1 val (PTree.single n x pr) := by
    intro m1 h1
    exact ⟨hv, _, by rw [h1]; exact hn, rfl, rfl, rfl, trivial, trivial, ParentIs_none _ _,
      ParentIs_none _ _⟩
  have hperm := PTree.insert_ptrs_perm hc n x pr t hwf.sorted
  have hnd2 : (PTree.insert cmp n x pr t).ptrs.Nodup :=
    hperm.nodup_iff.mpr (List.nodup_cons.mpr ⟨hnt, hwf.nodup⟩)
  have hs2 : s ∉ (PTree.insert cmp n x pr t).ptrs := by
    intro h
    rcases List.mem_cons.mp (hperm.mem_iff.mp h) with h1 | h1
    · exact hns h1.symm
    · exact hwf.s_notin h1
  have hwf_of : ∀ m4 : Mem, m4 s = some { sb with left := (PTree.insert cmp n x pr t).root } →
      Rep m4 val (PTree.insert cmp n x pr t) →
      ParentIs m4 (PTree.insert cmp n x pr t).root s →
      TreeWF cmp m4 val s (PTree.insert cmp n x pr t) := fun m4 hs4 hrep4 hpar4 =>
    { sent := ⟨_, hs4, rfl, hspar⟩
      rep := hrep4
      root_parent := hpar4
      nodup := hnd2
      sorted := PTree.insert_sorted hc n x pr t hwf.sorted hx
      s_notin := hs2
      heap := PTree.insert_heap cmp n x pr t hwf.heap }
  have hroot_in : ∀ q, some q = (PTree.insert cmp n x pr t).root → q = n ∨ q ∈ t.ptrs :=
    fun q h => List.mem_cons.mp (hperm.mem_iff.mp (PTree.root_mem h.symm))
  have hsent_of : ∀ m4 : Mem, m4 s = some { sb with left := (PTree.insert cmp n x pr t).root } →
      ∀ sb2, m s = some sb2 →
        m4 s = some { sb2 with left := (PTree.insert cmp n x pr t).root } := by
    intro m4 hs4 sb2 hsb2
    rw [hsb] at hsb2
    simp only [Option.some.injEq] at hsb2
    subst hsb2
    exact hs4
  cases hroot : t.root with
  | none =>
    -- the empty tree: the new node becomes the root
    have ht : t = .nil := (PTree.root_none_iff t).mp hroot
    subst ht
    have e : PTree.insert cmp n x pr PTree.nil = PTree.single n x pr := by
      simp only [PTree.insert, PTree.split, PTree.single]
      rw [PTree.merge, PTree.merge]
    rw [e] at hwf_of hsent_of hroot_in
    rw [e]
    obtain ⟨m4, hset, hs4, hrep4, hpar4, hfr4⟩ :=
      set_root_spec (PTree.single n x pr) hsb (hsingle m rfl)
        (by simp [PTree.single, PTree.ptrs, Ne.symm hns]) (by simp [PTree.single, PTree.ptrs])
    refine ⟨m4, ?_, hwf_of m4 hs4 hrep4 hpar4, ?_, hsent_of m4 hs4⟩
    · have e1 : (PTree.single n x pr).root = some n := rfl
      rw [e1] at hset
      simp only [tree.insert, tree.root, hsb, hleft, PTree.root, hset]
    · intro q hqt hqn hqs
      exact hfr4 q hqs (fun h => (hroot_in q h).elim hqn hqt)
  | some r =>
    obtain ⟨m1, hsp, hra, hrb, hfr1⟩ := split_spec cmp val x true t fuel m hwf.rep hwf.nodup
      (by omega)
    have hab := PTree.split_ptrs cmp x true t
    have hab_nd : ((PTree.split cmp x true t).1.ptrs ++
        (PTree.split cmp x true t).2.ptrs).Nodup := by rw [hab]; exact hwf.nodup
    have hab2 := List.nodup_append.mp hab_nd
    have ha_sub : ∀ q, q ∈ (PTree.split cmp x true t).1.ptrs → q ∈ t.ptrs := by
      intro q hq; rw [← hab]; exact List.mem_append_left _ hq
    have hb_sub : ∀ q, q ∈ (PTree.split cmp x true t).2.ptrs → q ∈ t.ptrs := by
      intro q hq; rw [← hab]; exact List.mem_append_right _ hq
    have hsz := PTree.split_size cmp x true t
    have hnd_nb : ((PTree.single n x pr).ptrs ++ (PTree.split cmp x true t).2.ptrs).Nodup := by
      simp only [PTree.single, PTree.ptrs, List.nil_append, List.singleton_append]
      exact List.nodup_cons.mpr ⟨fun h => hnt (hb_sub _ h), hab2.2.1⟩
    obtain ⟨m2, hm2, hrep2, hfr2⟩ := merge_spec val fuel (PTree.single n x pr)
      (PTree.split cmp x true t).2 m1 (hsingle m1 (hfr1 n hnt)) hrb hnd_nb
      (by simp only [PTree.single, PTree.size]; omega)
    have hra2 : Rep m2 val (PTree.split cmp x true t).1 := by
      refine Rep_congr _ ?_ (fun _ _ => rfl) hra
      intro q hq
      refine hfr2 q ?_ (fun h => hab2.2.2 hq h)
      simp only [PTree.single, PTree.ptrs, List.nil_append, List.mem_singleton]
      rintro rfl; exact hnt (ha_sub _ hq)
    have hnd_all : ((PTree.split cmp x true t).1.ptrs ++
        (PTree.merge (PTree.single n x pr) (PTree.split cmp x true t).2).ptrs).Nodup := by
      rw [PTree.merge_ptrs]
      simp only [PTree.single, PTree.ptrs, List.nil_append, List.singleton_append]
      refine List.nodup_append.mpr ⟨hab2.1, List.nodup_cons.mpr
        ⟨fun h => hnt (hb_sub _ h), hab2.2.1⟩, ?_⟩
      intro q h1 h2
      rcases List.mem_cons.mp h2 with h3 | h3
      · exact hnt (h3 ▸ ha_sub _ h1)
      · exact hab2.2.2 h1 h3
    obtain ⟨m3, hm3, hrep3, hfr3⟩ := merge_spec val fuel (PTree.split cmp x true t).1
      (PTree.merge (PTree.single n x pr) (PTree.split cmp x true t).2) m2 hra2 hrep2 hnd_all
      (by simp only [PTree.merge_size, PTree.single, PTree.size]; omega)
    have hfr123 : ∀ q, q ∉ t.ptrs → q ≠ n → m3 q = m q := by
      intro q hqt hqn
      have h1 : q ∉ (PTree.split cmp x true t).1.ptrs := fun h => hqt (ha_sub _ h)
      have h2 : q ∉ (PTree.split cmp x true t).2.ptrs := fun h => hqt (hb_sub _ h)
      have h3 : q ∉ (PTree.single n x pr).ptrs := by
        simp only [PTree.single, PTree.ptrs, List.nil_append, List.mem_singleton]
        exact hqn
      have h4 : q ∉ (PTree.merge (PTree.single n x pr) (PTree.split cmp x true t).2).ptrs := by
        rw [PTree.merge_ptrs]
        exact fun h => (List.mem_append.mp h).elim h3 h2
      rw [hfr3 q h1 h4, hfr2 q h3 h2, hfr1 q hqt]
    have hs3 : m3 s = some sb := by rw [hfr123 s hwf.s_notin (Ne.symm hns)]; exact hsb
    have hrep3b : Rep m3 val (PTree.insert cmp n x pr t) := hrep3
    obtain ⟨m4, hset, hs4, hrep4, hpar4, hfr4⟩ := set_root_spec _ hs3 hrep3b hs2 hnd2
    refine ⟨m4, ?_, hwf_of m4 hs4 hrep4 hpar4, ?_, hsent_of m4 hs4⟩
    · have e1 : (PTree.single n x pr).root = some n := rfl
      rw [e1] at hm2
      rw [hroot] at hsp
      have hset2 : tree.set_root m3 s (PTree.merge (PTree.split cmp x true t).1
          (PTree.merge (PTree.single n x pr) (PTree.split cmp x true t).2)).root = .ok m4 := hset
      simp only [tree.insert, tree.root, hsb, hleft, hroot, get_value, hv, hsp, hm2, hm3, hset2]
    · intro q hqt hqn hqs
      rw [hfr4 q hqs (fun h => (hroot_in q h).elim hqn hqt), hfr123 q hqt hqn]

end details


namespace details

variable {T : Type}

theorem deref_some {m : Mem} {p : Ptr} {nb : node_base} (h : m p = some nb) :
    deref m (some p) = .ok nb := by
  simp [deref, h]

theorem is_left_son_eq {m : Mem} {p v : Ptr} {nb : node_base} (h : m p = some nb) :
    is_left_son m (some p) (some v) = .ok (decide (nb.left = some v)) := by
  simp [is_left_son, deref, h]

theorem is_right_son_eq {m : Mem} {p v : Ptr} {nb : node_base} (h : m p = some nb) :
    is_right_son m (some p) (some v) = .ok (decide (nb.right = some v)) := by
  simp [is_right_son, deref, h]

/-- `tree::erase_helper` at the root `v` of a subtree hanging below `par`. -/
theorem erase_helper_root (val : Ptr → Option T) {m : Mem} {l r : PTree T} {v par : Ptr}
    {parb : node_base} {k : T} {pr : Nat} {fuel : Nat}
    (hrep : Rep m val (.node l v k pr r)) (hnd : (PTree.node l v k pr r).ptrs.Nodup)
    (hpn : par ∉ (PTree.node l v k pr r).ptrs) (hparb : m par = some parb)
    (hpi : ParentIs m (some v) par) (isLeft : Bool)
    (hctx : if isLeft then parb.left = some v else parb.right = some v ∧ parb.left ≠ some v)
    (hf : l.size + r.size < fuel) :
    ∃ m2, tree.erase_helper fuel m (some v) = .ok m2 ∧ Rep m2 val (PTree.merge l r) ∧
      ParentIs m2 (PTree.merge l r).root par ∧
      m2 par = some (relink isLeft parb (PTree.merge l r).root) ∧
      (∀ q, q ∉ (PTree.node l v k pr r).ptrs → q ≠ par → m2 q = m q) := by
  obtain ⟨hk, nb, hnb, hpr, hl, hr, hrl, hrr, hpl, hpr2⟩ := hrep
  simp only [PTree.ptrs] at hnd hpn
  have hnd2 := List.nodup_append.mp hnd
  have hv_l : v ∉ l.ptrs := fun hmem => hnd2.2.2 hmem (by simp)
  have hv_r : v ∉ r.ptrs := (List.nodup_cons.mp hnd2.2.1).1
  have hnd_lr : (l.ptrs ++ r.ptrs).Nodup :=
    List.nodup_append.mpr ⟨hnd2.1, (List.nodup_cons.mp hnd2.2.1).2,
      fun q h1 h2 => hnd2.2.2 h1 (by simp [h2])⟩
  have hparv : par ≠ v := by rintro rfl; exact hpn (by simp)
  have hpar_l : par ∉ l.ptrs := fun h => hpn (by simp [h])
  have hpar_r : par ∉ r.ptrs := fun h => hpn (by simp [h])
  obtain ⟨nb2, hnb2, hnbpar⟩ := hpi v rfl
  rw [hnb] at hnb2
  simp only [Option.some.injEq] at hnb2
  subst hnb2
  obtain ⟨m1, hm, hrep1, hfr1⟩ := merge_spec val fuel l r m hrl hrr hnd_lr hf
  have hm1v : m1 v = some nb := by rw [hfr1 v hv_l hv_r]; exact hnb
  have hm1par : m1 par = some parb := by rw [hfr1 par hpar_l hpar_r]; exact hparb
  have hmerge_nd : (PTree.merge l r).ptrs.Nodup := by rw [PTree.merge_ptrs]; exact hnd_lr
  have hmem_merge : ∀ q, q ∈ (PTree.merge l r).ptrs → q ∈ l.ptrs ∨ q ∈ r.ptrs := by
    intro q hq; rw [PTree.merge_ptrs] at hq; exact List.mem_append.mp hq
  -- the state after `new_son->parent = v->parent`
  have hstep : ∃ m2, ((PTree.merge l r).root = none → m1 = m2) ∧
      (∀ c, (PTree.merge l r).root = some c →
        write_parent m1 (some c) (some par) = .ok m2) ∧
      Rep m2 val (PTree.merge l r) ∧ ParentIs m2 (PTree.merge l r).root par ∧
      (∀ q, some q ≠ (PTree.merge l r).root → m2 q = m1 q) := by
    cases hroot : (PTree.merge l r).root with
    | none =>
      exact ⟨m1, fun _ => rfl, fun c hc => (by cases hc), hrep1, ParentIs_none _ _,
        fun _ _ => rfl⟩
    | some c =>
      obtain ⟨cb, hcb⟩ := Rep_alloc _ hrep1 c (PTree.root_mem hroot)
      refine ⟨_, fun hc => (by cases hc), ?_,
        Rep_update_root_parent (some par) hrep1 hroot hcb hmerge_nd, ?_, ?_⟩
      · intro c2 hc2
        simp only [Option.some.injEq] at hc2
        subst hc2
        exact write_parent_eq _ hcb
      · intro q hq
        simp only [Option.some.injEq] at hq
        subst hq
        exact ⟨{ cb with parent := some par }, by simp, rfl⟩
      · intro q hq
        rw [Function.update_noteq]
        rintro rfl; exact hq rfl
  obtain ⟨m2, hw0, hw, hrep2, hpar2, hfr2⟩ := hstep
  have hnotroot : ∀ q, q ∉ l.ptrs → q ∉ r.ptrs → some q ≠ (PTree.merge l r).root :=
    fun q h1 h2 h => (hmem_merge q (PTree.root_mem h.symm)).elim h1 h2
  have hm2v : m2 v = some nb := by rw [hfr2 v (hnotroot v hv_l hv_r)]; exact hm1v
  have hm2par : m2 par = some parb := by
    rw [hfr2 par (hnotroot par hpar_l hpar_r)]; exact hm1par
  have hrep3 : ∀ nb3, Rep (Function.update m2 par (some nb3)) val (PTree.merge l r) := by
    intro nb3
    refine Rep_congr _ ?_ (fun _ _ => rfl) hrep2
    intro q hq
    rw [Function.update_noteq]
    rintro rfl
    exact (hmem_merge _ hq).elim hpar_l hpar_r
  have hpar3 : ∀ nb3, ParentIs (Function.update m2 par (some nb3)) (PTree.merge l r).root par := by
    intro nb3
    refine ParentIs_congr ?_ hpar2
    intro q hq
    rw [Function.update_noteq]
    rintro rfl
    exact (hmem_merge _ (PTree.root_mem hq)).elim hpar_l hpar_r
  have hfr3 : ∀ nb3 q, q ∉ l.ptrs ++ v :: r.ptrs → q ≠ par →
      Function.update m2 par (some nb3) q = m q := by
    intro nb3 q hq hqp
    simp only [List.mem_append, List.mem_cons, not_or] at hq
    rw [Function.update_noteq hqp, hfr2 q (hnotroot q hq.1 hq.2.2), hfr1 q hq.1 hq.2.2]
  cases isLeft with
  | true =>
    simp only [if_true] at hctx
    refine ⟨Function.update m2 par (some { parb with left := (PTree.merge l r).root }), ?_,
      hrep3 _, hpar3 _, by simp [relink], hfr3 _⟩
    simp only [tree.erase_helper, deref_some hnb, hl, hr, hm, deref_some hm1v, hnbpar]
    have hrest : (match deref m2 (some v) with
        | .error e => .error e
        | .ok vb2 =>
          match is_left_son m2 vb2.parent (some v) with
          | .error e => .error e
          | .ok true => write_left m2 vb2.parent (PTree.merge l r).root
          | .ok false =>
            match is_right_son m2 vb2.parent (some v) with
            | .error e => .error e
            | .ok true => write_right m2 vb2.parent (PTree.merge l r).root
            | .ok false => .ok m2) = Except.ok (Function.update m2 par
              (some { parb with left := (PTree.merge l r).root })) := by
      simp only [deref_some hm2v, hnbpar, is_left_son_eq hm2par, hctx, decide_True,
        write_left_eq _ hm2par]
    cases hroot : (PTree.merge l r).root with
    | none =>
      rw [hroot] at hrest
      rw [hw0 hroot]
      exact hrest
    | some c =>
      rw [hroot] at hrest
      simp only [hw c hroot]
      exact hrest
  | false =>
    simp only [Bool.false_eq_true, if_false] at hctx
    refine ⟨Function.update m2 par (some { parb with right := (PTree.merge l r).root }), ?_,
      hrep3 _, hpar3 _, by simp [relink], hfr3 _⟩
    simp only [tree.erase_helper, deref_some hnb, hl, hr, hm, deref_some hm1v, hnbpar]
    have hrest : (match deref m2 (some v) with
        | .error e => .error e
        | .ok vb2 =>
          match is_left_son m2 vb2.parent (some v) with
          | .error e => .error e
          | .ok true => write_left m2 vb2.parent (PTree.merge l r).root
          | .ok false =>
            match is_right_son m2 vb2.parent (some v) with
            | .error e => .error e
            | .ok true => write_right m2 vb2.parent (PTree.merge l r).root
            | .ok false => .ok m2) = Except.ok (Function.update m2 par
              (some { parb with right := (PTree.merge l r).root })) := by
      simp only [deref_some hm2v, hnbpar, is_left_son_eq hm2par, hctx.2, decide_False,
        is_right_son_eq hm2par, hctx.1, decide_True, write_right_eq _ hm2par]
    cases hroot : (PTree.merge l r).root with
    | none =>
      rw [hroot] at hrest
      rw [hw0 hroot]
      exact hrest
    | some c =>
      rw [hroot] at hrest
      simp only [hw c hroot]
      exact hrest

end details


namespace PTree

open details

variable {T : Type}

theorem filter_ne_of_not_mem (v : Ptr) (t : PTree T) (h : v ∉ t.ptrs) :
    t.toList.filter (fun e => decide (e.1 ≠ v)) = t.toList := by
  rw [List.filter_eq_self]
  intro e he
  simp only [ne_eq, decide_not, Bool.not_eq_true', decide_eq_false_iff_not]
  rintro rfl
  exact h (by rw [ptrs_eq_map]; exact List.mem_map_of_mem Prod.fst he)

theorem erase_toList (v : Ptr) : ∀ t : PTree T, t.ptrs.Nodup → v ∈ t.ptrs →
    (erase v t).toList = t.toList.filter (fun e => decide (e.1 ≠ v)) := by
  intro t
  induction t with
  | nil => intro _ h; simp [ptrs] at h
  | node l p k pr r ihl ihr =>
    intro hnd hv
    simp only [ptrs] at hnd hv
    have hnd2 := List.nodup_append.mp hnd
    have hp_l : p ∉ l.ptrs := fun hmem => hnd2.2.2 hmem (by simp)
    have hp_r : p ∉ r.ptrs := (List.nodup_cons.mp hnd2.2.1).1
    have hdisj : ∀ q, q ∈ l.ptrs → q ∉ r.ptrs := fun q h1 h2 => hnd2.2.2 h1 (by simp [h2])
    simp only [erase, toList, List.filter_append, List.filter_cons]
    by_cases hpv : p = v
    · subst hpv
      rw [if_pos rfl, merge_toList_eq, filter_ne_of_not_mem p l hp_l,
        filter_ne_of_not_mem p r hp_r]
      simp
    · rw [if_neg hpv]
      have hd : decide (p ≠ v) = true := by simp [hpv]
      by_cases hvl : v ∈ l.ptrs
      · rw [if_pos hvl]
        simp only [toList, hd, if_true]
        rw [ihl hnd2.1 hvl, filter_ne_of_not_mem v r (hdisj v hvl)]
      · rw [if_neg hvl]
        have hvr : v ∈ r.ptrs := by
          rcases List.mem_append.mp hv with h | h
          · exact absurd h hvl
          · rcases List.mem_cons.mp h with h | h
            · exact absurd h.symm hpv
            · exact h
        simp only [toList, hd, if_true]
        rw [ihr (List.nodup_cons.mp hnd2.2.1).2 hvr, filter_ne_of_not_mem v l hvl]

theorem erase_ptrs (v : Ptr) (t : PTree T) (hnd : t.ptrs.Nodup) (hv : v ∈ t.ptrs) :
    (erase v t).ptrs = t.ptrs.filter (fun q => decide (q ≠ v)) := by
  rw [ptrs_eq_map, erase_toList v t hnd hv, ptrs_eq_map, List.filter_map]
  rfl

theorem erase_size (v : Ptr) (t : PTree T) (hnd : t.ptrs.Nodup) (hv : v ∈ t.ptrs) :
    (erase v t).size + 1 = t.size := by
  rw [← length_ptrs, ← length_ptrs, erase_ptrs v t hnd hv]
  have h1 : t.ptrs.filter (fun q => decide (q ≠ v)) = t.ptrs.erase v := by
    rw [hnd.erase_eq_filter]
    congr 1
    funext q
    simp only [bne, ne_eq, decide_not]
    rfl
  rw [h1, List.length_erase_of_mem hv]
  have := List.length_pos_of_mem hv
  omega

theorem mem_erase_ptrs (v : Ptr) (t : PTree T) (hnd : t.ptrs.Nodup) (hv : v ∈ t.ptrs)
    (q : Ptr) : q ∈ (erase v t).ptrs ↔ q ∈ t.ptrs ∧ q ≠ v := by
  rw [erase_ptrs v t hnd hv, List.mem_filter]
  simp

theorem erase_nodup (v : Ptr) (t : PTree T) (hnd : t.ptrs.Nodup) (hv : v ∈ t.ptrs) :
    (erase v t).ptrs.Nodup := by
  rw [erase_ptrs v t hnd hv]
  exact hnd.sublist (List.filter_sublist _)

theorem erase_sorted {cmp : T → T → Bool} (v : Ptr) (t : PTree T) (hnd : t.ptrs.Nodup)
    (hv : v ∈ t.ptrs) (hs : t.keys.Pairwise (fun a b => cmp a b = true)) :
    (erase v t).keys.Pairwise (fun a b => cmp a b = true) := by
  rw [keys_eq_map, erase_toList v t hnd hv]
  rw [keys_eq_map] at hs
  exact hs.sublist ((List.filter_sublist _).map _)

end PTree

namespace details

variable {T : Type}

/-- `tree::erase_helper` at a node `v` of the subtree `t` hanging below `par` refines the
abstract erasure. -/
theorem erase_helper_sub (val : Ptr → Option T) (v : Ptr) {fuel : Nat} :
    ∀ (t : PTree T) (m : Mem) (par : Ptr) (parb : node_base) (isLeft : Bool),
      Rep m val t → t.ptrs.Nodup → v ∈ t.ptrs → par ∉ t.ptrs → m par = some parb →
      ParentIs m t.root par →
      (if isLeft then parb.left = t.root else parb.right = t.root ∧ parb.left ≠ some v) →
      t.size ≤ fuel →
      ∃ m2, tree.erase_helper fuel m (some v) = .ok m2 ∧ Rep m2 val (PTree.erase v t) ∧
        ParentIs m2 (PTree.erase v t).root par ∧
        m2 par = some (relink isLeft parb (PTree.erase v t).root) ∧
        (∀ q, q ∉ t.ptrs → q ≠ par → m2 q = m q) := by
  intro t
  induction t with
  | nil => intro m par parb isLeft _ _ hv; simp [PTree.ptrs] at hv
  | node l p k pr r ihl ihr =>
    intro m par parb isLeft hrep hnd hv hpn hparb hpi hctx hf
    by_cases hpv : p = v
    · subst hpv
      have e : PTree.erase p (.node l p k pr r) = PTree.merge l r := by
        simp only [PTree.erase, if_true]
      rw [e]
      simp only [root_node] at hctx hpi
      simp only [PTree.size] at hf
      exact erase_helper_root val hrep hnd hpn hparb hpi isLeft hctx (by omega)
    · obtain ⟨hk, nb, hnb, hpr, hl, hr, hrl, hrr, hpl, hpr2⟩ := hrep
      simp only [PTree.ptrs] at hnd hv hpn
      simp only [PTree.size] at hf
      have hnd2 := List.nodup_append.mp hnd
      have hp_l : p ∉ l.ptrs := fun hmem => hnd2.2.2 hmem (by simp)
      have hp_r : p ∉ r.ptrs := (List.nodup_cons.mp hnd2.2.1).1
      have hr_nd : r.ptrs.Nodup := (List.nodup_cons.mp hnd2.2.1).2
      have hdisj : ∀ q, q ∈ l.ptrs → q ∉ r.ptrs := fun q h1 h2 => hnd2.2.2 h1 (by simp [h2])
      have hparp : par ≠ p := by rintro rfl; exact hpn (by simp)
      have hpar_l : par ∉ l.ptrs := fun h => hpn (by simp [h])
      have hpar_r : par ∉ r.ptrs := fun h => hpn (by simp [h])
      obtain ⟨nb2, hnb2, hnbpar⟩ := hpi p rfl
      rw [hnb] at hnb2
      simp only [Option.some.injEq] at hnb2
      subst hnb2
      have hparb_eq : parb = relink isLeft parb (some p) := by
        cases isLeft with
        | true =>
          simp only [if_true, root_node] at hctx
          simp only [relink, if_true]
          rw [← hctx]
        | false =>
          simp only [Bool.false_eq_true, if_false, root_node] at hctx
          simp only [relink, Bool.false_eq_true, if_false]
          rw [← hctx.1]
      by_cases hvl : v ∈ l.ptrs
      · have e : PTree.erase v (.node l p k pr r) = .node (PTree.erase v l) p k pr r := by
          simp only [PTree.erase, if_neg hpv, if_pos hvl]
        rw [e]
        obtain ⟨m2, hrun, hrep2, hpar2, hm2p, hfr2⟩ :=
          ihl m p nb true hrl hnd2.1 hvl hp_l hnb hpl (by simp only [if_true]; exact hl)
            (by omega)
        have hfr_r : ∀ q ∈ r.ptrs, m2 q = m q := fun q hq =>
          hfr2 q (fun h => hdisj q h hq) (by rintro rfl; exact hp_r hq)
        refine ⟨m2, hrun, ?_, ?_, ?_, ?_⟩
        · refine ⟨hk, _, hm2p, hpr, rfl, hr, hrep2, ?_, hpar2, ?_⟩
          · exact Rep_congr r hfr_r (fun _ _ => rfl) hrr
          · exact ParentIs_congr (fun q hq => hfr_r q (PTree.root_mem hq)) hpr2
        · intro q hq
          have hq2 : some p = some q := hq
          simp only [Option.some.injEq] at hq2
          subst hq2
          exact ⟨_, hm2p, hnbpar⟩
        · rw [hfr2 par hpar_l hparp, hparb, root_node, ← hparb_eq]
        · intro q hq hqp
          simp only [PTree.ptrs, List.mem_append, List.mem_cons, not_or] at hq
          exact hfr2 q hq.1 hq.2.1
      · have hvr : v ∈ r.ptrs := by
          rcases List.mem_append.mp hv with h | h
          · exact absurd h hvl
          · rcases List.mem_cons.mp h with h | h
            · exact absurd h.symm hpv
            · exact h
        have e : PTree.erase v (.node l p k pr r) = .node l p k pr (PTree.erase v r) := by
          simp only [PTree.erase, if_neg hpv, if_neg hvl]
        rw [e]
        have hlv : nb.left ≠ some v := by
          rw [hl]
          intro h
          exact hvl (PTree.root_mem h)
        obtain ⟨m2, hrun, hrep2, hpar2, hm2p, hfr2⟩ :=
          ihr m p nb false hrr hr_nd hvr hp_r hnb hpr2
            (by simp only [Bool.false_eq_true, if_false]; exact ⟨hr, hlv⟩) (by omega)
        have hfr_l : ∀ q ∈ l.ptrs, m2 q = m q := fun q hq =>
          hfr2 q (hdisj q hq) (by rintro rfl; exact hp_l hq)
        refine ⟨m2, hrun, ?_, ?_, ?_, ?_⟩
        · refine ⟨hk, _, hm2p, hpr, hl, rfl, ?_, hrep2, ?_, hpar2⟩
          · exact Rep_congr l hfr_l (fun _ _ => rfl) hrl
          · exact ParentIs_congr (fun q hq => hfr_l q (PTree.root_mem hq)) hpl
        · intro q hq
          have hq2 : some p = some q := hq
          simp only [Option.some.injEq] at hq2
          subst hq2
          exact ⟨_, hm2p, hnbpar⟩
        · rw [hfr2 par hpar_r hparp, hparb, root_node, ← hparb_eq]
        · intro q hq hqp
          simp only [PTree.ptrs, List.mem_append, List.mem_cons, not_or] at hq
          exact hfr2 q hq.2.2 hq.2.1

/-- `tree::erase_helper` on a well-formed tree removes exactly the node `v`. -/
theorem tree_erase_spec {cmp : T → T → Bool} {m : Mem} {val : Ptr → Option T} {s : Ptr}
    {t : PTree T} (hwf : TreeWF cmp m val s t) {v : Ptr} (hv : v ∈ t.ptrs) {fuel : Nat}
    (hf : t.size ≤ fuel) :
    ∃ m2, tree.erase_helper fuel m (some v) = .ok m2 ∧
      TreeWF cmp m2 val s (PTree.erase v t) ∧
      (∀ q, q ∉ t.ptrs → q ≠ s → m2 q = m q) ∧
      (∀ sb, m s = some sb → m2 s = some { sb with left := (PTree.erase v t).root }) := by
  obtain ⟨sb, hsb, hleft, hspar⟩ := hwf.sent
  obtain ⟨m2, hrun, hrep2, hpar2, hm2s, hfr2⟩ :=
    erase_helper_sub val v t m s sb true hwf.rep hwf.nodup hv hwf.s_notin hsb hwf.root_parent
      (by simp only [if_true]; exact hleft) hf
  simp only [relink, if_true] at hm2s
  refine ⟨m2, hrun, ?_, hfr2, ?_⟩
  · exact
      { sent := ⟨_, hm2s, rfl, hspar⟩
        rep := hrep2
        root_parent := hpar2
        nodup := PTree.erase_nodup v t hwf.nodup hv
        sorted := PTree.erase_sorted v t hwf.nodup hv hwf.sorted
        s_notin := fun h => hwf.s_notin ((PTree.mem_erase_ptrs v t hwf.nodup hv s).mp h).1
        heap := (PTree.erase_heap v t hwf.heap).1 }
  · intro sb2 hsb2
    rw [hsb] at hsb2
    simp only [Option.some.injEq] at hsb2
    subst hsb2
    exact hm2s

end details


namespace details

variable {T : Type}

theorem NextChain_append (m : Mem) (fuel : Nat) (nx : Ptr) :
    ∀ xs ys : List Ptr, NextChain m fuel xs (ys.head?.getD nx) → NextChain m fuel ys nx →
      NextChain m fuel (xs ++ ys) nx := by
  intro xs
  induction xs with
  | nil => intro ys _ h; exact h
  | cons x rest ih =>
    intro ys h1 h2
    obtain ⟨h3, h4⟩ := h1
    refine ⟨?_, ih ys h4 h2⟩
    rw [h3]
    cases rest with
    | nil => rfl
    | cons y rest2 => rfl

/-- The loop of `get_leftmost` started at the root of a represented tree ends at the first
address of the tree in in-order. -/
theorem get_leftmost_loop_spec (m : Mem) (val : Ptr → Option T) :
    ∀ (t : PTree T) (fuel : Nat) (p : Ptr), Rep m val t → t.root = some p →
      t.size ≤ fuel → ∀ d : Ptr, get_leftmost_loop m fuel p = .ok (t.ptrs.head?.getD d) := by
  intro t
  induction t with
  | nil => intro fuel p _ h; simp [PTree.root] at h
  | node l q k pr r ihl _ =>
    intro fuel p hrep hroot hf d
    simp only [root_node, Option.some.injEq] at hroot
    subst hroot
    obtain ⟨hk, nb, hnb, hpr, hl, hr, hrl, hrr, hpl, hpr2⟩ := hrep
    simp only [PTree.size] at hf
    obtain ⟨f, rfl⟩ : ∃ f, fuel = f + 1 := ⟨fuel - 1, by omega⟩
    simp only [get_leftmost_loop, hnb]
    cases hlroot : l.root with
    | none =>
      have hl2 : l = .nil := (PTree.root_none_iff l).mp hlroot
      subst hl2
      rw [hl]
      simp [PTree.root, PTree.ptrs]
    | some c =>
      rw [hl, hlroot]
      simp only
      rw [ihl f c hrl hlroot (by omega) d]
      have hne : l.ptrs ≠ [] := List.ne_nil_of_mem (PTree.root_mem hlroot)
      obtain ⟨y, ys, hys⟩ := List.exists_cons_of_ne_nil hne
      simp [PTree.ptrs, hys]

/-- Inside a represented subtree `get_next` follows the in-order; from the last address
it leads to the address `nx` that the climb from the root of the subtree reaches. -/
theorem next_chain_sub (val : Ptr → Option T) (fuel : Nat) :
    ∀ (t : PTree T) (m : Mem) (nx : Ptr) (d : Nat), Rep m val t → t.ptrs.Nodup →
      (∀ c, t.root = some c → ∀ f, d ≤ f → get_next_loop m f (some c) = .ok (some nx)) →
      d + t.size ≤ fuel → 1 ≤ d → NextChain m fuel t.ptrs nx := by
  intro t
  induction t with
  | nil => intro m nx d _ _ _ _ _; trivial
  | node l p k pr r ihl ihr =>
    intro m nx d hrep hnd hup hf hd
    obtain ⟨hk, nb, hnb, hpr, hl, hr, hrl, hrr, hpl, hpr2⟩ := hrep
    simp only [PTree.size] at hf
    simp only [PTree.ptrs] at hnd ⊢
    have hnd2 := List.nodup_append.mp hnd
    have hr_nd : r.ptrs.Nodup := (List.nodup_cons.mp hnd2.2.1).2
    have hdisj : ∀ q, q ∈ l.ptrs → q ∉ r.ptrs := fun q h1 h2 => hnd2.2.2 h1 (by simp [h2])
    -- the climb from the left child stops at `p`
    have hupl : ∀ c, l.root = some c → ∀ f, 1 ≤ f →
        get_next_loop m f (some c) = .ok (some p) := by
      intro c hc f hf1
      obtain ⟨f2, rfl⟩ : ∃ f2, f = f2 + 1 := ⟨f - 1, by omega⟩
      obtain ⟨cb, hcb, hcpar⟩ := hpl c hc
      have hne : nb.right ≠ some c := by
        rw [hr]; intro h
        exact hdisj c (PTree.root_mem hc) (PTree.root_mem h)
      simp only [get_next_loop, deref_some hcb, hcpar, is_right_son_eq hnb, hne, decide_False]
    -- the climb from the right child continues through `p`
    have hupr : ∀ c, r.root = some c → ∀ f, d + 1 ≤ f →
        get_next_loop m f (some c) = .ok (some nx) := by
      intro c hc f hf1
      obtain ⟨f2, rfl⟩ : ∃ f2, f = f2 + 1 := ⟨f - 1, by omega⟩
      obtain ⟨cb, hcb, hcpar⟩ := hpr2 c hc
      have he : nb.right = some c := by rw [hr]; exact hc
      simp only [get_next_loop, deref_some hcb, hcpar, is_right_son_eq hnb, he, decide_True]
      exact hup p rfl f2 (by omega)
    have hchain_l := ihl m p 1 hrl hnd2.1 hupl (by omega) (Nat.le_refl 1)
    have hchain_r := ihr m nx (d + 1) hrr hr_nd hupr (by omega) (by omega)
    refine NextChain_append m fuel nx l.ptrs (p :: r.ptrs) hchain_l ⟨?_, hchain_r⟩
    cases hrroot : r.root with
    | none =>
      have hr2 : r = .nil := (PTree.root_none_iff r).mp hrroot
      subst hr2
      have hnr : nb.right = none := by rw [hr]; rfl
      simp only [get_next, hnb, hnr, PTree.ptrs, List.head?_nil, Option.getD_none]
      exact hup p rfl fuel (by omega)
    | some c =>
      have hnr : nb.right = some c := by rw [hr]; exact hrroot
      simp only [get_next, hnb, hnr, get_leftmost]
      rw [get_leftmost_loop_spec m val r fuel c hrr hrroot (by omega) nx]

/-- The loop over positions started at the head of a chain visits exactly the chain. -/
theorem positions_of_chain (m : Mem) (fuel : Nat) (nx : Ptr) :
    ∀ (xs : List Ptr) (n : Nat), NextChain m fuel xs nx → (∀ x ∈ xs, x ≠ nx) →
      xs.length < n →
      bimap.positions m fuel n (some (xs.head?.getD nx)) (some nx) = .ok (xs.map some) := by
  intro xs
  induction xs with
  | nil =>
    intro n _ _ hn
    obtain ⟨n2, rfl⟩ : ∃ n2, n = n2 + 1 := ⟨n - 1, by simp at hn; omega⟩
    simp [bimap.positions]
  | cons x rest ih =>
    intro n hch hne hn
    obtain ⟨n2, rfl⟩ : ∃ n2, n = n2 + 1 := ⟨n - 1, by simp at hn; omega⟩
    obtain ⟨h1, h2⟩ := hch
    have hx : x ≠ nx := hne x (by simp)
    simp only [bimap.positions, List.head?_cons, Option.getD_some, Option.some.injEq, hx,
      if_false, h1]
    rw [ih n2 h2 (fun y hy => hne y (by simp [hy])) (by simp at hn; omega)]
    simp

/-- On a well-formed tree whose sentinel's right link is not a node of the tree,
`get_next` enumerates the nodes in in-order and then reaches the sentinel. -/
theorem tree_next_chain {cmp : T → T → Bool} {m : Mem} {val : Ptr → Option T} {s : Ptr}
    {t : PTree T} (hwf : TreeWF cmp m val s t)
    (hright : ∀ sb, m s = some sb → ∀ c ∈ t.ptrs, sb.right ≠ some c) {fuel : Nat}
    (hf : t.size + 1 ≤ fuel) : NextChain m fuel t.ptrs s := by
  obtain ⟨sb, hsb, hleft, hspar⟩ := hwf.sent
  refine next_chain_sub val fuel t m s 1 hwf.rep hwf.nodup ?_ (by omega) (Nat.le_refl 1)
  intro c hc f hf1
  obtain ⟨f2, rfl⟩ : ∃ f2, f = f2 + 1 := ⟨f - 1, by omega⟩
  obtain ⟨cb, hcb, hcpar⟩ := hwf.root_parent c hc
  have hne := hright sb hsb c (PTree.root_mem hc)
  simp only [get_next_loop, deref_some hcb, hcpar, is_right_son_eq hsb, hne, decide_False]

/-- `tree::begin` is the first node in in-order, the sentinel for the empty tree. -/
theorem tree_begin_spec {cmp : T → T → Bool} {m : Mem} {val : Ptr → Option T} {s : Ptr}
    {t : PTree T} (hwf : TreeWF cmp m val s t) {fuel : Nat} (hf : t.size + 1 ≤ fuel) :
    tree.begin m s fuel = .ok (some (t.ptrs.head?.getD s)) := by
  obtain ⟨sb, hsb, hleft, hspar⟩ := hwf.sent
  obtain ⟨f, rfl⟩ : ∃ f, fuel = f + 1 := ⟨fuel - 1, by omega⟩
  simp only [tree.begin, get_leftmost, get_leftmost_loop, hsb, hleft]
  cases hroot : t.root with
  | none =>
    have ht : t = .nil := (PTree.root_none_iff t).mp hroot
    subst ht
    rfl
  | some c =>
    simp only
    rw [get_leftmost_loop_spec m val t f c hwf.rep hroot (by omega) s]

end details


namespace details

variable {T : Type}

/-- Every node of a represented tree whose root has a parent has a non-null parent link. -/
theorem Rep_parent_some {m : Mem} {val : Ptr → Option T} :
    ∀ (t : PTree T) (par : Ptr), Rep m val t → ParentIs m t.root par →
      ∀ q ∈ t.ptrs, ∃ nb x, m q = some nb ∧ nb.parent = some x := by
  intro t
  induction t with
  | nil => intro _ _ _ q hq; simp [PTree.ptrs] at hq
  | node l p k pr r ihl ihr =>
    intro par hrep hpar q hq
    obtain ⟨hk, nb, hnb, hpr, hl, hr, hrl, hrr, hpl, hpr2⟩ := hrep
    simp only [PTree.ptrs, List.mem_append, List.mem_cons] at hq
    rcases hq with hq | hq | hq
    · exact ihl p hrl hpl q hq
    · subst hq
      obtain ⟨nb2, h1, h2⟩ := hpar q rfl
      exact ⟨nb2, par, h1, h2⟩
    · exact ihr p hrr hpr2 q hq

theorem TreeWF_congr {cmp : T → T → Bool} {m m2 : Mem} {val val2 : Ptr → Option T} {s : Ptr}
    {t : PTree T} (hwf : TreeWF cmp m val s t) (hm : ∀ q ∈ t.ptrs, m2 q = m q)
    (hv : ∀ q ∈ t.ptrs, val2 q = val q) (hs : m2 s = m s) : TreeWF cmp m2 val2 s t :=
  { sent := by rw [hs]; exact hwf.sent
    rep := Rep_congr t hm hv hwf.rep
    root_parent := ParentIs_congr (fun q hq => hm q (PTree.root_mem hq)) hwf.root_parent
    nodup := hwf.nodup
    sorted := hwf.sorted
    s_notin := hwf.s_notin
    heap := hwf.heap }

theorem mem_toList_of_mem_ptrs {t : PTree T} {p : Ptr} (h : p ∈ t.ptrs) :
    ∃ k, (p, k) ∈ t.toList := by
  rw [PTree.ptrs_eq_map] at h
  obtain ⟨⟨p2, k⟩, hm, rfl⟩ := List.mem_map.mp h
  exact ⟨k, hm⟩

theorem mem_ptrs_of_mem_toList {t : PTree T} {p : Ptr} {k : T} (h : (p, k) ∈ t.toList) :
    p ∈ t.ptrs := by
  rw [PTree.ptrs_eq_map]
  exact List.mem_map_of_mem Prod.fst h

theorem mem_keys_of_mem_toList {t : PTree T} {p : Ptr} {k : T} (h : (p, k) ∈ t.toList) :
    k ∈ t.keys := by
  rw [PTree.keys_eq_map]
  exact List.mem_map_of_mem Prod.snd h

end details

namespace bimap

open details

variable {L R : Type} {cl : L → L → Bool} {cr : R → R → Bool} {h : Heap L R} {c : Nat}
  {tl : PTree L} {tr : PTree R}

theorem partner_partner (p : Ptr) : partner (partner p) = p := by
  cases p with
  | sentinel c s => cases s <;> rfl
  | node e s => cases s <;> rfl

theorem entry_at_partner (h : Heap L R) (p : Ptr) : entry_at h (partner p) = entry_at h p := by
  cases p with
  | sentinel c s => rfl
  | node e s => rfl

theorem WF.partner_mem_right (hwf : WF cl cr h c tl tr) {p : Ptr} (hp : p ∈ tl.ptrs) :
    partner p ∈ tr.ptrs := by
  obtain ⟨e, rfl⟩ := hwf.left_side p hp
  exact (hwf.paired e).mp hp

theorem WF.partner_mem_left (hwf : WF cl cr h c tl tr) {p : Ptr} (hp : p ∈ tr.ptrs) :
    partner p ∈ tl.ptrs := by
  obtain ⟨e, rfl⟩ := hwf.right_side p hp
  exact (hwf.paired e).mpr hp

/-- The paired entry of a left node holds the key of the node and the key of its partner. -/
theorem WF.entry_at_left (hwf : WF cl cr h c tl tr) {p : Ptr} {k : L}
    (hp : (p, k) ∈ tl.toList) :
    ∃ r, (partner p, r) ∈ tr.toList ∧ entry_at h p = some (k, r) ∧
      h.left_value p = some k ∧ h.right_value (partner p) = some r := by
  have hp2 := mem_ptrs_of_mem_toList hp
  obtain ⟨r, hr⟩ := mem_toList_of_mem_ptrs (hwf.partner_mem_right hp2)
  have hv1 := Rep_val tl hwf.left_tree.rep _ hp
  have hv2 := Rep_val tr hwf.right_tree.rep _ hr
  obtain ⟨e, rfl⟩ := hwf.left_side p hp2
  refine ⟨r, hr, ?_, hv1, hv2⟩
  simp only [partner, Side.other] at hv2
  simp only at hv1
  simp only [entry_at, hv1, hv2]

/-- The paired entry of a right node holds the key of its partner and the key of the node. -/
theorem WF.entry_at_right (hwf : WF cl cr h c tl tr) {p : Ptr} {k : R}
    (hp : (p, k) ∈ tr.toList) :
    ∃ l, (partner p, l) ∈ tl.toList ∧ entry_at h p = some (l, k) ∧
      h.right_value p = some k ∧ h.left_value (partner p) = some l := by
  have hp2 := mem_ptrs_of_mem_toList hp
  obtain ⟨l, hl⟩ := mem_toList_of_mem_ptrs (hwf.partner_mem_left hp2)
  have hv1 := Rep_val tr hwf.right_tree.rep _ hp
  have hv2 := Rep_val tl hwf.left_tree.rep _ hl
  obtain ⟨e, rfl⟩ := hwf.right_side p hp2
  refine ⟨l, hl, ?_, hv1, hv2⟩
  simp only [partner, Side.other] at hv2
  simp only at hv1
  simp only [entry_at, hv1, hv2]

/-- `flip` at a node of the left tree is the partner node. -/
theorem WF.flip_left (hwf : WF cl cr h c tl tr) {p : Ptr} (hp : p ∈ tl.ptrs) :
    flip h.mem (some p) = .ok (some (partner p)) := by
  obtain ⟨nb, x, hnb, hx⟩ :=
    Rep_parent_some tl _ hwf.left_tree.rep hwf.left_tree.root_parent p hp
  obtain ⟨e, rfl⟩ := hwf.left_side p hp
  simp only [flip, deref_some hnb, hx, cross_cast, partner]

/-- `flip` at a node of the right tree is the partner node. -/
theorem WF.flip_right (hwf : WF cl cr h c tl tr) {p : Ptr} (hp : p ∈ tr.ptrs) :
    flip h.mem (some p) = .ok (some (partner p)) := by
  obtain ⟨nb, x, hnb, hx⟩ :=
    Rep_parent_some tr _ hwf.right_tree.rep hwf.right_tree.root_parent p hp
  obtain ⟨e, rfl⟩ := hwf.right_side p hp
  simp only [flip, deref_some hnb, hx, cross_cast, partner]

/-- `flip` maps each end position to the end position of the other side. -/
theorem WF.flip_end (hwf : WF cl cr h c tl tr) :
    flip h.mem (end_left c) = .ok (end_right c) ∧
      flip h.mem (end_right c) = .ok (end_left c) := by
  obtain ⟨sb, hsb, _, hpar⟩ := hwf.left_tree.sent
  obtain ⟨sb2, hsb2, hr⟩ := hwf.left_cross
  obtain ⟨rb, hrb, _, hrpar⟩ := hwf.right_tree.sent
  obtain ⟨rb2, hrb2, hr2⟩ := hwf.right_cross
  rw [hsb] at hsb2
  rw [hrb] at hrb2
  simp only [Option.some.injEq] at hsb2 hrb2
  subst hsb2 hrb2
  constructor
  · simp only [flip, end_left, tree.end_, deref_some hsb, hpar, hr, end_right]
  · simp only [flip, end_right, tree.end_, deref_some hrb, hrpar, hr2, end_left]

theorem WF.sentinel_not_mem_left (hwf : WF cl cr h c tl tr) (d : Nat) (s : Side) :
    Ptr.sentinel d s ∉ tl.ptrs := by
  intro hm
  obtain ⟨e, he⟩ := hwf.left_side _ hm
  cases he

theorem WF.sentinel_not_mem_right (hwf : WF cl cr h c tl tr) (d : Nat) (s : Side) :
    Ptr.sentinel d s ∉ tr.ptrs := by
  intro hm
  obtain ⟨e, he⟩ := hwf.right_side _ hm
  cases he

/-- The positions from `begin_left()` to `end_left()` are the nodes of the left tree. -/
theorem WF.positions_left_eq (hwf : WF cl cr h c tl tr) {fuel : Nat}
    (hf : tl.size + 1 ≤ fuel) : positions_left fuel h c = .ok (tl.ptrs.map some) := by
  have hb := tree_begin_spec hwf.left_tree hf
  have hright : ∀ sb, h.mem (Ptr.sentinel c .left) = some sb → ∀ q ∈ tl.ptrs,
      sb.right ≠ some q := by
    intro sb hsb q hq
    obtain ⟨sb2, hsb2, hr⟩ := hwf.left_cross
    rw [hsb] at hsb2
    simp only [Option.some.injEq] at hsb2
    subst hsb2
    rw [hr]
    intro heq
    simp only [Option.some.injEq] at heq
    subst heq
    exact hwf.sentinel_not_mem_left _ _ hq
  have hch := tree_next_chain hwf.left_tree hright hf
  simp only [positions_left, begin_left, hb, end_left, tree.end_]
  exact positions_of_chain _ _ _ _ _ hch
    (fun x hx heq => hwf.sentinel_not_mem_left c .left (heq ▸ hx))
    (by rw [PTree.length_ptrs]; omega)

/-- The positions from `begin_right()` to `end_right()` are the nodes of the right tree. -/
theorem WF.positions_right_eq (hwf : WF cl cr h c tl tr) {fuel : Nat}
    (hf : tr.size + 1 ≤ fuel) : positions_right fuel h c = .ok (tr.ptrs.map some) := by
  have hb := tree_begin_spec hwf.right_tree hf
  have hright : ∀ sb, h.mem (Ptr.sentinel c .right) = some sb → ∀ q ∈ tr.ptrs,
      sb.right ≠ some q := by
    intro sb hsb q hq
    obtain ⟨sb2, hsb2, hr⟩ := hwf.right_cross
    rw [hsb] at hsb2
    simp only [Option.some.injEq] at hsb2
    subst hsb2
    rw [hr]
    intro heq
    simp only [Option.some.injEq] at heq
    subst heq
    exact hwf.sentinel_not_mem_right _ _ hq
  have hch := tree_next_chain hwf.right_tree hright hf
  simp only [positions_right, begin_right, hb, end_right, tree.end_]
  exact positions_of_chain _ _ _ _ _ hch
    (fun x hx heq => hwf.sentinel_not_mem_right c .right (heq ▸ hx))
    (by rw [PTree.length_ptrs]; omega)

end bimap


namespace bimap

open details

variable {L R : Type} {cl : L → L → Bool} {cr : R → R → Bool} {h : Heap L R} {c : Nat}
  {tl : PTree L} {tr : PTree R}

theorem partner_injective : Function.Injective partner := by
  intro a b hab
  have := congrArg partner hab
  rwa [partner_partner, partner_partner] at this

/-- The partners of the left nodes are exactly the right nodes. -/
theorem WF.partner_perm (hwf : WF cl cr h c tl tr) : (tl.ptrs.map partner).Perm tr.ptrs := by
  refine (List.perm_ext_iff_of_nodup (hwf.left_tree.nodup.map partner_injective)
    hwf.right_tree.nodup).mpr ?_
  intro a
  constructor
  · intro ha
    obtain ⟨p, hp, rfl⟩ := List.mem_map.mp ha
    exact hwf.partner_mem_right hp
  · intro ha
    refine List.mem_map.mpr ⟨partner a, hwf.partner_mem_left ha, partner_partner a⟩

theorem WF.size_right (hwf : WF cl cr h c tl tr) : tr.size = tl.size := by
  rw [← PTree.length_ptrs, ← PTree.length_ptrs, ← hwf.partner_perm.length_eq, List.length_map]

theorem pairs_of_map_partner (h : Heap L R) (xs : List Ptr) :
    pairs_of h (xs.map partner) = pairs_of h xs := by
  induction xs with
  | nil => rfl
  | cons x rest ih =>
    simp only [pairs_of, List.map_cons, List.filterMap_cons, entry_at_partner] at ih ⊢
    rw [ih]

/-- Both trees hold the same pairs. -/
theorem WF.pairs_perm (hwf : WF cl cr h c tl tr) :
    (pairs_of h tl.ptrs).Perm (pairs_of h tr.ptrs) := by
  rw [← pairs_of_map_partner h tl.ptrs]
  exact hwf.partner_perm.filterMap _

theorem WF.pairs_left_eq_map (hwf : WF cl cr h c tl tr) :
    ∀ xs : List (Ptr × L), (∀ e ∈ xs, e ∈ tl.toList) →
      (pairs_of h (xs.map Prod.fst)).map Prod.fst = xs.map Prod.snd ∧
      (pairs_of h (xs.map Prod.fst)).length = xs.length := by
  intro xs
  induction xs with
  | nil => intro _; exact ⟨rfl, rfl⟩
  | cons x rest ih =>
    intro hx
    obtain ⟨p, k⟩ := x
    obtain ⟨r, _, he, _, _⟩ := hwf.entry_at_left (hx (p, k) (by simp))
    obtain ⟨ih1, ih2⟩ := ih (fun e he => hx e (by simp [he]))
    simp only [pairs_of, List.map_cons, List.filterMap_cons, he, List.length_cons] at ih1 ih2 ⊢
    exact ⟨by rw [ih1], by rw [ih2]⟩

theorem WF.pairs_right_eq_map (hwf : WF cl cr h c tl tr) :
    ∀ xs : List (Ptr × R), (∀ e ∈ xs, e ∈ tr.toList) →
      (pairs_of h (xs.map Prod.fst)).map Prod.snd = xs.map Prod.snd ∧
      (pairs_of h (xs.map Prod.fst)).length = xs.length := by
  intro xs
  induction xs with
  | nil => intro _; exact ⟨rfl, rfl⟩
  | cons x rest ih =>
    intro hx
    obtain ⟨p, k⟩ := x
    obtain ⟨r, _, he, _, _⟩ := hwf.entry_at_right (hx (p, k) (by simp))
    obtain ⟨ih1, ih2⟩ := ih (fun e he => hx e (by simp [he]))
    simp only [pairs_of, List.map_cons, List.filterMap_cons, he, List.length_cons] at ih1 ih2 ⊢
    exact ⟨by rw [ih1], by rw [ih2]⟩

/-- The left keys of the pairs in left order are the keys of the left tree. -/
theorem WF.pairs_left_keys (hwf : WF cl cr h c tl tr) :
    (pairs_of h tl.ptrs).map Prod.fst = tl.keys := by
  rw [PTree.ptrs_eq_map, PTree.keys_eq_map]
  exact (hwf.pairs_left_eq_map tl.toList (fun _ he => he)).1

/-- The right keys of the pairs in right order are the keys of the right tree. -/
theorem WF.pairs_right_keys (hwf : WF cl cr h c tl tr) :
    (pairs_of h tr.ptrs).map Prod.snd = tr.keys := by
  rw [PTree.ptrs_eq_map, PTree.keys_eq_map]
  exact (hwf.pairs_right_eq_map tr.toList (fun _ he => he)).1

theorem WF.pairs_left_length (hwf : WF cl cr h c tl tr) :
    (pairs_of h tl.ptrs).length = tl.size := by
  rw [← PTree.length_ptrs]
  conv_lhs => rw [PTree.ptrs_eq_map]
  rw [(hwf.pairs_left_eq_map tl.toList (fun _ he => he)).2, PTree.ptrs_eq_map, List.length_map]

theorem WF.pairs_right_length (hwf : WF cl cr h c tl tr) :
    (pairs_of h tr.ptrs).length = tr.size := by
  rw [← PTree.length_ptrs]
  conv_lhs => rw [PTree.ptrs_eq_map]
  rw [(hwf.pairs_right_eq_map tr.toList (fun _ he => he)).2, PTree.ptrs_eq_map, List.length_map]

/-- A pair of the container sits at a left node and at its partner in the right tree. -/
theorem WF.mem_pairs_left (hwf : WF cl cr h c tl tr) {l : L} {r : R}
    (hm : (l, r) ∈ pairs_of h tl.ptrs) :
    ∃ p, (p, l) ∈ tl.toList ∧ (partner p, r) ∈ tr.toList ∧ entry_at h p = some (l, r) := by
  obtain ⟨p, hp, he⟩ := List.mem_filterMap.mp hm
  obtain ⟨k, hk⟩ := mem_toList_of_mem_ptrs hp
  obtain ⟨r2, hr2, he2, _, _⟩ := hwf.entry_at_left hk
  rw [he2] at he
  simp only [Option.some.injEq, Prod.mk.injEq] at he
  obtain ⟨rfl, rfl⟩ := he
  exact ⟨p, hk, hr2, he2⟩

theorem WF.pairs_at_left_eq (hwf : WF cl cr h c tl tr) :
    ∀ xs : List Ptr, (∀ p ∈ xs, p ∈ tl.ptrs) →
      pairs_at_left h (xs.map some) = .ok (pairs_of h xs) := by
  intro xs
  induction xs with
  | nil => intro _; rfl
  | cons p rest ih =>
    intro hx
    have hp : p ∈ tl.ptrs := hx p (by simp)
    obtain ⟨k, hk⟩ := mem_toList_of_mem_ptrs hp
    obtain ⟨r, _, he, hv1, hv2⟩ := hwf.entry_at_left hk
    simp only [List.map_cons, pairs_at_left, get_value, hv1, hwf.flip_left hp, hv2,
      ih (fun q hq => hx q (by simp [hq])), pairs_of, List.filterMap_cons, he]

theorem WF.pairs_at_right_eq (hwf : WF cl cr h c tl tr) :
    ∀ xs : List Ptr, (∀ p ∈ xs, p ∈ tr.ptrs) →
      pairs_at_right h (xs.map some) = .ok (pairs_of h xs) := by
  intro xs
  induction xs with
  | nil => intro _; rfl
  | cons p rest ih =>
    intro hx
    have hp : p ∈ tr.ptrs := hx p (by simp)
    obtain ⟨k, hk⟩ := mem_toList_of_mem_ptrs hp
    obtain ⟨r, _, he, hv1, hv2⟩ := hwf.entry_at_right hk
    simp only [List.map_cons, pairs_at_right, get_value, hv1, hwf.flip_right hp, hv2,
      ih (fun q hq => hx q (by simp [hq])), pairs_of, List.filterMap_cons, he]

/-- The enumeration from the left side yields the pairs of the left tree in order. -/
theorem WF.entries_left_eq (hwf : WF cl cr h c tl tr) {fuel : Nat} (hf : tl.size + 1 ≤ fuel) :
    entries_left fuel h c = .ok (pairs_of h tl.ptrs) := by
  simp only [entries_left, hwf.positions_left_eq hf]
  exact hwf.pairs_at_left_eq tl.ptrs (fun _ hp => hp)

/-- The enumeration from the right side yields the pairs of the right tree in order. -/
theorem WF.entries_right_eq (hwf : WF cl cr h c tl tr) {fuel : Nat} (hf : tl.size + 1 ≤ fuel) :
    entries_right fuel h c = .ok (pairs_of h tr.ptrs) := by
  have hf2 : tr.size + 1 ≤ fuel := by rw [hwf.size_right]; exact hf
  simp only [entries_right, hwf.positions_right_eq hf2]
  exact hwf.pairs_at_right_eq tr.ptrs (fun _ hp => hp)

end bimap


namespace bimap

open details

variable {L R : Type} {cl : L → L → Bool} {cr : R → R → Bool} {h : Heap L R} {c : Nat}
  {tl : PTree L} {tr : PTree R}

theorem lookup_mem {T : Type} (cmp : T → T → Bool) (value : T) (t : PTree T) (p : Ptr)
    (hl : PTree.lookup cmp value t = some p) : p ∈ t.ptrs := by
  obtain ⟨k, hk, _⟩ := PTree.lookup_sound cmp value t p hl
  exact mem_ptrs_of_mem_toList hk

theorem WF.find_left_eq (hwf : WF cl cr h c tl tr) (key : L) {fuel : Nat}
    (hf : tl.size + 1 ≤ fuel) :
    tree.find cl h.left_value h.mem (Ptr.sentinel c .left) fuel key =
      .ok (some ((PTree.lookup cl key tl).getD (Ptr.sentinel c .left))) :=
  tree_find_spec hwf.left_tree key (by omega)

theorem WF.find_right_eq (hwf : WF cl cr h c tl tr) (key : R) {fuel : Nat}
    (hf : tl.size + 1 ≤ fuel) :
    tree.find cr h.right_value h.mem (Ptr.sentinel c .right) fuel key =
      .ok (some ((PTree.lookup cr key tr).getD (Ptr.sentinel c .right))) :=
  tree_find_spec hwf.right_tree key (by rw [hwf.size_right]; omega)

theorem WF.lookup_left_ne_end (hwf : WF cl cr h c tl tr) {key : L} {p : Ptr}
    (hl : PTree.lookup cl key tl = some p) : p ≠ Ptr.sentinel c .left := by
  rintro rfl
  exact hwf.sentinel_not_mem_left _ _ (lookup_mem cl key tl _ hl)

theorem WF.lookup_right_ne_end (hwf : WF cl cr h c tl tr) {key : R} {p : Ptr}
    (hl : PTree.lookup cr key tr = some p) : p ≠ Ptr.sentinel c .right := by
  rintro rfl
  exact hwf.sentinel_not_mem_right _ _ (lookup_mem cr key tr _ hl)

/-- `insert` rejects a pair one of whose keys is found by the lookups. -/
theorem WF.insert_reject (hwf : WF cl cr h c tl tr) (left : L) (right : R) (pl pr : Nat)
    {fuel : Nat} (hf : tl.size + 1 ≤ fuel)
    (hfound : PTree.lookup cl left tl ≠ none ∨ PTree.lookup cr right tr ≠ none) :
    insert cl cr fuel h c left right pl pr = .ok (h, end_left c) := by
  simp only [insert, hwf.find_left_eq left hf, hwf.find_right_eq right hf, tree.end_]
  cases h1 : PTree.lookup cl left tl with
  | some p =>
    have hne := hwf.lookup_left_ne_end h1
    simp [hne]
  | none =>
    cases h2 : PTree.lookup cr right tr with
    | some q =>
      have hne := hwf.lookup_right_ne_end h2
      simp [hne]
    | none =>
      rw [h1, h2] at hfound
      simp at hfound

theorem WF.alloc_lt_left (hwf : WF cl cr h c tl tr) {e : Nat} {s : Side}
    (hp : Ptr.node e s ∈ tl.ptrs) : e < h.next := by
  by_contra hlt
  obtain ⟨nb, hnb⟩ := Rep_alloc tl hwf.left_tree.rep _ hp
  rw [hwf.fresh e s (by omega)] at hnb
  cases hnb

theorem WF.alloc_lt_right (hwf : WF cl cr h c tl tr) {e : Nat} {s : Side}
    (hp : Ptr.node e s ∈ tr.ptrs) : e < h.next := by
  by_contra hlt
  obtain ⟨nb, hnb⟩ := Rep_alloc tr hwf.right_tree.rep _ hp
  rw [hwf.fresh e s (by omega)] at hnb
  cases hnb

theorem WF.right_not_mem_left (hwf : WF cl cr h c tl tr) (e : Nat) :
    Ptr.node e .right ∉ tl.ptrs := by
  intro hm
  obtain ⟨e2, he⟩ := hwf.left_side _ hm
  cases he

theorem WF.left_not_mem_right (hwf : WF cl cr h c tl tr) (e : Nat) :
    Ptr.node e .left ∉ tr.ptrs := by
  intro hm
  obtain ⟨e2, he⟩ := hwf.right_side _ hm
  cases he

/-- `insert` of a pair whose keys are both absent creates the entry in both trees. -/
theorem WF.insert_ok (hcl : StrictWeakOrder cl) (hcr : StrictWeakOrder cr)
    (hwf : WF cl cr h c tl tr) {left : L} {right : R} (pl pr : Nat) {fuel : Nat}
    (hf : tl.size + 2 ≤ fuel) (hl : PTree.lookup cl left tl = none)
    (hr : PTree.lookup cr right tr = none) :
    ∃ h2, insert cl cr fuel h c left right pl pr = .ok (h2, some (Ptr.node h.next .left)) ∧
      WF cl cr h2 c (PTree.insert cl (Ptr.node h.next .left) left pl tl)
        (PTree.insert cr (Ptr.node h.next .right) right pr tr) ∧
      h2.left_value = Function.update h.left_value (Ptr.node h.next .left) (some left) ∧
      h2.right_value = Function.update h.right_value (Ptr.node h.next .right) (some right) ∧
      h2.sz = Function.update h.sz c (h.sz c + 1) ∧ h2.next = h.next + 1 ∧
      (∀ q, q ∉ tl.ptrs → q ∉ tr.ptrs → q ≠ Ptr.node h.next .left →
        q ≠ Ptr.node h.next .right → q ≠ Ptr.sentinel c .left → q ≠ Ptr.sentinel c .right →
        h2.mem q = h.mem q) := by
  have hnl : Ptr.node h.next .left ∉ tl.ptrs := fun hm => by
    have := hwf.alloc_lt_left hm; omega
  have hnr : Ptr.node h.next .right ∉ tr.ptrs := fun hm => by
    have := hwf.alloc_lt_right hm; omega
  have hh1_mem : ∀ q, q ≠ Ptr.node h.next .left → q ≠ Ptr.node h.next .right →
      (new_node h left right pl pr).mem q = h.mem q := by
    intro q h1 h2
    simp only [new_node]
    rw [Function.update_noteq h2, Function.update_noteq h1]
  -- the left tree in the state after `new`
  have hwfl1 : TreeWF cl (new_node h left right pl pr).mem
      (new_node h left right pl pr).left_value (Ptr.sentinel c .left) tl := by
    refine TreeWF_congr hwf.left_tree ?_ ?_ (hh1_mem _ (by simp) (by simp))
    · intro q hq
      exact hh1_mem q (fun e => hnl (e ▸ hq)) (fun e => hwf.right_not_mem_left _ (e ▸ hq))
    · intro q hq
      simp only [new_node]
      rw [Function.update_noteq (fun e : q = Ptr.node h.next .left => hnl (e ▸ hq))]
  have hh1_nl : (new_node h left right pl pr).mem (Ptr.node h.next .left) =
      some { left := none, right := none, parent := none, priority := pl } := by
    simp [new_node]
  have hh1_vl : (new_node h left right pl pr).left_value (Ptr.node h.next .left) =
      some left := by
    simp [new_node]
  have hnsl : Ptr.node h.next .left ≠ Ptr.sentinel c .left := by simp
  obtain ⟨m1, hrun1, hwfl2, hfr1, hsl1⟩ := tree_insert_spec hcl hwfl1 hh1_nl hh1_vl hnl hnsl
    (PTree.lookup_none hcl left tl hwf.left_tree.sorted hl) hf
  -- the right tree is untouched by the insertion into the left tree
  have hm1_right : ∀ q, q ∈ tr.ptrs → m1 q = h.mem q := by
    intro q hq
    obtain ⟨e, rfl⟩ := hwf.right_side q hq
    rw [hfr1 _ (hwf.right_not_mem_left e) (by simp) (by simp)]
    exact hh1_mem _ (by simp) (fun e2 => hnr (e2 ▸ hq))
  have hm1_sr : m1 (Ptr.sentinel c .right) = h.mem (Ptr.sentinel c .right) := by
    rw [hfr1 _ (hwf.sentinel_not_mem_left _ _) (by simp) (by simp)]
    exact hh1_mem _ (by simp) (by simp)
  have hwfr1 : TreeWF cr m1 (new_node h left right pl pr).right_value
      (Ptr.sentinel c .right) tr := by
    refine TreeWF_congr hwf.right_tree hm1_right ?_ hm1_sr
    intro q hq
    simp only [new_node]
    rw [Function.update_noteq (fun e : q = Ptr.node h.next .right => hnr (e ▸ hq))]
  have hm1_nr : m1 (Ptr.node h.next .right) =
      some { left := none, right := none, parent := none, priority := pr } := by
    rw [hfr1 _ (hwf.right_not_mem_left _) (by simp) (by simp)]
    simp [new_node]
  have hsz2 : tr.size + 2 ≤ fuel := by rw [hwf.size_right]; exact hf
  have hh1_vr : (new_node h left right pl pr).right_value (Ptr.node h.next .right) =
      some right := by
    simp [new_node]
  have hnsr : Ptr.node h.next .right ≠ Ptr.sentinel c .right := by simp
  obtain ⟨m2, hrun2, hwfr2, hfr2, hsr2⟩ := tree_insert_spec hcr hwfr1 hm1_nr hh1_vr hnr hnsr
    (PTree.lookup_none hcr right tr hwf.right_tree.sorted hr) hsz2
  have hpermL := PTree.insert_ptrs_perm hcl (Ptr.node h.next .left) left pl tl
    hwf.left_tree.sorted
  have hpermR := PTree.insert_ptrs_perm hcr (Ptr.node h.next .right) right pr tr
    hwf.right_tree.sorted
  have hmemL : ∀ q, q ∈ (PTree.insert cl (Ptr.node h.next .left) left pl tl).ptrs ↔
      q = Ptr.node h.next .left ∨ q ∈ tl.ptrs := fun q =>
    (hpermL.mem_iff).trans List.mem_cons
  have hmemR : ∀ q, q ∈ (PTree.insert cr (Ptr.node h.next .right) right pr tr).ptrs ↔
      q = Ptr.node h.next .right ∨ q ∈ tr.ptrs := fun q =>
    (hpermR.mem_iff).trans List.mem_cons
  -- the left tree is untouched by the insertion into the right tree
  have hm2_left : ∀ q, q ∈ (PTree.insert cl (Ptr.node h.next .left) left pl tl).ptrs →
      m2 q = m1 q := by
    intro q hq
    have hq2 : ∃ e, q = Ptr.node e .left := by
      rcases (hmemL q).mp hq with h1 | h1
      · exact ⟨_, h1⟩
      · exact hwf.left_side q h1
    obtain ⟨e, rfl⟩ := hq2
    exact hfr2 _ (hwf.left_not_mem_right e) (by simp) (by simp)
  have hm2_sl : m2 (Ptr.sentinel c .left) = m1 (Ptr.sentinel c .left) :=
    hfr2 _ (hwf.sentinel_not_mem_right _ _) (by simp) (by simp)
  have hwfl3 : TreeWF cl m2 (new_node h left right pl pr).left_value (Ptr.sentinel c .left)
      (PTree.insert cl (Ptr.node h.next .left) left pl tl) :=
    TreeWF_congr hwfl2 hm2_left (fun _ _ => rfl) hm2_sl
  refine ⟨{ new_node h left right pl pr with
      mem := m2
      sz := Function.update (new_node h left right pl pr).sz c
        ((new_node h left right pl pr).sz c + 1) }, ?_, ?_, rfl, rfl, rfl, rfl, ?_⟩
  · simp only [insert, hwf.find_left_eq left (by omega : tl.size + 1 ≤ fuel),
      hwf.find_right_eq right (by omega : tl.size + 1 ≤ fuel), hl, hr, tree.end_,
      Option.getD_none, ne_eq, not_true_eq_false, if_false, hrun1, hrun2]
  · obtain ⟨sb, hsb, hsbr⟩ := hwf.left_cross
    obtain ⟨rb, hrb, hrbr⟩ := hwf.right_cross
    refine
      { left_tree := hwfl3
        right_tree := hwfr2
        left_cross := ?_
        right_cross := ?_
        left_side := ?_
        right_side := ?_
        paired := ?_
        size_eq := ?_
        fresh := ?_ }
    · have h1 := hsl1 sb (by rw [hh1_mem _ (by simp) (by simp)]; exact hsb)
      refine ⟨{ sb with left := (PTree.insert cl (Ptr.node h.next .left) left pl tl).root },
        ?_, hsbr⟩
      show m2 _ = _
      rw [hm2_sl]; exact h1
    · have h1 := hsr2 rb (by rw [hm1_sr]; exact hrb)
      exact ⟨{ rb with left := (PTree.insert cr (Ptr.node h.next .right) right pr tr).root },
        h1, hrbr⟩
    · intro p hp
      rcases (hmemL p).mp hp with h1 | h1
      · exact ⟨_, h1⟩
      · exact hwf.left_side p h1
    · intro p hp
      rcases (hmemR p).mp hp with h1 | h1
      · exact ⟨_, h1⟩
      · exact hwf.right_side p h1
    · intro e
      rw [hmemL, hmemR]
      simp only [Ptr.node.injEq, and_true]
      rw [hwf.paired e]
    · show Function.update _ c _ c = _
      rw [Function.update_same, PTree.insert_size]
      simp only [new_node]
      rw [hwf.size_eq]
    · intro e s he
      show m2 (Ptr.node e s) = none
      have hlt : h.next + 1 ≤ e := he
      have hne1 : Ptr.node e s ≠ Ptr.node h.next .left := by
        simp only [ne_eq, Ptr.node.injEq, not_and]; intro h1; omega
      have hne2 : Ptr.node e s ≠ Ptr.node h.next .right := by
        simp only [ne_eq, Ptr.node.injEq, not_and]; intro h1; omega
      have hn1 : Ptr.node e s ∉ tl.ptrs := fun hm => by
        have := hwf.alloc_lt_left hm; omega
      have hn2 : Ptr.node e s ∉ tr.ptrs := fun hm => by
        have := hwf.alloc_lt_right hm; omega
      rw [hfr2 _ hn2 hne2 (by simp), hfr1 _ hn1 hne1 (by simp), hh1_mem _ hne1 hne2]
      exact hwf.fresh e s (by omega)
  · intro q h1 h2 h3 h4 h5 h6
    show m2 q = _
    rw [hfr2 q h2 h4 h6, hfr1 q h1 h3 h5, hh1_mem q h3 h4]

end bimap


namespace details

theorem NextChain_at (m : Mem) (fuel : Nat) (nx : Ptr) :
    ∀ (pre : List Ptr) (x : Ptr) (post : List Ptr), NextChain m fuel (pre ++ x :: post) nx →
      get_next m fuel (some x) = .ok (some (post.head?.getD nx)) := by
  intro pre
  induction pre with
  | nil => intro x post hc; exact hc.1
  | cons y rest ih => intro x post hc; exact ih x post hc.2

end details

namespace bimap

open details

variable {L R : Type} {cl : L → L → Bool} {cr : R → R → Bool} {h : Heap L R} {c : Nat}
  {tl : PTree L} {tr : PTree R}

/-- `++` at a node of the left tree leads to the following node, the sentinel after the
last node. -/
theorem WF.next_left (hwf : WF cl cr h c tl tr) {fuel : Nat} (hf : tl.size + 1 ≤ fuel)
    {pre post : List Ptr} {p : Ptr} (hsplit : tl.ptrs = pre ++ p :: post) :
    get_next h.mem fuel (some p) = .ok (some (post.head?.getD (Ptr.sentinel c .left))) := by
  have hright : ∀ sb, h.mem (Ptr.sentinel c .left) = some sb → ∀ q ∈ tl.ptrs,
      sb.right ≠ some q := by
    intro sb hsb q hq
    obtain ⟨sb2, hsb2, hr⟩ := hwf.left_cross
    rw [hsb] at hsb2
    simp only [Option.some.injEq] at hsb2
    subst hsb2
    rw [hr]
    intro heq
    simp only [Option.some.injEq] at heq
    subst heq
    exact hwf.sentinel_not_mem_left _ _ hq
  have hch := tree_next_chain hwf.left_tree hright hf
  rw [hsplit] at hch
  exact NextChain_at _ _ _ pre p post hch

/-- `erase_left(it)` at a node of the left tree removes the entry from both trees and
returns the following position. -/
theorem WF.erase_left_ok (hwf : WF cl cr h c tl tr) {fuel : Nat} (hf : tl.size + 1 ≤ fuel)
    {pre post : List Ptr} {p : Ptr} (hsplit : tl.ptrs = pre ++ p :: post) :
    ∃ h2, erase_left fuel h c (some p) =
        .ok (h2, some (post.head?.getD (Ptr.sentinel c .left))) ∧
      WF cl cr h2 c (PTree.erase p tl) (PTree.erase (partner p) tr) ∧
      h2.left_value = Function.update h.left_value p none ∧
      h2.right_value = Function.update h.right_value (partner p) none ∧
      h2.sz = Function.update h.sz c (h.sz c - 1) ∧ h2.next = h.next ∧
      (∀ q, q ∉ tl.ptrs → q ∉ tr.ptrs → q ≠ Ptr.sentinel c .left →
        q ≠ Ptr.sentinel c .right → h2.mem q = h.mem q) := by
  have hp : p ∈ tl.ptrs := by rw [hsplit]; simp
  obtain ⟨e, rfl⟩ := hwf.left_side p hp
  have hq : Ptr.node e .right ∈ tr.ptrs := (hwf.paired e).mp hp
  have hpart : partner (Ptr.node e .left) = Ptr.node e .right := rfl
  rw [hpart]
  obtain ⟨m1, hrun1, hwfl1, hfr1, hsl1⟩ := tree_erase_spec hwf.left_tree hp
    (by omega : tl.size ≤ fuel)
  -- the right tree is untouched by the erasure from the left tree
  have hwfr1 : TreeWF cr m1 h.right_value (Ptr.sentinel c .right) tr := by
    refine TreeWF_congr hwf.right_tree ?_ (fun _ _ => rfl) ?_
    · intro q hq2
      obtain ⟨e2, rfl⟩ := hwf.right_side q hq2
      exact hfr1 _ (hwf.right_not_mem_left e2) (by simp)
    · exact hfr1 _ (hwf.sentinel_not_mem_left _ _) (by simp)
  obtain ⟨m2, hrun2, hwfr2, hfr2, hsr2⟩ := tree_erase_spec hwfr1 hq
    (by rw [hwf.size_right]; omega : tr.size ≤ fuel)
  have hmemL := PTree.mem_erase_ptrs (Ptr.node e .left) tl hwf.left_tree.nodup hp
  have hmemR := PTree.mem_erase_ptrs (Ptr.node e .right) tr hwf.right_tree.nodup hq
  have hwfl2 : TreeWF cl m2 h.left_value (Ptr.sentinel c .left)
      (PTree.erase (Ptr.node e .left) tl) := by
    refine TreeWF_congr hwfl1 ?_ (fun _ _ => rfl) ?_
    · intro q hq2
      obtain ⟨e2, rfl⟩ := hwf.left_side q ((hmemL q).mp hq2).1
      exact hfr2 _ (hwf.left_not_mem_right e2) (by simp)
    · exact hfr2 _ (hwf.sentinel_not_mem_right _ _) (by simp)
  have hdel_mem : ∀ q, q ≠ Ptr.node e .left → q ≠ Ptr.node e .right →
      (delete_node { h with mem := m2, sz := Function.update h.sz c (h.sz c - 1) } e).mem q =
        m2 q := by
    intro q h1 h2
    simp only [delete_node]
    rw [Function.update_noteq h2, Function.update_noteq h1]
  refine ⟨delete_node { h with mem := m2, sz := Function.update h.sz c (h.sz c - 1) } e,
    ?_, ?_, rfl, rfl, rfl, rfl, ?_⟩
  · have hne : (some (Ptr.node e .left) : Option Ptr) ≠ end_left c := by
      simp [end_left, tree.end_]
    have hfl := hwf.flip_left hp
    rw [hpart] at hfl
    simp only [erase_left, hne, if_false, hfl, hwf.next_left hf hsplit, hrun1, hrun2]
  · obtain ⟨sb, hsb, hsbr⟩ := hwf.left_cross
    obtain ⟨rb, hrb, hrbr⟩ := hwf.right_cross
    refine
      { left_tree := ?_
        right_tree := ?_
        left_cross := ?_
        right_cross := ?_
        left_side := fun q hq2 => hwf.left_side q ((hmemL q).mp hq2).1
        right_side := fun q hq2 => hwf.right_side q ((hmemR q).mp hq2).1
        paired := ?_
        size_eq := ?_
        fresh := ?_ }
    · refine TreeWF_congr hwfl2 ?_ ?_ (hdel_mem _ (by simp) (by simp))
      · intro q hq2
        have h1 := (hmemL q).mp hq2
        refine hdel_mem q h1.2 ?_
        rintro rfl
        exact hwf.right_not_mem_left _ h1.1
      · intro q hq2
        have h1 := (hmemL q).mp hq2
        simp only [delete_node]
        rw [Function.update_noteq h1.2]
    · refine TreeWF_congr hwfr2 ?_ ?_ (hdel_mem _ (by simp) (by simp))
      · intro q hq2
        have h1 := (hmemR q).mp hq2
        refine hdel_mem q ?_ h1.2
        rintro rfl
        exact hwf.left_not_mem_right _ h1.1
      · intro q hq2
        have h1 := (hmemR q).mp hq2
        simp only [delete_node]
        rw [Function.update_noteq h1.2]
    · refine ⟨{ sb with left := (PTree.erase (Ptr.node e .left) tl).root }, ?_, hsbr⟩
      rw [hdel_mem _ (by simp) (by simp), hfr2 _ (hwf.sentinel_not_mem_right _ _) (by simp)]
      exact hsl1 sb hsb
    · refine ⟨{ rb with left := (PTree.erase (Ptr.node e .right) tr).root }, ?_, hrbr⟩
      rw [hdel_mem _ (by simp) (by simp)]
      refine hsr2 rb ?_
      rw [hfr1 _ (hwf.sentinel_not_mem_left _ _) (by simp)]
      exact hrb
    · intro e2
      rw [hmemL, hmemR, hwf.paired e2]
      simp only [ne_eq, Ptr.node.injEq, and_true]
    · show Function.update h.sz c (h.sz c - 1) c = _
      rw [Function.update_same, hwf.size_eq]
      have := PTree.erase_size (Ptr.node e .left) tl hwf.left_tree.nodup hp
      omega
    · intro e2 s he
      have hlt : h.next ≤ e2 := he
      have hn1 : Ptr.node e2 s ∉ tl.ptrs := fun hm => by
        have := hwf.alloc_lt_left hm; omega
      have hn2 : Ptr.node e2 s ∉ tr.ptrs := fun hm => by
        have := hwf.alloc_lt_right hm; omega
      have he_lt := hwf.alloc_lt_left hp
      have hne1 : Ptr.node e2 s ≠ Ptr.node e .left := by
        simp only [ne_eq, Ptr.node.injEq, not_and]; intro h1; omega
      have hne2 : Ptr.node e2 s ≠ Ptr.node e .right := by
        simp only [ne_eq, Ptr.node.injEq, not_and]; intro h1; omega
      rw [hdel_mem _ hne1 hne2, hfr2 _ hn2 (by simp), hfr1 _ hn1 (by simp)]
      exact hwf.fresh e2 s hlt
  · intro q h1 h2 h5 h6
    rw [hdel_mem q (fun he => h1 (he ▸ hp)) (fun he => h2 (he ▸ hq)), hfr2 q h2 h6,
      hfr1 q h1 h5]

/-- `erase_left(it)` at the end position does nothing and returns the null position. -/
theorem erase_left_end (fuel : Nat) (h : Heap L R) (c : Nat) :
    erase_left fuel h c (end_left c) = .ok (h, none) := by
  simp [erase_left]

/-- `at_left` returns the right key of the entry found by the lookup and fails with
`out_of_range` when the lookup fails. -/
theorem WF.at_left_eq (hwf : WF cl cr h c tl tr) (key : L) {fuel : Nat}
    (hf : tl.size + 1 ≤ fuel) :
    at_left cl fuel h c key =
      match PTree.lookup cl key tl with
      | none => .error .out_of_range
      | some p => get_value h.right_value (some (partner p)) := by
  simp only [at_left, hwf.find_left_eq key hf, tree.end_]
  cases h1 : PTree.lookup cl key tl with
  | none => simp
  | some p =>
    have hne := hwf.lookup_left_ne_end h1
    obtain ⟨e, rfl⟩ := hwf.left_side p (lookup_mem cl key tl _ h1)
    simp [cross_cast, partner]

/-- `at_right` returns the left key of the entry found by the lookup and fails with
`out_of_range` when the lookup fails. -/
theorem WF.at_right_eq (hwf : WF cl cr h c tl tr) (key : R) {fuel : Nat}
    (hf : tl.size + 1 ≤ fuel) :
    at_right cr fuel h c key =
      match PTree.lookup cr key tr with
      | none => .error .out_of_range
      | some p => get_value h.left_value (some (partner p)) := by
  simp only [at_right, hwf.find_right_eq key hf, tree.end_]
  cases h1 : PTree.lookup cr key tr with
  | none => simp
  | some p =>
    have hne := hwf.lookup_right_ne_end h1
    obtain ⟨e, rfl⟩ := hwf.right_side p (lookup_mem cr key tr _ h1)
    simp [cross_cast, partner]

end bimap


namespace details

variable {T : Type}

/-- In a strictly sorted list two members are equal or strictly ordered one way. -/
theorem pairwise_trichotomy {α : Type} {r : α → α → Prop} :
    ∀ {l : List α}, l.Pairwise r → ∀ a ∈ l, ∀ b ∈ l, a = b ∨ r a b ∨ r b a := by
  intro l hl
  induction hl with
  | nil => intro a ha; simp at ha
  | cons hx _ ih =>
    intro a ha b hb
    rcases List.mem_cons.mp ha with rfl | ha2
    · rcases List.mem_cons.mp hb with rfl | hb2
      · exact Or.inl rfl
      · exact Or.inr (Or.inl (hx b hb2))
    · rcases List.mem_cons.mp hb with rfl | hb2
      · exact Or.inr (Or.inr (hx a ha2))
      · exact ih a ha2 b hb2

theorem toList_pairwise {cmp : T → T → Bool} {t : PTree T}
    (hs : t.keys.Pairwise (fun a b => cmp a b = true)) :
    t.toList.Pairwise (fun a b => cmp a.2 b.2 = true) := by
  rw [PTree.keys_eq_map, List.pairwise_map] at hs
  exact hs

/-- In a search tree with distinct nodes, two nodes carry equivalent keys only when they
are the same node. -/
theorem same_node_of_equal {cmp : T → T → Bool} (_hc : StrictWeakOrder cmp) {t : PTree T}
    (hs : t.keys.Pairwise (fun a b => cmp a b = true)) {p q : Ptr} {k k2 : T}
    (hp : (p, k) ∈ t.toList) (hq : (q, k2) ∈ t.toList) (he : tree.equal cmp k k2 = true) :
    (p, k) = (q, k2) := by
  rcases pairwise_trichotomy (toList_pairwise hs) _ hp _ hq with h1 | h1 | h1
  · exact h1
  · rw [equal_iff] at he
    simp only at h1
    rw [he.1] at h1; cases h1
  · rw [equal_iff] at he
    simp only at h1
    rw [he.2] at h1; cases h1

theorem key_unique_of_nodup {t : PTree T} (hnd : t.ptrs.Nodup) {p : Ptr} {k k2 : T}
    (hp : (p, k) ∈ t.toList) (hq : (p, k2) ∈ t.toList) : k = k2 := by
  rw [PTree.ptrs_eq_map] at hnd
  have := List.inj_on_of_nodup_map hnd hp hq rfl
  exact (Prod.mk.inj this).2

end details

namespace bimap

open details

variable {L R : Type} {cl : L → L → Bool} {cr : R → R → Bool} {h : Heap L R} {c : Nat}
  {tl : PTree L} {tr : PTree R}

theorem pairs_of_congr {h h2 : Heap L R} :
    ∀ xs : List Ptr, (∀ p ∈ xs, entry_at h2 p = entry_at h p) → pairs_of h2 xs = pairs_of h xs := by
  intro xs
  induction xs with
  | nil => intro _; rfl
  | cons x rest ih =>
    intro hx
    simp only [pairs_of, List.filterMap_cons, hx x (by simp)] at ih ⊢
    rw [ih (fun p hp => hx p (by simp [hp]))]

theorem pairs_of_append (h : Heap L R) (xs ys : List Ptr) :
    pairs_of h (xs ++ ys) = pairs_of h xs ++ pairs_of h ys := by
  simp only [pairs_of, List.filterMap_append]

/-- A pair of the container sits at a right node and at its partner in the left tree. -/
theorem WF.mem_pairs_right (hwf : WF cl cr h c tl tr) {l : L} {r : R}
    (hm : (l, r) ∈ pairs_of h tr.ptrs) :
    ∃ p, (p, r) ∈ tr.toList ∧ (partner p, l) ∈ tl.toList ∧ entry_at h p = some (l, r) := by
  obtain ⟨p, hp, he⟩ := List.mem_filterMap.mp hm
  obtain ⟨k, hk⟩ := mem_toList_of_mem_ptrs hp
  obtain ⟨l2, hl2, he2, _, _⟩ := hwf.entry_at_right hk
  rw [he2] at he
  simp only [Option.some.injEq, Prod.mk.injEq] at he
  obtain ⟨rfl, rfl⟩ := he
  exact ⟨p, hk, hl2, he2⟩

theorem WF.mem_pairs_of_left (hwf : WF cl cr h c tl tr) {p : Ptr} {k : L}
    (hp : (p, k) ∈ tl.toList) :
    ∃ r, (k, r) ∈ pairs_of h tl.ptrs ∧ h.right_value (partner p) = some r := by
  obtain ⟨r, _, he, _, hv⟩ := hwf.entry_at_left hp
  exact ⟨r, List.mem_filterMap.mpr ⟨p, mem_ptrs_of_mem_toList hp, he⟩, hv⟩

theorem WF.mem_pairs_of_right (hwf : WF cl cr h c tl tr) {p : Ptr} {k : R}
    (hp : (p, k) ∈ tr.toList) :
    ∃ l, (l, k) ∈ pairs_of h tl.ptrs ∧ h.left_value (partner p) = some l := by
  obtain ⟨l, _, he, _, hv⟩ := hwf.entry_at_right hp
  have : (l, k) ∈ pairs_of h tr.ptrs :=
    List.mem_filterMap.mpr ⟨p, mem_ptrs_of_mem_toList hp, he⟩
  exact ⟨l, hwf.pairs_perm.mem_iff.mpr this, hv⟩

/-- The lookup in the left tree fails exactly when no pair has an equivalent left key. -/
theorem WF.lookup_left_none_iff (hcl : StrictWeakOrder cl) (hwf : WF cl cr h c tl tr)
    (key : L) :
    PTree.lookup cl key tl = none ↔
      ∀ e ∈ pairs_of h tl.ptrs, tree.equal cl e.1 key = false := by
  constructor
  · intro hl e he
    obtain ⟨p, hp, _, _⟩ := hwf.mem_pairs_left (l := e.1) (r := e.2) he
    rw [equal_symm]
    exact PTree.lookup_none hcl key tl hwf.left_tree.sorted hl _ (mem_keys_of_mem_toList hp)
  · intro hall
    cases hl : PTree.lookup cl key tl with
    | none => rfl
    | some p =>
      exfalso
      obtain ⟨k, hk, heq⟩ := PTree.lookup_sound cl key tl p hl
      obtain ⟨r, hr, _⟩ := hwf.mem_pairs_of_left hk
      have := hall _ hr
      rw [equal_symm] at this
      simp only at this
      rw [heq] at this
      cases this

/-- The lookup in the right tree fails exactly when no pair has an equivalent right key. -/
theorem WF.lookup_right_none_iff (hcr : StrictWeakOrder cr) (hwf : WF cl cr h c tl tr)
    (key : R) :
    PTree.lookup cr key tr = none ↔
      ∀ e ∈ pairs_of h tl.ptrs, tree.equal cr e.2 key = false := by
  constructor
  · intro hl e he
    have he2 : (e.1, e.2) ∈ pairs_of h tr.ptrs := hwf.pairs_perm.mem_iff.mp he
    obtain ⟨p, hp, _, _⟩ := hwf.mem_pairs_right he2
    rw [equal_symm]
    exact PTree.lookup_none hcr key tr hwf.right_tree.sorted hl _ (mem_keys_of_mem_toList hp)
  · intro hall
    cases hl : PTree.lookup cr key tr with
    | none => rfl
    | some p =>
      exfalso
      obtain ⟨k, hk, heq⟩ := PTree.lookup_sound cr key tr p hl
      obtain ⟨l, hl2, _⟩ := hwf.mem_pairs_of_right hk
      have := hall _ hl2
      rw [equal_symm] at this
      simp only at this
      rw [heq] at this
      cases this

/-- The lookup of a key equivalent to the left key of a pair finds the node of the pair. -/
theorem WF.lookup_left_of_mem (hcl : StrictWeakOrder cl) (hwf : WF cl cr h c tl tr)
    {l : L} {r : R} (hm : (l, r) ∈ pairs_of h tl.ptrs) {key : L}
    (he : tree.equal cl l key = true) :
    ∃ p, PTree.lookup cl key tl = some p ∧ (p, l) ∈ tl.toList ∧
      (partner p, r) ∈ tr.toList ∧ h.right_value (partner p) = some r ∧
      h.left_value p = some l := by
  obtain ⟨p, hp, hq, _⟩ := hwf.mem_pairs_left hm
  refine ⟨p, ?_, hp, hq, Rep_val tr hwf.right_tree.rep _ hq, Rep_val tl hwf.left_tree.rep _ hp⟩
  exact PTree.lookup_complete hcl key tl hwf.left_tree.sorted p l hp
    (by rw [equal_symm]; exact he)

/-- The lookup of a key equivalent to the right key of a pair finds the node of the pair. -/
theorem WF.lookup_right_of_mem (hcr : StrictWeakOrder cr) (hwf : WF cl cr h c tl tr)
    {l : L} {r : R} (hm : (l, r) ∈ pairs_of h tl.ptrs) {key : R}
    (he : tree.equal cr r key = true) :
    ∃ p, PTree.lookup cr key tr = some p ∧ (p, r) ∈ tr.toList ∧
      (partner p, l) ∈ tl.toList ∧ h.left_value (partner p) = some l ∧
      h.right_value p = some r := by
  have hm2 : (l, r) ∈ pairs_of h tr.ptrs := hwf.pairs_perm.mem_iff.mp hm
  obtain ⟨p, hp, hq, _⟩ := hwf.mem_pairs_right hm2
  refine ⟨p, ?_, hp, hq, Rep_val tl hwf.left_tree.rep _ hq, Rep_val tr hwf.right_tree.rep _ hp⟩
  exact PTree.lookup_complete hcr key tr hwf.right_tree.sorted p r hp
    (by rw [equal_symm]; exact he)

/-- `at_left` of a key equivalent to the left key of a pair returns its right key. -/
theorem WF.at_left_of_mem (hcl : StrictWeakOrder cl) (hwf : WF cl cr h c tl tr)
    {l : L} {r : R} (hm : (l, r) ∈ pairs_of h tl.ptrs) {key : L}
    (he : tree.equal cl l key = true) {fuel : Nat} (hf : tl.size + 1 ≤ fuel) :
    at_left cl fuel h c key = .ok r := by
  obtain ⟨p, hl, _, _, hv, _⟩ := hwf.lookup_left_of_mem hcl hm he
  rw [hwf.at_left_eq key hf, hl]
  simp only [get_value, hv]

/-- `at_right` of a key equivalent to the right key of a pair returns its left key. -/
theorem WF.at_right_of_mem (hcr : StrictWeakOrder cr) (hwf : WF cl cr h c tl tr)
    {l : L} {r : R} (hm : (l, r) ∈ pairs_of h tl.ptrs) {key : R}
    (he : tree.equal cr r key = true) {fuel : Nat} (hf : tl.size + 1 ≤ fuel) :
    at_right cr fuel h c key = .ok l := by
  obtain ⟨p, hl, _, _, hv, _⟩ := hwf.lookup_right_of_mem hcr hm he
  rw [hwf.at_right_eq key hf, hl]
  simp only [get_value, hv]

/-- `at_left` of a key equivalent to no left key fails with `out_of_range`. -/
theorem WF.at_left_of_absent (hcl : StrictWeakOrder cl) (hwf : WF cl cr h c tl tr) {key : L}
    (ha : ∀ e ∈ pairs_of h tl.ptrs, tree.equal cl e.1 key = false) {fuel : Nat}
    (hf : tl.size + 1 ≤ fuel) : at_left cl fuel h c key = .error .out_of_range := by
  rw [hwf.at_left_eq key hf, (hwf.lookup_left_none_iff hcl key).mpr ha]

/-- `at_right` of a key equivalent to no right key fails with `out_of_range`. -/
theorem WF.at_right_of_absent (hcr : StrictWeakOrder cr) (hwf : WF cl cr h c tl tr) {key : R}
    (ha : ∀ e ∈ pairs_of h tl.ptrs, tree.equal cr e.2 key = false) {fuel : Nat}
    (hf : tl.size + 1 ≤ fuel) : at_right cr fuel h c key = .error .out_of_range := by
  rw [hwf.at_right_eq key hf, (hwf.lookup_right_none_iff hcr key).mpr ha]

end bimap


namespace bimap

open details

variable {L R : Type} {cl : L → L → Bool} {cr : R → R → Bool} {h : Heap L R} {c : Nat}
  {tl : PTree L} {tr : PTree R}

/-- Filtering addresses commutes with reading the pairs when the two predicates agree. -/
theorem pairs_of_filter (h : Heap L R) (g : Ptr → Bool) (f : L × R → Bool) :
    ∀ xs : List Ptr, (∀ p ∈ xs, ∃ e, entry_at h p = some e ∧ g p = f e) →
      pairs_of h (xs.filter g) = (pairs_of h xs).filter f := by
  intro xs
  induction xs with
  | nil => intro _; rfl
  | cons x rest ih =>
    intro hx
    obtain ⟨e, he, hg⟩ := hx x (by simp)
    have ih2 := ih (fun p hp => hx p (by simp [hp]))
    simp only [pairs_of] at ih2 ⊢
    cases hgx : g x with
    | true =>
      rw [List.filter_cons_of_pos (by simpa using hgx), List.filterMap_cons, he]
      simp only [List.filterMap_cons, he]
      rw [List.filter_cons_of_pos (by rw [← hg]; simpa using hgx), ih2]
    | false =>
      rw [List.filter_cons_of_neg (by simp [hgx]), List.filterMap_cons, he]
      simp only
      rw [List.filter_cons_of_neg (by rw [← hg]; simp [hgx]), ih2]

theorem WF.toList_filter_ptrs (hwf : WF cl cr h c tl tr) (f : L → Bool) :
    (tl.toList.filter (fun e => f e.2)).map Prod.fst =
      tl.ptrs.filter (fun p => match h.left_value p with
        | some k => f k
        | none => false) := by
  rw [PTree.ptrs_eq_map, List.filter_map]
  congr 1
  refine List.filter_congr ?_
  intro e he
  simp only [Function.comp, Rep_val tl hwf.left_tree.rep e he]

theorem WF.toList_filter_ptrs_right (hwf : WF cl cr h c tl tr) (f : R → Bool) :
    (tr.toList.filter (fun e => f e.2)).map Prod.fst =
      tr.ptrs.filter (fun p => match h.right_value p with
        | some k => f k
        | none => false) := by
  rw [PTree.ptrs_eq_map, List.filter_map]
  congr 1
  refine List.filter_congr ?_
  intro e he
  simp only [Function.comp, Rep_val tr hwf.right_tree.rep e he]

/-- The pairs at the left nodes whose key satisfies `f`. -/
theorem WF.pairs_filter_left (hwf : WF cl cr h c tl tr) (f : L → Bool) :
    pairs_of h ((tl.toList.filter (fun e => f e.2)).map Prod.fst) =
      (pairs_of h tl.ptrs).filter (fun e => f e.1) := by
  rw [hwf.toList_filter_ptrs f]
  refine pairs_of_filter h _ _ tl.ptrs ?_
  intro p hp
  obtain ⟨k, hk⟩ := mem_toList_of_mem_ptrs hp
  obtain ⟨r, _, he, hv, _⟩ := hwf.entry_at_left hk
  exact ⟨(k, r), he, by simp only [hv]⟩

/-- The pairs at the right nodes whose key satisfies `f`. -/
theorem WF.pairs_filter_right (hwf : WF cl cr h c tl tr) (f : R → Bool) :
    pairs_of h ((tr.toList.filter (fun e => f e.2)).map Prod.fst) =
      (pairs_of h tr.ptrs).filter (fun e => f e.2) := by
  rw [hwf.toList_filter_ptrs_right f]
  refine pairs_of_filter h _ _ tr.ptrs ?_
  intro p hp
  obtain ⟨k, hk⟩ := mem_toList_of_mem_ptrs hp
  obtain ⟨l, _, he, hv, _⟩ := hwf.entry_at_right hk
  exact ⟨(l, k), he, by simp only [hv]⟩

/-- `insert` of a pair with two absent keys, described by the pairs of the container. -/
theorem WF.insert_entries (hcl : StrictWeakOrder cl) (hcr : StrictWeakOrder cr)
    (hwf : WF cl cr h c tl tr) {left : L} {right : R} (pl pr : Nat) {fuel : Nat}
    (hf : tl.size + 2 ≤ fuel) (hl : PTree.lookup cl left tl = none)
    (hr : PTree.lookup cr right tr = none) :
    ∃ h2 tl2 tr2, insert cl cr fuel h c left right pl pr =
        .ok (h2, some (Ptr.node h.next .left)) ∧
      WF cl cr h2 c tl2 tr2 ∧ tl2.size = tl.size + 1 ∧ h2.sz c = h.sz c + 1 ∧
      Ptr.node h.next .left ∈ tl2.ptrs ∧
      entry_at h2 (Ptr.node h.next .left) = some (left, right) ∧
      pairs_of h2 tl2.ptrs = (pairs_of h tl.ptrs).filter (fun e => cl e.1 left) ++
        (left, right) :: (pairs_of h tl.ptrs).filter (fun e => !cl e.1 left) ∧
      pairs_of h2 tr2.ptrs = (pairs_of h tr.ptrs).filter (fun e => cr e.2 right) ++
        (left, right) :: (pairs_of h tr.ptrs).filter (fun e => !cr e.2 right) := by
  obtain ⟨h2, hrun, hwf2, hlv, hrv, hsz, hnext, _⟩ := hwf.insert_ok hcl hcr pl pr hf hl hr
  have hent_new : ∀ s, entry_at h2 (Ptr.node h.next s) = some (left, right) := by
    intro s
    simp only [entry_at, hlv, hrv, Function.update_same]
  have hent_old_l : ∀ p ∈ tl.ptrs, entry_at h2 p = entry_at h p := by
    intro p hp
    obtain ⟨e, rfl⟩ := hwf.left_side p hp
    have hlt := hwf.alloc_lt_left hp
    have h1 : Ptr.node e .left ≠ Ptr.node h.next .left := by
      simp only [ne_eq, Ptr.node.injEq, and_true]; omega
    have h2' : Ptr.node e .right ≠ Ptr.node h.next .right := by
      simp only [ne_eq, Ptr.node.injEq, and_true]; omega
    simp only [entry_at, hlv, hrv, Function.update_noteq h1, Function.update_noteq h2']
  have hent_old_r : ∀ p ∈ tr.ptrs, entry_at h2 p = entry_at h p := by
    intro p hp
    rw [← entry_at_partner h2 p, ← entry_at_partner h p]
    exact hent_old_l _ (hwf.partner_mem_left hp)
  refine ⟨h2, _, _, hrun, hwf2, PTree.insert_size _ _ _ _ _, ?_, ?_, hent_new _, ?_, ?_⟩
  · rw [hsz, Function.update_same]
  · exact ((PTree.insert_ptrs_perm hcl _ left pl tl hwf.left_tree.sorted).mem_iff).mpr
      (by simp)
  · rw [PTree.ptrs_eq_map, PTree.insert_toList hcl _ left pl tl hwf.left_tree.sorted,
      List.map_append, List.map_cons, pairs_of_append]
    have hsub : ∀ (f : Ptr × L → Bool), ∀ p ∈ (tl.toList.filter f).map Prod.fst,
        entry_at h2 p = entry_at h p := by
      intro f p hp
      obtain ⟨e, he, rfl⟩ := List.mem_map.mp hp
      exact hent_old_l _ (mem_ptrs_of_mem_toList (List.mem_filter.mp he).1)
    rw [pairs_of_congr _ (hsub _), hwf.pairs_filter_left (fun k => cl k left)]
    congr 1
    show pairs_of h2 ([Ptr.node h.next .left] ++ _) = _
    rw [pairs_of_append, pairs_of_congr _ (hsub _),
      hwf.pairs_filter_left (fun k => !cl k left)]
    simp only [pairs_of, List.filterMap_cons, hent_new, List.filterMap_nil,
      List.singleton_append]
  · rw [PTree.ptrs_eq_map, PTree.insert_toList hcr _ right pr tr hwf.right_tree.sorted,
      List.map_append, List.map_cons, pairs_of_append]
    have hsub : ∀ (f : Ptr × R → Bool), ∀ p ∈ (tr.toList.filter f).map Prod.fst,
        entry_at h2 p = entry_at h p := by
      intro f p hp
      obtain ⟨e, he, rfl⟩ := List.mem_map.mp hp
      exact hent_old_r _ (mem_ptrs_of_mem_toList (List.mem_filter.mp he).1)
    rw [pairs_of_congr _ (hsub _), hwf.pairs_filter_right (fun k => cr k right)]
    congr 1
    show pairs_of h2 ([Ptr.node h.next .right] ++ _) = _
    rw [pairs_of_append, pairs_of_congr _ (hsub _),
      hwf.pairs_filter_right (fun k => !cr k right)]
    simp only [pairs_of, List.filterMap_cons, hent_new, List.filterMap_nil,
      List.singleton_append]

end bimap


namespace bimap

open details

variable {L R : Type} {cl : L → L → Bool} {cr : R → R → Bool} {h : Heap L R} {c : Nat}
  {tl : PTree L} {tr : PTree R}

theorem filter_ne_split {α : Type} [DecidableEq α] {pre post : List α} {p : α}
    (hnd : (pre ++ p :: post).Nodup) :
    (pre ++ p :: post).filter (fun q => decide (q ≠ p)) = pre ++ post := by
  have h1 := List.nodup_append.mp hnd
  have h2 := List.nodup_cons.mp h1.2.1
  have hpre : pre.filter (fun q => decide (q ≠ p)) = pre := by
    rw [List.filter_eq_self]
    intro a ha
    simp only [ne_eq, decide_not, Bool.not_eq_true', decide_eq_false_iff_not]
    rintro rfl
    exact h1.2.2 ha (by simp)
  have hpost : post.filter (fun q => decide (q ≠ p)) = post := by
    rw [List.filter_eq_self]
    intro a ha
    simp only [ne_eq, decide_not, Bool.not_eq_true', decide_eq_false_iff_not]
    rintro rfl
    exact h2.1 ha
  rw [List.filter_append, List.filter_cons_of_neg (by simp), hpre, hpost]

/-- `erase_left(it)` at a node of the left tree, described by the pairs of the container:
exactly the pair stored at the node disappears from both sides. -/
theorem WF.erase_entries (hcl : StrictWeakOrder cl) (hwf : WF cl cr h c tl tr) {fuel : Nat}
    (hf : tl.size + 1 ≤ fuel) {pre post : List Ptr} {p : Ptr}
    (hsplit : tl.ptrs = pre ++ p :: post) {l : L} {r : R} (hent : entry_at h p = some (l, r)) :
    ∃ h2 tl2 tr2, erase_left fuel h c (some p) =
        .ok (h2, some (post.head?.getD (Ptr.sentinel c .left))) ∧
      WF cl cr h2 c tl2 tr2 ∧ tl2.size + 1 = tl.size ∧ h2.sz c + 1 = h.sz c ∧
      tl2.ptrs = pre ++ post ∧
      pairs_of h2 tl2.ptrs =
        (pairs_of h tl.ptrs).filter (fun e => !tree.equal cl e.1 l) ∧
      pairs_of h2 tr2.ptrs =
        (pairs_of h tr.ptrs).filter (fun e => !tree.equal cl e.1 l) := by
  obtain ⟨h2, hrun, hwf2, hlv, hrv, hsz, hnext, _⟩ := hwf.erase_left_ok hf hsplit
  have hp : p ∈ tl.ptrs := by rw [hsplit]; simp
  have hq : partner p ∈ tr.ptrs := hwf.partner_mem_right hp
  obtain ⟨kp, hkp⟩ := mem_toList_of_mem_ptrs hp
  obtain ⟨r2, _, hent2, _, _⟩ := hwf.entry_at_left hkp
  rw [hent] at hent2
  simp only [Option.some.injEq, Prod.mk.injEq] at hent2
  obtain ⟨rfl, rfl⟩ := hent2
  have hsize := PTree.erase_size p tl hwf.left_tree.nodup hp
  have hptrsL := PTree.erase_ptrs p tl hwf.left_tree.nodup hp
  have hptrsR := PTree.erase_ptrs (partner p) tr hwf.right_tree.nodup hq
  have hent_old : ∀ q, q ≠ p → q ≠ partner p → entry_at h2 q = entry_at h q := by
    intro q h1 h2'
    cases q with
    | sentinel d s => rfl
    | node e s =>
      have hne : ∀ s2, Ptr.node e s2 ≠ p ∧ Ptr.node e s2 ≠ partner p := by
        obtain ⟨e0, rfl⟩ := hwf.left_side p hp
        have he : e ≠ e0 := by
          rintro rfl
          cases s with
          | left => exact h1 rfl
          | right => exact h2' rfl
        intro s2
        simp only [partner, ne_eq, Ptr.node.injEq, not_and]
        exact ⟨fun h3 => absurd h3 he, fun h3 => absurd h3 he⟩
      simp only [entry_at, hlv, hrv, Function.update_noteq (hne .left).1,
        Function.update_noteq (hne .right).2]
  -- a left node differs from `p` exactly when its left key is not equivalent to `l`
  have hkeyL : ∀ q ∈ tl.ptrs, ∃ e, entry_at h q = some e ∧
      decide (q ≠ p) = !tree.equal cl e.1 l := by
    intro q hq2
    obtain ⟨k, hk⟩ := mem_toList_of_mem_ptrs hq2
    obtain ⟨r3, _, he, _, _⟩ := hwf.entry_at_left hk
    refine ⟨(k, r3), he, ?_⟩
    by_cases hqp : q = p
    · subst hqp
      have := key_unique_of_nodup hwf.left_tree.nodup hk hkp
      subst this
      simp [hcl.equal_refl]
    · cases heq : tree.equal cl k l with
      | false => simp [hqp]
      | true =>
        have := same_node_of_equal hcl hwf.left_tree.sorted hk hkp heq
        exact absurd (Prod.mk.inj this).1 hqp
  have hkeyR : ∀ q ∈ tr.ptrs, ∃ e, entry_at h q = some e ∧
      decide (q ≠ partner p) = !tree.equal cl e.1 l := by
    intro q hq2
    obtain ⟨e, he, hd⟩ := hkeyL (partner q) (hwf.partner_mem_left hq2)
    rw [entry_at_partner] at he
    refine ⟨e, he, ?_⟩
    rw [← hd]
    by_cases hqp : q = partner p
    · subst hqp; simp [partner_partner]
    · have : partner q ≠ p := fun h3 => hqp (by rw [← h3, partner_partner])
      simp [hqp, this]
  refine ⟨h2, _, _, hrun, hwf2, hsize, ?_, ?_, ?_, ?_⟩
  · rw [hsz, Function.update_same, hwf.size_eq]
    omega
  · rw [hptrsL, hsplit]
    exact filter_ne_split (hsplit ▸ hwf.left_tree.nodup)
  · rw [hptrsL, ← pairs_of_filter h _ _ tl.ptrs hkeyL]
    refine pairs_of_congr _ ?_
    intro q hq2
    have h1 := List.mem_filter.mp hq2
    have hne : q ≠ p := by simpa using h1.2
    refine hent_old q hne ?_
    rintro rfl
    obtain ⟨e0, he0⟩ := hwf.left_side _ h1.1
    obtain ⟨e1, rfl⟩ := hwf.left_side p hp
    simp [partner, Side.other] at he0
  · rw [hptrsR, ← pairs_of_filter h _ _ tr.ptrs hkeyR]
    refine pairs_of_congr _ ?_
    intro q hq2
    have h1 := List.mem_filter.mp hq2
    have hne : q ≠ partner p := by simpa using h1.2
    refine hent_old q ?_ hne
    rintro rfl
    obtain ⟨e1, he1⟩ := hwf.right_side _ h1.1
    obtain ⟨e2, he2⟩ := hwf.left_side _ hp
    rw [he1] at he2
    cases he2

end bimap


namespace bimap

open details

variable {L R : Type} {cl : L → L → Bool} {cr : R → R → Bool} {h : Heap L R} {c : Nat}
  {tl : PTree L} {tr : PTree R}

/-- The constructor yields a well-formed empty container. -/
theorem construct_wf (cl : L → L → Bool) (cr : R → R → Bool) (c p1 p2 : Nat) :
    ∃ h, bimap (Heap.init L R) c p1 p2 = .ok h ∧ WF cl cr h c .nil .nil := by
  have hne : Ptr.sentinel c .left ≠ Ptr.sentinel c .right := by simp
  refine ⟨{ Heap.init L R with
      mem := Function.update (Function.update (Function.update (Function.update
          (Heap.init L R).mem (Ptr.sentinel c .left)
          (some { left := none, right := none, parent := none, priority := p1 }))
          (Ptr.sentinel c .right)
          (some { left := none, right := none, parent := none, priority := p2 }))
          (Ptr.sentinel c .left)
          (some { left := none, right := some (Ptr.sentinel c .right), parent := none,
                  priority := p1 }))
          (Ptr.sentinel c .right)
          (some { left := none, right := some (Ptr.sentinel c .left), parent := none,
                  priority := p2 })
      sz := Function.update (Heap.init L R).sz c 0 }, ?_, ?_⟩
  · simp only [bimap, share_pointers, tree.set_another_tree_pointer, write_right,
      Function.update_same, Function.update_noteq hne, Function.update_noteq (Ne.symm hne)]
  · refine
      { left_tree :=
          { sent := ⟨{ left := none, right := some (Ptr.sentinel c .right), parent := none, priority := p1 },
              by simp [Function.update_noteq hne], rfl, rfl⟩
            rep := trivial
            root_parent := ParentIs_none _ _
            nodup := List.nodup_nil
            sorted := List.Pairwise.nil
            s_notin := by simp [PTree.ptrs]
            heap := trivial }
        right_tree :=
          { sent := ⟨{ left := none, right := some (Ptr.sentinel c .left), parent := none, priority := p2 },
              by simp, rfl, rfl⟩
            rep := trivial
            root_parent := ParentIs_none _ _
            nodup := List.nodup_nil
            sorted := List.Pairwise.nil
            s_notin := by simp [PTree.ptrs]
            heap := trivial }
        left_cross := ⟨{ left := none, right := some (Ptr.sentinel c .right), parent := none, priority := p1 },
          by simp [Function.update_noteq hne], rfl⟩
        right_cross := ⟨{ left := none, right := some (Ptr.sentinel c .left), parent := none, priority := p2 },
          by simp, rfl⟩
        left_side := by simp [PTree.ptrs]
        right_side := by simp [PTree.ptrs]
        paired := by simp [PTree.ptrs]
        size_eq := by simp [PTree.size]
        fresh := by
          intro e s _
          simp [Heap.init] }

/-- `insert` keeps the invariants. -/
theorem Inv_of_insert (hcl : StrictWeakOrder cl) (hcr : StrictWeakOrder cr)
    (hinv : Inv cl cr h c) {fuel : Nat} (hf : size h c + 2 ≤ fuel) {left : L} {right : R}
    {pl pr : Nat} {h2 : Heap L R} {p : Option Ptr}
    (hrun : insert cl cr fuel h c left right pl pr = .ok (h2, p)) : Inv cl cr h2 c := by
  obtain ⟨tl, tr, hwf⟩ := hinv
  have hf2 : tl.size + 2 ≤ fuel := by have := hwf.size_eq; simp only [size] at hf; omega
  by_cases hfound : PTree.lookup cl left tl ≠ none ∨ PTree.lookup cr right tr ≠ none
  · rw [hwf.insert_reject left right pl pr (by omega) hfound] at hrun
    simp only [Except.ok.injEq, Prod.mk.injEq] at hrun
    rw [← hrun.1]
    exact ⟨tl, tr, hwf⟩
  · simp only [ne_eq, not_or, not_not] at hfound
    obtain ⟨h3, hrun3, hwf3, _⟩ := hwf.insert_ok hcl hcr pl pr hf2 hfound.1 hfound.2
    rw [hrun3] at hrun
    simp only [Except.ok.injEq, Prod.mk.injEq] at hrun
    rw [← hrun.1]
    exact ⟨_, _, hwf3⟩

/-- `erase_left(it)` at a position of the container or at its end keeps the invariants. -/
theorem Inv_of_erase_left (hinv : Inv cl cr h c) {fuel : Nat} (hf : size h c + 2 ≤ fuel)
    {ps : List (Option Ptr)} (hps : positions_left fuel h c = .ok ps) {it : Option Ptr}
    (hit : it ∈ ps ∨ it = end_left c) {h2 : Heap L R} {res : Option Ptr}
    (hrun : erase_left fuel h c it = .ok (h2, res)) : Inv cl cr h2 c := by
  obtain ⟨tl, tr, hwf⟩ := hinv
  have hf2 : tl.size + 1 ≤ fuel := by have := hwf.size_eq; simp only [size] at hf; omega
  rcases hit with hit | hit
  · rw [hwf.positions_left_eq hf2] at hps
    simp only [Except.ok.injEq] at hps
    subst hps
    obtain ⟨p, hp, rfl⟩ := List.mem_map.mp hit
    obtain ⟨pre, post, hsplit⟩ := List.append_of_mem hp
    obtain ⟨h3, hrun3, hwf3, _⟩ := hwf.erase_left_ok hf2 hsplit
    rw [hrun3] at hrun
    simp only [Except.ok.injEq, Prod.mk.injEq] at hrun
    rw [← hrun.1]
    exact ⟨_, _, hwf3⟩
  · subst hit
    rw [erase_left_end] at hrun
    simp only [Except.ok.injEq, Prod.mk.injEq] at hrun
    rw [← hrun.1]
    exact ⟨tl, tr, hwf⟩

/-- `erase_left(key)` erases the node found by the lookup, if any. -/
theorem WF.erase_left_key_eq (hwf : WF cl cr h c tl tr) (left : L) {fuel : Nat}
    (hf : tl.size + 1 ≤ fuel) :
    erase_left_key cl fuel h c left =
      match erase_left fuel h c
          (some ((PTree.lookup cl left tl).getD (Ptr.sentinel c .left))) with
      | .error e => .error e
      | .ok (h1, res) => .ok (h1, decide (res ≠ none)) := by
  simp only [erase_left_key, hwf.find_left_eq left hf]
  try rfl

/-- `erase_left(key)` keeps the invariants. -/
theorem Inv_of_erase_left_key (hinv : Inv cl cr h c) {fuel : Nat} (hf : size h c + 2 ≤ fuel)
    {left : L} {h2 : Heap L R} {res : Bool}
    (hrun : erase_left_key cl fuel h c left = .ok (h2, res)) : Inv cl cr h2 c := by
  obtain ⟨tl, tr, hwf⟩ := hinv
  have hf2 : tl.size + 1 ≤ fuel := by have := hwf.size_eq; simp only [size] at hf; omega
  rw [hwf.erase_left_key_eq left hf2] at hrun
  cases hl : PTree.lookup cl left tl with
  | none =>
    rw [hl] at hrun
    simp only [Option.getD_none] at hrun
    have := erase_left_end fuel h c
    simp only [end_left, tree.end_] at this
    rw [this] at hrun
    simp only [Except.ok.injEq, Prod.mk.injEq] at hrun
    rw [← hrun.1]
    exact ⟨tl, tr, hwf⟩
  | some p =>
    rw [hl] at hrun
    simp only [Option.getD_some] at hrun
    obtain ⟨pre, post, hsplit⟩ := List.append_of_mem (lookup_mem cl left tl p hl)
    obtain ⟨h3, hrun3, hwf3, _⟩ := hwf.erase_left_ok hf2 hsplit
    rw [hrun3] at hrun
    simp only [Except.ok.injEq, Prod.mk.injEq] at hrun
    rw [← hrun.1]
    exact ⟨_, _, hwf3⟩

/-- `flip` at a position of the left side or at its end is the partner position. -/
theorem WF.flip_left_or_end (hwf : WF cl cr h c tl tr) {p : Ptr}
    (hp : p ∈ tl.ptrs ∨ p = Ptr.sentinel c .left) :
    flip h.mem (some p) = .ok (some (partner p)) := by
  rcases hp with hp | rfl
  · exact hwf.flip_left hp
  · exact hwf.flip_end.1

/-- `erase_right(it)` at a node of the right tree erases the entry through its left node
and returns the flipped result of `erase_left`. -/
theorem WF.erase_right_ok (hwf : WF cl cr h c tl tr) {fuel : Nat} (hf : tl.size + 1 ≤ fuel)
    {pre post : List Ptr} {q : Ptr} (hq : q ∈ tr.ptrs)
    (hsplit : tl.ptrs = pre ++ partner q :: post) :
    ∃ h2, erase_left fuel h c (some (partner q)) =
        .ok (h2, some (post.head?.getD (Ptr.sentinel c .left))) ∧
      erase_right fuel h c (some q) =
        .ok (h2, some (partner (post.head?.getD (Ptr.sentinel c .left)))) ∧
      WF cl cr h2 c (PTree.erase (partner q) tl) (PTree.erase q tr) := by
  obtain ⟨h2, hrun, hwf2, _⟩ := hwf.erase_left_ok hf hsplit
  rw [partner_partner] at hwf2
  refine ⟨h2, hrun, ?_, hwf2⟩
  have hne : (some q : Option Ptr) ≠ end_right c := by
    simp only [end_right, tree.end_, ne_eq, Option.some.injEq]
    rintro rfl
    exact hwf.sentinel_not_mem_right _ _ hq
  have hnd : (pre ++ partner q :: post).Nodup := hsplit ▸ hwf.left_tree.nodup
  have hptrs2 : (PTree.erase (partner q) tl).ptrs = pre ++ post := by
    rw [PTree.erase_ptrs _ tl hwf.left_tree.nodup (by rw [hsplit]; simp), hsplit]
    exact filter_ne_split hnd
  have hflip2 : flip h2.mem (some (post.head?.getD (Ptr.sentinel c .left))) =
      .ok (some (partner (post.head?.getD (Ptr.sentinel c .left)))) := by
    refine hwf2.flip_left_or_end ?_
    cases post with
    | nil => exact Or.inr rfl
    | cons y rest => exact Or.inl (by rw [hptrs2]; simp)
  simp only [erase_right, hne, if_false, hwf.flip_right hq, hrun, hflip2]

/-- `erase_right(it)` at a position of the container or at its end keeps the invariants. -/
theorem Inv_of_erase_right (hinv : Inv cl cr h c) {fuel : Nat} (hf : size h c + 2 ≤ fuel)
    {ps : List (Option Ptr)} (hps : positions_right fuel h c = .ok ps) {it : Option Ptr}
    (hit : it ∈ ps ∨ it = end_right c) {h2 : Heap L R} {res : Option Ptr}
    (hrun : erase_right fuel h c it = .ok (h2, res)) : Inv cl cr h2 c := by
  obtain ⟨tl, tr, hwf⟩ := hinv
  have hf2 : tl.size + 1 ≤ fuel := by have := hwf.size_eq; simp only [size] at hf; omega
  rcases hit with hit | hit
  · rw [hwf.positions_right_eq (by rw [hwf.size_right]; exact hf2)] at hps
    simp only [Except.ok.injEq] at hps
    subst hps
    obtain ⟨q, hq, rfl⟩ := List.mem_map.mp hit
    obtain ⟨pre, post, hsplit⟩ := List.append_of_mem (hwf.partner_mem_left hq)
    obtain ⟨h3, _, hrun3, hwf3⟩ := hwf.erase_right_ok hf2 hq hsplit
    rw [hrun3] at hrun
    simp only [Except.ok.injEq, Prod.mk.injEq] at hrun
    rw [← hrun.1]
    exact ⟨_, _, hwf3⟩
  · subst hit
    simp only [erase_right, if_true, Except.ok.injEq, Prod.mk.injEq] at hrun
    rw [← hrun.1]
    exact ⟨tl, tr, hwf⟩

/-- `erase_right(key)` keeps the invariants. -/
theorem Inv_of_erase_right_key (hinv : Inv cl cr h c) {fuel : Nat}
    (hf : size h c + 2 ≤ fuel) {right : R} {h2 : Heap L R} {res : Bool}
    (hrun : erase_right_key cr fuel h c right = .ok (h2, res)) : Inv cl cr h2 c := by
  obtain ⟨tl, tr, hwf⟩ := hinv
  have hf2 : tl.size + 1 ≤ fuel := by have := hwf.size_eq; simp only [size] at hf; omega
  simp only [erase_right_key, hwf.find_right_eq right hf2] at hrun
  cases hl : PTree.lookup cr right tr with
  | none =>
    rw [hl] at hrun
    simp only [Option.getD_none, erase_right, end_right, tree.end_, if_true, Except.ok.injEq,
      Prod.mk.injEq] at hrun
    rw [← hrun.1]
    exact ⟨tl, tr, hwf⟩
  | some q =>
    rw [hl] at hrun
    simp only [Option.getD_some] at hrun
    have hq := lookup_mem cr right tr q hl
    obtain ⟨pre, post, hsplit⟩ := List.append_of_mem (hwf.partner_mem_left hq)
    obtain ⟨h3, _, hrun3, hwf3⟩ := hwf.erase_right_ok hf2 hq hsplit
    rw [hrun3] at hrun
    simp only [Except.ok.injEq, Prod.mk.injEq] at hrun
    rw [← hrun.1]
    exact ⟨_, _, hwf3⟩

end bimap


namespace bimap

open details

variable {L R : Type} {cl : L → L → Bool} {cr : R → R → Bool} {h : Heap L R} {c : Nat}
  {tl : PTree L} {tr : PTree R}

/-- `++` at a node of the right tree leads to the following node, the sentinel after the
last node. -/
theorem WF.next_right (hwf : WF cl cr h c tl tr) {fuel : Nat} (hf : tl.size + 1 ≤ fuel)
    {pre post : List Ptr} {p : Ptr} (hsplit : tr.ptrs = pre ++ p :: post) :
    get_next h.mem fuel (some p) = .ok (some (post.head?.getD (Ptr.sentinel c .right))) := by
  have hright : ∀ sb, h.mem (Ptr.sentinel c .right) = some sb → ∀ q ∈ tr.ptrs,
      sb.right ≠ some q := by
    intro sb hsb q hq
    obtain ⟨sb2, hsb2, hr⟩ := hwf.right_cross
    rw [hsb] at hsb2
    simp only [Option.some.injEq] at hsb2
    subst hsb2
    rw [hr]
    intro heq
    simp only [Option.some.injEq] at heq
    subst heq
    exact hwf.sentinel_not_mem_right _ _ hq
  have hch := tree_next_chain hwf.right_tree hright
    (by rw [hwf.size_right]; exact hf : tr.size + 1 ≤ fuel)
  rw [hsplit] at hch
  exact NextChain_at _ _ _ pre p post hch

/-- Splitting a list that ends with `s` in front of a non-empty tail. -/
theorem split_before_end {xs pre ys : List Ptr} {s x : Ptr} (hne : ys ≠ [])
    (heq : xs ++ [s] = pre ++ x :: ys) :
    ∃ post, xs = pre ++ x :: post ∧ post ++ [s] = ys := by
  refine ⟨ys.dropLast, ?_, ?_⟩
  · have h1 : xs ++ [s] = (pre ++ x :: ys.dropLast) ++ [ys.getLast hne] := by
      rw [heq, List.append_assoc, List.cons_append, List.dropLast_append_getLast hne]
    exact (List.append_inj' h1 rfl).1
  · have h1 : xs ++ [s] = (pre ++ x :: ys.dropLast) ++ [ys.getLast hne] := by
      rw [heq, List.append_assoc, List.cons_append, List.dropLast_append_getLast hne]
    have h2 := (List.append_inj' h1 rfl).2
    simp only [List.cons.injEq, and_true] at h2
    rw [h2]
    exact List.dropLast_append_getLast hne

theorem head_append_end (post : List Ptr) (s : Ptr) (rest : List Ptr) (last : Ptr)
    (tail : List Ptr) (heq : post ++ [s] = rest ++ last :: tail) :
    post.head?.getD s = (rest ++ [last]).head?.getD last := by
  cases post with
  | nil =>
    cases rest with
    | nil =>
      simp only [List.nil_append, List.cons.injEq] at heq
      simp [heq.1]
    | cons y ys =>
      simp only [List.nil_append, List.cons_append, List.cons.injEq] at heq
      simp [heq.1]
  | cons z zs =>
    cases rest with
    | nil =>
      simp only [List.cons_append, List.nil_append, List.cons.injEq] at heq
      simp [heq.1]
    | cons y ys =>
      simp only [List.cons_append, List.cons.injEq] at heq
      simp [heq.1]

/-- Releasing the entry `e` leaves the pairs of the other entries as they are. -/
theorem entry_at_erase {h h1 : Heap L R} {e : Nat}
    (hlv : h1.left_value = Function.update h.left_value (Ptr.node e .left) none)
    (hrv : h1.right_value = Function.update h.right_value (Ptr.node e .right) none)
    {e2 : Nat} (s : Side) (hne : e2 ≠ e) :
    entry_at h1 (Ptr.node e2 s) = entry_at h (Ptr.node e2 s) := by
  have h1 : Ptr.node e2 Side.left ≠ Ptr.node e .left := by
    simp only [ne_eq, Ptr.node.injEq, and_true]; exact hne
  have h2 : Ptr.node e2 Side.right ≠ Ptr.node e .right := by
    simp only [ne_eq, Ptr.node.injEq, and_true]; exact hne
  simp only [entry_at, hlv, hrv, Function.update_noteq h1, Function.update_noteq h2]

/-- `erase_left(first, last)` over a valid range erases the nodes of the range one by one
and keeps the container well formed; the remaining nodes keep their pairs. -/
theorem erase_left_range_ok (fuel : Nat) (c : Nat) :
    ∀ (mid : List Ptr) (n : Nat) (h : Heap L R) (tl : PTree L) (tr : PTree R)
      (pre post : List Ptr) (last : Ptr), WF cl cr h c tl tr →
      tl.ptrs ++ [Ptr.sentinel c .left] = pre ++ mid ++ last :: post →
      tl.size + 1 ≤ fuel → mid.length < n →
      ∃ h2 tl2 tr2, erase_left_range fuel n h c (some ((mid ++ [last]).head?.getD last))
          (some last) = .ok (h2, some last) ∧
        WF cl cr h2 c tl2 tr2 ∧
        tl2.ptrs ++ [Ptr.sentinel c .left] = pre ++ last :: post ∧
        tl2.size + mid.length = tl.size ∧
        (∀ q ∈ tl2.ptrs, entry_at h2 q = entry_at h q) := by
  intro mid
  induction mid with
  | nil =>
    intro n h tl tr pre post last hwf heq hf hn
    obtain ⟨n2, rfl⟩ : ∃ n2, n = n2 + 1 := ⟨n - 1, by simp at hn; omega⟩
    refine ⟨h, tl, tr, ?_, hwf, by simpa using heq, by simp, fun _ _ => rfl⟩
    simp [erase_left_range]
  | cons x rest ih =>
    intro n h tl tr pre post last hwf heq hf hn
    obtain ⟨n2, rfl⟩ : ∃ n2, n = n2 + 1 := ⟨n - 1, by simp at hn; omega⟩
    have heq2 : tl.ptrs ++ [Ptr.sentinel c .left] = pre ++ x :: (rest ++ last :: post) := by
      rw [heq]; simp
    obtain ⟨post0, hsplit, hpost0⟩ := split_before_end (by simp) heq2
    have hnd : (tl.ptrs ++ [Ptr.sentinel c .left]).Nodup := by
      refine List.nodup_append.mpr ⟨hwf.left_tree.nodup, by simp, ?_⟩
      intro a ha hb
      simp only [List.mem_singleton] at hb
      subst hb
      exact hwf.sentinel_not_mem_left _ _ ha
    rw [heq2] at hnd
    have hnd1 := List.nodup_append.mp hnd
    have hnd2 := List.nodup_cons.mp hnd1.2.1
    have hxl : x ≠ last := by
      rintro rfl
      exact hnd2.1 (by simp)
    obtain ⟨h1, hrun1, hwf1, hlv1, hrv1, _⟩ := hwf.erase_left_ok hf hsplit
    have hx : x ∈ tl.ptrs := by rw [hsplit]; simp
    have hptrs1 : (PTree.erase x tl).ptrs = pre ++ post0 := by
      rw [PTree.erase_ptrs x tl hwf.left_tree.nodup hx, hsplit]
      exact filter_ne_split (hsplit ▸ hwf.left_tree.nodup)
    have hsize1 := PTree.erase_size x tl hwf.left_tree.nodup hx
    obtain ⟨h2, tl2, tr2, hrun2, hwf2, hptrs2, hsize2, hent2⟩ :=
      ih n2 h1 _ _ pre post last hwf1
        (by rw [hptrs1, List.append_assoc, hpost0, List.append_assoc])
        (by omega) (by simp at hn; omega)
    refine ⟨h2, tl2, tr2, ?_, hwf2, hptrs2, by simp only [List.length_cons]; omega, ?_⟩
    · have hnext := hwf.next_left hf hsplit
      rw [head_append_end post0 _ rest last post hpost0] at hnext
      simp only [List.cons_append, List.head?_cons, Option.getD_some, erase_left_range,
        Option.some.injEq, hxl, if_false, hnext, hrun1]
      exact hrun2
    · intro q hq
      rw [hent2 q hq]
      have hq2 : q ∈ pre ++ last :: post := by
        rw [← hptrs2]; exact List.mem_append_left _ hq
      have hqx : q ≠ x := by
        rintro rfl
        rcases List.mem_append.mp hq2 with h3 | h3
        · exact hnd1.2.2 h3 (by simp)
        · exact hnd2.1 (List.mem_append_right _ h3)
      obtain ⟨e2, rfl⟩ := hwf2.left_side q hq
      obtain ⟨e, rfl⟩ := hwf.left_side x hx
      exact entry_at_erase hlv1 hrv1 Side.left
        (fun he => hqx (by rw [he]))

/-- `erase_right(first, last)` over a valid range erases the nodes of the range one by
one and keeps the container well formed; the remaining nodes keep their pairs. -/
theorem erase_right_range_ok (fuel : Nat) (c : Nat) :
    ∀ (mid : List Ptr) (n : Nat) (h : Heap L R) (tl : PTree L) (tr : PTree R)
      (pre post : List Ptr) (last : Ptr), WF cl cr h c tl tr →
      tr.ptrs ++ [Ptr.sentinel c .right] = pre ++ mid ++ last :: post →
      tl.size + 1 ≤ fuel → mid.length < n →
      ∃ h2 tl2 tr2, erase_right_range fuel n h c (some ((mid ++ [last]).head?.getD last))
          (some last) = .ok (h2, some last) ∧
        WF cl cr h2 c tl2 tr2 ∧
        tr2.ptrs ++ [Ptr.sentinel c .right] = pre ++ last :: post ∧
        tl2.size + mid.length = tl.size ∧
        (∀ q ∈ tr2.ptrs, entry_at h2 q = entry_at h q) := by
  intro mid
  induction mid with
  | nil =>
    intro n h tl tr pre post last hwf heq hf hn
    obtain ⟨n2, rfl⟩ : ∃ n2, n = n2 + 1 := ⟨n - 1, by simp at hn; omega⟩
    refine ⟨h, tl, tr, ?_, hwf, by simpa using heq, by simp, fun _ _ => rfl⟩
    simp [erase_right_range]
  | cons x rest ih =>
    intro n h tl tr pre post last hwf heq hf hn
    obtain ⟨n2, rfl⟩ : ∃ n2, n = n2 + 1 := ⟨n - 1, by simp at hn; omega⟩
    have heq2 : tr.ptrs ++ [Ptr.sentinel c .right] = pre ++ x :: (rest ++ last :: post) := by
      rw [heq]; simp
    obtain ⟨post0, hsplit, hpost0⟩ := split_before_end (by simp) heq2
    have hnd : (tr.ptrs ++ [Ptr.sentinel c .right]).Nodup := by
      refine List.nodup_append.mpr ⟨hwf.right_tree.nodup, by simp, ?_⟩
      intro a ha hb
      simp only [List.mem_singleton] at hb
      subst hb
      exact hwf.sentinel_not_mem_right _ _ ha
    rw [heq2] at hnd
    have hnd1 := List.nodup_append.mp hnd
    have hnd2 := List.nodup_cons.mp hnd1.2.1
    have hxl : x ≠ last := by
      rintro rfl
      exact hnd2.1 (by simp)
    have hx : x ∈ tr.ptrs := by rw [hsplit]; simp
    obtain ⟨preL, postL, hsplitL⟩ := List.append_of_mem (hwf.partner_mem_left hx)
    obtain ⟨h1, hrunL, hrun1, hwf1⟩ := hwf.erase_right_ok hf hx hsplitL
    obtain ⟨h1b, hrunLb, _, hlv1, hrv1, _⟩ := hwf.erase_left_ok hf hsplitL
    have hh : h1b = h1 := by
      rw [hrunL] at hrunLb
      simp only [Except.ok.injEq, Prod.mk.injEq] at hrunLb
      exact hrunLb.1.symm
    subst hh
    have hptrs1 : (PTree.erase x tr).ptrs = pre ++ post0 := by
      rw [PTree.erase_ptrs x tr hwf.right_tree.nodup hx, hsplit]
      exact filter_ne_split (hsplit ▸ hwf.right_tree.nodup)
    have hsize1 := PTree.erase_size (partner x) tl hwf.left_tree.nodup
      (hwf.partner_mem_left hx)
    obtain ⟨h2, tl2, tr2, hrun2, hwf2, hptrs2, hsize2, hent2⟩ :=
      ih n2 h1b _ _ pre post last hwf1
        (by rw [hptrs1, List.append_assoc, hpost0, List.append_assoc])
        (by omega) (by simp at hn; omega)
    refine ⟨h2, tl2, tr2, ?_, hwf2, hptrs2, by simp only [List.length_cons]; omega, ?_⟩
    · have hnext := hwf.next_right hf hsplit
      rw [head_append_end post0 _ rest last post hpost0] at hnext
      simp only [List.cons_append, List.head?_cons, Option.getD_some, erase_right_range,
        Option.some.injEq, hxl, if_false, hnext, hrun1]
      exact hrun2
    · intro q hq
      rw [hent2 q hq]
      have hq2 : q ∈ pre ++ last :: post := by
        rw [← hptrs2]; exact List.mem_append_left _ hq
      have hqx : q ≠ x := by
        rintro rfl
        rcases List.mem_append.mp hq2 with h3 | h3
        · exact hnd1.2.2 h3 (by simp)
        · exact hnd2.1 (List.mem_append_right _ h3)
      obtain ⟨e2, rfl⟩ := hwf2.right_side q hq
      obtain ⟨e, rfl⟩ := hwf.right_side x hx
      exact entry_at_erase hlv1 hrv1 Side.right
        (fun he => hqx (by rw [he]))

/-- A valid range of positions, read on the addresses. -/
theorem ValidRange.exists_ptrs {xs : List Ptr} {s : Ptr} {first last : Option Ptr}
    (hv : ValidRange (xs.map some) (some s) first last) :
    ∃ pre mid post l, xs ++ [s] = pre ++ mid ++ l :: post ∧ last = some l ∧
      first = some ((mid ++ [l]).head?.getD l) := by
  obtain ⟨pre, mid, post, heq, hfirst⟩ := hv
  have heq2 : (xs ++ [s]).map some = pre ++ mid ++ last :: post := by
    rw [List.map_append]; exact heq
  obtain ⟨a, b, hab, ha, hb⟩ := List.map_eq_append_iff.mp heq2
  obtain ⟨pre2, mid2, hpm, hpre, hmid⟩ := List.map_eq_append_iff.mp ha
  obtain ⟨l, post2, hlp, hl, hpost⟩ := List.map_eq_cons_iff.mp hb
  refine ⟨pre2, mid2, post2, l, by rw [hab, hpm, hlp], hl.symm, ?_⟩
  rw [← hmid, ← hl] at hfirst
  cases mid2 with
  | nil => simpa using hfirst.symm
  | cons y ys => simpa using hfirst.symm

end bimap


namespace bimap

open details

variable {L R : Type} {cl : L → L → Bool} {cr : R → R → Bool} {h : Heap L R} {c : Nat}
  {tl : PTree L} {tr : PTree R}

theorem entry_at_values {h : Heap L R} {e : Nat} {s : Side} {l : L} {r : R}
    (he : entry_at h (Ptr.node e s) = some (l, r)) :
    h.left_value (Ptr.node e .left) = some l ∧ h.right_value (Ptr.node e .right) = some r := by
  simp only [entry_at] at he
  cases h1 : h.left_value (Ptr.node e .left) with
  | none => rw [h1] at he; simp at he
  | some a =>
    cases h2 : h.right_value (Ptr.node e .right) with
    | none => rw [h1, h2] at he; simp at he
    | some b =>
      rw [h1, h2] at he
      simp only [Option.some.injEq, Prod.mk.injEq] at he
      exact ⟨by rw [he.1], by rw [he.2]⟩

/-- Two pairs of the container with equivalent left keys are the same pair. -/
theorem WF.pair_eq_of_left_equal (hcl : StrictWeakOrder cl) (hwf : WF cl cr h c tl tr)
    {e e2 : L × R} (he : e ∈ pairs_of h tl.ptrs) (he2 : e2 ∈ pairs_of h tl.ptrs)
    (heq : tree.equal cl e.1 e2.1 = true) : e = e2 := by
  obtain ⟨p, hp, hq, _⟩ := hwf.mem_pairs_left (l := e.1) (r := e.2) he
  obtain ⟨p2, hp2, hq2, _⟩ := hwf.mem_pairs_left (l := e2.1) (r := e2.2) he2
  have h1 := same_node_of_equal hcl hwf.left_tree.sorted hp hp2 heq
  obtain ⟨rfl, h3⟩ := Prod.mk.inj h1
  have h4 := key_unique_of_nodup hwf.right_tree.nodup hq hq2
  exact Prod.ext h3 h4

/-- Two pairs of the container with equivalent right keys are the same pair. -/
theorem WF.pair_eq_of_right_equal (hcr : StrictWeakOrder cr) (hwf : WF cl cr h c tl tr)
    {e e2 : L × R} (he : e ∈ pairs_of h tl.ptrs) (he2 : e2 ∈ pairs_of h tl.ptrs)
    (heq : tree.equal cr e.2 e2.2 = true) : e = e2 := by
  have he' : (e.1, e.2) ∈ pairs_of h tr.ptrs := hwf.pairs_perm.mem_iff.mp he
  have he2' : (e2.1, e2.2) ∈ pairs_of h tr.ptrs := hwf.pairs_perm.mem_iff.mp he2
  obtain ⟨p, hp, hq, _⟩ := hwf.mem_pairs_right he'
  obtain ⟨p2, hp2, hq2, _⟩ := hwf.mem_pairs_right he2'
  have h1 := same_node_of_equal hcr hwf.right_tree.sorted hp hp2 heq
  obtain ⟨rfl, h3⟩ := Prod.mk.inj h1
  have h4 := key_unique_of_nodup hwf.left_tree.nodup hq hq2
  exact Prod.ext h4 h3

/-- Dropping the pair `(l0, r0)` by its left key or by a key equivalent to its right key
is the same filter on the pairs of the container. -/
theorem WF.filter_left_eq_filter_right (hcl : StrictWeakOrder cl) (hcr : StrictWeakOrder cr)
    (hwf : WF cl cr h c tl tr) {l0 : L} {r0 d : R} (hm : (l0, r0) ∈ pairs_of h tl.ptrs)
    (hd : tree.equal cr r0 d = true) :
    ∀ e ∈ pairs_of h tl.ptrs, (!tree.equal cl e.1 l0) = (!tree.equal cr e.2 d) := by
  intro e he
  cases h1 : tree.equal cr e.2 d with
  | true =>
    have h2 : tree.equal cr e.2 r0 = true :=
      hcr.equal_trans e.2 d r0 h1 (by rw [equal_symm]; exact hd)
    have h3 := hwf.pair_eq_of_right_equal hcr he hm h2
    subst h3
    simp [hcl.equal_refl]
  | false =>
    cases h2 : tree.equal cl e.1 l0 with
    | false => rfl
    | true =>
      have h3 := hwf.pair_eq_of_left_equal hcl he hm h2
      subst h3
      rw [hd] at h1
      cases h1

/-- The expression `*insert(key, value).flip()` when both keys are absent. -/
theorem WF.insert_flip_deref_ok (hcl : StrictWeakOrder cl) (hcr : StrictWeakOrder cr)
    (hwf : WF cl cr h c tl tr) {left : L} {right : R} (pl pr : Nat) {fuel : Nat}
    (hf : tl.size + 2 ≤ fuel) (hl : PTree.lookup cl left tl = none)
    (hr : PTree.lookup cr right tr = none) :
    ∃ h2 tl2 tr2, insert_flip_deref cl cr fuel h c left right pl pr = .ok (h2, right) ∧
      insert cl cr fuel h c left right pl pr = .ok (h2, some (Ptr.node h.next .left)) ∧
      WF cl cr h2 c tl2 tr2 ∧
      pairs_of h2 tl2.ptrs = (pairs_of h tl.ptrs).filter (fun e => cl e.1 left) ++
        (left, right) :: (pairs_of h tl.ptrs).filter (fun e => !cl e.1 left) ∧
      pairs_of h2 tr2.ptrs = (pairs_of h tr.ptrs).filter (fun e => cr e.2 right) ++
        (left, right) :: (pairs_of h tr.ptrs).filter (fun e => !cr e.2 right) ∧
      h2.sz c = h.sz c + 1 := by
  obtain ⟨h2, tl2, tr2, hrun, hwf2, _, hsz, hmem, hent, hpl, hpr⟩ :=
    hwf.insert_entries hcl hcr pl pr hf hl hr
  refine ⟨h2, tl2, tr2, ?_, hrun, hwf2, hpl, hpr, hsz⟩
  have hv := (entry_at_values hent).2
  simp only [insert_flip_deref, hrun, hwf2.flip_left hmem, partner, Side.other, get_value, hv]

/-- `at_left_or_default` of a key equivalent to the left key of a pair returns the right
key of the pair and changes nothing. -/
theorem WF.at_left_or_default_present [Inhabited R] (hcl : StrictWeakOrder cl)
    (hwf : WF cl cr h c tl tr) {l : L} {r : R} (hm : (l, r) ∈ pairs_of h tl.ptrs) {key : L}
    (he : tree.equal cl l key = true) (pl pr : Nat) {fuel : Nat} (hf : tl.size + 1 ≤ fuel) :
    at_left_or_default cl cr fuel h c key pl pr = .ok (h, r) := by
  obtain ⟨p, hl, _, _, _, _⟩ := hwf.lookup_left_of_mem hcl hm he
  have hne := hwf.lookup_left_ne_end hl
  simp only [at_left_or_default, hwf.find_left_eq key hf, hl, Option.getD_some, tree.end_,
    Option.some.injEq, hne, if_false, hwf.at_left_of_mem hcl hm he hf]

/-- `at_left_or_default` of an absent key evicts the pair holding the default right value,
if any, and binds the key to the default value. -/
theorem WF.at_left_or_default_absent [Inhabited R] (hcl : StrictWeakOrder cl)
    (hcr : StrictWeakOrder cr) (hwf : WF cl cr h c tl tr) {key : L} (pl pr : Nat)
    {fuel : Nat} (hf : tl.size + 2 ≤ fuel) (ha : PTree.lookup cl key tl = none) :
    ∃ h2 tl2 tr2, at_left_or_default cl cr fuel h c key pl pr = .ok (h2, default) ∧
      WF cl cr h2 c tl2 tr2 ∧
      pairs_of h2 tl2.ptrs =
        ((pairs_of h tl.ptrs).filter (fun e => !tree.equal cr e.2 default)).filter
            (fun e => cl e.1 key) ++
          (key, default) ::
            ((pairs_of h tl.ptrs).filter (fun e => !tree.equal cr e.2 default)).filter
              (fun e => !cl e.1 key) ∧
      pairs_of h2 tr2.ptrs =
        ((pairs_of h tr.ptrs).filter (fun e => !tree.equal cr e.2 default)).filter
            (fun e => cr e.2 default) ++
          (key, default) ::
            ((pairs_of h tr.ptrs).filter (fun e => !tree.equal cr e.2 default)).filter
              (fun e => !cr e.2 default) ∧
      (PTree.lookup cr (default : R) tr = none → h2.sz c = h.sz c + 1) ∧
      (PTree.lookup cr (default : R) tr ≠ none → h2.sz c = h.sz c) := by
  have hf1 : tl.size + 1 ≤ fuel := by omega
  cases hd : PTree.lookup cr (default : R) tr with
  | none =>
    -- the default value is free: plain insertion
    have hall := (hwf.lookup_right_none_iff hcr default).mp hd
    have hfl : (pairs_of h tl.ptrs).filter (fun e => !tree.equal cr e.2 default) =
        pairs_of h tl.ptrs := by
      rw [List.filter_eq_self]
      intro e he; rw [hall e he]; rfl
    have hfr : (pairs_of h tr.ptrs).filter (fun e => !tree.equal cr e.2 default) =
        pairs_of h tr.ptrs := by
      rw [List.filter_eq_self]
      intro e he; rw [hall e (hwf.pairs_perm.mem_iff.mpr he)]; rfl
    obtain ⟨h2, tl2, tr2, hrun, _, hwf2, hpl, hpr, hsz2⟩ :=
      hwf.insert_flip_deref_ok hcl hcr pl pr hf ha hd
    refine ⟨h2, tl2, tr2, ?_, hwf2, by rw [hfl]; exact hpl, by rw [hfr]; exact hpr,
      fun _ => hsz2, fun hne => absurd rfl hne⟩
    simp only [at_left_or_default, hwf.find_left_eq key hf1, ha, Option.getD_none, tree.end_,
      if_true, hwf.find_right_eq default hf1, hd, ne_eq, not_true_eq_false, if_false, hrun]
  | some q =>
    -- the default value is held by the entry at `q`: it is evicted first
    have hq : q ∈ tr.ptrs := lookup_mem cr default tr q hd
    have hne := hwf.lookup_right_ne_end hd
    obtain ⟨r0, hr0, hdeq⟩ := PTree.lookup_sound cr default tr q hd
    obtain ⟨l0, hl0, hent, _, _⟩ := hwf.entry_at_right hr0
    rw [← entry_at_partner] at hent
    have hmem : (l0, r0) ∈ pairs_of h tl.ptrs :=
      List.mem_filterMap.mpr ⟨partner q, hwf.partner_mem_left hq, hent⟩
    have hdeq2 : tree.equal cr r0 default = true := by rw [equal_symm]; exact hdeq
    obtain ⟨pre, post, hsplit⟩ := List.append_of_mem (hwf.partner_mem_left hq)
    obtain ⟨h1, tl1, tr1, hrun1, hwf1, hsize1, hsz1, _, hpl1, hpr1⟩ :=
      hwf.erase_entries hcl hf1 hsplit hent
    have hconv := hwf.filter_left_eq_filter_right hcl hcr hmem hdeq2
    have hpl1' : pairs_of h1 tl1.ptrs =
        (pairs_of h tl.ptrs).filter (fun e => !tree.equal cr e.2 default) := by
      rw [hpl1]; exact List.filter_congr hconv
    have hpr1' : pairs_of h1 tr1.ptrs =
        (pairs_of h tr.ptrs).filter (fun e => !tree.equal cr e.2 default) := by
      rw [hpr1]
      exact List.filter_congr (fun e he => hconv e (hwf.pairs_perm.mem_iff.mpr he))
    have ha1 : PTree.lookup cl key tl1 = none := by
      rw [hwf1.lookup_left_none_iff hcl key, hpl1']
      intro e he
      exact (hwf.lookup_left_none_iff hcl key).mp ha e (List.mem_filter.mp he).1
    have hd1 : PTree.lookup cr (default : R) tr1 = none := by
      rw [hwf1.lookup_right_none_iff hcr default, hpl1']
      intro e he
      have := (List.mem_filter.mp he).2
      simpa using this
    obtain ⟨h2, tl2, tr2, hrun2, _, hwf2, hpl2, hpr2, hsz2⟩ :=
      hwf1.insert_flip_deref_ok hcl hcr pl pr (show tl1.size + 2 ≤ fuel by omega) ha1 hd1
    refine ⟨h2, tl2, tr2, ?_, hwf2, by rw [← hpl1']; exact hpl2, by rw [← hpr1']; exact hpr2,
      fun hn => (by cases hn), fun _ => (by omega)⟩
    simp only [at_left_or_default, hwf.find_left_eq key hf1, ha, Option.getD_none, tree.end_,
      if_true, hwf.find_right_eq default hf1, hd, Option.getD_some, ne_eq, Option.some.injEq,
      hne, not_false_eq_true, hwf.flip_right hq, hrun1, hrun2]

end bimap


namespace bimap

open details

variable {L R : Type} {cl : L → L → Bool} {cr : R → R → Bool} {h : Heap L R} {c : Nat}
  {tl : PTree L} {tr : PTree R}

theorem equal_congr_right {T : Type} {cmp : T → T → Bool} (hc : StrictWeakOrder cmp)
    {a b : T} (hab : tree.equal cmp a b = true) (x : T) :
    tree.equal cmp x a = tree.equal cmp x b := by
  cases h1 : tree.equal cmp x a with
  | true => exact (hc.equal_trans x a b h1 hab).symm
  | false =>
    cases h2 : tree.equal cmp x b with
    | false => rfl
    | true =>
      have := hc.equal_trans x b a h2 (by rw [equal_symm]; exact hab)
      rw [this] at h1
      cases h1

/-- The expression `*insert(value, key)` when both keys are absent. -/
theorem WF.insert_deref_ok (hcl : StrictWeakOrder cl) (hcr : StrictWeakOrder cr)
    (hwf : WF cl cr h c tl tr) {left : L} {right : R} (pl pr : Nat) {fuel : Nat}
    (hf : tl.size + 2 ≤ fuel) (hl : PTree.lookup cl left tl = none)
    (hr : PTree.lookup cr right tr = none) :
    ∃ h2 tl2 tr2, insert_deref cl cr fuel h c left right pl pr = .ok (h2, left) ∧
      WF cl cr h2 c tl2 tr2 ∧
      pairs_of h2 tl2.ptrs = (pairs_of h tl.ptrs).filter (fun e => cl e.1 left) ++
        (left, right) :: (pairs_of h tl.ptrs).filter (fun e => !cl e.1 left) ∧
      pairs_of h2 tr2.ptrs = (pairs_of h tr.ptrs).filter (fun e => cr e.2 right) ++
        (left, right) :: (pairs_of h tr.ptrs).filter (fun e => !cr e.2 right) ∧
      h2.sz c = h.sz c + 1 := by
  obtain ⟨h2, tl2, tr2, hrun, hwf2, _, hsz, hmem, hent, hpl, hpr⟩ :=
    hwf.insert_entries hcl hcr pl pr hf hl hr
  refine ⟨h2, tl2, tr2, ?_, hwf2, hpl, hpr, hsz⟩
  have hv := (entry_at_values hent).1
  simp only [insert_deref, hrun, get_value, hv]

/-- `at_right_or_default` of a key equivalent to the right key of a pair returns the left
key of the pair and changes nothing. -/
theorem WF.at_right_or_default_present [Inhabited L] (hcr : StrictWeakOrder cr)
    (hwf : WF cl cr h c tl tr) {l : L} {r : R} (hm : (l, r) ∈ pairs_of h tl.ptrs) {key : R}
    (he : tree.equal cr r key = true) (pl pr : Nat) {fuel : Nat} (hf : tl.size + 1 ≤ fuel) :
    at_right_or_default cl cr fuel h c key pl pr = .ok (h, l) := by
  obtain ⟨p, hl, _, _, _, _⟩ := hwf.lookup_right_of_mem hcr hm he
  have hne := hwf.lookup_right_ne_end hl
  simp only [at_right_or_default, hwf.find_right_eq key hf, hl, Option.getD_some, tree.end_,
    Option.some.injEq, hne, if_false, hwf.at_right_of_mem hcr hm he hf]

/-- `at_right_or_default` of an absent key evicts the pair holding the default left value,
if any, and binds the default value to the key. -/
theorem WF.at_right_or_default_absent [Inhabited L] (hcl : StrictWeakOrder cl)
    (hcr : StrictWeakOrder cr) (hwf : WF cl cr h c tl tr) {key : R} (pl pr : Nat)
    {fuel : Nat} (hf : tl.size + 2 ≤ fuel) (ha : PTree.lookup cr key tr = none) :
    ∃ h2 tl2 tr2, at_right_or_default cl cr fuel h c key pl pr = .ok (h2, default) ∧
      WF cl cr h2 c tl2 tr2 ∧
      pairs_of h2 tl2.ptrs =
        ((pairs_of h tl.ptrs).filter (fun e => !tree.equal cl e.1 default)).filter
            (fun e => cl e.1 default) ++
          (default, key) ::
            ((pairs_of h tl.ptrs).filter (fun e => !tree.equal cl e.1 default)).filter
              (fun e => !cl e.1 default) ∧
      pairs_of h2 tr2.ptrs =
        ((pairs_of h tr.ptrs).filter (fun e => !tree.equal cl e.1 default)).filter
            (fun e => cr e.2 key) ++
          (default, key) ::
            ((pairs_of h tr.ptrs).filter (fun e => !tree.equal cl e.1 default)).filter
              (fun e => !cr e.2 key) ∧
      (PTree.lookup cl (default : L) tl = none → h2.sz c = h.sz c + 1) ∧
      (PTree.lookup cl (default : L) tl ≠ none → h2.sz c = h.sz c) := by
  have hf1 : tl.size + 1 ≤ fuel := by omega
  have hsne : Ptr.sentinel c .left ≠ Ptr.sentinel c .right := by simp
  cases hd : PTree.lookup cl (default : L) tl with
  | none =>
    -- the default value is free: the comparison with the other tree's end still
    -- succeeds, the end position is flipped and erased without effect
    have hall := (hwf.lookup_left_none_iff hcl default).mp hd
    have hfl : (pairs_of h tl.ptrs).filter (fun e => !tree.equal cl e.1 default) =
        pairs_of h tl.ptrs := by
      rw [List.filter_eq_self]
      intro e he; rw [hall e he]; rfl
    have hfr : (pairs_of h tr.ptrs).filter (fun e => !tree.equal cl e.1 default) =
        pairs_of h tr.ptrs := by
      rw [List.filter_eq_self]
      intro e he; rw [hall e (hwf.pairs_perm.mem_iff.mpr he)]; rfl
    obtain ⟨h2, tl2, tr2, hrun, hwf2, hpl, hpr, hsz2⟩ :=
      hwf.insert_deref_ok hcl hcr pl pr hf hd ha
    refine ⟨h2, tl2, tr2, ?_, hwf2, by rw [hfl]; exact hpl, by rw [hfr]; exact hpr,
      fun _ => hsz2, fun hne => absurd rfl hne⟩
    have hflip := hwf.flip_end.1
    simp only [end_left, end_right, tree.end_] at hflip
    simp only [at_right_or_default, hwf.find_right_eq key hf1, ha, Option.getD_none, tree.end_,
      if_true, hwf.find_left_eq default hf1, hd, ne_eq, Option.some.injEq, hsne,
      not_false_eq_true, hflip, erase_right, end_right, hrun]
  | some p =>
    -- the default value is held by the entry at `p`: it is evicted first
    have hp : p ∈ tl.ptrs := lookup_mem cl default tl p hd
    have hne : p ≠ Ptr.sentinel c .right := by
      rintro rfl
      exact hwf.sentinel_not_mem_left _ _ hp
    obtain ⟨l0, hl0, hdeq⟩ := PTree.lookup_sound cl default tl p hd
    obtain ⟨r0, hr0, hent, _, _⟩ := hwf.entry_at_left hl0
    have hdeq2 : tree.equal cl l0 default = true := by rw [equal_symm]; exact hdeq
    obtain ⟨pre, post, hsplit⟩ := List.append_of_mem hp
    obtain ⟨h1, tl1, tr1, hrun1, hwf1, hsize1, hsz1, _, hpl1, hpr1⟩ :=
      hwf.erase_entries hcl hf1 hsplit hent
    have hq : partner p ∈ tr.ptrs := hwf.partner_mem_right hp
    have hsplit2 : tl.ptrs = pre ++ partner (partner p) :: post := by
      rw [partner_partner]; exact hsplit
    obtain ⟨h1b, hrun1b, hrunR, _⟩ := hwf.erase_right_ok hf1 hq hsplit2
    rw [partner_partner, hrun1] at hrun1b
    simp only [Except.ok.injEq, Prod.mk.injEq, and_true] at hrun1b
    subst hrun1b
    have hconv : ∀ e : L × R, (!tree.equal cl e.1 l0) = (!tree.equal cl e.1 default) :=
      fun e => by rw [equal_congr_right hcl hdeq2 e.1]
    have hpl1' : pairs_of h1 tl1.ptrs =
        (pairs_of h tl.ptrs).filter (fun e => !tree.equal cl e.1 default) := by
      rw [hpl1]; exact List.filter_congr (fun e _ => hconv e)
    have hpr1' : pairs_of h1 tr1.ptrs =
        (pairs_of h tr.ptrs).filter (fun e => !tree.equal cl e.1 default) := by
      rw [hpr1]; exact List.filter_congr (fun e _ => hconv e)
    have hd1 : PTree.lookup cl (default : L) tl1 = none := by
      rw [hwf1.lookup_left_none_iff hcl default, hpl1']
      intro e he
      have := (List.mem_filter.mp he).2
      simpa using this
    have ha1 : PTree.lookup cr key tr1 = none := by
      rw [hwf1.lookup_right_none_iff hcr key, hpl1']
      intro e he
      exact (hwf.lookup_right_none_iff hcr key).mp ha e (List.mem_filter.mp he).1
    obtain ⟨h2, tl2, tr2, hrun2, hwf2, hpl2, hpr2, hsz2⟩ :=
      hwf1.insert_deref_ok hcl hcr pl pr (show tl1.size + 2 ≤ fuel by omega) hd1 ha1
    refine ⟨h2, tl2, tr2, ?_, hwf2, by rw [← hpl1']; exact hpl2, by rw [← hpr1']; exact hpr2,
      fun hn => (by cases hn), fun _ => (by omega)⟩
    simp only [at_right_or_default, hwf.find_right_eq key hf1, ha, Option.getD_none, tree.end_,
      if_true, hwf.find_left_eq default hf1, hd, Option.getD_some, ne_eq, Option.some.injEq,
      hne, not_false_eq_true, hwf.flip_left hp, hrunR, hrun2]

end bimap


namespace bimap

open details

variable {L R : Type} {cl : L → L → Bool} {cr : R → R → Bool} {h : Heap L R} {c : Nat}
  {tl : PTree L} {tr : PTree R}

/-- `erase_left(first, last)` over a valid range keeps the invariants. -/
theorem Inv_of_erase_left_range (hinv : Inv cl cr h c) {fuel : Nat}
    (hf : size h c + 2 ≤ fuel) {ps : List (Option Ptr)}
    (hps : positions_left fuel h c = .ok ps) {first last : Option Ptr}
    (hv : ValidRange ps (end_left c) first last) {h2 : Heap L R} {res : Option Ptr}
    (hrun : erase_left_range fuel fuel h c first last = .ok (h2, res)) : Inv cl cr h2 c := by
  obtain ⟨tl, tr, hwf⟩ := hinv
  have hf2 : tl.size + 1 ≤ fuel := by have := hwf.size_eq; simp only [size] at hf; omega
  rw [hwf.positions_left_eq hf2] at hps
  simp only [Except.ok.injEq] at hps
  subst hps
  obtain ⟨pre, mid, post, l, heq, rfl, rfl⟩ := ValidRange.exists_ptrs hv
  have hlen : mid.length < fuel := by
    have := congrArg List.length heq
    simp only [List.length_append, List.length_cons, List.length_nil, PTree.length_ptrs]
      at this
    omega
  obtain ⟨h3, tl3, tr3, hrun3, hwf3, _⟩ :=
    erase_left_range_ok fuel c mid fuel h tl tr pre post l hwf heq hf2 hlen
  rw [hrun3] at hrun
  simp only [Except.ok.injEq, Prod.mk.injEq] at hrun
  rw [← hrun.1]
  exact ⟨_, _, hwf3⟩

/-- `erase_right(first, last)` over a valid range keeps the invariants. -/
theorem Inv_of_erase_right_range (hinv : Inv cl cr h c) {fuel : Nat}
    (hf : size h c + 2 ≤ fuel) {ps : List (Option Ptr)}
    (hps : positions_right fuel h c = .ok ps) {first last : Option Ptr}
    (hv : ValidRange ps (end_right c) first last) {h2 : Heap L R} {res : Option Ptr}
    (hrun : erase_right_range fuel fuel h c first last = .ok (h2, res)) : Inv cl cr h2 c := by
  obtain ⟨tl, tr, hwf⟩ := hinv
  have hf2 : tl.size + 1 ≤ fuel := by have := hwf.size_eq; simp only [size] at hf; omega
  rw [hwf.positions_right_eq (by rw [hwf.size_right]; exact hf2)] at hps
  simp only [Except.ok.injEq] at hps
  subst hps
  obtain ⟨pre, mid, post, l, heq, rfl, rfl⟩ := ValidRange.exists_ptrs hv
  have hlen : mid.length < fuel := by
    have := congrArg List.length heq
    have hsr := hwf.size_right
    simp only [List.length_append, List.length_cons, List.length_nil, PTree.length_ptrs]
      at this
    omega
  obtain ⟨h3, tl3, tr3, hrun3, hwf3, _⟩ :=
    erase_right_range_ok fuel c mid fuel h tl tr pre post l hwf heq hf2 hlen
  rw [hrun3] at hrun
  simp only [Except.ok.injEq, Prod.mk.injEq] at hrun
  rw [← hrun.1]
  exact ⟨_, _, hwf3⟩

/-- `at_left_or_default` keeps the invariants. -/
theorem Inv_of_at_left_or_default [Inhabited R] (hcl : StrictWeakOrder cl)
    (hcr : StrictWeakOrder cr) (hinv : Inv cl cr h c) {fuel : Nat}
    (hf : size h c + 2 ≤ fuel) {key : L} {pl pr : Nat} {h2 : Heap L R} {v : R}
    (hrun : at_left_or_default cl cr fuel h c key pl pr = .ok (h2, v)) : Inv cl cr h2 c := by
  obtain ⟨tl, tr, hwf⟩ := hinv
  have hf2 : tl.size + 2 ≤ fuel := by have := hwf.size_eq; simp only [size] at hf; omega
  cases hl : PTree.lookup cl key tl with
  | none =>
    obtain ⟨h3, tl3, tr3, hrun3, hwf3, _⟩ := hwf.at_left_or_default_absent hcl hcr pl pr hf2 hl
    rw [hrun3] at hrun
    simp only [Except.ok.injEq, Prod.mk.injEq] at hrun
    rw [← hrun.1]
    exact ⟨_, _, hwf3⟩
  | some p =>
    obtain ⟨k, hk, heq⟩ := PTree.lookup_sound cl key tl p hl
    obtain ⟨r, hr, _⟩ := hwf.mem_pairs_of_left hk
    rw [hwf.at_left_or_default_present hcl hr (by rw [equal_symm]; exact heq) pl pr
      (by omega)] at hrun
    simp only [Except.ok.injEq, Prod.mk.injEq] at hrun
    rw [← hrun.1]
    exact ⟨tl, tr, hwf⟩

/-- `at_right_or_default` keeps the invariants. -/
theorem Inv_of_at_right_or_default [Inhabited L] (hcl : StrictWeakOrder cl)
    (hcr : StrictWeakOrder cr) (hinv : Inv cl cr h c) {fuel : Nat}
    (hf : size h c + 2 ≤ fuel) {key : R} {pl pr : Nat} {h2 : Heap L R} {v : L}
    (hrun : at_right_or_default cl cr fuel h c key pl pr = .ok (h2, v)) : Inv cl cr h2 c := by
  obtain ⟨tl, tr, hwf⟩ := hinv
  have hf2 : tl.size + 2 ≤ fuel := by have := hwf.size_eq; simp only [size] at hf; omega
  cases hl : PTree.lookup cr key tr with
  | none =>
    obtain ⟨h3, tl3, tr3, hrun3, hwf3, _⟩ :=
      hwf.at_right_or_default_absent hcl hcr pl pr hf2 hl
    rw [hrun3] at hrun
    simp only [Except.ok.injEq, Prod.mk.injEq] at hrun
    rw [← hrun.1]
    exact ⟨_, _, hwf3⟩
  | some p =>
    obtain ⟨k, hk, heq⟩ := PTree.lookup_sound cr key tr p hl
    obtain ⟨l, hl2, _⟩ := hwf.mem_pairs_of_right hk
    rw [hwf.at_right_or_default_present hcr hl2 (by rw [equal_symm]; exact heq) pl pr
      (by omega)] at hrun
    simp only [Except.ok.injEq, Prod.mk.injEq] at hrun
    rw [← hrun.1]
    exact ⟨tl, tr, hwf⟩

/-- Every reachable state satisfies the invariants of the container. -/
theorem Reachable.inv [Inhabited L] [Inhabited R] (hcl : StrictWeakOrder cl)
    (hcr : StrictWeakOrder cr) {h : Heap L R} {c : Nat} (hr : Reachable cl cr h c) :
    Inv cl cr h c := by
  induction hr with
  | construct c p1 p2 h hrun =>
    obtain ⟨h3, hrun3, hwf3⟩ := construct_wf cl cr c p1 p2
    rw [hrun3] at hrun
    simp only [Except.ok.injEq] at hrun
    rw [← hrun]
    exact ⟨_, _, hwf3⟩
  | insert fuel left right pl pr h2 p _ hf hrun ih => exact Inv_of_insert hcl hcr ih hf hrun
  | erase_left fuel ps it h2 res _ hf hps hit hrun ih =>
    exact Inv_of_erase_left ih hf hps hit hrun
  | erase_left_key fuel left h2 res _ hf hrun ih => exact Inv_of_erase_left_key ih hf hrun
  | erase_right fuel ps it h2 res _ hf hps hit hrun ih =>
    exact Inv_of_erase_right ih hf hps hit hrun
  | erase_right_key fuel right h2 res _ hf hrun ih => exact Inv_of_erase_right_key ih hf hrun
  | erase_left_range fuel ps first last h2 res _ hf hps hv hrun ih =>
    exact Inv_of_erase_left_range ih hf hps hv hrun
  | erase_right_range fuel ps first last h2 res _ hf hps hv hrun ih =>
    exact Inv_of_erase_right_range ih hf hps hv hrun
  | at_left_or_default fuel key pl pr h2 v _ hf hrun ih =>
    exact Inv_of_at_left_or_default hcl hcr ih hf hrun
  | at_right_or_default fuel key pl pr h2 v _ hf hrun ih =>
    exact Inv_of_at_right_or_default hcl hcr ih hf hrun

end bimap

namespace Scenario

open details bimap

/-- A comparator that decides the strict order of a linear order is a strict weak order. -/
theorem swo_of_linear_order {α : Type} [LinearOrder α] {cmp : α → α → Bool}
    (hcmp : ∀ a b, cmp a b = true ↔ a < b) : StrictWeakOrder cmp where
  irrefl := by
    intro a
    cases h : cmp a a with
    | false => rfl
    | true => exact absurd ((hcmp a a).mp h) (lt_irrefl a)
  trans := by
    intro a b c h1 h2
    exact (hcmp a c).mpr (lt_trans ((hcmp a b).mp h1) ((hcmp b c).mp h2))
  equal_trans := by
    intro a b c h1 h2
    have hle : ∀ x y, cmp x y = false ↔ y ≤ x := by
      intro x y
      rw [← not_lt, ← hcmp x y]
      simp
    rw [equal_iff] at h1 h2 ⊢
    rw [hle, hle] at h1 h2 ⊢
    exact ⟨le_trans h2.1 h1.1, le_trans h1.2 h2.2⟩

theorem swo_ltNat : StrictWeakOrder ltNat :=
  swo_of_linear_order (fun a b => by simp [ltNat])

theorem swo_ltStr : StrictWeakOrder ltStr :=
  swo_of_linear_order (fun a b => by
    simp only [ltStr, decide_eq_true_eq]
    exact String.lt_iff_toList_lt.symm)

end Scenario


namespace Scenario

open details bimap

theorem reach_s0 : Reachable ltNat ltStr s0 0 := Reachable.construct 0 11 12 s0 rfl

theorem reach_s1 : Reachable ltNat ltStr s1 0 :=
  Reachable.insert 5 1 "a" 5 9 s1 (some (Ptr.node 0 .left)) reach_s0 (by decide) rfl

theorem reach_s2 : Reachable ltNat ltStr s2 0 :=
  Reachable.insert 5 2 "b" 7 3 s2 (some (Ptr.node 1 .left)) reach_s1 (by decide) rfl

theorem reach_s3 : Reachable ltNat ltStr s3 0 :=
  Reachable.insert 5 3 "c" 6 8 s3 (some (Ptr.node 2 .left)) reach_s2 (by decide) rfl

theorem reach_s4 : Reachable ltNat ltStr s4 0 :=
  Reachable.erase_left_key 5 2 s4 true reach_s3 (by decide) rfl

theorem reach_s5 : Reachable ltNat ltStr s5 0 :=
  Reachable.insert 6 4 "" 2 4 s5 (some (Ptr.node 3 .left)) reach_s3 (by decide) rfl

theorem inv_s0 : Inv ltNat ltStr s0 0 := reach_s0.inv swo_ltNat swo_ltStr

theorem inv_s3 : Inv ltNat ltStr s3 0 := reach_s3.inv swo_ltNat swo_ltStr

theorem inv_s5 : Inv ltNat ltStr s5 0 := reach_s5.inv swo_ltNat swo_ltStr

theorem entries_s3 : entries_left 5 s3 0 = .ok [(1, "a"), (2, "b"), (3, "c")] := rfl

end Scenario

namespace Spec

open details bimap

variable {L R : Type} {cl : L → L → Bool} {cr : R → R → Bool} {h : Heap L R} {c : Nat}

/-- From the invariants: the enumeration from the left is the list of pairs of a
well-formed witness. -/
theorem entries_of_inv (hinv : Inv cl cr h c) {fuel : Nat} (hf : size h c + 2 ≤ fuel)
    {es : List (L × R)} (hes : entries_left fuel h c = .ok es) :
    ∃ tl tr, WF cl cr h c tl tr ∧ es = pairs_of h tl.ptrs ∧ tl.size + 2 ≤ fuel := by
  obtain ⟨tl, tr, hwf⟩ := hinv
  have hf2 : tl.size + 2 ≤ fuel := by have := hwf.size_eq; simp only [size] at hf; omega
  rw [hwf.entries_left_eq (by omega)] at hes
  simp only [Except.ok.injEq] at hes
  exact ⟨tl, tr, hwf, hes.symm, hf2⟩

/-- C1: when some entry of the container has a left key equivalent to `left`, or some
entry has a right key equivalent to `right`, `insert(left, right)` returns `end_left()`
and the state it returns is the state it started from, so the size, the pairs and both
iteration orders are unchanged, whatever the other component of the pair is. -/
theorem C1_insert_collision_rejected (hcl : StrictWeakOrder cl) (hcr : StrictWeakOrder cr)
    (hinv : Inv cl cr h c) {fuel : Nat} (hf : size h c + 2 ≤ fuel) {es : List (L × R)}
    (hes : entries_left fuel h c = .ok es) (left : L) (right : R) (pl pr : Nat)
    (hcoll : ∃ e ∈ es, tree.equal cl e.1 left = true ∨ tree.equal cr e.2 right = true) :
    insert cl cr fuel h c left right pl pr = .ok (h, end_left c) := by
  obtain ⟨tl, tr, hwf, rfl, hf2⟩ := entries_of_inv hinv hf hes
  obtain ⟨e, he, hc⟩ := hcoll
  refine hwf.insert_reject left right pl pr (by omega) ?_
  rcases hc with hc | hc
  · left
    intro hnone
    have := (hwf.lookup_left_none_iff hcl left).mp hnone e he
    rw [hc] at this
    cases this
  · right
    intro hnone
    have := (hwf.lookup_right_none_iff hcr right).mp hnone e he
    rw [hc] at this
    cases this

/-- C1 on the container holding (1,"a"), (2,"b"), (3,"c"): inserting (2,"z"), whose right
key is new, is rejected and the state is unchanged. -/
theorem C1_insert_collision_rejected_witness :
    insert Scenario.ltNat Scenario.ltStr 5 Scenario.s3 0 2 "z" 1 1 =
      .ok (Scenario.s3, end_left 0) :=
  C1_insert_collision_rejected Scenario.swo_ltNat Scenario.swo_ltStr Scenario.inv_s3
    (show size Scenario.s3 0 + 2 ≤ 5 by decide) Scenario.entries_s3 2 "z" 1 1
    ⟨(2, "b"), by simp, Or.inl rfl⟩

/-- C2: when no entry has a left key equivalent to `left` nor a right key equivalent to
`right`, `insert(left, right)` returns a position `p` other than `end_left()` with
`*p == left` and `*p.flip() == right`, the size grows by one, afterwards
`at_left(left) == right` and `at_right(right) == left`, every pair present before is still
mapped both ways, and the invariants still hold. -/
theorem C2_insert_fresh_pair (hcl : StrictWeakOrder cl) (hcr : StrictWeakOrder cr)
    (hinv : Inv cl cr h c) {fuel : Nat} (hf : size h c + 2 ≤ fuel) {es : List (L × R)}
    (hes : entries_left fuel h c = .ok es) (left : L) (right : R) (pl pr : Nat)
    (hfresh : ∀ e ∈ es, tree.equal cl e.1 left = false ∧ tree.equal cr e.2 right = false) :
    ∃ h2 p, insert cl cr fuel h c left right pl pr = .ok (h2, p) ∧ p ≠ end_left c ∧
      get_value h2.left_value p = .ok left ∧
      (∃ q, flip h2.mem p = .ok q ∧ get_value h2.right_value q = .ok right) ∧
      size h2 c = size h c + 1 ∧
      at_left cl fuel h2 c left = .ok right ∧ at_right cr fuel h2 c right = .ok left ∧
      (∀ e ∈ es, at_left cl fuel h2 c e.1 = .ok e.2 ∧ at_right cr fuel h2 c e.2 = .ok e.1) ∧
      Inv cl cr h2 c := by
  obtain ⟨tl, tr, hwf, rfl, hf2⟩ := entries_of_inv hinv hf hes
  have hl : PTree.lookup cl left tl = none :=
    (hwf.lookup_left_none_iff hcl left).mpr (fun e he => (hfresh e he).1)
  have hr : PTree.lookup cr right tr = none :=
    (hwf.lookup_right_none_iff hcr right).mpr (fun e he => (hfresh e he).2)
  obtain ⟨h2, tl2, tr2, hrun, hwf2, hsize, hsz, hmem, hent, hpl, _⟩ :=
    hwf.insert_entries hcl hcr pl pr hf2 hl hr
  have hf3 : tl2.size + 1 ≤ fuel := by omega
  have hnew : (left, right) ∈ pairs_of h2 tl2.ptrs := by rw [hpl]; simp
  have hold : ∀ e ∈ pairs_of h tl.ptrs, e ∈ pairs_of h2 tl2.ptrs := by
    intro e he
    rw [hpl]
    cases hc : cl e.1 left with
    | true => exact List.mem_append_left _ (List.mem_filter.mpr ⟨he, by simpa using hc⟩)
    | false =>
      exact List.mem_append_right _ (List.mem_cons_of_mem _
        (List.mem_filter.mpr ⟨he, by simpa using hc⟩))
  obtain ⟨hv1, hv2⟩ := entry_at_values hent
  refine ⟨h2, _, hrun, ?_, ?_, ?_, ?_, ?_, ?_, ?_, ⟨tl2, tr2, hwf2⟩⟩
  · simp [end_left, tree.end_]
  · simp only [get_value, hv1]
  · exact ⟨_, hwf2.flip_left hmem, by simp only [partner, Side.other, get_value, hv2]⟩
  · simp only [size]; exact hsz
  · exact hwf2.at_left_of_mem hcl hnew (hcl.equal_refl left) hf3
  · exact hwf2.at_right_of_mem hcr hnew (hcr.equal_refl right) hf3
  · intro e he
    exact ⟨hwf2.at_left_of_mem hcl (hold e he) (hcl.equal_refl e.1) hf3,
      hwf2.at_right_of_mem hcr (hold e he) (hcr.equal_refl e.2) hf3⟩

/-- C2 on the container holding (1,"a"), (2,"b"), (3,"c"): inserting (4,"") succeeds. -/
theorem C2_insert_fresh_pair_witness :
    ∃ h2 p, insert Scenario.ltNat Scenario.ltStr 6 Scenario.s3 0 4 "" 2 4 = .ok (h2, p) ∧
      p ≠ end_left 0 ∧ get_value h2.left_value p = .ok 4 ∧
      (∃ q, flip h2.mem p = .ok q ∧ get_value h2.right_value q = .ok "") ∧
      size h2 0 = size Scenario.s3 0 + 1 ∧
      at_left Scenario.ltNat 6 h2 0 4 = .ok "" ∧ at_right Scenario.ltStr 6 h2 0 "" = .ok 4 ∧
      (∀ e ∈ [(1, "a"), (2, "b"), (3, "c")],
        at_left Scenario.ltNat 6 h2 0 e.1 = .ok e.2 ∧
        at_right Scenario.ltStr 6 h2 0 e.2 = .ok e.1) ∧
      Inv Scenario.ltNat Scenario.ltStr h2 0 :=
  C2_insert_fresh_pair Scenario.swo_ltNat Scenario.swo_ltStr Scenario.inv_s3
    (show size Scenario.s3 0 + 2 ≤ 6 by decide)
    (show entries_left 6 Scenario.s3 0 = .ok [(1, "a"), (2, "b"), (3, "c")] from rfl)
    4 "" 2 4 (by decide)

end Spec


namespace Spec

open details bimap

variable {L R : Type} {cl : L → L → Bool} {cr : R → R → Bool} {h : Heap L R} {c : Nat}

/-- C3: `erase_left(left)` returns false and leaves the state as it is when no entry has a
left key equivalent to `left`; when the container holds an entry `e` with such a left key
it returns true, the size drops by one, afterwards `find_left(left)` is `end_left()`,
`find_right(e.2)` is `end_right()`, `at_left(left)` and `at_right(e.2)` signal
`out_of_range`, every other pair is still mapped both ways, the enumeration from the left
is the former one without `e`, and the invariants still hold. -/
theorem C3_erase_left_by_key (hcl : StrictWeakOrder cl) (hcr : StrictWeakOrder cr)
    (hinv : Inv cl cr h c) {fuel : Nat} (hf : size h c + 2 ≤ fuel) {es : List (L × R)}
    (hes : entries_left fuel h c = .ok es) (left : L) :
    ((∀ e ∈ es, tree.equal cl e.1 left = false) →
      erase_left_key cl fuel h c left = .ok (h, false)) ∧
    (∀ e ∈ es, tree.equal cl e.1 left = true →
      ∃ h2, erase_left_key cl fuel h c left = .ok (h2, true) ∧
        size h2 c + 1 = size h c ∧
        find_left cl fuel h2 c left = .ok (end_left c) ∧
        find_right cr fuel h2 c e.2 = .ok (end_right c) ∧
        at_left cl fuel h2 c left = .error .out_of_range ∧
        at_right cr fuel h2 c e.2 = .error .out_of_range ∧
        (∀ e2 ∈ es, e2 ≠ e →
          at_left cl fuel h2 c e2.1 = .ok e2.2 ∧ at_right cr fuel h2 c e2.2 = .ok e2.1) ∧
        entries_left fuel h2 c = .ok (es.filter (fun x => !tree.equal cl x.1 left)) ∧
        Inv cl cr h2 c) := by
  obtain ⟨tl, tr, hwf, rfl, hf2⟩ := entries_of_inv hinv hf hes
  have hf1 : tl.size + 1 ≤ fuel := by omega
  constructor
  · intro habs
    have hl := (hwf.lookup_left_none_iff hcl left).mpr habs
    rw [hwf.erase_left_key_eq left hf1, hl]
    have := erase_left_end fuel h c
    simp only [end_left, tree.end_] at this
    simp only [Option.getD_none, this]
    rfl
  · intro e he heq
    obtain ⟨p, hl, hp, hq, _, _⟩ := hwf.lookup_left_of_mem hcl (l := e.1) (r := e.2) he heq
    obtain ⟨pre, post, hsplit⟩ := List.append_of_mem (mem_ptrs_of_mem_toList hp)
    obtain ⟨r2, _, hent, _, _⟩ := hwf.entry_at_left hp
    have hr2 : r2 = e.2 :=
      key_unique_of_nodup hwf.right_tree.nodup (by assumption) hq
    subst hr2
    obtain ⟨h2, tl2, tr2, hrun, hwf2, hsize, hsz, _, hpl, _⟩ :=
      hwf.erase_entries hcl hf1 hsplit hent
    have hf3 : tl2.size + 1 ≤ fuel := by omega
    have hconv : ∀ x : L × R, (!tree.equal cl x.1 e.1) = (!tree.equal cl x.1 left) :=
      fun x => by rw [equal_congr_right hcl heq x.1]
    have hpl2 : pairs_of h2 tl2.ptrs =
        (pairs_of h tl.ptrs).filter (fun x => !tree.equal cl x.1 left) := by
      rw [hpl]; exact List.filter_congr (fun x _ => hconv x)
    have habsL : ∀ x ∈ pairs_of h2 tl2.ptrs, tree.equal cl x.1 left = false := by
      intro x hx
      rw [hpl2] at hx
      simpa using (List.mem_filter.mp hx).2
    have habsR : ∀ x ∈ pairs_of h2 tl2.ptrs, tree.equal cr x.2 e.2 = false := by
      intro x hx
      rw [hpl] at hx
      obtain ⟨hx1, hx2⟩ := List.mem_filter.mp hx
      cases hc : tree.equal cr x.2 e.2 with
      | false => rfl
      | true =>
        have := hwf.pair_eq_of_right_equal hcr hx1 he hc
        subst this
        simp [hcl.equal_refl] at hx2
    refine ⟨h2, ?_, ?_, ?_, ?_, ?_, ?_, ?_, ?_, ⟨tl2, tr2, hwf2⟩⟩
    · rw [hwf.erase_left_key_eq left hf1, hl]
      simp only [Option.getD_some, hrun]
      rfl
    · simp only [size]; exact hsz
    · simp only [find_left, hwf2.find_left_eq left hf3,
        (hwf2.lookup_left_none_iff hcl left).mpr habsL]
      rfl
    · simp only [find_right, hwf2.find_right_eq e.2 hf3,
        (hwf2.lookup_right_none_iff hcr e.2).mpr habsR]
      rfl
    · exact hwf2.at_left_of_absent hcl habsL hf3
    · exact hwf2.at_right_of_absent hcr habsR hf3
    · intro e2 he2 hne
      have hmem : e2 ∈ pairs_of h2 tl2.ptrs := by
        rw [hpl]
        refine List.mem_filter.mpr ⟨he2, ?_⟩
        cases hc : tree.equal cl e2.1 e.1 with
        | false => rfl
        | true => exact absurd (hwf.pair_eq_of_left_equal hcl he2 he hc) hne
      exact ⟨hwf2.at_left_of_mem hcl hmem (hcl.equal_refl e2.1) hf3,
        hwf2.at_right_of_mem hcr hmem (hcr.equal_refl e2.2) hf3⟩
    · rw [hwf2.entries_left_eq hf3, hpl2]

/-- C3 on the container holding (1,"a"), (2,"b"), (3,"c"): `erase_left(2)` returns true,
leaves exactly (1,"a"), (3,"c") with size 2, and `find_right("b")` is the end position. -/
theorem C3_erase_left_by_key_witness :
    ∃ h2, erase_left_key Scenario.ltNat 5 Scenario.s3 0 2 = .ok (h2, true) ∧
      size h2 0 + 1 = size Scenario.s3 0 ∧
      find_left Scenario.ltNat 5 h2 0 2 = .ok (end_left 0) ∧
      find_right Scenario.ltStr 5 h2 0 "b" = .ok (end_right 0) ∧
      at_left Scenario.ltNat 5 h2 0 2 = .error .out_of_range ∧
      at_right Scenario.ltStr 5 h2 0 "b" = .error .out_of_range ∧
      (∀ e2 ∈ [(1, "a"), (2, "b"), (3, "c")], e2 ≠ (2, "b") →
        at_left Scenario.ltNat 5 h2 0 e2.1 = .ok e2.2 ∧
        at_right Scenario.ltStr 5 h2 0 e2.2 = .ok e2.1) ∧
      entries_left 5 h2 0 = .ok [(1, "a"), (3, "c")] ∧
      Inv Scenario.ltNat Scenario.ltStr h2 0 :=
  (C3_erase_left_by_key Scenario.swo_ltNat Scenario.swo_ltStr Scenario.inv_s3
    (show size Scenario.s3 0 + 2 ≤ 5 by decide) Scenario.entries_s3 2).2 (2, "b")
    (by simp) rfl

/-- C9: `at_left(key)` signals `out_of_range` exactly when no entry has a left key
equivalent to `key`; otherwise at most one entry has such a left key and `at_left(key)`
returns the right key of that entry. Symmetrically `at_right(key)` fails exactly when no
entry has a right key equivalent to `key` and otherwise returns the left key of the one
entry that has. Both are read-only: they return a value and no new state. -/
theorem C9_at_lookup (hcl : StrictWeakOrder cl) (hcr : StrictWeakOrder cr)
    (hinv : Inv cl cr h c) {fuel : Nat} (hf : size h c + 2 ≤ fuel) {es : List (L × R)}
    (hes : entries_left fuel h c = .ok es) :
    (∀ key : L,
      (at_left cl fuel h c key = .error .out_of_range ↔
        ∀ e ∈ es, tree.equal cl e.1 key = false) ∧
      (∀ e ∈ es, tree.equal cl e.1 key = true → at_left cl fuel h c key = .ok e.2) ∧
      (∀ e ∈ es, ∀ e2 ∈ es, tree.equal cl e.1 key = true → tree.equal cl e2.1 key = true →
        e = e2)) ∧
    (∀ key : R,
      (at_right cr fuel h c key = .error .out_of_range ↔
        ∀ e ∈ es, tree.equal cr e.2 key = false) ∧
      (∀ e ∈ es, tree.equal cr e.2 key = true → at_right cr fuel h c key = .ok e.1) ∧
      (∀ e ∈ es, ∀ e2 ∈ es, tree.equal cr e.2 key = true → tree.equal cr e2.2 key = true →
        e = e2)) := by
  obtain ⟨tl, tr, hwf, rfl, hf2⟩ := entries_of_inv hinv hf hes
  have hf1 : tl.size + 1 ≤ fuel := by omega
  constructor
  · intro key
    refine ⟨⟨?_, fun ha => hwf.at_left_of_absent hcl ha hf1⟩,
      fun e he heq => hwf.at_left_of_mem hcl he heq hf1, ?_⟩
    · intro herr e he
      cases hc : tree.equal cl e.1 key with
      | false => rfl
      | true =>
        rw [hwf.at_left_of_mem hcl he hc hf1] at herr
        cases herr
    · intro e he e2 he2 h1 h2
      exact hwf.pair_eq_of_left_equal hcl he he2
        (hcl.equal_trans e.1 key e2.1 h1 (by rw [equal_symm]; exact h2))
  · intro key
    refine ⟨⟨?_, fun ha => hwf.at_right_of_absent hcr ha hf1⟩,
      fun e he heq => hwf.at_right_of_mem hcr he heq hf1, ?_⟩
    · intro herr e he
      cases hc : tree.equal cr e.2 key with
      | false => rfl
      | true =>
        rw [hwf.at_right_of_mem hcr he hc hf1] at herr
        cases herr
    · intro e he e2 he2 h1 h2
      exact hwf.pair_eq_of_right_equal hcr he he2
        (hcr.equal_trans e.2 key e2.2 h1 (by rw [equal_symm]; exact h2))

/-- C9 on the container holding (1,"a"), (2,"b"), (3,"c"): `at_left(2)` is "b",
`at_left(5)` signals `out_of_range`, `at_right("c")` is 3. -/
theorem C9_at_lookup_witness :
    at_left Scenario.ltNat 5 Scenario.s3 0 2 = .ok "b" ∧
      at_left Scenario.ltNat 5 Scenario.s3 0 5 = .error .out_of_range ∧
      at_right Scenario.ltStr 5 Scenario.s3 0 "c" = .ok 3 :=
  ⟨((C9_at_lookup Scenario.swo_ltNat Scenario.swo_ltStr Scenario.inv_s3
      (show size Scenario.s3 0 + 2 ≤ 5 by decide) Scenario.entries_s3).1 2).2.1 (2, "b")
      (by simp) rfl,
    ((C9_at_lookup Scenario.swo_ltNat Scenario.swo_ltStr Scenario.inv_s3
      (show size Scenario.s3 0 + 2 ≤ 5 by decide) Scenario.entries_s3).1 5).1.mpr
      (by decide),
    ((C9_at_lookup Scenario.swo_ltNat Scenario.swo_ltStr Scenario.inv_s3
      (show size Scenario.s3 0 + 2 ≤ 5 by decide) Scenario.entries_s3).2 "c").2.1 (3, "c")
      (by simp) rfl⟩

end Spec


namespace Spec

open details bimap

variable {L R : Type} {cl : L → L → Bool} {cr : R → R → Bool} {h : Heap L R} {c : Nat}

theorem not_equal_of_lt {T : Type} {cmp : T → T → Bool} {a b : T} (hab : cmp a b = true) :
    tree.equal cmp a b = false := by
  rw [equal_false_iff]; exact Or.inl hab

/-- The facts about the enumerations of a well-formed container that the invariants
claims read off. -/
theorem observations_of_wf {tl : PTree L} {tr : PTree R} (hwf : WF cl cr h c tl tr)
    {fuel : Nat} (hf : tl.size + 1 ≤ fuel) :
    positions_left fuel h c = .ok (tl.ptrs.map some) ∧
      positions_right fuel h c = .ok (tr.ptrs.map some) ∧
      entries_left fuel h c = .ok (pairs_of h tl.ptrs) ∧
      entries_right fuel h c = .ok (pairs_of h tr.ptrs) :=
  ⟨hwf.positions_left_eq hf, hwf.positions_right_eq (by rw [hwf.size_right]; exact hf),
    hwf.entries_left_eq hf, hwf.entries_right_eq hf⟩

/-- C4 (bijection invariant): in every reachable state the enumerations from both sides
complete; no two entries have equivalent left keys and no two have equivalent right keys;
no position occurs twice on either side; `flip` maps the left positions onto the right
positions and back; and both sides enumerate the same pairs. -/
theorem C4_bijection_invariant [Inhabited L] [Inhabited R] (hcl : StrictWeakOrder cl)
    (hcr : StrictWeakOrder cr) (hr : Reachable cl cr h c) {fuel : Nat}
    (hf : size h c + 2 ≤ fuel) :
    ∃ ps qs esl esr, positions_left fuel h c = .ok ps ∧ positions_right fuel h c = .ok qs ∧
      entries_left fuel h c = .ok esl ∧ entries_right fuel h c = .ok esr ∧
      esl.Pairwise (fun a b => tree.equal cl a.1 b.1 = false) ∧
      esl.Pairwise (fun a b => tree.equal cr a.2 b.2 = false) ∧
      ps.Nodup ∧ qs.Nodup ∧
      (∀ p ∈ ps, ∃ q ∈ qs, flip h.mem p = .ok q) ∧
      (∀ q ∈ qs, ∃ p ∈ ps, flip h.mem q = .ok p) ∧
      esl.Perm esr := by
  obtain ⟨tl, tr, hwf⟩ := hr.inv hcl hcr
  have hf1 : tl.size + 1 ≤ fuel := by have := hwf.size_eq; simp only [size] at hf; omega
  obtain ⟨h1, h2, h3, h4⟩ := observations_of_wf hwf hf1
  refine ⟨_, _, _, _, h1, h2, h3, h4, ?_, ?_, ?_, ?_, ?_, ?_, hwf.pairs_perm⟩
  · have hs := hwf.left_tree.sorted
    rw [← hwf.pairs_left_keys, List.pairwise_map] at hs
    exact hs.imp (fun hab => not_equal_of_lt hab)
  · have hs := hwf.right_tree.sorted
    rw [← hwf.pairs_right_keys, List.pairwise_map] at hs
    have hs2 : (pairs_of h tr.ptrs).Pairwise (fun a b => tree.equal cr a.2 b.2 = false) :=
      hs.imp (fun hab => not_equal_of_lt hab)
    refine (hwf.pairs_perm.pairwise_iff ?_).mpr hs2
    intro a b hab
    rw [equal_symm]; exact hab
  · exact hwf.left_tree.nodup.map (Option.some_injective _)
  · exact hwf.right_tree.nodup.map (Option.some_injective _)
  · intro p hp
    obtain ⟨p2, hp2, rfl⟩ := List.mem_map.mp hp
    exact ⟨some (partner p2), List.mem_map_of_mem some (hwf.partner_mem_right hp2),
      hwf.flip_left hp2⟩
  · intro q hq
    obtain ⟨q2, hq2, rfl⟩ := List.mem_map.mp hq
    exact ⟨some (partner q2), List.mem_map_of_mem some (hwf.partner_mem_left hq2),
      hwf.flip_right hq2⟩

/-- C4 on the container reached by inserting (1,"a"), (2,"b"), (3,"c"). -/
theorem C4_bijection_invariant_witness :
    ∃ ps qs esl esr, positions_left 5 Scenario.s3 0 = .ok ps ∧
      positions_right 5 Scenario.s3 0 = .ok qs ∧
      entries_left 5 Scenario.s3 0 = .ok esl ∧ entries_right 5 Scenario.s3 0 = .ok esr ∧
      esl.Pairwise (fun a b => tree.equal Scenario.ltNat a.1 b.1 = false) ∧
      esl.Pairwise (fun a b => tree.equal Scenario.ltStr a.2 b.2 = false) ∧
      ps.Nodup ∧ qs.Nodup ∧
      (∀ p ∈ ps, ∃ q ∈ qs, flip Scenario.s3.mem p = .ok q) ∧
      (∀ q ∈ qs, ∃ p ∈ ps, flip Scenario.s3.mem q = .ok p) ∧
      esl.Perm esr :=
  C4_bijection_invariant Scenario.swo_ltNat Scenario.swo_ltStr Scenario.reach_s3
    (show size Scenario.s3 0 + 2 ≤ 5 by decide)

/-- C5 (order invariant): in every reachable state, starting at `begin_left()` and
applying `++` reaches `end_left()` after exactly `size()` steps, and the left keys read
on the way strictly increase under the left comparator; the same holds from
`begin_right()` to `end_right()` under the right comparator. -/
theorem C5_order_invariant [Inhabited L] [Inhabited R] (hcl : StrictWeakOrder cl)
    (hcr : StrictWeakOrder cr) (hr : Reachable cl cr h c) {fuel : Nat}
    (hf : size h c + 2 ≤ fuel) :
    ∃ ps qs esl esr, positions_left fuel h c = .ok ps ∧ ps.length = size h c ∧
      entries_left fuel h c = .ok esl ∧
      (esl.map Prod.fst).Pairwise (fun a b => cl a b = true) ∧
      positions_right fuel h c = .ok qs ∧ qs.length = size h c ∧
      entries_right fuel h c = .ok esr ∧
      (esr.map Prod.snd).Pairwise (fun a b => cr a b = true) := by
  obtain ⟨tl, tr, hwf⟩ := hr.inv hcl hcr
  have hf1 : tl.size + 1 ≤ fuel := by have := hwf.size_eq; simp only [size] at hf; omega
  obtain ⟨h1, h2, h3, h4⟩ := observations_of_wf hwf hf1
  refine ⟨_, _, _, _, h1, ?_, h3, ?_, h2, ?_, h4, ?_⟩
  · rw [List.length_map, PTree.length_ptrs]; exact hwf.size_eq.symm
  · rw [hwf.pairs_left_keys]; exact hwf.left_tree.sorted
  · rw [List.length_map, PTree.length_ptrs, hwf.size_right]; exact hwf.size_eq.symm
  · rw [hwf.pairs_right_keys]; exact hwf.right_tree.sorted

/-- C5 on the container reached by inserting (1,"a"), (2,"b"), (3,"c"): the left side
iterates 1, 2, 3 and the right side "a", "b", "c". -/
theorem C5_order_invariant_witness :
    (∃ ps qs esl esr, positions_left 5 Scenario.s3 0 = .ok ps ∧
      ps.length = size Scenario.s3 0 ∧ entries_left 5 Scenario.s3 0 = .ok esl ∧
      (esl.map Prod.fst).Pairwise (fun a b => Scenario.ltNat a b = true) ∧
      positions_right 5 Scenario.s3 0 = .ok qs ∧ qs.length = size Scenario.s3 0 ∧
      entries_right 5 Scenario.s3 0 = .ok esr ∧
      (esr.map Prod.snd).Pairwise (fun a b => Scenario.ltStr a b = true)) ∧
    (entries_left 5 Scenario.s3 0).map (List.map Prod.fst) = .ok [1, 2, 3] ∧
    (entries_right 5 Scenario.s3 0).map (List.map Prod.snd) = .ok ["a", "b", "c"] :=
  ⟨C5_order_invariant Scenario.swo_ltNat Scenario.swo_ltStr Scenario.reach_s3
    (show size Scenario.s3 0 + 2 ≤ 5 by decide), rfl, rfl⟩

/-- C7 (flip): in every reachable state, for every position `p` between `begin_left()` and
`end_left()`, `p` is not the end, `p.flip()` is a position `q` between `begin_right()` and
`end_right()` other than the end, `q.flip()` is `p`, and the keys `*p` and `*q` are the
two keys of one entry: each is what the lookup of the other returns. Symmetrically for
every right position. -/
theorem C7_flip_involution [Inhabited L] [Inhabited R] (hcl : StrictWeakOrder cl)
    (hcr : StrictWeakOrder cr) (hr : Reachable cl cr h c) {fuel : Nat}
    (hf : size h c + 2 ≤ fuel) :
    ∃ ps qs, positions_left fuel h c = .ok ps ∧ positions_right fuel h c = .ok qs ∧
      (∀ p ∈ ps, p ≠ end_left c ∧ ∃ q, flip h.mem p = .ok q ∧ q ∈ qs ∧ q ≠ end_right c ∧
        flip h.mem q = .ok p ∧
        ∃ l r, get_value h.left_value p = .ok l ∧ get_value h.right_value q = .ok r ∧
          at_left cl fuel h c l = .ok r ∧ at_right cr fuel h c r = .ok l) ∧
      (∀ q ∈ qs, q ≠ end_right c ∧ ∃ p, flip h.mem q = .ok p ∧ p ∈ ps ∧ p ≠ end_left c ∧
        flip h.mem p = .ok q ∧
        ∃ l r, get_value h.left_value p = .ok l ∧ get_value h.right_value q = .ok r ∧
          at_left cl fuel h c l = .ok r ∧ at_right cr fuel h c r = .ok l) := by
  obtain ⟨tl, tr, hwf⟩ := hr.inv hcl hcr
  have hf1 : tl.size + 1 ≤ fuel := by have := hwf.size_eq; simp only [size] at hf; omega
  obtain ⟨h1, h2, _, _⟩ := observations_of_wf hwf hf1
  have hleft : ∀ p ∈ tl.ptrs, some p ≠ end_left c ∧ partner p ∈ tr.ptrs ∧
      some (partner p) ≠ end_right c ∧
      flip h.mem (some p) = .ok (some (partner p)) ∧
      flip h.mem (some (partner p)) = .ok (some p) ∧
      ∃ l r, get_value h.left_value (some p) = .ok l ∧
        get_value h.right_value (some (partner p)) = .ok r ∧
        at_left cl fuel h c l = .ok r ∧ at_right cr fuel h c r = .ok l := by
    intro p hp
    have hq := hwf.partner_mem_right hp
    obtain ⟨k, hk⟩ := mem_toList_of_mem_ptrs hp
    obtain ⟨r, _, hent, hv1, hv2⟩ := hwf.entry_at_left hk
    have hmem : (k, r) ∈ pairs_of h tl.ptrs := List.mem_filterMap.mpr ⟨p, hp, hent⟩
    have hfr := hwf.flip_right hq
    rw [partner_partner] at hfr
    refine ⟨?_, hq, ?_, hwf.flip_left hp, hfr, k, r, by simp only [get_value, hv1],
      by simp only [get_value, hv2], hwf.at_left_of_mem hcl hmem (hcl.equal_refl k) hf1,
      hwf.at_right_of_mem hcr hmem (hcr.equal_refl r) hf1⟩
    · simp only [end_left, tree.end_, ne_eq, Option.some.injEq]
      rintro rfl
      exact hwf.sentinel_not_mem_left _ _ hp
    · simp only [end_right, tree.end_, ne_eq, Option.some.injEq]
      intro heq
      rw [heq] at hq
      exact hwf.sentinel_not_mem_right _ _ hq
  refine ⟨_, _, h1, h2, ?_, ?_⟩
  · intro p hp
    obtain ⟨p2, hp2, rfl⟩ := List.mem_map.mp hp
    obtain ⟨a1, a2, a3, a4, a5, a6⟩ := hleft p2 hp2
    exact ⟨a1, _, a4, List.mem_map_of_mem some a2, a3, a5, a6⟩
  · intro q hq
    obtain ⟨q2, hq2, rfl⟩ := List.mem_map.mp hq
    have hp2 := hwf.partner_mem_left hq2
    obtain ⟨a1, a2, a3, a4, a5, a6⟩ := hleft (partner q2) hp2
    rw [partner_partner] at a3 a4 a5 a6
    exact ⟨a3, _, a5, List.mem_map_of_mem some hp2, a1, a4, a6⟩

/-- C7 on the container reached by inserting (1,"a"), (2,"b"), (3,"c"). -/
theorem C7_flip_involution_witness :
    ∃ ps qs, positions_left 5 Scenario.s3 0 = .ok ps ∧
      positions_right 5 Scenario.s3 0 = .ok qs ∧
      (∀ p ∈ ps, p ≠ end_left 0 ∧ ∃ q, flip Scenario.s3.mem p = .ok q ∧ q ∈ qs ∧
        q ≠ end_right 0 ∧ flip Scenario.s3.mem q = .ok p ∧
        ∃ l r, get_value Scenario.s3.left_value p = .ok l ∧
          get_value Scenario.s3.right_value q = .ok r ∧
          at_left Scenario.ltNat 5 Scenario.s3 0 l = .ok r ∧
          at_right Scenario.ltStr 5 Scenario.s3 0 r = .ok l) ∧
      (∀ q ∈ qs, q ≠ end_right 0 ∧ ∃ p, flip Scenario.s3.mem q = .ok p ∧ p ∈ ps ∧
        p ≠ end_left 0 ∧ flip Scenario.s3.mem p = .ok q ∧
        ∃ l r, get_value Scenario.s3.left_value p = .ok l ∧
          get_value Scenario.s3.right_value q = .ok r ∧
          at_left Scenario.ltNat 5 Scenario.s3 0 l = .ok r ∧
          at_right Scenario.ltStr 5 Scenario.s3 0 r = .ok l) :=
  C7_flip_involution Scenario.swo_ltNat Scenario.swo_ltStr Scenario.reach_s3
    (show size Scenario.s3 0 + 2 ≤ 5 by decide)

/-- C8 (flip maps end to end): in every reachable state, the empty container included,
`end_left().flip() == end_right()` and `end_right().flip() == end_left()`. -/
theorem C8_flip_end_to_end [Inhabited L] [Inhabited R] (hcl : StrictWeakOrder cl)
    (hcr : StrictWeakOrder cr) (hr : Reachable cl cr h c) :
    flip h.mem (end_left c) = .ok (end_right c) ∧
      flip h.mem (end_right c) = .ok (end_left c) := by
  obtain ⟨tl, tr, hwf⟩ := hr.inv hcl hcr
  exact hwf.flip_end

/-- C8 on the empty container and on the container after three inserts and one erase. -/
theorem C8_flip_end_to_end_witness :
    (flip Scenario.s0.mem (end_left 0) = .ok (end_right 0) ∧
      flip Scenario.s0.mem (end_right 0) = .ok (end_left 0)) ∧
    (flip Scenario.s4.mem (end_left 0) = .ok (end_right 0) ∧
      flip Scenario.s4.mem (end_right 0) = .ok (end_left 0)) :=
  ⟨C8_flip_end_to_end Scenario.swo_ltNat Scenario.swo_ltStr Scenario.reach_s0,
    C8_flip_end_to_end Scenario.swo_ltNat Scenario.swo_ltStr Scenario.reach_s4⟩

end Spec


namespace Spec

open details bimap

variable {L R : Type} {cl : L → L → Bool} {cr : R → R → Bool} {h : Heap L R} {c : Nat}

/-- C10: when an entry `e` has a left key equivalent to `key`, `at_left_or_default(key)`
returns `at_left(key)`, the right key of `e`, and the state is unchanged. When no entry
has such a left key, with `d` the default right value, the call returns `d`; the pairs
afterwards are the former pairs without the one whose right key is equivalent to `d`,
plus `(key, d)`; `at_left(key)` is then `d`; the size grows by one when no right key was
equivalent to `d`, and is unchanged when an entry `e` had such a right key, in which case
the left key of `e` is no longer found. -/
theorem C10_at_left_or_default [Inhabited R] (hcl : StrictWeakOrder cl)
    (hcr : StrictWeakOrder cr) (hinv : Inv cl cr h c) {fuel : Nat} (hf : size h c + 2 ≤ fuel)
    {es : List (L × R)} (hes : entries_left fuel h c = .ok es) (key : L) (pl pr : Nat) :
    (∀ e ∈ es, tree.equal cl e.1 key = true →
      at_left_or_default cl cr fuel h c key pl pr = .ok (h, e.2) ∧
      at_left cl fuel h c key = .ok e.2) ∧
    ((∀ e ∈ es, tree.equal cl e.1 key = false) →
      ∃ h2 es2, at_left_or_default cl cr fuel h c key pl pr = .ok (h2, default) ∧
        entries_left fuel h2 c = .ok es2 ∧
        es2.Perm ((key, default) :: es.filter (fun e => !tree.equal cr e.2 default)) ∧
        at_left cl fuel h2 c key = .ok default ∧
        ((∀ e ∈ es, tree.equal cr e.2 default = false) → size h2 c = size h c + 1) ∧
        (∀ e ∈ es, tree.equal cr e.2 default = true →
          size h2 c = size h c ∧ at_left cl fuel h2 c e.1 = .error .out_of_range ∧
          find_left cl fuel h2 c e.1 = .ok (end_left c)) ∧
        Inv cl cr h2 c) := by
  obtain ⟨tl, tr, hwf, rfl, hf2⟩ := entries_of_inv hinv hf hes
  have hf1 : tl.size + 1 ≤ fuel := by omega
  constructor
  · intro e he heq
    exact ⟨hwf.at_left_or_default_present hcl he heq pl pr hf1,
      hwf.at_left_of_mem hcl he heq hf1⟩
  · intro habs
    have ha := (hwf.lookup_left_none_iff hcl key).mpr habs
    obtain ⟨h2, tl2, tr2, hrun, hwf2, hpl, _, hsz_none, hsz_some⟩ :=
      hwf.at_left_or_default_absent hcl hcr pl pr hf2 ha
    have hsz_le : h2.sz c ≤ h.sz c + 1 := by
      cases hd : PTree.lookup cr (default : R) tr with
      | none => rw [hsz_none hd]
      | some q => rw [hsz_some (by rw [hd]; simp)]; omega
    have hf3 : tl2.size + 1 ≤ fuel := by
      have h1 := hwf2.size_eq
      have h2' := hwf.size_eq
      omega
    have hperm : (pairs_of h2 tl2.ptrs).Perm
        ((key, default) ::
          (pairs_of h tl.ptrs).filter (fun e => !tree.equal cr e.2 default)) := by
      rw [hpl]
      exact List.perm_middle.trans (List.Perm.cons _ (List.filter_append_perm _ _))
    have hnew : (key, (default : R)) ∈ pairs_of h2 tl2.ptrs :=
      hperm.mem_iff.mpr (by simp)
    refine ⟨h2, _, hrun, hwf2.entries_left_eq hf3, hperm,
      hwf2.at_left_of_mem hcl hnew (hcl.equal_refl key) hf3, ?_, ?_, ⟨tl2, tr2, hwf2⟩⟩
    · intro hnone
      simp only [size]
      exact hsz_none ((hwf.lookup_right_none_iff hcr default).mpr hnone)
    · intro e he heq
      have hsome : PTree.lookup cr (default : R) tr ≠ none := by
        intro hn
        have := (hwf.lookup_right_none_iff hcr default).mp hn e he
        rw [heq] at this
        cases this
      have habs2 : ∀ x ∈ pairs_of h2 tl2.ptrs, tree.equal cl x.1 e.1 = false := by
        intro x hx
        rcases List.mem_cons.mp (hperm.mem_iff.mp hx) with rfl | hx2
        · rw [equal_symm]
          exact habs e he
        · obtain ⟨hx3, hx4⟩ := List.mem_filter.mp hx2
          cases hc : tree.equal cl x.1 e.1 with
          | false => rfl
          | true =>
            have := hwf.pair_eq_of_left_equal hcl hx3 he hc
            subst this
            rw [heq] at hx4
            simp at hx4
      refine ⟨by simp only [size]; exact hsz_some hsome,
        hwf2.at_left_of_absent hcl habs2 hf3, ?_⟩
      simp only [find_left, hwf2.find_left_eq e.1 hf3,
        (hwf2.lookup_left_none_iff hcl e.1).mpr habs2]
      rfl

/-- C10 on the container holding (1,"a"), (2,"b"), (3,"c"), (4,""): the default string is
mapped to 4, so `at_left_or_default(5)` returns "", evicts (4,"") and creates (5,""); the
size stays 4 and 4 is no longer found. -/
theorem C10_at_left_or_default_witness :
    ∃ h2 es2, at_left_or_default Scenario.ltNat Scenario.ltStr 6 Scenario.s5 0 5 1 2 =
        .ok (h2, "") ∧
      entries_left 6 h2 0 = .ok es2 ∧
      es2.Perm [(5, ""), (1, "a"), (2, "b"), (3, "c")] ∧
      at_left Scenario.ltNat 6 h2 0 5 = .ok "" ∧
      size h2 0 = size Scenario.s5 0 ∧
      at_left Scenario.ltNat 6 h2 0 4 = .error .out_of_range := by
  obtain ⟨h2, es2, h1, h3, h4, h5, _, h7, _⟩ :=
    (C10_at_left_or_default Scenario.swo_ltNat Scenario.swo_ltStr Scenario.inv_s5
      (show size Scenario.s5 0 + 2 ≤ 6 by decide)
      (show entries_left 6 Scenario.s5 0 = .ok [(1, "a"), (2, "b"), (3, "c"), (4, "")]
        from rfl) 5 1 2).2 (by decide)
  have h8 := h7 (4, "") (by simp) rfl
  exact ⟨h2, es2, h1, h3, h4, h5, h8.1, h8.2.1⟩

end Spec

namespace details

variable {T : Type}

theorem SameDom.refl (m : Mem) : SameDom m m := fun _ => rfl

theorem SameDom.trans {m1 m2 m3 : Mem} (h1 : SameDom m1 m2) (h2 : SameDom m2 m3) :
    SameDom m1 m3 := fun q => (h2 q).trans (h1 q)

theorem SameDom_update {m : Mem} {p : Ptr} {nb nb2 : node_base} (hp : m p = some nb) :
    SameDom m (Function.update m p (some nb2)) := by
  intro q
  by_cases hq : q = p
  · subst hq; simp [hp]
  · rw [Function.update_noteq hq]

theorem write_left_dom {m m2 : Mem} {v x : Option Ptr} (h : write_left m v x = .ok m2) :
    SameDom m m2 := by
  cases v with
  | none => simp [write_left] at h
  | some p =>
    simp only [write_left] at h
    cases hp : m p with
    | none => simp [hp] at h
    | some nb =>
      simp only [hp, Except.ok.injEq] at h
      subst h
      exact SameDom_update hp

theorem write_right_dom {m m2 : Mem} {v x : Option Ptr} (h : write_right m v x = .ok m2) :
    SameDom m m2 := by
  cases v with
  | none => simp [write_right] at h
  | some p =>
    simp only [write_right] at h
    cases hp : m p with
    | none => simp [hp] at h
    | some nb =>
      simp only [hp, Except.ok.injEq] at h
      subst h
      exact SameDom_update hp

theorem write_parent_dom {m m2 : Mem} {v x : Option Ptr} (h : write_parent m v x = .ok m2) :
    SameDom m m2 := by
  cases v with
  | none => simp [write_parent] at h
  | some p =>
    simp only [write_parent] at h
    cases hp : m p with
    | none => simp [hp] at h
    | some nb =>
      simp only [hp, Except.ok.injEq] at h
      subst h
      exact SameDom_update hp

theorem set_parent_dom {m m2 : Mem} {v x : Option Ptr} (h : set_parent m v x = .ok m2) :
    SameDom m m2 := by
  cases v with
  | none =>
    simp only [set_parent, Except.ok.injEq] at h
    subst h
    exact SameDom.refl m
  | some p =>
    simp only [set_parent] at h
    exact write_parent_dom h

theorem set_root_dom {m m2 : Mem} {s : Ptr} {x : Option Ptr}
    (h : tree.set_root m s x = .ok m2) : SameDom m m2 := by
  simp only [tree.set_root] at h
  cases h1 : write_left m (some s) x with
  | error e => simp [h1] at h
  | ok m1 =>
    simp only [h1] at h
    exact (write_left_dom h1).trans (set_parent_dom h)

theorem split_dom (cmp : T → T → Bool) (val : Ptr → Option T) :
    ∀ (fuel : Nat) (m : Mem) (v : Option Ptr) (value : T) (incl : Bool) (m2 : Mem)
      (a b : Option Ptr), tree.split cmp val fuel m v value incl = .ok (m2, a, b) →
      SameDom m m2 := by
  intro fuel
  induction fuel with
  | zero => intro m v value incl m2 a b h; simp [tree.split] at h
  | succ fuel ih =>
    intro m v value incl m2 a b h
    cases v with
    | none =>
      simp only [tree.split, Except.ok.injEq, Prod.mk.injEq] at h
      rw [← h.1]
      exact SameDom.refl m
    | some v =>
      simp only [tree.split] at h
      cases hx : get_value val (some v) with
      | error e => simp [hx] at h
      | ok x =>
        simp only [hx] at h
        cases hm : m v with
        | none => simp [hm] at h
        | some vb =>
          simp only [hm] at h
          by_cases hg : (if incl = true then tree.less_or_equal cmp value x
              else tree.less cmp value x) = true
          · rw [if_pos hg] at h
            cases hr : tree.split cmp val fuel m vb.left value incl with
            | error e => simp [hr] at h
            | ok res =>
              obtain ⟨m1, first, second⟩ := res
              simp only [hr] at h
              cases hw : write_left m1 (some v) second with
              | error e => simp [hw] at h
              | ok m3 =>
                simp only [hw] at h
                cases hs : set_parent m3 second (some v) with
                | error e => simp [hs] at h
                | ok m4 =>
                  simp only [hs, Except.ok.injEq, Prod.mk.injEq] at h
                  rw [← h.1]
                  exact ((ih _ _ _ _ _ _ _ hr).trans (write_left_dom hw)).trans
                    (set_parent_dom hs)
          · rw [if_neg hg] at h
            cases hr : tree.split cmp val fuel m vb.right value incl with
            | error e => simp [hr] at h
            | ok res =>
              obtain ⟨m1, first, second⟩ := res
              simp only [hr] at h
              cases hw : write_right m1 (some v) first with
              | error e => simp [hw] at h
              | ok m3 =>
                simp only [hw] at h
                cases hs : set_parent m3 first (some v) with
                | error e => simp [hs] at h
                | ok m4 =>
                  simp only [hs, Except.ok.injEq, Prod.mk.injEq] at h
                  rw [← h.1]
                  exact ((ih _ _ _ _ _ _ _ hr).trans (write_right_dom hw)).trans
                    (set_parent_dom hs)

theorem merge_dom : ∀ (fuel : Nat) (m : Mem) (l r : Option Ptr) (m2 : Mem) (x : Option Ptr),
    tree.merge fuel m l r = .ok (m2, x) → SameDom m m2 := by
  intro fuel
  induction fuel with
  | zero => intro m l r m2 x h; simp [tree.merge] at h
  | succ fuel ih =>
    intro m l r m2 x h
    cases l with
    | none =>
      cases r with
      | none =>
        simp only [tree.merge, Except.ok.injEq, Prod.mk.injEq] at h
        rw [← h.1]; exact SameDom.refl m
      | some r =>
        simp only [tree.merge, Except.ok.injEq, Prod.mk.injEq] at h
        rw [← h.1]; exact SameDom.refl m
    | some l =>
      cases r with
      | none =>
        simp only [tree.merge, Except.ok.injEq, Prod.mk.injEq] at h
        rw [← h.1]; exact SameDom.refl m
      | some r =>
        simp only [tree.merge] at h
        cases hl : m l with
        | none => simp [hl] at h
        | some lb =>
          cases hr : m r with
          | none => simp [hl, hr] at h
          | some rb =>
            simp only [hl, hr] at h
            by_cases hp : lb.priority ≥ rb.priority
            · rw [if_pos hp] at h
              cases hrec : tree.merge fuel m lb.right (some r) with
              | error e => simp [hrec] at h
              | ok res =>
                obtain ⟨m1, merged⟩ := res
                simp only [hrec] at h
                cases hw : write_right m1 (some l) merged with
                | error e => simp [hw] at h
                | ok m3 =>
                  simp only [hw] at h
                  cases hs : set_parent m3 merged (some l) with
                  | error e => simp [hs] at h
                  | ok m4 =>
                    simp only [hs, Except.ok.injEq, Prod.mk.injEq] at h
                    rw [← h.1]
                    exact ((ih _ _ _ _ _ hrec).trans (write_right_dom hw)).trans
                      (set_parent_dom hs)
            · rw [if_neg hp] at h
              cases hrec : tree.merge fuel m (some l) rb.left with
              | error e => simp [hrec] at h
              | ok res =>
                obtain ⟨m1, merged⟩ := res
                simp only [hrec] at h
                cases hw : write_left m1 (some r) merged with
                | error e => simp [hw] at h
                | ok m3 =>
                  simp only [hw] at h
                  cases hs : set_parent m3 merged (some r) with
                  | error e => simp [hs] at h
                  | ok m4 =>
                    simp only [hs, Except.ok.injEq, Prod.mk.injEq] at h
                    rw [← h.1]
                    exact ((ih _ _ _ _ _ hrec).trans (write_left_dom hw)).trans
                      (set_parent_dom hs)

theorem tree_insert_dom (cmp : T → T → Bool) (val : Ptr → Option T) {fuel : Nat} {m m2 : Mem}
    {s n : Ptr} {x : Option Ptr} (h : tree.insert cmp val fuel m s n = .ok (m2, x)) :
    SameDom m m2 := by
  simp only [tree.insert] at h
  cases hr : tree.root m s with
  | error e => simp [hr] at h
  | ok r =>
    cases r with
    | none =>
      simp only [hr] at h
      cases h1 : tree.set_root m s (some n) with
      | error e => simp [h1] at h
      | ok m1 =>
        simp only [h1, Except.ok.injEq, Prod.mk.injEq] at h
        rw [← h.1]
        exact set_root_dom h1
    | some r =>
      simp only [hr] at h
      cases hx : get_value val (some n) with
      | error e => simp [hx] at h
      | ok k =>
        simp only [hx] at h
        cases h1 : tree.split cmp val fuel m (some r) k true with
        | error e => simp [h1] at h
        | ok res =>
          obtain ⟨m1, first, second⟩ := res
          simp only [h1] at h
          cases h2 : tree.merge fuel m1 (some n) second with
          | error e => simp [h2] at h
          | ok res2 =>
            obtain ⟨m3, second1⟩ := res2
            simp only [h2] at h
            cases h3 : tree.merge fuel m3 first second1 with
            | error e => simp [h3] at h
            | ok res3 =>
              obtain ⟨m4, r1⟩ := res3
              simp only [h3] at h
              cases h4 : tree.set_root m4 s r1 with
              | error e => simp [h4] at h
              | ok m5 =>
                simp only [h4, Except.ok.injEq, Prod.mk.injEq] at h
                rw [← h.1]
                exact (((split_dom cmp val _ _ _ _ _ _ _ _ h1).trans
                  (merge_dom _ _ _ _ _ _ h2)).trans (merge_dom _ _ _ _ _ _ h3)).trans
                  (set_root_dom h4)

theorem erase_helper_dom {fuel : Nat} {m m2 : Mem} {v : Option Ptr}
    (h : tree.erase_helper fuel m v = .ok m2) :
    SameDom m m2 ∧ ∃ p, v = some p ∧ (m p).isSome = true := by
  simp only [tree.erase_helper] at h
  cases hd : deref m v with
  | error e => simp [hd] at h
  | ok vb =>
    have hv : ∃ p, v = some p ∧ (m p).isSome = true := by
      cases v with
      | none => simp [deref] at hd
      | some p =>
        refine ⟨p, rfl, ?_⟩
        simp only [deref] at hd
        cases hp : m p with
        | none => simp [hp] at hd
        | some nb => rfl
    refine ⟨?_, hv⟩
    simp only [hd] at h
    cases h1 : tree.merge fuel m vb.left vb.right with
    | error e => simp [h1] at h
    | ok res =>
      obtain ⟨m1, new_son⟩ := res
      simp only [h1] at h
      cases hd1 : deref m1 v with
      | error e => simp [hd1] at h
      | ok vb1 =>
        simp only [hd1] at h
        cases new_son with
        | none =>
          simp only at h
          have h03 : SameDom m m1 := merge_dom _ _ _ _ _ _ h1
          cases hd2 : deref m1 v with
          | error e => simp [hd2] at h
          | ok vb2 =>
            simp only [hd2] at h
            cases hl : is_left_son m1 vb2.parent v with
            | error e => simp [hl] at h
            | ok bl =>
              cases bl with
              | true =>
                simp only [hl] at h
                exact h03.trans (write_left_dom h)
              | false =>
                simp only [hl] at h
                cases hr : is_right_son m1 vb2.parent v with
                | error e => simp [hr] at h
                | ok br =>
                  cases br with
                  | true =>
                    simp only [hr] at h
                    exact h03.trans (write_right_dom h)
                  | false =>
                    simp only [hr, Except.ok.injEq] at h
                    rw [← h]; exact h03
        | some n =>
          simp only at h
          cases h2 : write_parent m1 (some n) vb1.parent with
          | error e => simp [h2] at h
          | ok m3 =>
            simp only [h2] at h
            have h03 : SameDom m m3 := (merge_dom _ _ _ _ _ _ h1).trans (write_parent_dom h2)
            cases hd2 : deref m3 v with
            | error e => simp [hd2] at h
            | ok vb2 =>
              simp only [hd2] at h
              cases hl : is_left_son m3 vb2.parent v with
              | error e => simp [hl] at h
              | ok bl =>
                cases bl with
                | true =>
                  simp only [hl] at h
                  exact h03.trans (write_left_dom h)
                | false =>
                  simp only [hl] at h
                  cases hr : is_right_son m3 vb2.parent v with
                  | error e => simp [hr] at h
                  | ok br =>
                    cases br with
                    | true =>
                      simp only [hr] at h
                      exact h03.trans (write_right_dom h)
                    | false =>
                      simp only [hr, Except.ok.injEq] at h
                      rw [← h]; exact h03

end details



namespace bimap

open details

variable {L R : Type} {cl : L → L → Bool} {cr : R → R → Bool} {h : Heap L R} {c : Nat}

theorem countP_remove_one {p q : Nat → Bool} {e : Nat} :
    ∀ (l : List Nat), l.Nodup → e ∈ l → p e = true →
      (∀ x, q x = (p x && decide (x ≠ e))) → l.countP q + 1 = l.countP p := by
  intro l
  induction l with
  | nil => intro _ he; simp at he
  | cons a rest ih =>
    intro hnd he hp hp2
    obtain ⟨hna, hnd2⟩ := List.nodup_cons.mp hnd
    by_cases hae : a = e
    · subst hae
      have hrest : rest.countP q = rest.countP p := by
        refine List.countP_congr ?_
        intro x hx
        have hxa : x ≠ a := fun hxa => hna (hxa ▸ hx)
        rw [hp2 x]
        simp [hxa]
      rw [List.countP_cons, List.countP_cons, hp2 a, hp, hrest]
      simp
    · have he2 : e ∈ rest := by
        rcases List.mem_cons.mp he with h1 | h1
        · exact absurd h1.symm hae
        · exact h1
      have := ih hnd2 he2 hp hp2
      rw [List.countP_cons, List.countP_cons, hp2 a]
      simp only [ne_eq, hae, not_false_eq_true, decide_True, Bool.and_true]
      omega

/-- Allocating the entry `h.next` adds one live entry. -/
theorem tidy_alloc {h h2 : Heap L R} {c : Nat} (ht : Tidy h c) (hn : h2.next = h.next + 1)
    (hold : ∀ e s, e ≠ h.next → (h2.mem (Ptr.node e s)).isSome = (h.mem (Ptr.node e s)).isSome)
    (hnew : (h2.mem (Ptr.node h.next .left)).isSome = true)
    (hsz : h2.sz c = h.sz c + 1) : Tidy h2 c := by
  constructor
  · rw [hsz, ← ht.1]
    simp only [live_entries, hn, List.range_succ, List.filter_append, List.length_append]
    have h1 : (List.range h.next).filter (fun e =>
        (h2.mem (Ptr.node e .left)).isSome || (h2.mem (Ptr.node e .right)).isSome) =
        (List.range h.next).filter (fun e =>
        (h.mem (Ptr.node e .left)).isSome || (h.mem (Ptr.node e .right)).isSome) := by
      refine List.filter_congr ?_
      intro e he
      have hne : e ≠ h.next := by have := List.mem_range.mp he; omega
      rw [hold e .left hne, hold e .right hne]
    rw [h1]
    simp [hnew]
  · intro e s he
    have hne : e ≠ h.next := by omega
    have h1 := hold e s hne
    rw [ht.2 e s (by omega)] at h1
    cases hm : h2.mem (Ptr.node e s) with
    | none => rfl
    | some nb => rw [hm] at h1; cases h1

/-- Releasing an allocated entry removes one live entry. -/
theorem tidy_release {h h2 : Heap L R} {c : Nat} {e : Nat} {s0 : Side} (ht : Tidy h c)
    (hn : h2.next = h.next)
    (hold : ∀ e2 s, e2 ≠ e → (h2.mem (Ptr.node e2 s)).isSome = (h.mem (Ptr.node e2 s)).isSome)
    (hgone : ∀ s, h2.mem (Ptr.node e s) = none)
    (halloc : (h.mem (Ptr.node e s0)).isSome = true)
    (hsz : h2.sz c = h.sz c - 1) : Tidy h2 c := by
  have hlt : e < h.next := by
    by_contra hge
    rw [ht.2 e s0 (by omega)] at halloc
    cases halloc
  have hcount := countP_remove_one
    (p := fun x => (h.mem (Ptr.node x .left)).isSome || (h.mem (Ptr.node x .right)).isSome)
    (q := fun x => (h2.mem (Ptr.node x .left)).isSome || (h2.mem (Ptr.node x .right)).isSome)
    (e := e) (List.range h.next) (List.nodup_range _) (List.mem_range.mpr hlt)
    (by cases s0 <;> simp [halloc])
    (by
      intro x
      by_cases hx : x = e
      · subst hx; simp [hgone]
      · simp [hold x _ hx, hx])
  constructor
  · rw [hsz, ← ht.1]
    simp only [live_entries, hn, ← List.countP_eq_length_filter]
    omega
  · intro e2 s he
    by_cases hx : e2 = e
    · subst hx; exact hgone s
    · have h1 := hold e2 s hx
      rw [ht.2 e2 s (by omega)] at h1
      cases hm : h2.mem (Ptr.node e2 s) with
      | none => rfl
      | some nb => rw [hm] at h1; cases h1

theorem tidy_insert {left : L} {right : R} {pl pr fuel : Nat} {h2 : Heap L R}
    {p : Option Ptr} (hrun : insert cl cr fuel h c left right pl pr = .ok (h2, p))
    (ht : Tidy h c) : Tidy h2 c := by
  simp only [insert] at hrun
  cases hf : tree.find cl h.left_value h.mem (Ptr.sentinel c .left) fuel left with
  | error e => simp [hf] at hrun
  | ok f =>
    simp only [hf] at hrun
    by_cases hfe : f ≠ tree.end_ (Ptr.sentinel c .left)
    · rw [if_pos hfe] at hrun
      simp only [Except.ok.injEq, Prod.mk.injEq] at hrun
      rw [← hrun.1]; exact ht
    rw [if_neg hfe] at hrun
    cases hg : tree.find cr h.right_value h.mem (Ptr.sentinel c .right) fuel right with
    | error e => simp [hg] at hrun
    | ok g =>
      simp only [hg] at hrun
      by_cases hge : g ≠ tree.end_ (Ptr.sentinel c .right)
      · rw [if_pos hge] at hrun
        simp only [Except.ok.injEq, Prod.mk.injEq] at hrun
        rw [← hrun.1]; exact ht
      rw [if_neg hge] at hrun
      cases h1 : tree.insert cl (new_node h left right pl pr).left_value fuel
          (new_node h left right pl pr).mem (Ptr.sentinel c .left) (Ptr.node h.next .left) with
      | error e => simp [h1] at hrun
      | ok res1 =>
        obtain ⟨m1, result⟩ := res1
        simp only [h1] at hrun
        cases h2e : tree.insert cr (new_node h left right pl pr).right_value fuel m1
            (Ptr.sentinel c .right) (Ptr.node h.next .right) with
        | error e => simp [h2e] at hrun
        | ok res2 =>
          obtain ⟨m2, x⟩ := res2
          simp only [h2e, Except.ok.injEq, Prod.mk.injEq] at hrun
          rw [← hrun.1]
          have hdom : SameDom (new_node h left right pl pr).mem m2 :=
            (tree_insert_dom _ _ h1).trans (tree_insert_dom _ _ h2e)
          refine tidy_alloc ht rfl ?_ ?_ ?_
          · intro e s hne
            show (m2 (Ptr.node e s)).isSome = _
            rw [hdom]
            have hne1 : Ptr.node e s ≠ Ptr.node h.next .left := by
              simp only [ne_eq, Ptr.node.injEq, not_and]; intro h3; exact absurd h3 hne
            have hne2 : Ptr.node e s ≠ Ptr.node h.next .right := by
              simp only [ne_eq, Ptr.node.injEq, not_and]; intro h3; exact absurd h3 hne
            simp only [new_node]
            rw [Function.update_noteq hne2, Function.update_noteq hne1]
          · show (m2 (Ptr.node h.next .left)).isSome = _
            rw [hdom]
            simp [new_node]
          · show Function.update _ c _ c = _
            rw [Function.update_same]
            rfl

theorem tidy_erase_left {fuel : Nat} {it : Option Ptr} {h2 : Heap L R} {res : Option Ptr}
    (hrun : erase_left fuel h c it = .ok (h2, res)) (ht : Tidy h c) : Tidy h2 c := by
  simp only [erase_left] at hrun
  by_cases hend : it = end_left c
  · rw [if_pos hend] at hrun
    simp only [Except.ok.injEq, Prod.mk.injEq] at hrun
    rw [← hrun.1]; exact ht
  rw [if_neg hend] at hrun
  cases hfl : flip h.mem it with
  | error e => simp [hfl] at hrun
  | ok right_it =>
    simp only [hfl] at hrun
    cases hnx : get_next h.mem fuel it with
    | error e => simp [hnx] at hrun
    | ok nxt =>
      simp only [hnx] at hrun
      cases h1 : tree.erase_helper fuel h.mem it with
      | error e => simp [h1] at hrun
      | ok m1 =>
        simp only [h1] at hrun
        cases h2e : tree.erase_helper fuel m1 right_it with
        | error e => simp [h2e] at hrun
        | ok m2 =>
          simp only [h2e] at hrun
          obtain ⟨hd1, p, hp, halloc⟩ := erase_helper_dom h1
          have hdom : SameDom h.mem m2 := hd1.trans (erase_helper_dom h2e).1
          subst hp
          cases p with
          | sentinel c2 s2 => simp at hrun
          | node e s0 =>
            simp only [Except.ok.injEq, Prod.mk.injEq] at hrun
            rw [← hrun.1]
            refine tidy_release ht rfl ?_ ?_ halloc ?_
            · intro e2 s hne
              have hne1 : Ptr.node e2 s ≠ Ptr.node e .left := by
                simp only [ne_eq, Ptr.node.injEq, not_and]; intro h3; exact absurd h3 hne
              have hne2 : Ptr.node e2 s ≠ Ptr.node e .right := by
                simp only [ne_eq, Ptr.node.injEq, not_and]; intro h3; exact absurd h3 hne
              simp only [delete_node]
              rw [Function.update_noteq hne2, Function.update_noteq hne1]
              exact hdom _
            · intro s
              cases s <;> simp [delete_node]
            · show Function.update _ c _ c = _
              rw [Function.update_same]

theorem tidy_erase_left_key {fuel : Nat} {left : L} {h2 : Heap L R} {res : Bool}
    (hrun : erase_left_key cl fuel h c left = .ok (h2, res)) (ht : Tidy h c) : Tidy h2 c := by
  simp only [erase_left_key] at hrun
  cases hf : tree.find cl h.left_value h.mem (Ptr.sentinel c .left) fuel left with
  | error e => simp [hf] at hrun
  | ok f =>
    simp only [hf] at hrun
    cases h1 : erase_left fuel h c f with
    | error e => simp [h1] at hrun
    | ok r1 =>
      obtain ⟨h3, x⟩ := r1
      simp only [h1, Except.ok.injEq, Prod.mk.injEq] at hrun
      rw [← hrun.1]
      exact tidy_erase_left h1 ht

theorem tidy_erase_right {fuel : Nat} {it : Option Ptr} {h2 : Heap L R} {res : Option Ptr}
    (hrun : erase_right fuel h c it = .ok (h2, res)) (ht : Tidy h c) : Tidy h2 c := by
  simp only [erase_right] at hrun
  by_cases hend : it = end_right c
  · rw [if_pos hend] at hrun
    simp only [Except.ok.injEq, Prod.mk.injEq] at hrun
    rw [← hrun.1]; exact ht
  rw [if_neg hend] at hrun
  cases hfl : flip h.mem it with
  | error e => simp [hfl] at hrun
  | ok left_it =>
    simp only [hfl] at hrun
    cases h1 : erase_left fuel h c left_it with
    | error e => simp [h1] at hrun
    | ok r1 =>
      obtain ⟨h3, x⟩ := r1
      simp only [h1] at hrun
      cases hfl2 : flip h3.mem x with
      | error e => simp [hfl2] at hrun
      | ok y =>
        simp only [hfl2, Except.ok.injEq, Prod.mk.injEq] at hrun
        rw [← hrun.1]
        exact tidy_erase_left h1 ht

theorem tidy_erase_right_key {fuel : Nat} {right : R} {h2 : Heap L R} {res : Bool}
    (hrun : erase_right_key cr fuel h c right = .ok (h2, res)) (ht : Tidy h c) :
    Tidy h2 c := by
  simp only [erase_right_key] at hrun
  cases hf : tree.find cr h.right_value h.mem (Ptr.sentinel c .right) fuel right with
  | error e => simp [hf] at hrun
  | ok f =>
    simp only [hf] at hrun
    cases h1 : erase_right fuel h c f with
    | error e => simp [h1] at hrun
    | ok r1 =>
      obtain ⟨h3, x⟩ := r1
      simp only [h1, Except.ok.injEq, Prod.mk.injEq] at hrun
      rw [← hrun.1]
      exact tidy_erase_right h1 ht

theorem tidy_erase_left_range (fuel : Nat) (c : Nat) :
    ∀ (n : Nat) (h : Heap L R) (first last : Option Ptr) (h2 : Heap L R) (res : Option Ptr),
      erase_left_range fuel n h c first last = .ok (h2, res) → Tidy h c → Tidy h2 c := by
  intro n
  induction n with
  | zero => intro h first last h2 res hrun; simp [erase_left_range] at hrun
  | succ n ih =>
    intro h first last h2 res hrun ht
    simp only [erase_left_range] at hrun
    by_cases hfl : first = last
    · rw [if_pos hfl] at hrun
      simp only [Except.ok.injEq, Prod.mk.injEq] at hrun
      rw [← hrun.1]; exact ht
    rw [if_neg hfl] at hrun
    cases hnx : get_next h.mem fuel first with
    | error e => simp [hnx] at hrun
    | ok nxt =>
      simp only [hnx] at hrun
      cases h1 : erase_left fuel h c first with
      | error e => simp [h1] at hrun
      | ok r1 =>
        obtain ⟨h3, x⟩ := r1
        simp only [h1] at hrun
        exact ih _ _ _ _ _ hrun (tidy_erase_left h1 ht)

theorem tidy_erase_right_range (fuel : Nat) (c : Nat) :
    ∀ (n : Nat) (h : Heap L R) (first last : Option Ptr) (h2 : Heap L R) (res : Option Ptr),
      erase_right_range fuel n h c first last = .ok (h2, res) → Tidy h c → Tidy h2 c := by
  intro n
  induction n with
  | zero => intro h first last h2 res hrun; simp [erase_right_range] at hrun
  | succ n ih =>
    intro h first last h2 res hrun ht
    simp only [erase_right_range] at hrun
    by_cases hfl : first = last
    · rw [if_pos hfl] at hrun
      simp only [Except.ok.injEq, Prod.mk.injEq] at hrun
      rw [← hrun.1]; exact ht
    rw [if_neg hfl] at hrun
    cases hnx : get_next h.mem fuel first with
    | error e => simp [hnx] at hrun
    | ok nxt =>
      simp only [hnx] at hrun
      cases h1 : erase_right fuel h c first with
      | error e => simp [h1] at hrun
      | ok r1 =>
        obtain ⟨h3, x⟩ := r1
        simp only [h1] at hrun
        exact ih _ _ _ _ _ hrun (tidy_erase_right h1 ht)

theorem tidy_insert_flip_deref {left : L} {right : R} {pl pr fuel : Nat} {h2 : Heap L R}
    {v : R} (hrun : insert_flip_deref cl cr fuel h c left right pl pr = .ok (h2, v))
    (ht : Tidy h c) : Tidy h2 c := by
  simp only [insert_flip_deref] at hrun
  cases h1 : insert cl cr fuel h c left right pl pr with
  | error e => simp [h1] at hrun
  | ok r1 =>
    obtain ⟨h3, p⟩ := r1
    simp only [h1] at hrun
    cases hfl : flip h3.mem p with
    | error e => simp [hfl] at hrun
    | ok q =>
      simp only [hfl] at hrun
      cases hv : get_value h3.right_value q with
      | error e => simp [hv] at hrun
      | ok w =>
        simp only [hv, Except.ok.injEq, Prod.mk.injEq] at hrun
        rw [← hrun.1]
        exact tidy_insert h1 ht

theorem tidy_insert_deref {left : L} {right : R} {pl pr fuel : Nat} {h2 : Heap L R}
    {v : L} (hrun : insert_deref cl cr fuel h c left right pl pr = .ok (h2, v))
    (ht : Tidy h c) : Tidy h2 c := by
  simp only [insert_deref] at hrun
  cases h1 : insert cl cr fuel h c left right pl pr with
  | error e => simp [h1] at hrun
  | ok r1 =>
    obtain ⟨h3, p⟩ := r1
    simp only [h1] at hrun
    cases hv : get_value h3.left_value p with
    | error e => simp [hv] at hrun
    | ok w =>
      simp only [hv, Except.ok.injEq, Prod.mk.injEq] at hrun
      rw [← hrun.1]
      exact tidy_insert h1 ht

theorem tidy_at_left_or_default [Inhabited R] {key : L} {pl pr fuel : Nat} {h2 : Heap L R}
    {v : R} (hrun : at_left_or_default cl cr fuel h c key pl pr = .ok (h2, v))
    (ht : Tidy h c) : Tidy h2 c := by
  simp only [at_left_or_default] at hrun
  cases hf : tree.find cl h.left_value h.mem (Ptr.sentinel c .left) fuel key with
  | error e => simp [hf] at hrun
  | ok f =>
    simp only [hf] at hrun
    by_cases hfe : f = tree.end_ (Ptr.sentinel c .left)
    · rw [if_pos hfe] at hrun
      cases hg : tree.find cr h.right_value h.mem (Ptr.sentinel c .right) fuel default with
      | error e => simp [hg] at hrun
      | ok found =>
        simp only [hg] at hrun
        by_cases hge : found ≠ tree.end_ (Ptr.sentinel c .right)
        · rw [if_pos hge] at hrun
          cases hfl : flip h.mem found with
          | error e => simp [hfl] at hrun
          | ok it =>
            simp only [hfl] at hrun
            cases h1 : erase_left fuel h c it with
            | error e => simp [h1] at hrun
            | ok r1 =>
              obtain ⟨h3, x⟩ := r1
              simp only [h1] at hrun
              exact tidy_insert_flip_deref hrun (tidy_erase_left h1 ht)
        · rw [if_neg hge] at hrun
          exact tidy_insert_flip_deref hrun ht
    · rw [if_neg hfe] at hrun
      cases ha : at_left cl fuel h c key with
      | error e => simp [ha] at hrun
      | ok w =>
        simp only [ha, Except.ok.injEq, Prod.mk.injEq] at hrun
        rw [← hrun.1]; exact ht

theorem tidy_at_right_or_default [Inhabited L] {key : R} {pl pr fuel : Nat} {h2 : Heap L R}
    {v : L} (hrun : at_right_or_default cl cr fuel h c key pl pr = .ok (h2, v))
    (ht : Tidy h c) : Tidy h2 c := by
  simp only [at_right_or_default] at hrun
  cases hf : tree.find cr h.right_value h.mem (Ptr.sentinel c .right) fuel key with
  | error e => simp [hf] at hrun
  | ok f =>
    simp only [hf] at hrun
    by_cases hfe : f = tree.end_ (Ptr.sentinel c .right)
    · rw [if_pos hfe] at hrun
      cases hg : tree.find cl h.left_value h.mem (Ptr.sentinel c .left) fuel default with
      | error e => simp [hg] at hrun
      | ok found =>
        simp only [hg] at hrun
        by_cases hge : found ≠ tree.end_ (Ptr.sentinel c .right)
        · rw [if_pos hge] at hrun
          cases hfl : flip h.mem found with
          | error e => simp [hfl] at hrun
          | ok it =>
            simp only [hfl] at hrun
            cases h1 : erase_right fuel h c it with
            | error e => simp [h1] at hrun
            | ok r1 =>
              obtain ⟨h3, x⟩ := r1
              simp only [h1] at hrun
              exact tidy_insert_deref hrun (tidy_erase_right h1 ht)
        · rw [if_neg hge] at hrun
          exact tidy_insert_deref hrun ht
    · rw [if_neg hfe] at hrun
      cases ha : at_right cr fuel h c key with
      | error e => simp [ha] at hrun
      | ok w =>
        simp only [ha, Except.ok.injEq, Prod.mk.injEq] at hrun
        rw [← hrun.1]; exact ht

theorem tidy_construct {c p1 p2 : Nat} {h : Heap L R}
    (hrun : bimap (Heap.init L R) c p1 p2 = .ok h) : Tidy h c := by
  simp only [bimap, share_pointers, tree.set_another_tree_pointer, write_right] at hrun
  have hne : Ptr.sentinel c .left ≠ Ptr.sentinel c .right := by simp
  simp only [Function.update_same, Function.update_noteq hne, Function.update_noteq hne.symm,
    Except.ok.injEq] at hrun
  subst hrun
  constructor
  · simp [live_entries, Heap.init]
  · intro e s _
    simp [Heap.init]

/-- In every reachable state `sz` counts the live entries. -/
theorem Reachable.tidy [Inhabited L] [Inhabited R] (hr : Reachable cl cr h c) : Tidy h c := by
  induction hr with
  | construct c p1 p2 h hrun => exact tidy_construct hrun
  | insert fuel left right pl pr h2 p _ _ hrun ih => exact tidy_insert hrun ih
  | erase_left fuel ps it h2 res _ _ _ _ hrun ih => exact tidy_erase_left hrun ih
  | erase_left_key fuel left h2 res _ _ hrun ih => exact tidy_erase_left_key hrun ih
  | erase_right fuel ps it h2 res _ _ _ _ hrun ih => exact tidy_erase_right hrun ih
  | erase_right_key fuel right h2 res _ _ hrun ih => exact tidy_erase_right_key hrun ih
  | erase_left_range fuel ps first last h2 res _ _ _ _ hrun ih =>
    exact tidy_erase_left_range fuel _ _ _ _ _ _ _ hrun ih
  | erase_right_range fuel ps first last h2 res _ _ _ _ hrun ih =>
    exact tidy_erase_right_range fuel _ _ _ _ _ _ _ hrun ih
  | at_left_or_default fuel key pl pr h2 v _ _ hrun ih =>
    exact tidy_at_left_or_default hrun ih
  | at_right_or_default fuel key pl pr h2 v _ _ hrun ih =>
    exact tidy_at_right_or_default hrun ih

end bimap

namespace Spec

open details bimap

variable {L R : Type} {cl : L → L → Bool} {cr : R → R → Bool} {h : Heap L R} {c : Nat}

/-- C6 (size invariant): in every state reached from the constructed empty container by
insert, erase (by key, by position, by range, on either side) and `at_*_or_default`
calls, `size()` equals the number of live entries, which equals the number of positions
enumerated from `begin_left()` to `end_left()` and the number enumerated from
`begin_right()` to `end_right()`; and `empty()` holds iff that number is 0. -/
theorem C6_size_invariant [Inhabited L] [Inhabited R] (hcl : StrictWeakOrder cl)
    (hcr : StrictWeakOrder cr) (hr : Reachable cl cr h c) {fuel : Nat}
    (hf : size h c + 2 ≤ fuel) :
    ∃ ps qs, positions_left fuel h c = .ok ps ∧ positions_right fuel h c = .ok qs ∧
      size h c = live_entries h ∧ live_entries h = ps.length ∧
      live_entries h = qs.length ∧ (empty h c = true ↔ live_entries h = 0) := by
  obtain ⟨tl, tr, hwf⟩ := hr.inv hcl hcr
  have hf1 : tl.size + 1 ≤ fuel := by have := hwf.size_eq; simp only [size] at hf; omega
  obtain ⟨h1, h2, _, _⟩ := observations_of_wf hwf hf1
  have hlive : live_entries h = tl.size := by rw [hr.tidy.1]; exact hwf.size_eq
  have hsz : size h c = live_entries h := by rw [hlive]; exact hwf.size_eq
  refine ⟨_, _, h1, h2, hsz, ?_, ?_, ?_⟩
  · rw [List.length_map, PTree.length_ptrs]; exact hlive
  · rw [List.length_map, PTree.length_ptrs, hwf.size_right]; exact hlive
  · simp only [empty, decide_eq_true_eq, hsz]

/-- C6 on the container reached by inserting (1,"a"), (2,"b"), (3,"c") and erasing the
left key 2: three entries were created, one was destroyed, and `size()`, the live
entries and both enumerations count 2; the container is not empty. -/
theorem C6_size_invariant_witness :
    (∃ ps qs, positions_left 5 Scenario.s4 0 = .ok ps ∧
      positions_right 5 Scenario.s4 0 = .ok qs ∧
      size Scenario.s4 0 = live_entries Scenario.s4 ∧
      live_entries Scenario.s4 = ps.length ∧ live_entries Scenario.s4 = qs.length ∧
      (empty Scenario.s4 0 = true ↔ live_entries Scenario.s4 = 0)) ∧
    Scenario.s4.next = 3 ∧ live_entries Scenario.s4 = 2 ∧ size Scenario.s4 0 = 2 ∧
    empty Scenario.s4 0 = false ∧ empty Scenario.s0 0 = true ∧
    live_entries Scenario.s0 = 0 :=
  ⟨C6_size_invariant Scenario.swo_ltNat Scenario.swo_ltStr Scenario.reach_s4
    (show size Scenario.s4 0 + 2 ≤ 5 by decide), rfl, rfl, rfl, rfl, rfl, rfl⟩

end Spec

namespace details

variable {T : Type}

theorem Rep_root_prio {m : Mem} {val : Ptr → Option T} {t : PTree T} (hrep : Rep m val t)
    {q : Ptr} (hq : t.root = some q) :
    ∃ qb, m q = some qb ∧ t.rootPrio = some qb.priority := by
  cases t with
  | nil => cases hq
  | node l p k pr r =>
    simp only [PTree.root, Option.some.injEq] at hq
    subst hq
    obtain ⟨_, nb, hnb, hpr, _⟩ := hrep
    exact ⟨nb, hnb, by simp [PTree.rootPrio, hpr]⟩

theorem Rep_child_ok {m : Mem} {val : Ptr → Option T} {t : PTree T} (hrep : Rep m val t)
    {p : Ptr} (hpar : ParentIs m t.root p) {pr : Nat} (hpr : ∀ x ∈ t.rootPrio, x ≤ pr)
    {q : Ptr} (hq : t.root = some q) :
    q ∈ t.ptrs ∧ ∃ qb, m q = some qb ∧ qb.priority ≤ pr ∧ qb.parent = some p := by
  obtain ⟨qb, hqb, hprio⟩ := Rep_root_prio hrep hq
  obtain ⟨nb, hnb, hp⟩ := hpar q hq
  rw [hqb] at hnb
  simp only [Option.some.injEq] at hnb
  subst hnb
  exact ⟨PTree.root_mem hq, qb, hqb, hpr _ hprio, hp⟩

theorem Rep_children {m : Mem} {val : Ptr → Option T} :
    ∀ t : PTree T, Rep m val t → t.HeapOrdered → ∀ p ∈ t.ptrs,
      ∃ nb, m p = some nb ∧ ∀ q, (nb.left = some q ∨ nb.right = some q) →
        q ∈ t.ptrs ∧ ∃ qb, m q = some qb ∧ qb.priority ≤ nb.priority ∧
          qb.parent = some p := by
  intro t
  induction t with
  | nil => intro _ _ p hp; simp [PTree.ptrs] at hp
  | node l p k pr r ihl ihr =>
    intro hrep hh p2 hp2
    obtain ⟨hk, nb, hnb, hpr, hl, hr, hrl, hrr, hpl, hpr2⟩ := hrep
    obtain ⟨hhl1, hhr1, hhl, hhr⟩ := hh
    simp only [PTree.ptrs, List.mem_append, List.mem_cons] at hp2
    rcases hp2 with h1 | h1 | h1
    · obtain ⟨nb2, hnb2, hc⟩ := ihl hrl hhl p2 h1
      refine ⟨nb2, hnb2, fun q hq => ?_⟩
      obtain ⟨hm, rest⟩ := hc q hq
      exact ⟨by simp [PTree.ptrs, hm], rest⟩
    · subst h1
      refine ⟨nb, hnb, fun q hq => ?_⟩
      rcases hq with hq | hq
      · rw [hl] at hq
        obtain ⟨hm, rest⟩ := Rep_child_ok hrl hpl (hpr ▸ hhl1) hq
        exact ⟨by simp [PTree.ptrs, hm], rest⟩
      · rw [hr] at hq
        obtain ⟨hm, rest⟩ := Rep_child_ok hrr hpr2 (hpr ▸ hhr1) hq
        exact ⟨by simp [PTree.ptrs, hm], rest⟩
    · obtain ⟨nb2, hnb2, hc⟩ := ihr hrr hhr p2 h1
      refine ⟨nb2, hnb2, fun q hq => ?_⟩
      obtain ⟨hm, rest⟩ := hc q hq
      exact ⟨by simp [PTree.ptrs, hm], rest⟩

/-- On a well-formed tree every node dominates its children and the root hangs off
the sentinel. -/
theorem TreeWF.heap_links {cmp : T → T → Bool} {m : Mem} {val : Ptr → Option T} {s : Ptr}
    {t : PTree T} (hwf : TreeWF cmp m val s t) :
    (∀ p, some p ∈ t.ptrs.map some → ChildrenOk m (t.ptrs.map some) p) ∧
      RootOk m (t.ptrs.map some) s := by
  constructor
  · intro p hp
    have hp2 : p ∈ t.ptrs := by
      obtain ⟨p3, h3, h4⟩ := List.mem_map.mp hp
      cases h4; exact h3
    obtain ⟨nb, hnb, hc⟩ := Rep_children t hwf.rep hwf.heap p hp2
    refine ⟨nb, hnb, fun q hq => ?_⟩
    obtain ⟨hm, rest⟩ := hc q hq
    exact ⟨List.mem_map_of_mem some hm, rest⟩
  · obtain ⟨sb, hsb, hleft, _⟩ := hwf.sent
    refine ⟨sb, hsb, fun r hr => ?_⟩
    rw [hleft] at hr
    obtain ⟨rb, hrb, hp⟩ := hwf.root_parent r hr
    exact ⟨List.mem_map_of_mem some (PTree.root_mem hr), rb, hrb, hp⟩

end details

namespace Spec

open details bimap

variable {L R : Type} {cl : L → L → Bool} {cr : R → R → Bool} {h : Heap L R} {c : Nat}

/-- C20 (heap invariant): in every reachable state, whatever priorities were drawn, every
node of the left tree and every node of the right tree has a priority at least the
priority of each of its children, every child is a node of the same tree whose parent
link points back to the node holding it, and the parent link of each root is the
sentinel of its tree. -/
theorem C20_heap_invariant [Inhabited L] [Inhabited R] (hcl : StrictWeakOrder cl)
    (hcr : StrictWeakOrder cr) (hr : Reachable cl cr h c) {fuel : Nat}
    (hf : size h c + 2 ≤ fuel) :
    ∃ ps qs, positions_left fuel h c = .ok ps ∧ positions_right fuel h c = .ok qs ∧
      (∀ p, some p ∈ ps → ChildrenOk h.mem ps p) ∧
      (∀ q, some q ∈ qs → ChildrenOk h.mem qs q) ∧
      RootOk h.mem ps (Ptr.sentinel c .left) ∧ RootOk h.mem qs (Ptr.sentinel c .right) := by
  obtain ⟨tl, tr, hwf⟩ := hr.inv hcl hcr
  have hf1 : tl.size + 1 ≤ fuel := by have := hwf.size_eq; simp only [size] at hf; omega
  obtain ⟨h1, h2, _, _⟩ := observations_of_wf hwf hf1
  exact ⟨_, _, h1, h2, hwf.left_tree.heap_links.1, hwf.right_tree.heap_links.1,
    hwf.left_tree.heap_links.2, hwf.right_tree.heap_links.2⟩

/-- C20 on the container reached by inserting (1,"a"), (2,"b"), (3,"c") with the left
priorities 5, 7, 6: the entry of key 2 is the root of the left tree. -/
theorem C20_heap_invariant_witness :
    (∃ ps qs, positions_left 5 Scenario.s3 0 = .ok ps ∧
      positions_right 5 Scenario.s3 0 = .ok qs ∧
      (∀ p, some p ∈ ps → ChildrenOk Scenario.s3.mem ps p) ∧
      (∀ q, some q ∈ qs → ChildrenOk Scenario.s3.mem qs q) ∧
      RootOk Scenario.s3.mem ps (Ptr.sentinel 0 .left) ∧
      RootOk Scenario.s3.mem qs (Ptr.sentinel 0 .right)) ∧
    tree.root Scenario.s3.mem (Ptr.sentinel 0 .left) = .ok (some (Ptr.node 1 .left)) :=
  ⟨C20_heap_invariant Scenario.swo_ltNat Scenario.swo_ltStr Scenario.reach_s3
    (show size Scenario.s3 0 + 2 ≤ 5 by decide), rfl⟩

end Spec

namespace details

variable {T : Type}

/-- `--` from the first node of a subtree that hangs as a left child climbs to the
parent of the subtree and continues from there. -/
theorem get_prev_first {m : Mem} {val : Ptr → Option T} :
    ∀ (t : PTree T) (par : Ptr) (res : Option Ptr) (d : Nat), Rep m val t →
      ParentIs m t.root par → (∃ pb, m par = some pb ∧ pb.left = t.root) →
      (∀ f, d ≤ f → get_prev_loop m f (some par) = .ok res) →
      ∀ x, t.ptrs.head? = some x → ∀ fuel, d + t.size ≤ fuel →
        get_prev m fuel (some x) = .ok res := by
  intro t
  induction t with
  | nil => intro par res d _ _ _ _ x hx; simp [PTree.ptrs] at hx
  | node l p k pr r ihl _ =>
    intro par res d hrep hpar hpb hloop x hx fuel hf
    obtain ⟨hk, nb, hnb, hpr, hl, hr, hrl, hrr, hpl, hpr2⟩ := hrep
    obtain ⟨nb2, hnb2, hparent⟩ := hpar p rfl
    rw [hnb] at hnb2
    simp only [Option.some.injEq] at hnb2
    subst hnb2
    obtain ⟨pb, hpb1, hpb2⟩ := hpb
    simp only [PTree.root] at hpb2
    have hp : ∀ f, d + 1 ≤ f → get_prev_loop m f (some p) = .ok res := by
      intro f hf2
      obtain ⟨f2, rfl⟩ : ∃ f2, f = f2 + 1 := ⟨f - 1, by omega⟩
      simp only [get_prev_loop, deref, hnb, hparent, is_left_son, hpb1, hpb2, decide_True]
      exact hloop f2 (by omega)
    simp only [PTree.size] at hf
    cases l with
    | nil =>
      simp only [PTree.ptrs, List.nil_append, List.head?_cons, Option.some.injEq] at hx
      subst hx
      simp only [PTree.root] at hl
      simp only [get_prev, hnb, hl]
      exact hp fuel (by omega)
    | node ll q kq prq lr =>
      have hx2 : (PTree.node ll q kq prq lr).ptrs.head? = some x := by
        simp only [PTree.ptrs] at hx ⊢
        cases hll : ll.ptrs with
        | nil => rw [hll] at hx; simpa using hx
        | cons y ys => rw [hll] at hx; simpa using hx
      exact ihl p res (d + 1) hrl hpl ⟨nb, hnb, hl⟩ hp x hx2 fuel
        (by simp only [PTree.size] at hf ⊢; omega)

/-- `--` at the first node of a well-formed tree yields the null address. -/
theorem TreeWF.prev_first {cmp : T → T → Bool} {m : Mem} {val : Ptr → Option T} {s : Ptr}
    {t : PTree T} (hwf : TreeWF cmp m val s t) {x : Ptr} (hx : t.ptrs.head? = some x)
    {fuel : Nat} (hf : t.size + 1 ≤ fuel) : get_prev m fuel (some x) = .ok none := by
  obtain ⟨sb, hsb, hleft, hspar⟩ := hwf.sent
  refine get_prev_first t s none 1 hwf.rep hwf.root_parent ⟨sb, hsb, hleft⟩ ?_ x hx fuel
    (by omega)
  intro f hf2
  obtain ⟨f2, rfl⟩ : ∃ f2, f = f2 + 1 := ⟨f - 1, by omega⟩
  simp only [get_prev_loop, deref, hsb, hspar, is_left_son]

end details

namespace bimap

open details

variable {L R : Type} {cl : L → L → Bool} {cr : R → R → Bool} {h : Heap L R} {c : Nat}
  {tl : PTree L} {tr : PTree R}

/-- On an empty tree the four bounds queries read the key of the null address. -/
theorem WF.bounds_empty (hwf : WF cl cr h c .nil tr) (fuel : Nat) (kl : L) (kr : R) :
    lower_bound_left cl (fuel + 1) h c kl = .error .null_deref ∧
      upper_bound_left cl (fuel + 1) h c kl = .error .null_deref ∧
      lower_bound_right cr (fuel + 1) h c kr = .error .null_deref ∧
      upper_bound_right cr (fuel + 1) h c kr = .error .null_deref := by
  have htr : tr = .nil := by
    have := hwf.size_right
    cases tr with
    | nil => rfl
    | node l p k pr r => simp [PTree.size] at this
  subst htr
  obtain ⟨sb, hsb, hleft, _⟩ := hwf.left_tree.sent
  obtain ⟨rb, hrb, hleft2, _⟩ := hwf.right_tree.sent
  simp only [PTree.root] at hleft hleft2
  refine ⟨?_, ?_, ?_, ?_⟩
  · simp only [lower_bound_left, tree.lower_bound, tree.root, hsb, hleft, tree.search,
      get_value]
  · simp only [upper_bound_left, tree.upper_bound, tree.root, hsb, hleft, tree.search,
      get_value]
  · simp only [lower_bound_right, tree.lower_bound, tree.root, hrb, hleft2, tree.search,
      get_value]
  · simp only [upper_bound_right, tree.upper_bound, tree.root, hrb, hleft2, tree.search,
      get_value]

end bimap

namespace Spec

open details bimap

variable {L R : Type} {cl : L → L → Bool} {cr : R → R → Bool} {h : Heap L R} {c : Nat}

/-- C13 at a failing input: the container `1` move-constructed from the container holding
(1,"a"), (2,"b"), (3,"c") enumerates these three pairs from both sides and its ends flip
to each other, but its `size()` is 0, since the member `sz` keeps its default
initialiser. -/
theorem C13_move_construct_size_zero :
    bimap_move Scenario.s3 1 0 = .ok Scenario.s6 ∧
      entries_left 5 Scenario.s6 1 = .ok [(1, "a"), (2, "b"), (3, "c")] ∧
      entries_right 5 Scenario.s6 1 = .ok [(1, "a"), (2, "b"), (3, "c")] ∧
      flip Scenario.s6.mem (end_left 1) = .ok (end_right 1) ∧
      size Scenario.s3 0 = 3 ∧ size Scenario.s6 1 = 0 :=
  ⟨rfl, rfl, rfl, rfl, rfl, rfl⟩

/-- C16 at the failing inputs: on every freshly constructed, empty container each of the
four bounds queries, for every key, reads the key of the null address that `search`
returns and faults; none of them returns the end position. -/
theorem C16_bounds_on_empty_read_null (cl : L → L → Bool) (cr : R → R → Bool)
    (c p1 p2 fuel : Nat) (kl : L) (kr : R) :
    ∃ h, bimap.bimap (Heap.init L R) c p1 p2 = .ok h ∧ size h c = 0 ∧
      lower_bound_left cl (fuel + 1) h c kl = .error .null_deref ∧
      upper_bound_left cl (fuel + 1) h c kl = .error .null_deref ∧
      lower_bound_right cr (fuel + 1) h c kr = .error .null_deref ∧
      upper_bound_right cr (fuel + 1) h c kr = .error .null_deref := by
  obtain ⟨h, hrun, hwf⟩ := construct_wf cl cr c p1 p2
  exact ⟨h, hrun, hwf.size_eq, hwf.bounds_empty fuel kl kr⟩

/-- C18 fails as stated: in the container holding (1,"a"), (2,"b"), (3,"c"), `--` at
`begin_left()` yields the null position, not the sentinel. -/
theorem C18_prev_of_begin_not_sentinel :
    ∃ b, begin_left Scenario.s3 0 5 = .ok b ∧
      get_prev Scenario.s3.mem 5 b ≠ .ok (end_left 0) :=
  ⟨some (Ptr.node 0 .left), rfl, fun hc => by
    rw [show get_prev Scenario.s3.mem 5 (some (Ptr.node 0 .left)) = .ok none from rfl] at hc
    cases hc⟩

/-- C18 (amended): in every non-empty container satisfying its invariants, on either
side, `++` at the last position yields the end position (the sentinel), while `--` at the
first position, `begin`, yields the null position. -/
theorem C18_next_of_last_prev_of_first (hinv : Inv cl cr h c) {fuel : Nat}
    (hf : size h c + 2 ≤ fuel) (hne : size h c ≠ 0) :
    (∃ ps b l, positions_left fuel h c = .ok ps ∧ begin_left h c fuel = .ok b ∧
      ps.head? = some b ∧ ps.getLast? = some l ∧
      get_next h.mem fuel l = .ok (end_left c) ∧ get_prev h.mem fuel b = .ok none) ∧
    (∃ qs b l, positions_right fuel h c = .ok qs ∧ begin_right h c fuel = .ok b ∧
      qs.head? = some b ∧ qs.getLast? = some l ∧
      get_next h.mem fuel l = .ok (end_right c) ∧ get_prev h.mem fuel b = .ok none) := by
  obtain ⟨tl, tr, hwf⟩ := hinv
  have hsz := hwf.size_eq
  simp only [size] at hf hne
  have hf1 : tl.size + 1 ≤ fuel := by omega
  have hfr : tr.size + 1 ≤ fuel := by rw [hwf.size_right]; exact hf1
  have key : ∀ {T : Type} (t : PTree T), t.size ≠ 0 →
      ∃ x pre y, t.ptrs.head? = some x ∧ t.ptrs = pre ++ [y] := by
    intro T t ht
    have hlen : t.ptrs ≠ [] := by
      intro hnil
      have := PTree.length_ptrs t
      rw [hnil] at this
      exact ht this.symm
    obtain ⟨x, rest, hx⟩ := List.exists_cons_of_ne_nil hlen
    exact ⟨x, t.ptrs.dropLast, t.ptrs.getLast hlen, by rw [hx]; rfl,
      (List.dropLast_append_getLast hlen).symm⟩
  constructor
  · obtain ⟨x, pre, y, hx, hy⟩ := key tl (by omega)
    refine ⟨_, some x, some y, hwf.positions_left_eq hf1, ?_, ?_, ?_, ?_, ?_⟩
    · simp only [begin_left]
      rw [tree_begin_spec hwf.left_tree hf1, hx]; rfl
    · rw [List.head?_map, hx]; rfl
    · rw [hy]; simp
    · have := hwf.next_left hf1 (hy.trans (by simp) : tl.ptrs = pre ++ y :: [])
      simpa [end_left, tree.end_] using this
    · exact hwf.left_tree.prev_first hx hf1
  · obtain ⟨x, pre, y, hx, hy⟩ := key tr (by rw [hwf.size_right]; omega)
    refine ⟨_, some x, some y, hwf.positions_right_eq hfr, ?_, ?_, ?_, ?_, ?_⟩
    · simp only [begin_right]
      rw [tree_begin_spec hwf.right_tree hfr, hx]; rfl
    · rw [List.head?_map, hx]; rfl
    · rw [hy]; simp
    · have := hwf.next_right hf1 (hy.trans (by simp) : tr.ptrs = pre ++ y :: [])
      simpa [end_right, tree.end_] using this
    · exact hwf.right_tree.prev_first hx hfr

/-- C18 (amended) on the container holding (1,"a"), (2,"b"), (3,"c"). -/
theorem C18_next_of_last_prev_of_first_witness :
    (∃ ps b l, positions_left 5 Scenario.s3 0 = .ok ps ∧ begin_left Scenario.s3 0 5 = .ok b ∧
      ps.head? = some b ∧ ps.getLast? = some l ∧
      get_next Scenario.s3.mem 5 l = .ok (end_left 0) ∧
      get_prev Scenario.s3.mem 5 b = .ok none) ∧
    (∃ qs b l, positions_right 5 Scenario.s3 0 = .ok qs ∧
      begin_right Scenario.s3 0 5 = .ok b ∧
      qs.head? = some b ∧ qs.getLast? = some l ∧
      get_next Scenario.s3.mem 5 l = .ok (end_right 0) ∧
      get_prev Scenario.s3.mem 5 b = .ok none) :=
  C18_next_of_last_prev_of_first Scenario.inv_s3 (show size Scenario.s3 0 + 2 ≤ 5 by decide)
    (show size Scenario.s3 0 ≠ 0 by decide)

end Spec

namespace Scenario

open details bimap

theorem rep_t3 : Rep s3.mem s3.left_value t3 :=
  ⟨rfl, _, rfl, rfl, rfl, rfl,
    ⟨rfl, _, rfl, rfl, rfl, rfl, trivial, trivial, ParentIs_none _ _, ParentIs_none _ _⟩,
    ⟨rfl, _, rfl, rfl, rfl, rfl, trivial, trivial, ParentIs_none _ _, ParentIs_none _ _⟩,
    fun q hq => by cases hq; exact ⟨_, rfl, rfl⟩,
    fun q hq => by cases hq; exact ⟨_, rfl, rfl⟩⟩

end Scenario

namespace Spec

open details bimap

variable {T : Type} {cmp : T → T → Bool}

/-- C19 fails as stated: splitting the one-node tree holding the key 1 at the pivot 1 with
`inclusive = true` returns an empty first part and puts the node, whose key is equivalent
to the pivot and not greater than it, into the second part. -/
theorem C19_equivalent_key_goes_right :
    ∃ m2, tree.split Scenario.ltNat Scenario.s1.left_value 2 Scenario.s1.mem
        (some (Ptr.node 0 .left)) 1 true = .ok (m2, none, some (Ptr.node 0 .left)) ∧
      Scenario.s1.left_value (Ptr.node 0 .left) = some 1 ∧
      tree.equal Scenario.ltNat 1 1 = true ∧ tree.greater Scenario.ltNat 1 1 = false :=
  ⟨_, rfl, rfl, rfl, rfl⟩

/-- C19 (amended): on a binary search tree `t` in memory, ordered by a strict weak
order, `split(t, k, inclusive = true)` returns the roots of two trees `a` and `b` such
that every key of `a` is strictly less than `k` and no key of `b` is less than `k`; a
key equivalent to `k` ends up in the second part `b`; and the in-order sequence of `a`
followed by that of `b` is the in-order sequence of `t`. -/
theorem C19_inclusive_split (hc : StrictWeakOrder cmp) {m : Mem} {val : Ptr → Option T}
    {t : PTree T} (hrep : Rep m val t) (hnd : t.ptrs.Nodup)
    (hs : t.keys.Pairwise (fun a b => cmp a b = true)) {fuel : Nat} (hf : t.size < fuel)
    (k : T) :
    ∃ m2 a b, tree.split cmp val fuel m t.root k true = .ok (m2, a.root, b.root) ∧
      Rep m2 val a ∧ Rep m2 val b ∧
      (∀ x ∈ a.keys, tree.less cmp x k = true) ∧
      (∀ x ∈ b.keys, tree.less cmp x k = false) ∧
      (∀ x ∈ t.keys, tree.equal cmp x k = true → x ∈ b.keys ∧ x ∉ a.keys) ∧
      a.toList ++ b.toList = t.toList := by
  obtain ⟨m2, hrun, hra, hrb, _⟩ := split_spec cmp val k true t fuel m hrep hnd hf
  obtain ⟨ha, hb⟩ := PTree.split_incl_toList hc k t hs
  have hka : ∀ x ∈ (PTree.split cmp k true t).1.keys, tree.less cmp x k = true := by
    intro x hx
    rw [PTree.keys_eq_map, ha] at hx
    obtain ⟨e, he, rfl⟩ := List.mem_map.mp hx
    exact (List.mem_filter.mp he).2
  have hkb : ∀ x ∈ (PTree.split cmp k true t).2.keys, tree.less cmp x k = false := by
    intro x hx
    rw [PTree.keys_eq_map, hb] at hx
    obtain ⟨e, he, rfl⟩ := List.mem_map.mp hx
    simpa [tree.less] using (List.mem_filter.mp he).2
  have happ := PTree.split_toList cmp k true t
  refine ⟨m2, _, _, hrun, hra, hrb, hka, hkb, ?_, happ⟩
  intro x hx heq
  have hnl : cmp x k = false := ((equal_iff cmp x k).mp heq).1
  have hxa : x ∉ (PTree.split cmp k true t).1.keys := by
    intro hmem
    have := hka x hmem
    simp only [tree.less] at this
    rw [hnl] at this
    cases this
  refine ⟨?_, hxa⟩
  rw [PTree.keys_eq_map, ← happ, List.map_append, ← PTree.keys_eq_map,
    ← PTree.keys_eq_map] at hx
  rcases List.mem_append.mp hx with h1 | h1
  · exact absurd h1 hxa
  · exact h1

/-- C19 (amended) on the left tree of the container holding (1,"a"), (2,"b"), (3,"c"),
split at the pivot 2: the first part holds the key 1, the second part the keys 2 and 3. -/
theorem C19_inclusive_split_witness :
    ∃ m2 a b, tree.split Scenario.ltNat Scenario.s3.left_value 4 Scenario.s3.mem
        Scenario.t3.root 2 true = .ok (m2, a.root, b.root) ∧
      Rep m2 Scenario.s3.left_value a ∧ Rep m2 Scenario.s3.left_value b ∧
      (∀ x ∈ a.keys, tree.less Scenario.ltNat x 2 = true) ∧
      (∀ x ∈ b.keys, tree.less Scenario.ltNat x 2 = false) ∧
      (∀ x ∈ Scenario.t3.keys, tree.equal Scenario.ltNat x 2 = true →
        x ∈ b.keys ∧ x ∉ a.keys) ∧
      a.toList ++ b.toList = Scenario.t3.toList :=
  C19_inclusive_split Scenario.swo_ltNat Scenario.rep_t3 (by decide) (by decide)
    (show Scenario.t3.size < 4 by decide) 2

end Spec

namespace details

variable {T : Type}

/-- `tree::search` on the memory representation of `t` computes `PTree.search`. -/
theorem search_spec (cmp : T → T → Bool) (val : Ptr → Option T) (m : Mem) (value : T)
    (incl : Bool) : ∀ (t : PTree T) (fuel : Nat), Rep m val t → t.size < fuel →
      tree.search cmp val m fuel t.root value incl = .ok (PTree.search cmp value incl t) := by
  intro t
  induction t with
  | nil =>
    intro fuel _ hf
    obtain ⟨f, rfl⟩ : ∃ f, fuel = f + 1 := ⟨fuel - 1, by omega⟩
    rfl
  | node l p k pr r ihl ihr =>
    intro fuel hrep hf
    obtain ⟨f, rfl⟩ : ∃ f, fuel = f + 1 := ⟨fuel - 1, by omega⟩
    obtain ⟨hk, nb, hnb, hpr, hl, hr, hrl, hrr, hpl, hpr2⟩ := hrep
    simp only [PTree.size] at hf
    simp only [PTree.root, tree.search, get_value, hk, hnb, PTree.search]
    by_cases he : tree.equal cmp value k = true
    · rw [if_pos he, if_pos he]
    · rw [if_neg he, if_neg he]
      by_cases hg : ((incl && tree.less_or_equal cmp value k) ||
          (!incl && tree.less cmp value k)) = true
      · rw [if_pos hg, if_pos hg, hl, ihl f hrl (by omega)]
        cases PTree.search cmp value incl l <;> rfl
      · rw [if_neg hg, if_neg hg, hr, ihr f hrr (by omega)]
        cases PTree.search cmp value incl r <;> rfl

end details

namespace PTree

open details

variable {T : Type}

/-- On a search tree, `search` stops at a node such that every earlier key is less than
`value` and every later key is greater. -/
theorem search_boundary {cmp : T → T → Bool} (hc : StrictWeakOrder cmp) (value : T)
    (incl : Bool) : ∀ t : PTree T, t.keys.Pairwise (fun a b => cmp a b = true) → t ≠ nil →
      ∃ pre f kf post, search cmp value incl t = some f ∧
        t.toList = pre ++ (f, kf) :: post ∧
        (∀ e ∈ pre, cmp e.2 value = true) ∧ (∀ e ∈ post, cmp value e.2 = true) := by
  intro t
  induction t with
  | nil => intro _ h; exact absurd rfl h
  | node l p k pr r ihl ihr =>
    intro hs _
    simp only [keys] at hs
    have hs2 := List.pairwise_append.mp hs
    have hs3 := List.pairwise_cons.mp hs2.2.1
    have hlk : ∀ e ∈ l.toList, cmp e.2 k = true := by
      intro e he
      exact hs2.2.2 e.2 (mem_keys_of_mem_toList he) k (by simp)
    have hkr : ∀ e ∈ r.toList, cmp k e.2 = true := by
      intro e he
      exact hs3.1 e.2 (mem_keys_of_mem_toList he)
    simp only [search, toList]
    by_cases he : tree.equal cmp value k = true
    · rw [if_pos he]
      refine ⟨l.toList, p, k, r.toList, rfl, rfl, ?_, ?_⟩
      · intro e hel
        exact hc.lt_of_lt_of_equal (hlk e hel) (by rw [equal_symm]; exact he)
      · intro e her
        exact hc.lt_of_equal_of_lt he (hkr e her)
    · rw [if_neg he]
      have hne : cmp value k = true ∨ cmp k value = true :=
        (equal_false_iff cmp value k).mp (by simpa using he)
      by_cases hg : ((incl && tree.less_or_equal cmp value k) ||
          (!incl && tree.less cmp value k)) = true
      · rw [if_pos hg]
        have hlt : cmp value k = true := by
          rcases hne with h1 | h1
          · exact h1
          · exfalso
            have h2 := hc.asymm h1
            cases incl <;>
              simp [tree.less_or_equal, tree.greater_or_equal, tree.less, h1, h2] at hg
        cases l with
        | nil =>
          refine ⟨[], p, k, r.toList, rfl, rfl, by simp, ?_⟩
          intro e her
          exact hc.trans _ _ _ hlt (hkr e her)
        | node ll q kq prq lr =>
          obtain ⟨pre, f, kf, post, hsr, htl, hpre, hpost⟩ := ihl hs2.1 (by simp)
          refine ⟨pre, f, kf, post ++ (p, k) :: r.toList, by rw [hsr]; rfl, ?_, hpre, ?_⟩
          · rw [htl]; simp
          · intro e hmem
            rcases List.mem_append.mp hmem with h1 | h1
            · exact hpost e h1
            · rcases List.mem_cons.mp h1 with h2 | h2
              · subst h2; exact hlt
              · exact hc.trans _ _ _ hlt (hkr e h2)
      · rw [if_neg hg]
        have hgt : cmp k value = true := by
          rcases hne with h1 | h1
          · exfalso
            have h2 := hc.asymm h1
            cases incl <;>
              simp [tree.less_or_equal, tree.greater_or_equal, tree.less, h1, h2] at hg
          · exact h1
        cases r with
        | nil =>
          refine ⟨l.toList, p, k, [], rfl, rfl, ?_, by simp⟩
          intro e hel
          exact hc.trans _ _ _ (hlk e hel) hgt
        | node rl q kq prq rr =>
          obtain ⟨pre, f, kf, post, hsr, htl, hpre, hpost⟩ := ihr hs3.2 (by simp)
          refine ⟨l.toList ++ (p, k) :: pre, f, kf, post, by rw [hsr]; rfl, ?_, ?_, hpost⟩
          · rw [htl]; simp
          · intro e hmem
            rcases List.mem_append.mp hmem with h1 | h1
            · exact hc.trans _ _ _ (hlk e h1) hgt
            · rcases List.mem_cons.mp h1 with h2 | h2
              · subst h2; exact hgt
              · exact hpre e h2

end PTree

namespace details

variable {T : Type}

/-- `tree::lower_bound` on a non-empty well-formed tree: the nodes split into those with a
key less than `value` and the rest, and the result is the first of the rest, the
sentinel if there is none; a node with a key equivalent to `value` is the result. -/
theorem lower_bound_spec {cmp : T → T → Bool} (hc : StrictWeakOrder cmp) {m : Mem}
    {val : Ptr → Option T} {s : Ptr} {t : PTree T} (hwf : TreeWF cmp m val s t)
    (hne : t ≠ .nil) {fuel : Nat} (hf : t.size + 1 ≤ fuel)
    (hnext : ∀ pre p post, t.ptrs = pre ++ p :: post →
      get_next m fuel (some p) = .ok (some (post.head?.getD s))) (value : T) :
    ∃ lo hi, t.toList = lo ++ hi ∧ (∀ e ∈ lo, cmp e.2 value = true) ∧
      (∀ e ∈ hi, cmp e.2 value = false) ∧
      tree.lower_bound cmp val m s fuel value =
        .ok (some ((hi.map Prod.fst).head?.getD s)) ∧
      (∀ p0 k0, (p0, k0) ∈ t.toList → tree.equal cmp value k0 = true →
        tree.lower_bound cmp val m s fuel value = .ok (some p0)) := by
  obtain ⟨sb, hsb, hleft, _⟩ := hwf.sent
  obtain ⟨pre, f, kf, post, hsr, htl, hpre, hpost⟩ :=
    PTree.search_boundary hc value true t hwf.sorted hne
  have hval : val f = some kf := Rep_val t hwf.rep (f, kf) (by rw [htl]; simp)
  have hrun : tree.lower_bound cmp val m s fuel value =
      if tree.equal cmp kf value then .ok (some f)
      else if tree.less cmp kf value then get_next m fuel (some f) else .ok (some f) := by
    simp only [tree.lower_bound, tree.root, hsb, hleft,
      search_spec cmp val m value true t fuel hwf.rep (by omega), hsr, get_value, hval]
  have hpost2 : ∀ e ∈ post, cmp e.2 value = false := fun e he => hc.asymm (hpost e he)
  have hptrs : t.ptrs = pre.map Prod.fst ++ f :: post.map Prod.fst := by
    rw [PTree.ptrs_eq_map, htl]; simp
  cases hlt : cmp kf value with
  | true =>
    have hneq : tree.equal cmp kf value = false :=
      (equal_false_iff cmp kf value).mpr (Or.inl hlt)
    have hres : tree.lower_bound cmp val m s fuel value =
        .ok (some ((post.map Prod.fst).head?.getD s)) := by
      rw [hrun, hneq]
      simp only [tree.less, hlt, if_true, Bool.false_eq_true, if_false]
      exact hnext _ _ _ hptrs
    refine ⟨pre ++ [(f, kf)], post, by rw [htl]; simp, ?_, hpost2, hres, ?_⟩
    · intro e he
      rcases List.mem_append.mp he with h1 | h1
      · exact hpre e h1
      · simp only [List.mem_singleton] at h1
        subst h1; exact hlt
    · intro p0 k0 hmem heq
      exfalso
      have h0 := (equal_iff cmp value k0).mp heq
      rw [htl] at hmem
      rcases List.mem_append.mp hmem with h1 | h1
      · have := hpre _ h1
        simp only [h0.2] at this
        cases this
      · rcases List.mem_cons.mp h1 with h2 | h2
        · simp only [Prod.mk.injEq] at h2
          rw [← h2.2, h0.2] at hlt
          cases hlt
        · have := hpost _ h2
          simp only [h0.1] at this
          cases this
  | false =>
    have hres : tree.lower_bound cmp val m s fuel value = .ok (some f) := by
      rw [hrun]
      simp only [tree.less, hlt, Bool.false_eq_true, if_false, ite_self]
    refine ⟨pre, (f, kf) :: post, htl, hpre, ?_, by rw [hres]; rfl, ?_⟩
    · intro e he
      rcases List.mem_cons.mp he with h1 | h1
      · subst h1; exact hlt
      · exact hpost2 e h1
    · intro p0 k0 hmem heq
      have h0 := (equal_iff cmp value k0).mp heq
      rw [htl] at hmem
      rcases List.mem_append.mp hmem with h1 | h1
      · have := hpre _ h1
        simp only [h0.2] at this
        cases this
      · rcases List.mem_cons.mp h1 with h2 | h2
        · simp only [Prod.mk.injEq] at h2
          rw [h2.1]; exact hres
        · have := hpost _ h2
          simp only [h0.1] at this
          cases this

/-- `tree::upper_bound` on a non-empty well-formed tree: the nodes split into those with a
key not greater than `value` and the rest, and the result is the first of the rest, the
sentinel if there is none; at a node with a key equivalent to `value` the result is its
successor. -/
theorem upper_bound_spec {cmp : T → T → Bool} (hc : StrictWeakOrder cmp) {m : Mem}
    {val : Ptr → Option T} {s : Ptr} {t : PTree T} (hwf : TreeWF cmp m val s t)
    (hne : t ≠ .nil) {fuel : Nat} (hf : t.size + 1 ≤ fuel)
    (hnext : ∀ pre p post, t.ptrs = pre ++ p :: post →
      get_next m fuel (some p) = .ok (some (post.head?.getD s))) (value : T) :
    ∃ lo hi, t.toList = lo ++ hi ∧ (∀ e ∈ lo, cmp value e.2 = false) ∧
      (∀ e ∈ hi, cmp value e.2 = true) ∧
      tree.upper_bound cmp val m s fuel value =
        .ok (some ((hi.map Prod.fst).head?.getD s)) ∧
      (∀ p0 k0, (p0, k0) ∈ t.toList → tree.equal cmp value k0 = true →
        tree.upper_bound cmp val m s fuel value = get_next m fuel (some p0)) := by
  obtain ⟨sb, hsb, hleft, _⟩ := hwf.sent
  obtain ⟨pre, f, kf, post, hsr, htl, hpre, hpost⟩ :=
    PTree.search_boundary hc value false t hwf.sorted hne
  have hval : val f = some kf := Rep_val t hwf.rep (f, kf) (by rw [htl]; simp)
  have hrun : tree.upper_bound cmp val m s fuel value =
      if tree.equal cmp kf value then get_next m fuel (some f)
      else if tree.less cmp kf value then get_next m fuel (some f) else .ok (some f) := by
    simp only [tree.upper_bound, tree.root, hsb, hleft,
      search_spec cmp val m value false t fuel hwf.rep (by omega), hsr, get_value, hval]
  have hpre2 : ∀ e ∈ pre, cmp value e.2 = false := fun e he => hc.asymm (hpre e he)
  have hptrs : t.ptrs = pre.map Prod.fst ++ f :: post.map Prod.fst := by
    rw [PTree.ptrs_eq_map, htl]; simp
  have hnx := hnext _ _ _ hptrs
  have hfound : ∀ p0 k0, (p0, k0) ∈ t.toList → tree.equal cmp value k0 = true →
      p0 = f ∧ k0 = kf := by
    intro p0 k0 hmem heq
    have h0 := (equal_iff cmp value k0).mp heq
    rw [htl] at hmem
    rcases List.mem_append.mp hmem with h1 | h1
    · have := hpre _ h1
      simp only [h0.2] at this
      cases this
    · rcases List.mem_cons.mp h1 with h2 | h2
      · simpa using h2
      · have := hpost _ h2
        simp only [h0.1] at this
        cases this
  have hpres : ∀ p0 k0, (p0, k0) ∈ t.toList → tree.equal cmp value k0 = true →
      tree.upper_bound cmp val m s fuel value = get_next m fuel (some p0) := by
    intro p0 k0 hmem heq
    obtain ⟨rfl, rfl⟩ := hfound p0 k0 hmem heq
    rw [hrun, equal_symm, heq, if_pos rfl]
  cases hgt : cmp value kf with
  | true =>
    have hres : tree.upper_bound cmp val m s fuel value = .ok (some f) := by
      rw [hrun, (equal_false_iff cmp kf value).mpr (Or.inr hgt)]
      simp only [tree.less, hc.asymm hgt, Bool.false_eq_true, if_false]
    refine ⟨pre, (f, kf) :: post, htl, hpre2, ?_, by rw [hres]; rfl, hpres⟩
    intro e he
    rcases List.mem_cons.mp he with h1 | h1
    · subst h1; exact hgt
    · exact hpost e h1
  | false =>
    have hres : tree.upper_bound cmp val m s fuel value =
        .ok (some ((post.map Prod.fst).head?.getD s)) := by
      rw [hrun]
      cases hlt : cmp kf value with
      | true =>
        rw [(equal_false_iff cmp kf value).mpr (Or.inl hlt)]
        simp only [tree.less, hlt, if_true, Bool.false_eq_true, if_false]
        exact hnx
      | false =>
        rw [(equal_iff cmp kf value).mpr ⟨hlt, hgt⟩, if_pos rfl]
        exact hnx
    refine ⟨pre ++ [(f, kf)], post, by rw [htl]; simp, ?_, hpost, hres, hpres⟩
    intro e he
    rcases List.mem_append.mp he with h1 | h1
    · exact hpre2 e h1
    · simp only [List.mem_singleton] at h1
      subst h1; exact hgt

end details

namespace bimap

open details

variable {L R : Type} {cl : L → L → Bool} {cr : R → R → Bool} {h : Heap L R} {c : Nat}
  {tl : PTree L} {tr : PTree R}

/-- A split of the nodes of the left tree read as a split of the left positions and of
the pairs stored there. -/
theorem WF.split_left (hwf : WF cl cr h c tl tr) {fuel : Nat} (hf : tl.size + 1 ≤ fuel)
    {lo hi : List (Ptr × L)} (hsplit : tl.toList = lo ++ hi) :
    ∃ ps1 ps2 es1 es2, positions_left fuel h c = .ok (ps1 ++ ps2) ∧
      pairs_at_left h ps1 = .ok es1 ∧ pairs_at_left h ps2 = .ok es2 ∧
      es1.map Prod.fst = lo.map Prod.snd ∧ es2.map Prod.fst = hi.map Prod.snd ∧
      ps2.head?.getD (end_left c) =
        some ((hi.map Prod.fst).head?.getD (Ptr.sentinel c .left)) := by
  have hlo : ∀ e ∈ lo, e ∈ tl.toList := fun e he => by rw [hsplit]; simp [he]
  have hhi : ∀ e ∈ hi, e ∈ tl.toList := fun e he => by rw [hsplit]; simp [he]
  refine ⟨(lo.map Prod.fst).map some, (hi.map Prod.fst).map some, _, _, ?_,
    hwf.pairs_at_left_eq (lo.map Prod.fst) ?_, hwf.pairs_at_left_eq (hi.map Prod.fst) ?_,
    (hwf.pairs_left_eq_map lo hlo).1, (hwf.pairs_left_eq_map hi hhi).1, ?_⟩
  · rw [hwf.positions_left_eq hf, PTree.ptrs_eq_map, hsplit]
    simp
  · intro p hp
    obtain ⟨e, he, rfl⟩ := List.mem_map.mp hp
    exact mem_ptrs_of_mem_toList (hlo e he)
  · intro p hp
    obtain ⟨e, he, rfl⟩ := List.mem_map.mp hp
    exact mem_ptrs_of_mem_toList (hhi e he)
  · cases hi with
    | nil => rfl
    | cons x xs => rfl

/-- A split of the nodes of the right tree read as a split of the right positions and of
the pairs stored there. -/
theorem WF.split_right (hwf : WF cl cr h c tl tr) {fuel : Nat} (hf : tl.size + 1 ≤ fuel)
    {lo hi : List (Ptr × R)} (hsplit : tr.toList = lo ++ hi) :
    ∃ ps1 ps2 es1 es2, positions_right fuel h c = .ok (ps1 ++ ps2) ∧
      pairs_at_right h ps1 = .ok es1 ∧ pairs_at_right h ps2 = .ok es2 ∧
      es1.map Prod.snd = lo.map Prod.snd ∧ es2.map Prod.snd = hi.map Prod.snd ∧
      ps2.head?.getD (end_right c) =
        some ((hi.map Prod.fst).head?.getD (Ptr.sentinel c .right)) := by
  have hlo : ∀ e ∈ lo, e ∈ tr.toList := fun e he => by rw [hsplit]; simp [he]
  have hhi : ∀ e ∈ hi, e ∈ tr.toList := fun e he => by rw [hsplit]; simp [he]
  refine ⟨(lo.map Prod.fst).map some, (hi.map Prod.fst).map some, _, _, ?_,
    hwf.pairs_at_right_eq (lo.map Prod.fst) ?_, hwf.pairs_at_right_eq (hi.map Prod.fst) ?_,
    (hwf.pairs_right_eq_map lo hlo).1, (hwf.pairs_right_eq_map hi hhi).1, ?_⟩
  · rw [hwf.positions_right_eq (by rw [hwf.size_right]; exact hf), PTree.ptrs_eq_map, hsplit]
    simp
  · intro p hp
    obtain ⟨e, he, rfl⟩ := List.mem_map.mp hp
    exact mem_ptrs_of_mem_toList (hlo e he)
  · intro p hp
    obtain ⟨e, he, rfl⟩ := List.mem_map.mp hp
    exact mem_ptrs_of_mem_toList (hhi e he)
  · cases hi with
    | nil => rfl
    | cons x xs => rfl

theorem PTree_ne_nil_of_size {T : Type} {t : PTree T} (ht : t.size ≠ 0) : t ≠ .nil := by
  rintro rfl
  exact ht rfl

theorem forall_of_map_eq {α β γ : Type} {f : α → γ} {g : β → γ} {xs : List α} {ys : List β}
    (hmap : xs.map f = ys.map g) {P : γ → Prop} (hP : ∀ y ∈ ys, P (g y)) :
    ∀ x ∈ xs, P (f x) := by
  intro x hx
  have : f x ∈ ys.map g := by rw [← hmap]; exact List.mem_map_of_mem f hx
  obtain ⟨y, hy, heq⟩ := List.mem_map.mp this
  rw [← heq]; exact hP y hy

end bimap

namespace Spec

open details bimap

variable {L R : Type} {cl : L → L → Bool} {cr : R → R → Bool} {h : Heap L R} {c : Nat}

/-- C14: in a container with at least one entry that satisfies its invariants, for every
key `k` the left positions split into a first part whose left keys are all less than `k`
and a second part none of whose left keys is less than `k`, and `lower_bound_left(k)`
returns the first position of the second part, `end_left()` when that part is empty; when
`find_left(k)` finds a position, `lower_bound_left(k)` returns that position. The same
holds for `lower_bound_right` on the right side. -/
theorem C14_lower_bound (hcl : StrictWeakOrder cl) (hcr : StrictWeakOrder cr)
    (hinv : Inv cl cr h c) {fuel : Nat} (hf : size h c + 2 ≤ fuel) (hne : size h c ≠ 0) :
    (∀ k : L, ∃ ps1 ps2 es1 es2, positions_left fuel h c = .ok (ps1 ++ ps2) ∧
      pairs_at_left h ps1 = .ok es1 ∧ pairs_at_left h ps2 = .ok es2 ∧
      (∀ e ∈ es1, tree.less cl e.1 k = true) ∧ (∀ e ∈ es2, tree.less cl e.1 k = false) ∧
      lower_bound_left cl fuel h c k = .ok (ps2.head?.getD (end_left c)) ∧
      (∀ p, find_left cl fuel h c k = .ok p → p ≠ end_left c →
        lower_bound_left cl fuel h c k = .ok p)) ∧
    (∀ k : R, ∃ ps1 ps2 es1 es2, positions_right fuel h c = .ok (ps1 ++ ps2) ∧
      pairs_at_right h ps1 = .ok es1 ∧ pairs_at_right h ps2 = .ok es2 ∧
      (∀ e ∈ es1, tree.less cr e.2 k = true) ∧ (∀ e ∈ es2, tree.less cr e.2 k = false) ∧
      lower_bound_right cr fuel h c k = .ok (ps2.head?.getD (end_right c)) ∧
      (∀ p, find_right cr fuel h c k = .ok p → p ≠ end_right c →
        lower_bound_right cr fuel h c k = .ok p)) := by
  obtain ⟨tl, tr, hwf⟩ := hinv
  have hsz := hwf.size_eq
  simp only [size] at hf hne
  have hf1 : tl.size + 1 ≤ fuel := by omega
  have hfr : tr.size + 1 ≤ fuel := by rw [hwf.size_right]; exact hf1
  constructor
  · intro k
    obtain ⟨lo, hi, hsplit, hlo, hhi, hres, hpres⟩ :=
      lower_bound_spec hcl hwf.left_tree (PTree_ne_nil_of_size (by omega)) hf1
        (fun pre p post hs => hwf.next_left hf1 hs) k
    obtain ⟨ps1, ps2, es1, es2, hps, he1, he2, hk1, hk2, hhead⟩ := hwf.split_left hf1 hsplit
    refine ⟨ps1, ps2, es1, es2, hps, he1, he2, ?_, ?_, ?_, ?_⟩
    · exact forall_of_map_eq hk1 (P := fun x => tree.less cl x k = true) hlo
    · exact forall_of_map_eq hk2 (P := fun x => tree.less cl x k = false) hhi
    · rw [hhead]; exact hres
    · intro p hp hpe
      simp only [find_left, hwf.find_left_eq k hf1, Except.ok.injEq] at hp
      subst hp
      cases hl : PTree.lookup cl k tl with
      | none => rw [hl] at hpe; exact absurd rfl hpe
      | some p0 =>
        obtain ⟨k0, hmem, heq⟩ := PTree.lookup_sound cl k tl p0 hl
        exact hpres p0 k0 hmem heq
  · intro k
    obtain ⟨lo, hi, hsplit, hlo, hhi, hres, hpres⟩ :=
      lower_bound_spec hcr hwf.right_tree
        (PTree_ne_nil_of_size (by rw [hwf.size_right]; omega)) hfr
        (fun pre p post hs => hwf.next_right hf1 hs) k
    obtain ⟨ps1, ps2, es1, es2, hps, he1, he2, hk1, hk2, hhead⟩ := hwf.split_right hf1 hsplit
    refine ⟨ps1, ps2, es1, es2, hps, he1, he2, ?_, ?_, ?_, ?_⟩
    · exact forall_of_map_eq hk1 (P := fun x => tree.less cr x k = true) hlo
    · exact forall_of_map_eq hk2 (P := fun x => tree.less cr x k = false) hhi
    · rw [hhead]; exact hres
    · intro p hp hpe
      simp only [find_right, hwf.find_right_eq k hf1, Except.ok.injEq] at hp
      subst hp
      cases hl : PTree.lookup cr k tr with
      | none => rw [hl] at hpe; exact absurd rfl hpe
      | some p0 =>
        obtain ⟨k0, hmem, heq⟩ := PTree.lookup_sound cr k tr p0 hl
        exact hpres p0 k0 hmem heq

/-- C14 on the container holding (1,"a"), (2,"b"), (3,"c"): `lower_bound_left(2)` is the
position of the key 2, `lower_bound_left(4)` is `end_left()`, and `lower_bound_right("bb")`
is the position of "c". -/
theorem C14_lower_bound_witness :
    (∃ ps1 ps2 es1 es2, positions_left 5 Scenario.s3 0 = .ok (ps1 ++ ps2) ∧
      pairs_at_left Scenario.s3 ps1 = .ok es1 ∧ pairs_at_left Scenario.s3 ps2 = .ok es2 ∧
      (∀ e ∈ es1, tree.less Scenario.ltNat e.1 2 = true) ∧
      (∀ e ∈ es2, tree.less Scenario.ltNat e.1 2 = false) ∧
      lower_bound_left Scenario.ltNat 5 Scenario.s3 0 2 = .ok (ps2.head?.getD (end_left 0)) ∧
      (∀ p, find_left Scenario.ltNat 5 Scenario.s3 0 2 = .ok p → p ≠ end_left 0 →
        lower_bound_left Scenario.ltNat 5 Scenario.s3 0 2 = .ok p)) ∧
    lower_bound_left Scenario.ltNat 5 Scenario.s3 0 2 = .ok (some (Ptr.node 1 .left)) ∧
    lower_bound_left Scenario.ltNat 5 Scenario.s3 0 4 = .ok (end_left 0) ∧
    lower_bound_right Scenario.ltStr 5 Scenario.s3 0 "bb" = .ok (some (Ptr.node 2 .right)) :=
  ⟨(C14_lower_bound Scenario.swo_ltNat Scenario.swo_ltStr Scenario.inv_s3
    (show size Scenario.s3 0 + 2 ≤ 5 by decide) (show size Scenario.s3 0 ≠ 0 by decide)).1 2,
    rfl, rfl, rfl⟩

/-- C15: in a container with at least one entry that satisfies its invariants, for every
key `k` the left positions split into a first part none of whose left keys is greater
than `k` and a second part whose left keys are all greater than `k`, and
`upper_bound_left(k)` returns the first position of the second part, `end_left()` when
that part is empty; when `find_left(k)` finds a position, `upper_bound_left(k)` returns
the successor `++` of that position. The same holds for `upper_bound_right` on the right
side. -/
theorem C15_upper_bound (hcl : StrictWeakOrder cl) (hcr : StrictWeakOrder cr)
    (hinv : Inv cl cr h c) {fuel : Nat} (hf : size h c + 2 ≤ fuel) (hne : size h c ≠ 0) :
    (∀ k : L, ∃ ps1 ps2 es1 es2, positions_left fuel h c = .ok (ps1 ++ ps2) ∧
      pairs_at_left h ps1 = .ok es1 ∧ pairs_at_left h ps2 = .ok es2 ∧
      (∀ e ∈ es1, tree.greater cl e.1 k = false) ∧
      (∀ e ∈ es2, tree.greater cl e.1 k = true) ∧
      upper_bound_left cl fuel h c k = .ok (ps2.head?.getD (end_left c)) ∧
      (∀ p, find_left cl fuel h c k = .ok p → p ≠ end_left c →
        upper_bound_left cl fuel h c k = get_next h.mem fuel p)) ∧
    (∀ k : R, ∃ ps1 ps2 es1 es2, positions_right fuel h c = .ok (ps1 ++ ps2) ∧
      pairs_at_right h ps1 = .ok es1 ∧ pairs_at_right h ps2 = .ok es2 ∧
      (∀ e ∈ es1, tree.greater cr e.2 k = false) ∧
      (∀ e ∈ es2, tree.greater cr e.2 k = true) ∧
      upper_bound_right cr fuel h c k = .ok (ps2.head?.getD (end_right c)) ∧
      (∀ p, find_right cr fuel h c k = .ok p → p ≠ end_right c →
        upper_bound_right cr fuel h c k = get_next h.mem fuel p)) := by
  obtain ⟨tl, tr, hwf⟩ := hinv
  have hsz := hwf.size_eq
  simp only [size] at hf hne
  have hf1 : tl.size + 1 ≤ fuel := by omega
  have hfr : tr.size + 1 ≤ fuel := by rw [hwf.size_right]; exact hf1
  constructor
  · intro k
    obtain ⟨lo, hi, hsplit, hlo, hhi, hres, hpres⟩ :=
      upper_bound_spec hcl hwf.left_tree (PTree_ne_nil_of_size (by omega)) hf1
        (fun pre p post hs => hwf.next_left hf1 hs) k
    obtain ⟨ps1, ps2, es1, es2, hps, he1, he2, hk1, hk2, hhead⟩ := hwf.split_left hf1 hsplit
    refine ⟨ps1, ps2, es1, es2, hps, he1, he2, ?_, ?_, ?_, ?_⟩
    · exact forall_of_map_eq hk1 (P := fun x => tree.greater cl x k = false) hlo
    · exact forall_of_map_eq hk2 (P := fun x => tree.greater cl x k = true) hhi
    · rw [hhead]; exact hres
    · intro p hp hpe
      simp only [find_left, hwf.find_left_eq k hf1, Except.ok.injEq] at hp
      subst hp
      cases hl : PTree.lookup cl k tl with
      | none => rw [hl] at hpe; exact absurd rfl hpe
      | some p0 =>
        obtain ⟨k0, hmem, heq⟩ := PTree.lookup_sound cl k tl p0 hl
        exact hpres p0 k0 hmem heq
  · intro k
    obtain ⟨lo, hi, hsplit, hlo, hhi, hres, hpres⟩ :=
      upper_bound_spec hcr hwf.right_tree
        (PTree_ne_nil_of_size (by rw [hwf.size_right]; omega)) hfr
        (fun pre p post hs => hwf.next_right hf1 hs) k
    obtain ⟨ps1, ps2, es1, es2, hps, he1, he2, hk1, hk2, hhead⟩ := hwf.split_right hf1 hsplit
    refine ⟨ps1, ps2, es1, es2, hps, he1, he2, ?_, ?_, ?_, ?_⟩
    · exact forall_of_map_eq hk1 (P := fun x => tree.greater cr x k = false) hlo
    · exact forall_of_map_eq hk2 (P := fun x => tree.greater cr x k = true) hhi
    · rw [hhead]; exact hres
    · intro p hp hpe
      simp only [find_right, hwf.find_right_eq k hf1, Except.ok.injEq] at hp
      subst hp
      cases hl : PTree.lookup cr k tr with
      | none => rw [hl] at hpe; exact absurd rfl hpe
      | some p0 =>
        obtain ⟨k0, hmem, heq⟩ := PTree.lookup_sound cr k tr p0 hl
        exact hpres p0 k0 hmem heq

/-- C15 on the container holding (1,"a"), (2,"b"), (3,"c"): `upper_bound_left(2)` is the
position of the key 3, `upper_bound_left(3)` is `end_left()`, and `upper_bound_right("a")`
is the position of "b". -/
theorem C15_upper_bound_witness :
    (∃ ps1 ps2 es1 es2, positions_left 5 Scenario.s3 0 = .ok (ps1 ++ ps2) ∧
      pairs_at_left Scenario.s3 ps1 = .ok es1 ∧ pairs_at_left Scenario.s3 ps2 = .ok es2 ∧
      (∀ e ∈ es1, tree.greater Scenario.ltNat e.1 2 = false) ∧
      (∀ e ∈ es2, tree.greater Scenario.ltNat e.1 2 = true) ∧
      upper_bound_left Scenario.ltNat 5 Scenario.s3 0 2 = .ok (ps2.head?.getD (end_left 0)) ∧
      (∀ p, find_left Scenario.ltNat 5 Scenario.s3 0 2 = .ok p → p ≠ end_left 0 →
        upper_bound_left Scenario.ltNat 5 Scenario.s3 0 2 =
          get_next Scenario.s3.mem 5 p)) ∧
    upper_bound_left Scenario.ltNat 5 Scenario.s3 0 2 = .ok (some (Ptr.node 2 .left)) ∧
    upper_bound_left Scenario.ltNat 5 Scenario.s3 0 3 = .ok (end_left 0) ∧
    upper_bound_right Scenario.ltStr 5 Scenario.s3 0 "a" = .ok (some (Ptr.node 1 .right)) :=
  ⟨(C15_upper_bound Scenario.swo_ltNat Scenario.swo_ltStr Scenario.inv_s3
    (show size Scenario.s3 0 + 2 ≤ 5 by decide) (show size Scenario.s3 0 ≠ 0 by decide)).1 2,
    rfl, rfl, rfl⟩

end Spec

namespace bimap

open details

variable {L R : Type} {cl : L → L → Bool} {cr : R → R → Bool} {h : Heap L R} {c : Nat}
  {tl : PTree L} {tr : PTree R}

/-- Two lists ordered by an asymmetric relation that are permutations of each other are
equal. -/
theorem sorted_perm_unique {α : Type} {r : α → α → Prop} (hasym : ∀ a b, r a b → r b a → False)
    {l1 l2 : List α} (hp : l1.Perm l2) (h1 : l1.Pairwise r) (h2 : l2.Pairwise r) :
    l1 = l2 := by
  haveI : IsAntisymm α r := ⟨fun a b hab hba => (hasym a b hab hba).elim⟩
  exact List.eq_of_perm_of_sorted hp h1 h2

/-- Filtering an ordered list by "not equivalent to any element of the middle part"
removes exactly the middle part. -/
theorem filter_remove_mid {α : Type} {r : α → α → Prop} {f : α → α → Bool}
    (hne : ∀ a b, r a b → f a b = false ∧ f b a = false) (hrefl : ∀ a, f a a = true)
    {es1 esm es2 : List α} (hs : (es1 ++ esm ++ es2).Pairwise r) :
    (es1 ++ esm ++ es2).filter (fun e => esm.all (fun x => !f x e)) = es1 ++ es2 := by
  have hs1 := List.pairwise_append.mp hs
  have hs2 := List.pairwise_append.mp hs1.1
  rw [List.filter_append, List.filter_append]
  have h1 : es1.filter (fun e => esm.all (fun x => !f x e)) = es1 := by
    refine List.filter_eq_self.mpr ?_
    intro e he
    refine List.all_eq_true.mpr ?_
    intro x hx
    simp [(hne e x (hs2.2.2 e he x hx)).2]
  have h2 : esm.filter (fun e => esm.all (fun x => !f x e)) = [] := by
    refine List.filter_eq_nil_iff.mpr ?_
    intro e he hall
    have := List.all_eq_true.mp hall e he
    simp [hrefl e] at this
  have h3 : es2.filter (fun e => esm.all (fun x => !f x e)) = es2 := by
    refine List.filter_eq_self.mpr ?_
    intro e he
    refine List.all_eq_true.mpr ?_
    intro x hx
    simp [(hne x e (hs1.2.2 x (List.mem_append_right _ hx) e he)).1]
  rw [h1, h2, h3, List.append_nil]

theorem split_before_last {xs a ys : List Ptr} {s : Ptr} (hne : ys ≠ [])
    (heq : xs ++ [s] = a ++ ys) : ∃ post, xs = a ++ post ∧ post ++ [s] = ys := by
  have h1 : xs ++ [s] = (a ++ ys.dropLast) ++ [ys.getLast hne] := by
    rw [heq, List.append_assoc, List.dropLast_append_getLast hne]
  have h2 := List.append_inj' h1 rfl
  refine ⟨ys.dropLast, h2.1, ?_⟩
  have h3 := h2.2
  simp only [List.cons.injEq, and_true] at h3
  rw [h3]
  exact List.dropLast_append_getLast hne

/-- The pairs in left order are ordered by their left keys. -/
theorem WF.pairs_left_sorted (hwf : WF cl cr h c tl tr) :
    (pairs_of h tl.ptrs).Pairwise (fun a b => cl a.1 b.1 = true) := by
  have hs := hwf.left_tree.sorted
  rw [← hwf.pairs_left_keys, List.pairwise_map] at hs
  exact hs

/-- The pairs in right order are ordered by their right keys. -/
theorem WF.pairs_right_sorted (hwf : WF cl cr h c tl tr) :
    (pairs_of h tr.ptrs).Pairwise (fun a b => cr a.2 b.2 = true) := by
  have hs := hwf.right_tree.sorted
  rw [← hwf.pairs_right_keys, List.pairwise_map] at hs
  exact hs

/-- `erase_left(first, last)` over a valid range, described by the pairs of the
container: the pairs stored at the positions of the range disappear from both sides and
the other pairs keep their order. -/
theorem WF.erase_left_range_entries (hcl : StrictWeakOrder cl) (hcr : StrictWeakOrder cr)
    (hwf : WF cl cr h c tl tr) {fuel : Nat} (hf : tl.size + 1 ≤ fuel)
    {pre mid post : List Ptr} {last : Ptr}
    (heq : tl.ptrs ++ [Ptr.sentinel c .left] = pre ++ mid ++ last :: post) :
    ∃ h2 tl2 tr2 post0, tl.ptrs = pre ++ mid ++ post0 ∧
      erase_left_range fuel fuel h c (some ((mid ++ [last]).head?.getD last)) (some last) =
        .ok (h2, some last) ∧
      WF cl cr h2 c tl2 tr2 ∧ tl2.ptrs = pre ++ post0 ∧ tl2.size + mid.length = tl.size ∧
      pairs_of h2 tl2.ptrs = (pairs_of h tl.ptrs).filter
        (fun e => (pairs_of h mid).all (fun x => !tree.equal cl x.1 e.1)) ∧
      pairs_of h2 tr2.ptrs = (pairs_of h tr.ptrs).filter
        (fun e => (pairs_of h mid).all (fun x => !tree.equal cl x.1 e.1)) := by
  have hlen : mid.length < fuel := by
    have := congrArg List.length heq
    simp only [List.length_append, List.length_cons, List.length_nil, PTree.length_ptrs]
      at this
    omega
  obtain ⟨h2, tl2, tr2, hrun, hwf2, hptrs2, hsize2, hent⟩ :=
    erase_left_range_ok fuel c mid fuel h tl tr pre post last hwf heq hf hlen
  obtain ⟨post0, hsplit, hpost0⟩ := split_before_last (by simp) heq
  have hptrs3 : tl2.ptrs = pre ++ post0 := by
    have h1 : tl2.ptrs ++ [Ptr.sentinel c .left] = (pre ++ post0) ++ [Ptr.sentinel c .left] := by
      rw [hptrs2, List.append_assoc, hpost0]
    exact (List.append_inj' h1 rfl).1
  have hne : ∀ a b : L × R, cl a.1 b.1 = true →
      tree.equal cl a.1 b.1 = false ∧ tree.equal cl b.1 a.1 = false := by
    intro a b hab
    exact ⟨(equal_false_iff cl _ _).mpr (Or.inl hab), (equal_false_iff cl _ _).mpr (Or.inr hab)⟩
  have hleft : pairs_of h2 tl2.ptrs = (pairs_of h tl.ptrs).filter
      (fun e => (pairs_of h mid).all (fun x => !tree.equal cl x.1 e.1)) := by
    rw [pairs_of_congr tl2.ptrs hent, hptrs3, pairs_of_append]
    have hs := hwf.pairs_left_sorted
    rw [hsplit, pairs_of_append, pairs_of_append] at hs
    rw [hsplit, pairs_of_append, pairs_of_append]
    exact (filter_remove_mid (f := fun a b : L × R => tree.equal cl a.1 b.1) hne
      (fun a => hcl.equal_refl a.1) hs).symm
  refine ⟨h2, tl2, tr2, post0, hsplit, hrun, hwf2, hptrs3, hsize2, hleft, ?_⟩
  refine sorted_perm_unique (r := fun a b : L × R => cr a.2 b.2 = true) ?_ ?_
    hwf2.pairs_right_sorted (hwf.pairs_right_sorted.sublist (List.filter_sublist _))
  · intro a b hab hba
    rw [hcr.asymm hab] at hba
    cases hba
  · exact (hwf2.pairs_perm.symm.trans (hleft ▸ List.Perm.refl _)).trans
      (hwf.pairs_perm.filter _)

/-- `erase_right(first, last)` over a valid range, described by the pairs of the
container: the pairs stored at the positions of the range disappear from both sides and
the other pairs keep their order. -/
theorem WF.erase_right_range_entries (hcl : StrictWeakOrder cl) (hcr : StrictWeakOrder cr)
    (hwf : WF cl cr h c tl tr) {fuel : Nat} (hf : tl.size + 1 ≤ fuel)
    {pre mid post : List Ptr} {last : Ptr}
    (heq : tr.ptrs ++ [Ptr.sentinel c .right] = pre ++ mid ++ last :: post) :
    ∃ h2 tl2 tr2 post0, tr.ptrs = pre ++ mid ++ post0 ∧
      erase_right_range fuel fuel h c (some ((mid ++ [last]).head?.getD last)) (some last) =
        .ok (h2, some last) ∧
      WF cl cr h2 c tl2 tr2 ∧ tr2.ptrs = pre ++ post0 ∧ tl2.size + mid.length = tl.size ∧
      pairs_of h2 tr2.ptrs = (pairs_of h tr.ptrs).filter
        (fun e => (pairs_of h mid).all (fun x => !tree.equal cr x.2 e.2)) ∧
      pairs_of h2 tl2.ptrs = (pairs_of h tl.ptrs).filter
        (fun e => (pairs_of h mid).all (fun x => !tree.equal cr x.2 e.2)) := by
  have hlen : mid.length < fuel := by
    have := congrArg List.length heq
    simp only [List.length_append, List.length_cons, List.length_nil, PTree.length_ptrs,
      hwf.size_right] at this
    omega
  obtain ⟨h2, tl2, tr2, hrun, hwf2, hptrs2, hsize2, hent⟩ :=
    erase_right_range_ok fuel c mid fuel h tl tr pre post last hwf heq hf hlen
  obtain ⟨post0, hsplit, hpost0⟩ := split_before_last (by simp) heq
  have hptrs3 : tr2.ptrs = pre ++ post0 := by
    have h1 : tr2.ptrs ++ [Ptr.sentinel c .right] =
        (pre ++ post0) ++ [Ptr.sentinel c .right] := by
      rw [hptrs2, List.append_assoc, hpost0]
    exact (List.append_inj' h1 rfl).1
  have hne : ∀ a b : L × R, cr a.2 b.2 = true →
      tree.equal cr a.2 b.2 = false ∧ tree.equal cr b.2 a.2 = false := by
    intro a b hab
    exact ⟨(equal_false_iff cr _ _).mpr (Or.inl hab), (equal_false_iff cr _ _).mpr (Or.inr hab)⟩
  have hright : pairs_of h2 tr2.ptrs = (pairs_of h tr.ptrs).filter
      (fun e => (pairs_of h mid).all (fun x => !tree.equal cr x.2 e.2)) := by
    rw [pairs_of_congr tr2.ptrs hent, hptrs3, pairs_of_append]
    have hs := hwf.pairs_right_sorted
    rw [hsplit, pairs_of_append, pairs_of_append] at hs
    rw [hsplit, pairs_of_append, pairs_of_append]
    exact (filter_remove_mid (f := fun a b : L × R => tree.equal cr a.2 b.2) hne
      (fun a => hcr.equal_refl a.2) hs).symm
  refine ⟨h2, tl2, tr2, post0, hsplit, hrun, hwf2, hptrs3, hsize2, hright, ?_⟩
  refine sorted_perm_unique (r := fun a b : L × R => cl a.1 b.1 = true) ?_ ?_
    hwf2.pairs_left_sorted (hwf.pairs_left_sorted.sublist (List.filter_sublist _))
  · intro a b hab hba
    rw [hcl.asymm hab] at hba
    cases hba
  · exact (hwf2.pairs_perm.trans (hright ▸ List.Perm.refl _)).trans
      (hwf.pairs_perm.symm.filter _)

end bimap

namespace Spec

open details bimap

variable {L R : Type} {cl : L → L → Bool} {cr : R → R → Bool} {h : Heap L R} {c : Nat}

/-- C17: for every valid left range `[first, last)` of a container satisfying its
invariants, with `mid` the positions of the range and `esm` the pairs stored there,
`erase_left(first, last)` returns `last`; afterwards the left positions are the former
ones without `mid`, the enumerations from the left and from the right are the former
ones without the pairs of `esm`, in the same order, so every other pair is still mapped
both ways; `size()` drops by the number of positions of the range; and the invariants
still hold. Symmetrically for `erase_right(first, last)` over a valid right range. -/
theorem C17_erase_range (hcl : StrictWeakOrder cl) (hcr : StrictWeakOrder cr)
    (hinv : Inv cl cr h c) {fuel : Nat} (hf : size h c + 2 ≤ fuel) :
    (∀ ps first last, positions_left fuel h c = .ok ps →
      ValidRange ps (end_left c) first last →
      ∃ pre mid post esl esr esm h2, ps = pre ++ mid ++ post ∧
        (mid ++ post ++ [end_left c]).head? = some first ∧
        (post ++ [end_left c]).head? = some last ∧
        entries_left fuel h c = .ok esl ∧ entries_right fuel h c = .ok esr ∧
        pairs_at_left h mid = .ok esm ∧
        erase_left_range fuel fuel h c first last = .ok (h2, last) ∧
        positions_left fuel h2 c = .ok (pre ++ post) ∧
        entries_left fuel h2 c =
          .ok (esl.filter (fun e => esm.all (fun x => !tree.equal cl x.1 e.1))) ∧
        entries_right fuel h2 c =
          .ok (esr.filter (fun e => esm.all (fun x => !tree.equal cl x.1 e.1))) ∧
        size h2 c + mid.length = size h c ∧
        (∀ e ∈ esl.filter (fun e => esm.all (fun x => !tree.equal cl x.1 e.1)),
          at_left cl fuel h2 c e.1 = .ok e.2 ∧ at_right cr fuel h2 c e.2 = .ok e.1) ∧
        Inv cl cr h2 c) ∧
    (∀ qs first last, positions_right fuel h c = .ok qs →
      ValidRange qs (end_right c) first last →
      ∃ pre mid post esl esr esm h2, qs = pre ++ mid ++ post ∧
        (mid ++ post ++ [end_right c]).head? = some first ∧
        (post ++ [end_right c]).head? = some last ∧
        entries_left fuel h c = .ok esl ∧ entries_right fuel h c = .ok esr ∧
        pairs_at_right h mid = .ok esm ∧
        erase_right_range fuel fuel h c first last = .ok (h2, last) ∧
        positions_right fuel h2 c = .ok (pre ++ post) ∧
        entries_left fuel h2 c =
          .ok (esl.filter (fun e => esm.all (fun x => !tree.equal cr x.2 e.2))) ∧
        entries_right fuel h2 c =
          .ok (esr.filter (fun e => esm.all (fun x => !tree.equal cr x.2 e.2))) ∧
        size h2 c + mid.length = size h c ∧
        (∀ e ∈ esl.filter (fun e => esm.all (fun x => !tree.equal cr x.2 e.2)),
          at_left cl fuel h2 c e.1 = .ok e.2 ∧ at_right cr fuel h2 c e.2 = .ok e.1) ∧
        Inv cl cr h2 c) := by
  obtain ⟨tl, tr, hwf⟩ := hinv
  have hsz := hwf.size_eq
  simp only [size] at hf
  have hf1 : tl.size + 1 ≤ fuel := by omega
  have hfr : tr.size + 1 ≤ fuel := by rw [hwf.size_right]; exact hf1
  have hhead : ∀ (mid post0 post : List Ptr) (l s : Ptr), post0 ++ [s] = l :: post →
      (mid.map some ++ post0.map some ++ [some s]).head? =
        some (some ((mid ++ [l]).head?.getD l)) ∧
      (post0.map some ++ [some s]).head? = some (some l) := by
    intro mid post0 post l s hp
    have h2 : (post0.map some ++ [some s]) = some l :: post.map some := by
      have := congrArg (List.map some) hp
      simpa using this
    constructor
    · rw [List.append_assoc, h2]
      cases mid <;> rfl
    · rw [h2]; rfl
  constructor
  · intro ps first last hps hv
    rw [hwf.positions_left_eq hf1] at hps
    simp only [Except.ok.injEq] at hps
    subst hps
    obtain ⟨pre, mid, post, l, heq, rfl, rfl⟩ := ValidRange.exists_ptrs hv
    obtain ⟨h2, tl2, tr2, post0, hsplit, hrun, hwf2, hptrs2, hsize2, hl2, hr2⟩ :=
      hwf.erase_left_range_entries hcl hcr hf1 heq
    obtain ⟨post1, hsplit1, hpost1⟩ := split_before_last (by simp) heq
    have hpp : post1 = post0 := by
      rw [hsplit1] at hsplit
      exact List.append_cancel_left hsplit
    subst hpp
    have hf3 : tl2.size + 1 ≤ fuel := by omega
    have hmid : ∀ p ∈ mid, p ∈ tl.ptrs := fun p hp => by rw [hsplit]; simp [hp]
    refine ⟨pre.map some, mid.map some, post1.map some, _, _, _, h2, ?_,
      (hhead mid post1 post l _ hpost1).1, (hhead mid post1 post l _ hpost1).2,
      hwf.entries_left_eq hf1, hwf.entries_right_eq hf1, hwf.pairs_at_left_eq mid hmid, hrun,
      ?_, ?_, ?_, ?_, ?_, ⟨tl2, tr2, hwf2⟩⟩
    · rw [hsplit]; simp
    · rw [hwf2.positions_left_eq hf3, hptrs2]; simp
    · rw [hwf2.entries_left_eq hf3, hl2]
    · rw [hwf2.entries_right_eq hf3, hr2]
    · simp only [size, List.length_map]
      rw [hwf2.size_eq, hsz]; exact hsize2
    · intro e he
      rw [← hl2] at he
      exact ⟨hwf2.at_left_of_mem hcl he (hcl.equal_refl e.1) hf3,
        hwf2.at_right_of_mem hcr he (hcr.equal_refl e.2) hf3⟩
  · intro qs first last hqs hv
    rw [hwf.positions_right_eq hfr] at hqs
    simp only [Except.ok.injEq] at hqs
    subst hqs
    obtain ⟨pre, mid, post, l, heq, rfl, rfl⟩ := ValidRange.exists_ptrs hv
    obtain ⟨h2, tl2, tr2, post0, hsplit, hrun, hwf2, hptrs2, hsize2, hr2, hl2⟩ :=
      hwf.erase_right_range_entries hcl hcr hf1 heq
    obtain ⟨post1, hsplit1, hpost1⟩ := split_before_last (by simp) heq
    have hpp : post1 = post0 := by
      rw [hsplit1] at hsplit
      exact List.append_cancel_left hsplit
    subst hpp
    have hf3 : tl2.size + 1 ≤ fuel := by omega
    have hmid : ∀ p ∈ mid, p ∈ tr.ptrs := fun p hp => by rw [hsplit]; simp [hp]
    refine ⟨pre.map some, mid.map some, post1.map some, _, _, _, h2, ?_,
      (hhead mid post1 post l _ hpost1).1, (hhead mid post1 post l _ hpost1).2,
      hwf.entries_left_eq hf1, hwf.entries_right_eq hf1, hwf.pairs_at_right_eq mid hmid, hrun,
      ?_, ?_, ?_, ?_, ?_, ⟨tl2, tr2, hwf2⟩⟩
    · rw [hsplit]; simp
    · rw [hwf2.positions_right_eq (by rw [hwf2.size_right]; exact hf3), hptrs2]; simp
    · rw [hwf2.entries_left_eq hf3, hl2]
    · rw [hwf2.entries_right_eq hf3, hr2]
    · simp only [size, List.length_map]
      rw [hwf2.size_eq, hsz]; exact hsize2
    · intro e he
      rw [← hl2] at he
      exact ⟨hwf2.at_left_of_mem hcl he (hcl.equal_refl e.1) hf3,
        hwf2.at_right_of_mem hcr he (hcr.equal_refl e.2) hf3⟩


/-- C17 on the container holding (1,"a"), (2,"b"), (3,"c"): erasing the left range from
the position of 1 up to the position of 3 returns the position of 3 and leaves exactly
(3,"c") on both sides, with size 1. -/
theorem C17_erase_range_witness :
    (∃ pre mid post esl esr esm h2,
      [some (Ptr.node 0 .left), some (Ptr.node 1 .left), some (Ptr.node 2 .left)] =
        pre ++ mid ++ post ∧
      (mid ++ post ++ [end_left 0]).head? = some (some (Ptr.node 0 .left)) ∧
      (post ++ [end_left 0]).head? = some (some (Ptr.node 2 .left)) ∧
      entries_left 5 Scenario.s3 0 = .ok esl ∧ entries_right 5 Scenario.s3 0 = .ok esr ∧
      pairs_at_left Scenario.s3 mid = .ok esm ∧
      erase_left_range 5 5 Scenario.s3 0 (some (Ptr.node 0 .left)) (some (Ptr.node 2 .left)) =
        .ok (h2, some (Ptr.node 2 .left)) ∧
      positions_left 5 h2 0 = .ok (pre ++ post) ∧
      entries_left 5 h2 0 =
        .ok (esl.filter (fun e => esm.all (fun x => !tree.equal Scenario.ltNat x.1 e.1))) ∧
      entries_right 5 h2 0 =
        .ok (esr.filter (fun e => esm.all (fun x => !tree.equal Scenario.ltNat x.1 e.1))) ∧
      size h2 0 + mid.length = size Scenario.s3 0 ∧
      (∀ e ∈ esl.filter (fun e => esm.all (fun x => !tree.equal Scenario.ltNat x.1 e.1)),
        at_left Scenario.ltNat 5 h2 0 e.1 = .ok e.2 ∧
        at_right Scenario.ltStr 5 h2 0 e.2 = .ok e.1) ∧
      Inv Scenario.ltNat Scenario.ltStr h2 0) ∧
    (erase_left_range 5 5 Scenario.s3 0 (some (Ptr.node 0 .left))
        (some (Ptr.node 2 .left))).map
      (fun x => (entries_left 5 x.1 0, entries_right 5 x.1 0, size x.1 0)) =
      .ok (.ok [(3, "c")], .ok [(3, "c")], 1) :=
  ⟨(C17_erase_range Scenario.swo_ltNat Scenario.swo_ltStr Scenario.inv_s3
    (show size Scenario.s3 0 + 2 ≤ 5 by decide)).1 _ _ _
    (show positions_left 5 Scenario.s3 0 = .ok [some (Ptr.node 0 .left),
      some (Ptr.node 1 .left), some (Ptr.node 2 .left)] from rfl)
    ⟨[], [some (Ptr.node 0 .left), some (Ptr.node 1 .left)], [end_left 0], rfl, rfl⟩, rfl⟩

end Spec

namespace details

variable {T : Type}

/-- The parent link of a node of a tree is the parent of the root or a node of the
tree. -/
theorem Rep_parent_mem {m : Mem} {val : Ptr → Option T} :
    ∀ (t : PTree T) (par : Ptr), Rep m val t → ParentIs m t.root par →
      ∀ q ∈ t.ptrs, ∃ nb, m q = some nb ∧
        (nb.parent = some par ∨ ∃ p2 ∈ t.ptrs, nb.parent = some p2) := by
  intro t
  induction t with
  | nil => intro _ _ _ q hq; simp [PTree.ptrs] at hq
  | node l p k pr r ihl ihr =>
    intro par hrep hpar q hq
    obtain ⟨hk, nb, hnb, hpr, hl, hr, hrl, hrr, hpl, hpr2⟩ := hrep
    simp only [PTree.ptrs, List.mem_append, List.mem_cons] at hq
    rcases hq with hq | hq | hq
    · obtain ⟨nb2, h1, h2⟩ := ihl p hrl hpl q hq
      refine ⟨nb2, h1, Or.inr ?_⟩
      rcases h2 with h2 | ⟨p2, hp2, h2⟩
      · exact ⟨p, by simp [PTree.ptrs], h2⟩
      · exact ⟨p2, by simp [PTree.ptrs, hp2], h2⟩
    · subst hq
      obtain ⟨nb2, h1, h2⟩ := hpar q rfl
      exact ⟨nb2, h1, Or.inl h2⟩
    · obtain ⟨nb2, h1, h2⟩ := ihr p hrr hpr2 q hq
      refine ⟨nb2, h1, Or.inr ?_⟩
      rcases h2 with h2 | ⟨p2, hp2, h2⟩
      · exact ⟨p, by simp [PTree.ptrs], h2⟩
      · exact ⟨p2, by simp [PTree.ptrs, hp2], h2⟩

/-- A tree hanging off an address outside a set of nodes closed under parent links is
disjoint from that set. -/
theorem Rep_disjoint {m : Mem} {val : Ptr → Option T} (B : List Ptr) (sb : Ptr)
    (hB : ∀ q ∈ B, ∃ nb, m q = some nb ∧
      (nb.parent = some sb ∨ ∃ p2 ∈ B, nb.parent = some p2)) :
    ∀ (t : PTree T) (par : Ptr), Rep m val t → ParentIs m t.root par → par ∉ B → par ≠ sb →
      (∀ q ∈ t.ptrs, q ≠ sb) → ∀ q ∈ t.ptrs, q ∉ B := by
  intro t
  induction t with
  | nil => intro _ _ _ _ _ _ q hq; simp [PTree.ptrs] at hq
  | node l p k pr r ihl ihr =>
    intro par hrep hpar hparB hparS hns q hq
    obtain ⟨hk, nb, hnb, hpr, hl, hr, hrl, hrr, hpl, hpr2⟩ := hrep
    have hpB : p ∉ B := by
      intro hmem
      obtain ⟨nb2, h1, h2⟩ := hB p hmem
      obtain ⟨nb3, h3, h4⟩ := hpar p rfl
      rw [h1] at h3
      simp only [Option.some.injEq] at h3
      subst h3
      rw [h4] at h2
      rcases h2 with h2 | ⟨p2, hp2, h2⟩
      · simp only [Option.some.injEq] at h2
        exact hparS h2
      · simp only [Option.some.injEq] at h2
        exact hparB (h2 ▸ hp2)
    have hpS : p ≠ sb := hns p (by simp [PTree.ptrs])
    simp only [PTree.ptrs, List.mem_append, List.mem_cons] at hq
    rcases hq with hq | hq | hq
    · exact ihl p hrl hpl hpB hpS (fun x hx => hns x (by simp [PTree.ptrs, hx])) q hq
    · subst hq; exact hpB
    · exact ihr p hrr hpr2 hpB hpS (fun x hx => hns x (by simp [PTree.ptrs, hx])) q hq

end details

namespace bimap

open details

variable {L R : Type} {cl : L → L → Bool} {cr : R → R → Bool} {h : Heap L R}
  {a b : Nat} {tl : PTree L} {tr : PTree R} {tlb : PTree L} {trb : PTree R}

/-- Two distinct well-formed containers of one state share no node. -/
theorem WF.disjoint (hwa : WF cl cr h a tl tr) (hwb : WF cl cr h b tlb trb) (hab : a ≠ b) :
    (∀ q ∈ tl.ptrs, q ∉ tlb.ptrs) ∧ (∀ q ∈ tr.ptrs, q ∉ trb.ptrs) := by
  have hleft : ∀ q ∈ tl.ptrs, q ∉ tlb.ptrs := by
    refine Rep_disjoint tlb.ptrs (Ptr.sentinel b .left)
      (Rep_parent_mem tlb _ hwb.left_tree.rep hwb.left_tree.root_parent) tl
      (Ptr.sentinel a .left) hwa.left_tree.rep hwa.left_tree.root_parent
      (hwb.sentinel_not_mem_left _ _) ?_ ?_
    · simp only [ne_eq, Ptr.sentinel.injEq, and_true]; exact hab
    · intro q hq heq
      exact hwa.sentinel_not_mem_left _ _ (heq ▸ hq)
  refine ⟨hleft, ?_⟩
  intro q hq hqb
  obtain ⟨e, rfl⟩ := hwa.right_side q hq
  exact hleft _ ((hwa.paired e).mpr hq) ((hwb.paired e).mpr hqb)

/-- A container stays well formed, with the same trees, in a state that agrees with the
old one on its sentinels, its nodes, their keys and its count. -/
theorem WF.frame (hwa : WF cl cr h a tl tr) {h2 : Heap L R}
    (hmem : ∀ q, q ∈ tl.ptrs ∨ q ∈ tr.ptrs ∨ q = Ptr.sentinel a .left ∨
      q = Ptr.sentinel a .right → h2.mem q = h.mem q)
    (hlv : ∀ q ∈ tl.ptrs, h2.left_value q = h.left_value q)
    (hrv : ∀ q ∈ tr.ptrs, h2.right_value q = h.right_value q)
    (hsz : h2.sz a = h.sz a)
    (hfresh : ∀ e s, h2.next ≤ e → h2.mem (Ptr.node e s) = none) :
    WF cl cr h2 a tl tr :=
  { left_tree := TreeWF_congr hwa.left_tree (fun q hq => hmem q (Or.inl hq)) hlv
      (hmem _ (Or.inr (Or.inr (Or.inl rfl))))
    right_tree := TreeWF_congr hwa.right_tree (fun q hq => hmem q (Or.inr (Or.inl hq))) hrv
      (hmem _ (Or.inr (Or.inr (Or.inr rfl))))
    left_cross := by rw [hmem _ (Or.inr (Or.inr (Or.inl rfl)))]; exact hwa.left_cross
    right_cross := by rw [hmem _ (Or.inr (Or.inr (Or.inr rfl)))]; exact hwa.right_cross
    left_side := hwa.left_side
    right_side := hwa.right_side
    paired := hwa.paired
    size_eq := by rw [hsz]; exact hwa.size_eq
    fresh := hfresh }

/-- The pairs read at nodes whose keys are unchanged are unchanged. -/
theorem entry_at_frame {h h2 : Heap L R} {e : Nat} (s : Side)
    (hlv : h2.left_value (Ptr.node e .left) = h.left_value (Ptr.node e .left))
    (hrv : h2.right_value (Ptr.node e .right) = h.right_value (Ptr.node e .right)) :
    entry_at h2 (Ptr.node e s) = entry_at h (Ptr.node e s) := by
  simp only [entry_at, hlv, hrv]

/-- The footprint of a container other than `b`: it avoids the nodes and sentinels of
`b` and every address not yet allocated. -/
theorem WF.footprint (hwa : WF cl cr h a tl tr) (hwb : WF cl cr h b tlb trb) (hab : a ≠ b)
    {q : Ptr} (hq : q ∈ tl.ptrs ∨ q ∈ tr.ptrs ∨ q = Ptr.sentinel a .left ∨
      q = Ptr.sentinel a .right) :
    q ∉ tlb.ptrs ∧ q ∉ trb.ptrs ∧ q ≠ Ptr.sentinel b .left ∧ q ≠ Ptr.sentinel b .right ∧
      ∀ e s, h.next ≤ e → q ≠ Ptr.node e s := by
  obtain ⟨hd1, hd2⟩ := hwa.disjoint hwb hab
  rcases hq with hq | hq | hq | hq
  · obtain ⟨e, rfl⟩ := hwa.left_side q hq
    refine ⟨hd1 _ hq, hwb.left_not_mem_right e, by simp, by simp, ?_⟩
    intro e2 s he heq
    have := hwa.alloc_lt_left hq
    simp only [Ptr.node.injEq] at heq
    omega
  · obtain ⟨e, rfl⟩ := hwa.right_side q hq
    refine ⟨hwb.right_not_mem_left e, hd2 _ hq, by simp, by simp, ?_⟩
    intro e2 s he heq
    have := hwa.alloc_lt_right hq
    simp only [Ptr.node.injEq] at heq
    omega
  · subst hq
    refine ⟨hwb.sentinel_not_mem_left _ _, hwb.sentinel_not_mem_right _ _, ?_, by simp,
      fun _ _ _ => by simp⟩
    simp only [ne_eq, Ptr.sentinel.injEq, and_true]; exact hab
  · subst hq
    refine ⟨hwb.sentinel_not_mem_left _ _, hwb.sentinel_not_mem_right _ _, by simp, ?_,
      fun _ _ _ => by simp⟩
    simp only [ne_eq, Ptr.sentinel.injEq, and_true]; exact hab


/-- A step on container `b` that changes only the nodes and sentinels of `b`, addresses
not yet allocated, and the count of `b`, leaves every other container well formed with
the same trees and the same pairs. -/
theorem WF.frame_of_step (hwa : WF cl cr h a tl tr) (hwb : WF cl cr h b tlb trb)
    (hab : a ≠ b) {h2 : Heap L R}
    (hmem : ∀ q, q ∉ tlb.ptrs → q ∉ trb.ptrs → q ≠ Ptr.sentinel b .left →
      q ≠ Ptr.sentinel b .right → (∀ e s, h.next ≤ e → q ≠ Ptr.node e s) →
      h2.mem q = h.mem q)
    (hlv : ∀ q, q ∉ tlb.ptrs → (∀ e s, h.next ≤ e → q ≠ Ptr.node e s) →
      h2.left_value q = h.left_value q)
    (hrv : ∀ q, q ∉ trb.ptrs → (∀ e s, h.next ≤ e → q ≠ Ptr.node e s) →
      h2.right_value q = h.right_value q)
    (hsz : h2.sz a = h.sz a)
    (hfresh : ∀ e s, h2.next ≤ e → h2.mem (Ptr.node e s) = none) :
    WF cl cr h2 a tl tr ∧ (∀ q ∈ tl.ptrs, entry_at h2 q = entry_at h q) ∧
      (∀ q ∈ tr.ptrs, entry_at h2 q = entry_at h q) := by
  have hL : ∀ q ∈ tl.ptrs, h2.left_value q = h.left_value q := by
    intro q hq
    obtain ⟨h1, _, _, _, h5⟩ := hwa.footprint hwb hab (Or.inl hq)
    exact hlv q h1 h5
  have hR : ∀ q ∈ tr.ptrs, h2.right_value q = h.right_value q := by
    intro q hq
    obtain ⟨_, h2b, _, _, h5⟩ := hwa.footprint hwb hab (Or.inr (Or.inl hq))
    exact hrv q h2b h5
  refine ⟨hwa.frame ?_ hL hR hsz hfresh, ?_, ?_⟩
  · intro q hq
    obtain ⟨h1, h2b, h3, h4, h5⟩ := hwa.footprint hwb hab hq
    exact hmem q h1 h2b h3 h4 h5
  · intro q hq
    obtain ⟨e, rfl⟩ := hwa.left_side q hq
    exact entry_at_frame _ (hL _ hq) (hR _ ((hwa.paired e).mp hq))
  · intro q hq
    obtain ⟨e, rfl⟩ := hwa.right_side q hq
    exact entry_at_frame _ (hL _ ((hwa.paired e).mpr hq)) (hR _ hq)

/-- The constructor of a container `b` in a state holding other containers. -/
theorem construct_in (cl : L → L → Bool) (cr : R → R → Bool) (h : Heap L R) (b p1 p2 : Nat)
    (hfresh : ∀ e s, h.next ≤ e → h.mem (Ptr.node e s) = none) :
    ∃ h0, bimap h b p1 p2 = .ok h0 ∧ WF cl cr h0 b .nil .nil ∧
      h0.left_value = h.left_value ∧ h0.right_value = h.right_value ∧ h0.next = h.next ∧
      h0.sz = Function.update h.sz b 0 ∧
      (∀ q, q ≠ Ptr.sentinel b .left → q ≠ Ptr.sentinel b .right → h0.mem q = h.mem q) := by
  have hne : Ptr.sentinel b .left ≠ Ptr.sentinel b .right := by simp
  refine ⟨{ h with
      mem := Function.update (Function.update (Function.update (Function.update
          h.mem (Ptr.sentinel b .left)
          (some { left := none, right := none, parent := none, priority := p1 }))
          (Ptr.sentinel b .right)
          (some { left := none, right := none, parent := none, priority := p2 }))
          (Ptr.sentinel b .left)
          (some { left := none, right := some (Ptr.sentinel b .right), parent := none,
                  priority := p1 }))
          (Ptr.sentinel b .right)
          (some { left := none, right := some (Ptr.sentinel b .left), parent := none,
                  priority := p2 })
      sz := Function.update h.sz b 0 }, ?_, ?_, rfl, rfl, rfl, rfl, ?_⟩
  · simp only [bimap, share_pointers, tree.set_another_tree_pointer, write_right,
      Function.update_same, Function.update_noteq hne, Function.update_noteq (Ne.symm hne)]
  · refine
      { left_tree :=
          { sent := ⟨{ left := none, right := some (Ptr.sentinel b .right), parent := none,
                       priority := p1 },
              by simp [Function.update_noteq hne], rfl, rfl⟩
            rep := trivial
            root_parent := ParentIs_none _ _
            nodup := List.nodup_nil
            sorted := List.Pairwise.nil
            s_notin := by simp [PTree.ptrs]
            heap := trivial }
        right_tree :=
          { sent := ⟨{ left := none, right := some (Ptr.sentinel b .left), parent := none,
                       priority := p2 },
              by simp, rfl, rfl⟩
            rep := trivial
            root_parent := ParentIs_none _ _
            nodup := List.nodup_nil
            sorted := List.Pairwise.nil
            s_notin := by simp [PTree.ptrs]
            heap := trivial }
        left_cross := ⟨{ left := none, right := some (Ptr.sentinel b .right), parent := none,
                         priority := p1 },
          by simp [Function.update_noteq hne], rfl⟩
        right_cross := ⟨{ left := none, right := some (Ptr.sentinel b .left), parent := none,
                          priority := p2 },
          by simp, rfl⟩
        left_side := by simp [PTree.ptrs]
        right_side := by simp [PTree.ptrs]
        paired := by simp [PTree.ptrs]
        size_eq := by simp [PTree.size]
        fresh := by
          intro e s he
          simp only [ne_eq, not_false_eq_true, Function.update_noteq, reduceCtorEq]
          exact hfresh e s he }
  · intro q h1 h2
    simp only [Function.update_noteq h2, Function.update_noteq h1]


/-- `insert` into container `b` leaves every other container as it is. -/
theorem WF.insert_other (hcl : StrictWeakOrder cl) (hcr : StrictWeakOrder cr)
    (hwa : WF cl cr h a tl tr) (hwb : WF cl cr h b tlb trb) (hab : a ≠ b) {fuel : Nat}
    (hf : tlb.size + 2 ≤ fuel) (left : L) (right : R) (pl pr : Nat) :
    ∃ h3 p, insert cl cr fuel h b left right pl pr = .ok (h3, p) ∧ Inv cl cr h3 b ∧
      WF cl cr h3 a tl tr ∧ (∀ q ∈ tl.ptrs, entry_at h3 q = entry_at h q) ∧
      (∀ q ∈ tr.ptrs, entry_at h3 q = entry_at h q) := by
  by_cases hfound : PTree.lookup cl left tlb ≠ none ∨ PTree.lookup cr right trb ≠ none
  · exact ⟨h, _, hwb.insert_reject left right pl pr (by omega) hfound, ⟨_, _, hwb⟩, hwa,
      fun _ _ => rfl, fun _ _ => rfl⟩
  · have hl : PTree.lookup cl left tlb = none := by
      by_contra hn; exact hfound (Or.inl hn)
    have hr : PTree.lookup cr right trb = none := by
      by_contra hn; exact hfound (Or.inr hn)
    obtain ⟨h3, hrun, hwb3, hlv, hrv, hsz, hnext, hmem⟩ := hwb.insert_ok hcl hcr pl pr hf hl hr
    obtain ⟨k1, k2, k3⟩ := hwa.frame_of_step hwb hab
      (fun q h1 h2 h3 h4 h5 => hmem q h1 h2 (h5 _ _ (Nat.le_refl _)) (h5 _ _ (Nat.le_refl _))
        h3 h4)
      (fun q _ h5 => by rw [hlv, Function.update_noteq (h5 _ _ (Nat.le_refl _))])
      (fun q _ h5 => by rw [hrv, Function.update_noteq (h5 _ _ (Nat.le_refl _))])
      (by rw [hsz, Function.update_noteq hab])
      hwb3.fresh
    exact ⟨h3, _, hrun, ⟨_, _, hwb3⟩, k1, k2, k3⟩

/-- `erase_left(it)` on container `b` leaves every other container as it is. -/
theorem WF.erase_left_other (hwa : WF cl cr h a tl tr) (hwb : WF cl cr h b tlb trb)
    (hab : a ≠ b) {fuel : Nat} (hf : tlb.size + 1 ≤ fuel) {p : Ptr}
    (hp : p ∈ tlb.ptrs ∨ p = Ptr.sentinel b .left) :
    ∃ h3 res, erase_left fuel h b (some p) = .ok (h3, res) ∧ Inv cl cr h3 b ∧
      WF cl cr h3 a tl tr ∧ (∀ q ∈ tl.ptrs, entry_at h3 q = entry_at h q) ∧
      (∀ q ∈ tr.ptrs, entry_at h3 q = entry_at h q) := by
  rcases hp with hp | rfl
  · obtain ⟨pre, post, hsplit⟩ := List.append_of_mem hp
    obtain ⟨h3, hrun, hwb3, hlv, hrv, hsz, hnext, hmem⟩ := hwb.erase_left_ok hf hsplit
    obtain ⟨k1, k2, k3⟩ := hwa.frame_of_step hwb hab
      (fun q h1 h2 h3 h4 _ => hmem q h1 h2 h3 h4)
      (fun q h1 _ => by
        rw [hlv, Function.update_noteq (fun he : q = p => h1 (he ▸ hp))])
      (fun q h1 _ => by
        rw [hrv, Function.update_noteq
          (fun he : q = partner p => h1 (he ▸ hwb.partner_mem_right hp))])
      (by rw [hsz, Function.update_noteq hab])
      hwb3.fresh
    exact ⟨h3, _, hrun, ⟨_, _, hwb3⟩, k1, k2, k3⟩
  · have := erase_left_end fuel h b
    simp only [end_left, tree.end_] at this
    exact ⟨h, none, this, ⟨_, _, hwb⟩, hwa, fun _ _ => rfl, fun _ _ => rfl⟩

/-- `erase_left(key)` on container `b` leaves every other container as it is. -/
theorem WF.erase_left_key_other (hwa : WF cl cr h a tl tr) (hwb : WF cl cr h b tlb trb)
    (hab : a ≠ b) {fuel : Nat} (hf : tlb.size + 1 ≤ fuel) (key : L) :
    ∃ h3 res, erase_left_key cl fuel h b key = .ok (h3, res) ∧ Inv cl cr h3 b ∧
      WF cl cr h3 a tl tr ∧ (∀ q ∈ tl.ptrs, entry_at h3 q = entry_at h q) ∧
      (∀ q ∈ tr.ptrs, entry_at h3 q = entry_at h q) := by
  have hp : (PTree.lookup cl key tlb).getD (Ptr.sentinel b .left) ∈ tlb.ptrs ∨
      (PTree.lookup cl key tlb).getD (Ptr.sentinel b .left) = Ptr.sentinel b .left := by
    cases hl : PTree.lookup cl key tlb with
    | none => exact Or.inr rfl
    | some p => exact Or.inl (lookup_mem cl key tlb p hl)
  obtain ⟨h3, res, hrun, k0, k1, k2, k3⟩ := hwa.erase_left_other hwb hab hf hp
  refine ⟨h3, decide (res ≠ none), ?_, k0, k1, k2, k3⟩
  rw [hwb.erase_left_key_eq key hf, hrun]

/-- `erase_right(key)` on container `b` leaves every other container as it is. -/
theorem WF.erase_right_key_other (hwa : WF cl cr h a tl tr) (hwb : WF cl cr h b tlb trb)
    (hab : a ≠ b) {fuel : Nat} (hf : tlb.size + 1 ≤ fuel) (key : R) :
    ∃ h3 res, erase_right_key cr fuel h b key = .ok (h3, res) ∧ Inv cl cr h3 b ∧
      WF cl cr h3 a tl tr ∧ (∀ q ∈ tl.ptrs, entry_at h3 q = entry_at h q) ∧
      (∀ q ∈ tr.ptrs, entry_at h3 q = entry_at h q) := by
  cases hl : PTree.lookup cr key trb with
  | none =>
    refine ⟨h, false, ?_, ⟨_, _, hwb⟩, hwa, fun _ _ => rfl, fun _ _ => rfl⟩
    simp only [erase_right_key, hwb.find_right_eq key hf, hl, Option.getD_none, erase_right,
      end_right, tree.end_, if_true]
    rfl
  | some q =>
    have hq := lookup_mem cr key trb q hl
    obtain ⟨pre, post, hsplit⟩ := List.append_of_mem (hwb.partner_mem_left hq)
    obtain ⟨h3, hrunL, hrun, _⟩ := hwb.erase_right_ok hf hq hsplit
    obtain ⟨h4, res, hrun4, k0, k1, k2, k3⟩ :=
      hwa.erase_left_other hwb hab hf (Or.inl (hwb.partner_mem_left hq))
    have hh : h4 = h3 := by
      rw [hrunL] at hrun4
      simp only [Except.ok.injEq, Prod.mk.injEq] at hrun4
      exact hrun4.1.symm
    subst hh
    refine ⟨h4, decide (some (partner (post.head?.getD (Ptr.sentinel b .left))) ≠ none), ?_,
      k0, k1, k2, k3⟩
    simp only [erase_right_key, hwb.find_right_eq key hf, hl, Option.getD_some, hrun]

end bimap

namespace bimap

open details

variable {L R : Type} {cl : L → L → Bool} {cr : R → R → Bool} {h : Heap L R}
  {a b : Nat} {tl : PTree L} {tr : PTree R} {tlb : PTree L} {trb : PTree R}

theorem pairs_of_cons {h : Heap L R} {x : Ptr} {e : L × R} (he : entry_at h x = some e)
    (rest : List Ptr) : pairs_of h (x :: rest) = e :: pairs_of h rest := by
  simp only [pairs_of, List.filterMap_cons, he]

/-- What the loops over the left side read at a node. -/
theorem WF.read_left (hwa : WF cl cr h a tl tr) {x : Ptr} (hx : x ∈ tl.ptrs) :
    ∃ k r, entry_at h x = some (k, r) ∧ (some x : Option Ptr) ≠ end_left a ∧
      get_value h.left_value (some x) = .ok k ∧
      flip h.mem (some x) = .ok (some (partner x)) ∧
      get_value h.right_value (some (partner x)) = .ok r := by
  obtain ⟨k, hk⟩ := mem_toList_of_mem_ptrs hx
  obtain ⟨r, _, hent, hv1, hv2⟩ := hwa.entry_at_left hk
  refine ⟨k, r, hent, ?_, by simp only [get_value, hv1], hwa.flip_left hx,
    by simp only [get_value, hv2]⟩
  intro heq
  simp only [end_left, tree.end_, Option.some.injEq] at heq
  exact hwa.sentinel_not_mem_left _ _ (heq ▸ hx)

/-- The loop of the copy constructor inserts the remaining pairs of `a` into `b` in left
order and leaves `a` as it is. A property `P` of the state that every insertion into `b`
keeps holds at the end of the loop. -/
theorem copy_loop_ok (hcl : StrictWeakOrder cl) (hcr : StrictWeakOrder cr) (fuel : Nat)
    (prio : Nat → Nat × Nat) (hab : a ≠ b) (P : Heap L R → Prop)
    (hP : ∀ (h : Heap L R) (tlb : PTree L) (trb : PTree R) (left : L) (right : R)
      (pl pr : Nat) (h3 : Heap L R) (p : Option Ptr), WF cl cr h b tlb trb →
      tlb.size + 2 ≤ fuel → P h → insert cl cr fuel h b left right pl pr = .ok (h3, p) →
      P h3) :
    ∀ (xs done : List Ptr) (n i : Nat) (h : Heap L R) (tlb : PTree L) (trb : PTree R),
      tl.ptrs = done ++ xs → WF cl cr h a tl tr → WF cl cr h b tlb trb →
      pairs_of h tlb.ptrs = pairs_of h done → tl.size + 2 ≤ fuel → xs.length < n → P h →
      ∃ h2 tlb2 trb2, copy_loop cl cr fuel prio b a n i h
          (some (xs.head?.getD (Ptr.sentinel a .left))) = .ok h2 ∧
        WF cl cr h2 a tl tr ∧ WF cl cr h2 b tlb2 trb2 ∧
        pairs_of h2 tlb2.ptrs = pairs_of h tl.ptrs ∧
        (∀ q ∈ tl.ptrs, entry_at h2 q = entry_at h q) ∧
        (∀ q ∈ tr.ptrs, entry_at h2 q = entry_at h q) ∧ P h2 := by
  intro xs
  induction xs with
  | nil =>
    intro done n i h tlb trb hsplit hwa hwb hp hf hn hPh
    obtain ⟨n2, rfl⟩ : ∃ n2, n = n2 + 1 := ⟨n - 1, by simp at hn; omega⟩
    refine ⟨h, tlb, trb, ?_, hwa, hwb, ?_, fun _ _ => rfl, fun _ _ => rfl, hPh⟩
    · simp [copy_loop, end_left, tree.end_]
    · rw [hp, hsplit, List.append_nil]
  | cons x rest ih =>
    intro done n i h tlb trb hsplit hwa hwb hp hf hn hPh
    obtain ⟨n2, rfl⟩ : ∃ n2, n = n2 + 1 := ⟨n - 1, by simp at hn; omega⟩
    have hx : x ∈ tl.ptrs := by rw [hsplit]; simp
    obtain ⟨kx, rx, hent, hne, hg1, hfl, hg2⟩ := hwa.read_left hx
    have hpairs : pairs_of h tl.ptrs = pairs_of h done ++ (kx, rx) :: pairs_of h rest := by
      rw [hsplit, pairs_of_append, pairs_of_cons hent]
    have hsorted := hwa.pairs_left_sorted
    rw [hpairs] at hsorted
    have hlt : ∀ e ∈ pairs_of h done, cl e.1 kx = true := by
      intro e he
      exact (List.pairwise_append.mp hsorted).2.2 e he (kx, rx) (by simp)
    have hmem_done : ∀ e ∈ pairs_of h done, e ∈ pairs_of h tl.ptrs := by
      intro e he; rw [hpairs]; exact List.mem_append_left _ he
    have hmem_x : (kx, rx) ∈ pairs_of h tl.ptrs := by rw [hpairs]; simp
    have hl : PTree.lookup cl kx tlb = none := by
      refine (hwb.lookup_left_none_iff hcl kx).mpr ?_
      intro e he
      rw [hp] at he
      exact (equal_false_iff cl _ _).mpr (Or.inl (hlt e he))
    have hr : PTree.lookup cr rx trb = none := by
      refine (hwb.lookup_right_none_iff hcr rx).mpr ?_
      intro e he
      rw [hp] at he
      cases heq : tree.equal cr e.2 rx with
      | false => rfl
      | true =>
        have := hwa.pair_eq_of_right_equal hcr (hmem_done e he) hmem_x heq
        have h2 := hlt e he
        rw [this, hcl.irrefl] at h2
        cases h2
    have hsizeb : tlb.size + 2 ≤ fuel := by
      have h1 := hwb.pairs_left_length
      rw [hp] at h1
      have h2 : (pairs_of h done).length ≤ done.length := List.length_filterMap_le _ _
      have h3 := congrArg List.length hsplit
      simp only [List.length_append, List.length_cons, PTree.length_ptrs] at h3
      omega
    obtain ⟨h2, tlb2, trb2, hrun, hwb2, _, _, _, _, hpl, _⟩ :=
      hwb.insert_entries hcl hcr (prio i).1 (prio i).2 hsizeb hl hr
    obtain ⟨h3, p, hrun3, _, hwa3, k2, k3⟩ :=
      hwa.insert_other hcl hcr hwb hab hsizeb kx rx (prio i).1 (prio i).2
    have hh : h3 = h2 := by
      rw [hrun] at hrun3
      simp only [Except.ok.injEq, Prod.mk.injEq] at hrun3
      exact hrun3.1.symm
    subst hh
    have hpl2 : pairs_of h3 tlb2.ptrs = pairs_of h3 (done ++ [x]) := by
      have hd : pairs_of h3 (done ++ [x]) = pairs_of h (done ++ [x]) := by
        refine pairs_of_congr _ ?_
        intro q hq
        refine k2 q ?_
        rw [hsplit]
        rcases List.mem_append.mp hq with h4 | h4
        · exact List.mem_append_left _ h4
        · simp only [List.mem_singleton] at h4
          subst h4; simp
      rw [hd, pairs_of_append, pairs_of_cons hent, hpl, hp]
      have e1 : (pairs_of h done).filter (fun e => cl e.1 kx) = pairs_of h done :=
        List.filter_eq_self.mpr (fun e he => hlt e he)
      have e2 : (pairs_of h done).filter (fun e => !cl e.1 kx) = [] :=
        List.filter_eq_nil_iff.mpr (fun e he => by simp [hlt e he])
      rw [e1, e2]
      rfl
    have hf1 : tl.size + 1 ≤ fuel := by omega
    have hnext := hwa3.next_left hf1 hsplit
    obtain ⟨h4, tlb4, trb4, hrun4, hwa4, hwb4, hp4, k2b, k3b, hP4⟩ :=
      ih (done ++ [x]) n2 (i + 1) h3 tlb2 trb2 (by rw [hsplit]; simp) hwa3 hwb2 hpl2 hf
        (by simp at hn; omega) (hP h tlb trb kx rx _ _ h3 _ hwb hsizeb hPh hrun)
    refine ⟨h4, tlb4, trb4, ?_, hwa4, hwb4, ?_, ?_, ?_, hP4⟩
    · simp only [List.head?_cons, Option.getD_some, copy_loop, hne, if_false, hg1, hfl, hg2,
        hrun, hnext]
      exact hrun4
    · rw [hp4]
      exact pairs_of_congr _ k2
    · intro q hq; rw [k2b q hq, k2 q hq]
    · intro q hq; rw [k3b q hq, k3 q hq]

/-- The loop of `operator==` walks both containers in left order and compares the pairs
position by position. -/
theorem operator_eq_loop_ok (hwa : WF cl cr h a tl tr) (hwb : WF cl cr h b tlb trb)
    {fuel : Nat} (hfa : tl.size + 1 ≤ fuel) (hfb : tlb.size + 1 ≤ fuel) :
    ∀ (xs ys prea preb : List Ptr) (n : Nat), tl.ptrs = prea ++ xs → tlb.ptrs = preb ++ ys →
      xs.length = ys.length → xs.length < n →
      ∃ r, operator_eq_loop cl cr fuel h a n (some (xs.head?.getD (Ptr.sentinel a .left)))
          (some (ys.head?.getD (Ptr.sentinel b .left))) = .ok r ∧
        (r = true ↔ List.Forall₂
          (fun x y => tree.equal cl x.1 y.1 = true ∧ tree.equal cr x.2 y.2 = true)
          (pairs_of h xs) (pairs_of h ys)) := by
  intro xs
  induction xs with
  | nil =>
    intro ys prea preb n _ _ hlen hn
    obtain ⟨n2, rfl⟩ : ∃ n2, n = n2 + 1 := ⟨n - 1, by simp at hn; omega⟩
    have hys : ys = [] := by
      cases ys with
      | nil => rfl
      | cons y ys => simp at hlen
    subst hys
    refine ⟨true, ?_, ?_⟩
    · simp [operator_eq_loop, end_left, tree.end_]
    · simp [pairs_of]
  | cons x rest ih =>
    intro ys prea preb n hsa hsb hlen hn
    obtain ⟨n2, rfl⟩ : ∃ n2, n = n2 + 1 := ⟨n - 1, by simp at hn; omega⟩
    cases ys with
    | nil => simp at hlen
    | cons y ys2 =>
      have hx : x ∈ tl.ptrs := by rw [hsa]; simp
      have hy : y ∈ tlb.ptrs := by rw [hsb]; simp
      obtain ⟨kx, rx, hentx, hnex, hg1x, hflx, hg2x⟩ := hwa.read_left hx
      obtain ⟨ky, ry, henty, _, hg1y, hfly, hg2y⟩ := hwb.read_left hy
      have hnx := hwa.next_left hfa hsa
      have hny := hwb.next_left hfb hsb
      obtain ⟨r, hrun, hiff⟩ := ih ys2 (prea ++ [x]) (preb ++ [y]) n2 (by rw [hsa]; simp)
        (by rw [hsb]; simp) (by simpa using hlen) (by simp at hn; omega)
      rw [pairs_of_cons hentx, pairs_of_cons henty, List.forall₂_cons]
      simp only [List.head?_cons, Option.getD_some, operator_eq_loop, hnex, if_false, hg1x,
        hg1y, hflx, hg2x, hfly, hg2y, hnx, hny]
      cases h1 : tree.equal cl kx ky with
      | false =>
        refine ⟨false, by simp, ?_⟩
        simp
      | true =>
        cases h2 : tree.equal cr rx ry with
        | false =>
          refine ⟨false, by simp, ?_⟩
          simp
        | true =>
          refine ⟨r, by simpa using hrun, ?_⟩
          rw [hiff]
          simp

end bimap

namespace bimap

open details

variable {L R : Type} {cl : L → L → Bool} {cr : R → R → Bool} {h : Heap L R}
  {a b : Nat} {tl : PTree L} {tr : PTree R} {tlb : PTree L} {trb : PTree R}

/-- A container that stays well formed with the same trees and the same pairs looks
unchanged. -/
theorem WF.unchanged (hwa : WF cl cr h a tl tr) {h2 : Heap L R} (hwa2 : WF cl cr h2 a tl tr)
    (k2 : ∀ q ∈ tl.ptrs, entry_at h2 q = entry_at h q)
    (k3 : ∀ q ∈ tr.ptrs, entry_at h2 q = entry_at h q) {fuel : Nat}
    (hf : tl.size + 1 ≤ fuel) : Unchanged fuel h h2 a := by
  have hfr : tr.size + 1 ≤ fuel := by rw [hwa.size_right]; exact hf
  refine ⟨?_, ?_, ?_, ?_, ?_⟩
  · simp only [size]; rw [hwa2.size_eq, hwa.size_eq]
  · rw [hwa2.positions_left_eq hf, hwa.positions_left_eq hf]
  · rw [hwa2.positions_right_eq hfr, hwa.positions_right_eq hfr]
  · rw [hwa2.entries_left_eq hf, hwa.entries_left_eq hf, pairs_of_congr _ k2]
  · rw [hwa2.entries_right_eq hf, hwa.entries_right_eq hf, pairs_of_congr _ k3]

/-- `operator==` compares the sizes and then the pairs in left order. -/
theorem operator_eq_spec (hcl : StrictWeakOrder cl) (hcr : StrictWeakOrder cr)
    (hwa : WF cl cr h a tl tr) (hwb : WF cl cr h b tlb trb) {fuel : Nat}
    (hfa : tl.size + 1 ≤ fuel) (hfb : tlb.size + 1 ≤ fuel) :
    ∃ r, operator_eq cl cr fuel h a b = .ok r ∧
      (r = true ↔ size h a = size h b ∧ List.Forall₂
        (fun x y => tree.equal cl x.1 y.1 = true ∧ tree.equal cr x.2 y.2 = true)
        (pairs_of h tl.ptrs) (pairs_of h tlb.ptrs)) := by
  by_cases hab : a = b
  · subst hab
    refine ⟨true, by simp [operator_eq], ?_⟩
    have h1 := hwa.entries_left_eq hfa
    rw [hwb.entries_left_eq hfb] at h1
    simp only [Except.ok.injEq] at h1
    rw [h1]
    simp only [true_and, true_iff]
    exact List.forall₂_same.mpr (fun x _ => ⟨hcl.equal_refl x.1, hcr.equal_refl x.2⟩)
  · by_cases hsz : size h a = size h b
    · have hlen : tl.ptrs.length = tlb.ptrs.length := by
        simp only [size] at hsz
        rw [PTree.length_ptrs, PTree.length_ptrs, ← hwa.size_eq, ← hwb.size_eq, hsz]
      obtain ⟨r, hrun, hiff⟩ := operator_eq_loop_ok hwa hwb hfa hfb tl.ptrs tlb.ptrs [] []
        fuel rfl rfl hlen (by rw [PTree.length_ptrs]; omega)
      refine ⟨r, ?_, ?_⟩
      · simp only [operator_eq, hab, if_false, hsz, ne_eq, not_true_eq_false, begin_left,
          tree_begin_spec hwa.left_tree hfa, tree_begin_spec hwb.left_tree hfb]
        exact hrun
      · rw [hiff]
        simp [hsz]
    · refine ⟨false, ?_, ?_⟩
      · simp only [operator_eq, hab, if_false, ne_eq, hsz, not_false_eq_true, if_true]
      · simp [hsz]

/-- The constructor of container `b` leaves every other container as it is. -/
theorem WF.construct_other (hwa : WF cl cr h a tl tr) (hab : a ≠ b) (p1 p2 : Nat) :
    ∃ h0, bimap h b p1 p2 = .ok h0 ∧ WF cl cr h0 b .nil .nil ∧ WF cl cr h0 a tl tr ∧
      (∀ q, entry_at h0 q = entry_at h q) := by
  obtain ⟨h0, hrun0, hwb0, hlv0, hrv0, hnext0, hsz0, hmem0⟩ :=
    construct_in cl cr h b p1 p2 hwa.fresh
  have hent0 : ∀ q, entry_at h0 q = entry_at h q := by
    intro q
    cases q with
    | sentinel c s => rfl
    | node e s => simp only [entry_at, hlv0, hrv0]
  refine ⟨h0, hrun0, hwb0, ?_, hent0⟩
  refine hwa.frame ?_ (fun q _ => by rw [hlv0]) (fun q _ => by rw [hrv0])
    (by rw [hsz0, Function.update_noteq hab]) ?_
  · intro q hq
    refine hmem0 q ?_ ?_
    · rintro rfl
      rcases hq with hq | hq | hq | hq
      · exact hwa.sentinel_not_mem_left _ _ hq
      · exact hwa.sentinel_not_mem_right _ _ hq
      · simp only [Ptr.sentinel.injEq, and_true] at hq; exact hab hq.symm
      · simp at hq
    · rintro rfl
      rcases hq with hq | hq | hq | hq
      · exact hwa.sentinel_not_mem_left _ _ hq
      · exact hwa.sentinel_not_mem_right _ _ hq
      · simp at hq
      · simp only [Ptr.sentinel.injEq, and_true] at hq; exact hab hq.symm
  · intro e s he
    rw [hmem0 _ (by simp) (by simp)]
    exact hwa.fresh e s (by rw [← hnext0]; exact he)

/-- The copy constructor builds a container with the pairs of `a` and leaves `a`, and
every other container `x`, as it is. -/
theorem bimap_copy_ok (hcl : StrictWeakOrder cl) (hcr : StrictWeakOrder cr)
    (hwa : WF cl cr h a tl tr) (hab : a ≠ b) {fuel : Nat} (hf : tl.size + 2 ≤ fuel)
    (p1 p2 : Nat) (prio : Nat → Nat × Nat) {x : Nat} {tlx : PTree L} {trx : PTree R}
    (hwx : WF cl cr h x tlx trx) (hxb : x ≠ b) :
    ∃ h2 tlb trb, bimap_copy cl cr fuel h b a p1 p2 prio = .ok h2 ∧
      WF cl cr h2 a tl tr ∧ WF cl cr h2 b tlb trb ∧
      pairs_of h2 tlb.ptrs = pairs_of h tl.ptrs ∧
      pairs_of h2 trb.ptrs = pairs_of h tr.ptrs ∧
      (∀ q ∈ tl.ptrs, entry_at h2 q = entry_at h q) ∧
      (∀ q ∈ tr.ptrs, entry_at h2 q = entry_at h q) ∧ WF cl cr h2 x tlx trx := by
  obtain ⟨h0, hrun0, hwb0, hlv0, hrv0, hnext0, hsz0, hmem0⟩ :=
    construct_in cl cr h b p1 p2 hwa.fresh
  have hwx0 : WF cl cr h0 x tlx trx := by
    obtain ⟨h0b, hrun0b, _, hwx0, _⟩ := hwx.construct_other hxb p1 p2
    rw [hrun0] at hrun0b
    simp only [Except.ok.injEq] at hrun0b
    rw [hrun0b]
    exact hwx0
  have hent0 : ∀ q, entry_at h0 q = entry_at h q := by
    intro q
    cases q with
    | sentinel c s => rfl
    | node e s => simp only [entry_at, hlv0, hrv0]
  have hwa0 : WF cl cr h0 a tl tr := by
    refine hwa.frame ?_ (fun q _ => by rw [hlv0]) (fun q _ => by rw [hrv0])
      (by rw [hsz0, Function.update_noteq hab]) ?_
    · intro q hq
      refine hmem0 q ?_ ?_
      · rintro rfl
        rcases hq with hq | hq | hq | hq
        · exact hwa.sentinel_not_mem_left _ _ hq
        · exact hwa.sentinel_not_mem_right _ _ hq
        · simp only [Ptr.sentinel.injEq, and_true] at hq; exact hab hq.symm
        · simp at hq
      · rintro rfl
        rcases hq with hq | hq | hq | hq
        · exact hwa.sentinel_not_mem_left _ _ hq
        · exact hwa.sentinel_not_mem_right _ _ hq
        · simp at hq
        · simp only [Ptr.sentinel.injEq, and_true] at hq; exact hab hq.symm
    · intro e s he
      rw [hmem0 _ (by simp) (by simp)]
      exact hwa.fresh e s (by rw [← hnext0]; exact he)
  obtain ⟨h2, tlb, trb, hrun, hwa2, hwb2, hp, k2, k3, hwx2⟩ :=
    copy_loop_ok hcl hcr fuel prio hab (fun s => WF cl cr s x tlx trx)
      (fun s tlb trb left right pl pr s3 p hwb hsize hwxs hrun => by
        obtain ⟨s4, p4, hrun4, _, hwx4, _⟩ :=
          hwxs.insert_other hcl hcr hwb hxb hsize left right pl pr
        rw [hrun] at hrun4
        simp only [Except.ok.injEq, Prod.mk.injEq] at hrun4
        rw [hrun4.1]
        exact hwx4)
      tl.ptrs [] fuel 0 h0 .nil .nil rfl hwa0 hwb0 rfl hf
      (by rw [PTree.length_ptrs]; omega) hwx0
  have hp2 : pairs_of h2 tlb.ptrs = pairs_of h tl.ptrs := by
    rw [hp]; exact pairs_of_congr _ (fun q _ => hent0 q)
  refine ⟨h2, tlb, trb, ?_, hwa2, hwb2, hp2, ?_, fun q hq => by rw [k2 q hq, hent0],
    fun q hq => by rw [k3 q hq, hent0], hwx2⟩
  · simp only [bimap_copy, hrun0, begin_left,
      tree_begin_spec hwa0.left_tree (show tl.size + 1 ≤ fuel by omega)]
    exact hrun
  · refine sorted_perm_unique (r := fun x y : L × R => cr x.2 y.2 = true) ?_ ?_
      hwb2.pairs_right_sorted hwa.pairs_right_sorted
    · intro x y hxy hyx
      rw [hcr.asymm hxy] at hyx
      cases hyx
    · exact (hwb2.pairs_perm.symm.trans (hp2 ▸ List.Perm.refl _)).trans hwa.pairs_perm

end bimap

namespace Scenario

open details bimap

theorem copy_s7 :
    bimap_copy ltNat ltStr 5 s3 1 0 21 22 (fun i => (i + 3, 7 - i)) = .ok s7 := rfl

theorem inv_s7 : Inv ltNat ltStr s7 0 ∧ Inv ltNat ltStr s7 1 := by
  obtain ⟨tl, tr, hwf⟩ := inv_s3
  have hf : tl.size + 2 ≤ 5 := by
    have := hwf.size_eq
    have h3 : s3.sz 0 = 3 := rfl
    omega
  obtain ⟨h2, tlb, trb, hrun, hwa, hwb, _⟩ :=
    bimap_copy_ok swo_ltNat swo_ltStr hwf (show 0 ≠ 1 by decide) hf 21 22
      (fun i => (i + 3, 7 - i)) hwf (show 0 ≠ 1 by decide)
  rw [copy_s7] at hrun
  simp only [Except.ok.injEq] at hrun
  subst hrun
  exact ⟨⟨_, _, hwa⟩, ⟨_, _, hwb⟩⟩

end Scenario

namespace Spec

open details bimap

variable {L R : Type} {cl : L → L → Bool} {cr : R → R → Bool} {h : Heap L R} {a b : Nat}

/-- C11: for two containers `a` and `b` of one state that satisfy their invariants, over
strict weak orders, `a == b` returns a value, and it is true exactly when the sizes are
equal and, listing both in left order, the left keys at every index are equivalent under
the left comparator and the paired right keys are equivalent under the right comparator;
`a != b` returns the negation. -/
theorem C11_operator_eq (hcl : StrictWeakOrder cl) (hcr : StrictWeakOrder cr)
    (ha : Inv cl cr h a) (hb : Inv cl cr h b) {fuel : Nat} (hfa : size h a + 2 ≤ fuel)
    (hfb : size h b + 2 ≤ fuel) :
    ∃ r esa esb, operator_eq cl cr fuel h a b = .ok r ∧
      entries_left fuel h a = .ok esa ∧ entries_left fuel h b = .ok esb ∧
      (r = true ↔ size h a = size h b ∧ List.Forall₂
        (fun x y => tree.equal cl x.1 y.1 = true ∧ tree.equal cr x.2 y.2 = true) esa esb) ∧
      operator_ne cl cr fuel h a b = .ok (!r) := by
  obtain ⟨tl, tr, hwa⟩ := ha
  obtain ⟨tlb, trb, hwb⟩ := hb
  have hf1 : tl.size + 1 ≤ fuel := by have := hwa.size_eq; simp only [size] at hfa; omega
  have hf2 : tlb.size + 1 ≤ fuel := by have := hwb.size_eq; simp only [size] at hfb; omega
  obtain ⟨r, hrun, hiff⟩ := operator_eq_spec hcl hcr hwa hwb hf1 hf2
  refine ⟨r, _, _, hrun, hwa.entries_left_eq hf1, hwb.entries_left_eq hf2, hiff, ?_⟩
  simp only [operator_ne, hrun]

/-- C11 on the container holding (1,"a"), (2,"b"), (3,"c") and its copy: they compare
equal; after `insert(4, "d")` into the copy they do not. -/
theorem C11_operator_eq_witness :
    (∃ r esa esb, operator_eq Scenario.ltNat Scenario.ltStr 5 Scenario.s7 0 1 = .ok r ∧
      entries_left 5 Scenario.s7 0 = .ok esa ∧ entries_left 5 Scenario.s7 1 = .ok esb ∧
      (r = true ↔ size Scenario.s7 0 = size Scenario.s7 1 ∧ List.Forall₂
        (fun x y => tree.equal Scenario.ltNat x.1 y.1 = true ∧
          tree.equal Scenario.ltStr x.2 y.2 = true) esa esb) ∧
      operator_ne Scenario.ltNat Scenario.ltStr 5 Scenario.s7 0 1 = .ok (!r)) ∧
    operator_eq Scenario.ltNat Scenario.ltStr 5 Scenario.s7 0 1 = .ok true ∧
    operator_ne Scenario.ltNat Scenario.ltStr 5 Scenario.s7 0 1 = .ok false ∧
    operator_eq Scenario.ltNat Scenario.ltStr 6 Scenario.s8 0 1 = .ok false ∧
    operator_ne Scenario.ltNat Scenario.ltStr 6 Scenario.s8 0 1 = .ok true :=
  ⟨C11_operator_eq Scenario.swo_ltNat Scenario.swo_ltStr Scenario.inv_s7.1 Scenario.inv_s7.2
    (show size Scenario.s7 0 + 2 ≤ 5 by decide) (show size Scenario.s7 1 + 2 ≤ 5 by decide),
    rfl, rfl, rfl, rfl⟩

/-- C12: for a container `a` satisfying its invariants, the copy `b = bimap(a)`,
constructed in the same state under a name other than `a`, has the size of `a`, compares
equal to `a`, and enumerates the same pairs as `a` from the left and from the right; `a`
itself looks unchanged; both containers satisfy their invariants; and a later `insert`,
`erase_left` (by position or by key) or `erase_right(key)` on `b` returns and leaves `a`
looking unchanged. -/
theorem C12_copy_construct (hcl : StrictWeakOrder cl) (hcr : StrictWeakOrder cr)
    (hinv : Inv cl cr h a) (hab : a ≠ b) {fuel : Nat} (hf : size h a + 2 ≤ fuel)
    (p1 p2 : Nat) (prio : Nat → Nat × Nat) :
    ∃ h2 esl esr, bimap_copy cl cr fuel h b a p1 p2 prio = .ok h2 ∧
      entries_left fuel h a = .ok esl ∧ entries_right fuel h a = .ok esr ∧
      size h2 b = size h a ∧ operator_eq cl cr fuel h2 b a = .ok true ∧
      entries_left fuel h2 b = .ok esl ∧ entries_right fuel h2 b = .ok esr ∧
      Unchanged fuel h h2 a ∧ Inv cl cr h2 a ∧ Inv cl cr h2 b ∧
      (∀ l r pl pr, ∃ h3 p, insert cl cr fuel h2 b l r pl pr = .ok (h3, p) ∧
        Unchanged fuel h2 h3 a) ∧
      (∀ ps it, positions_left fuel h2 b = .ok ps → it ∈ ps →
        ∃ h3 res, erase_left fuel h2 b it = .ok (h3, res) ∧ Unchanged fuel h2 h3 a) ∧
      (∀ k, ∃ h3 res, erase_left_key cl fuel h2 b k = .ok (h3, res) ∧
        Unchanged fuel h2 h3 a) ∧
      (∀ k, ∃ h3 res, erase_right_key cr fuel h2 b k = .ok (h3, res) ∧
        Unchanged fuel h2 h3 a) := by
  obtain ⟨tl, tr, hwa⟩ := hinv
  have hsz := hwa.size_eq
  simp only [size] at hf
  have hf1 : tl.size + 1 ≤ fuel := by omega
  obtain ⟨h2, tlb, trb, hrun, hwa2, hwb2, hpl, hpr, k2, k3, _⟩ :=
    bimap_copy_ok hcl hcr hwa hab (show tl.size + 2 ≤ fuel by omega) p1 p2 prio hwa hab
  have hsize : tlb.size = tl.size := by
    rw [← hwb2.pairs_left_length, hpl, hwa.pairs_left_length]
  have hfb : tlb.size + 1 ≤ fuel := by omega
  have hfb2 : tlb.size + 2 ≤ fuel := by omega
  have hba : b ≠ a := fun e => hab e.symm
  refine ⟨h2, _, _, hrun, hwa.entries_left_eq hf1, hwa.entries_right_eq hf1, ?_, ?_, ?_, ?_,
    hwa.unchanged hwa2 k2 k3 hf1, ⟨_, _, hwa2⟩, ⟨_, _, hwb2⟩, ?_, ?_, ?_, ?_⟩
  · simp only [size]; rw [hwb2.size_eq, hsz, hsize]
  · obtain ⟨r, hr, hiff⟩ := operator_eq_spec hcl hcr hwb2 hwa2 hfb hf1
    have htrue : r = true := by
      refine hiff.mpr ⟨?_, ?_⟩
      · simp only [size]; rw [hwb2.size_eq, hwa2.size_eq, hsize]
      · rw [hpl, pairs_of_congr _ k2]
        exact List.forall₂_same.mpr (fun x _ => ⟨hcl.equal_refl x.1, hcr.equal_refl x.2⟩)
    rw [hr, htrue]
  · rw [hwb2.entries_left_eq hfb, hpl]
  · rw [hwb2.entries_right_eq hfb, hpr]
  · intro l r pl pr
    obtain ⟨h3, p, hrun3, _, hwa3, j2, j3⟩ := hwa2.insert_other hcl hcr hwb2 hab hfb2 l r pl pr
    exact ⟨h3, p, hrun3, hwa2.unchanged hwa3 j2 j3 hf1⟩
  · intro ps it hps hit
    rw [hwb2.positions_left_eq hfb] at hps
    simp only [Except.ok.injEq] at hps
    subst hps
    obtain ⟨p, hp, rfl⟩ := List.mem_map.mp hit
    obtain ⟨h3, res, hrun3, _, hwa3, j2, j3⟩ :=
      hwa2.erase_left_other hwb2 hab hfb (Or.inl hp)
    exact ⟨h3, res, hrun3, hwa2.unchanged hwa3 j2 j3 hf1⟩
  · intro k
    obtain ⟨h3, res, hrun3, _, hwa3, j2, j3⟩ := hwa2.erase_left_key_other hwb2 hab hfb k
    exact ⟨h3, res, hrun3, hwa2.unchanged hwa3 j2 j3 hf1⟩
  · intro k
    obtain ⟨h3, res, hrun3, _, hwa3, j2, j3⟩ := hwa2.erase_right_key_other hwb2 hab hfb k
    exact ⟨h3, res, hrun3, hwa2.unchanged hwa3 j2 j3 hf1⟩

/-- C12 on the container `0` holding (1,"a"), (2,"b"), (3,"c"), copied into container
`1`: the copy enumerates the three pairs from both sides, and after `insert(4, "d")` into
the copy the original still enumerates its three pairs. -/
theorem C12_copy_construct_witness :
    (∃ h2 esl esr, bimap_copy Scenario.ltNat Scenario.ltStr 5 Scenario.s3 1 0 21 22
        (fun i => (i + 3, 7 - i)) = .ok h2 ∧
      entries_left 5 Scenario.s3 0 = .ok esl ∧ entries_right 5 Scenario.s3 0 = .ok esr ∧
      size h2 1 = size Scenario.s3 0 ∧
      operator_eq Scenario.ltNat Scenario.ltStr 5 h2 1 0 = .ok true ∧
      entries_left 5 h2 1 = .ok esl ∧ entries_right 5 h2 1 = .ok esr ∧
      Unchanged 5 Scenario.s3 h2 0 ∧ Inv Scenario.ltNat Scenario.ltStr h2 0 ∧
      Inv Scenario.ltNat Scenario.ltStr h2 1 ∧
      (∀ l r pl pr, ∃ h3 p, insert Scenario.ltNat Scenario.ltStr 5 h2 1 l r pl pr =
        .ok (h3, p) ∧ Unchanged 5 h2 h3 0) ∧
      (∀ ps it, positions_left 5 h2 1 = .ok ps → it ∈ ps →
        ∃ h3 res, erase_left 5 h2 1 it = .ok (h3, res) ∧ Unchanged 5 h2 h3 0) ∧
      (∀ k, ∃ h3 res, erase_left_key Scenario.ltNat 5 h2 1 k = .ok (h3, res) ∧
        Unchanged 5 h2 h3 0) ∧
      (∀ k, ∃ h3 res, erase_right_key Scenario.ltStr 5 h2 1 k = .ok (h3, res) ∧
        Unchanged 5 h2 h3 0)) ∧
    entries_left 5 Scenario.s7 1 = .ok [(1, "a"), (2, "b"), (3, "c")] ∧
    entries_right 5 Scenario.s7 1 = .ok [(1, "a"), (2, "b"), (3, "c")] ∧
    entries_left 6 Scenario.s8 1 = .ok [(1, "a"), (2, "b"), (3, "c"), (4, "d")] ∧
    entries_left 6 Scenario.s8 0 = .ok [(1, "a"), (2, "b"), (3, "c")] :=
  ⟨C12_copy_construct Scenario.swo_ltNat Scenario.swo_ltStr Scenario.inv_s3
    (show 0 ≠ 1 by decide) (show size Scenario.s3 0 + 2 ≤ 5 by decide) 21 22
    (fun i => (i + 3, 7 - i)), rfl, rfl, rfl, rfl⟩

end Spec

namespace Scenario

open details bimap

theorem reach_s9 : Reachable ltNat ltStr s9 0 :=
  Reachable.insert 6 0 "z" 4 1 s9 (some (Ptr.node 3 .left)) reach_s3 (by decide) rfl

theorem inv_s9 : Inv ltNat ltStr s9 0 := reach_s9.inv swo_ltNat swo_ltStr

end Scenario

namespace Spec

open details bimap

variable {L R : Type} {cl : L → L → Bool} {cr : R → R → Bool} {h : Heap L R} {c : Nat}

/-- C21: when an entry `e` has a right key equivalent to `key`, `at_right_or_default(key)`
returns `at_right(key)`, the left key of `e`, and the state is unchanged. When no entry has
such a right key, with `d` the default left value, the call returns `d` and the pairs
afterwards are the former pairs without the one whose left key is equivalent to `d`, plus
`(d, key)`. When no left key was equivalent to `d` the size grows by exactly one and every
earlier pair is still present; when an entry `e` had such a left key, `e` alone is evicted
and the size is unchanged. The invariants are kept. -/
theorem C21_at_right_or_default [Inhabited L] (hcl : StrictWeakOrder cl)
    (hcr : StrictWeakOrder cr) (hinv : Inv cl cr h c) {fuel : Nat} (hf : size h c + 2 ≤ fuel)
    {es : List (L × R)} (hes : entries_left fuel h c = .ok es) (key : R) (pl pr : Nat) :
    (∀ e ∈ es, tree.equal cr e.2 key = true →
      at_right_or_default cl cr fuel h c key pl pr = .ok (h, e.1) ∧
      at_right cr fuel h c key = .ok e.1) ∧
    ((∀ e ∈ es, tree.equal cr e.2 key = false) →
      ∃ h2 es2, at_right_or_default cl cr fuel h c key pl pr = .ok (h2, default) ∧
        entries_left fuel h2 c = .ok es2 ∧
        es2.Perm ((default, key) :: es.filter (fun e => !tree.equal cl e.1 default)) ∧
        at_right cr fuel h2 c key = .ok default ∧
        ((∀ e ∈ es, tree.equal cl e.1 default = false) →
          size h2 c = size h c + 1 ∧ ∀ e ∈ es, e ∈ es2) ∧
        (∀ e ∈ es, tree.equal cl e.1 default = true →
          size h2 c = size h c ∧ e ∉ es2 ∧ (∀ x ∈ es, x ≠ e → x ∈ es2)) ∧
        Inv cl cr h2 c) := by
  obtain ⟨tl, tr, hwf, rfl, hf2⟩ := entries_of_inv hinv hf hes
  have hf1 : tl.size + 1 ≤ fuel := by omega
  constructor
  · intro e he heq
    exact ⟨hwf.at_right_or_default_present hcr he heq pl pr hf1,
      hwf.at_right_of_mem hcr he heq hf1⟩
  · intro habs
    have ha := (hwf.lookup_right_none_iff hcr key).mpr habs
    obtain ⟨h2, tl2, tr2, hrun, hwf2, hpl, _, hsz_none, hsz_some⟩ :=
      hwf.at_right_or_default_absent hcl hcr pl pr hf2 ha
    have hsz_le : h2.sz c ≤ h.sz c + 1 := by
      cases hd : PTree.lookup cl (default : L) tl with
      | none => rw [hsz_none hd]
      | some q => rw [hsz_some (by rw [hd]; simp)]; omega
    have hf3 : tl2.size + 1 ≤ fuel := by
      have h1 := hwf2.size_eq
      have h2' := hwf.size_eq
      omega
    have hperm : (pairs_of h2 tl2.ptrs).Perm
        ((default, key) ::
          (pairs_of h tl.ptrs).filter (fun e => !tree.equal cl e.1 default)) := by
      rw [hpl]
      exact List.perm_middle.trans (List.Perm.cons _ (List.filter_append_perm _ _))
    have hnew : ((default : L), key) ∈ pairs_of h2 tl2.ptrs :=
      hperm.mem_iff.mpr (by simp)
    refine ⟨h2, _, hrun, hwf2.entries_left_eq hf3, hperm,
      hwf2.at_right_of_mem hcr hnew (hcr.equal_refl key) hf3, ?_, ?_, ⟨tl2, tr2, hwf2⟩⟩
    · intro hnone
      refine ⟨?_, ?_⟩
      · simp only [size]
        exact hsz_none ((hwf.lookup_left_none_iff hcl default).mpr hnone)
      · intro e he
        refine hperm.mem_iff.mpr (List.mem_cons_of_mem _ (List.mem_filter.mpr ⟨he, ?_⟩))
        rw [hnone e he]; rfl
    · intro e he heq
      have hsome : PTree.lookup cl (default : L) tl ≠ none := by
        intro hn
        have := (hwf.lookup_left_none_iff hcl default).mp hn e he
        rw [heq] at this
        cases this
      refine ⟨by simp only [size]; exact hsz_some hsome, ?_, ?_⟩
      · intro hmem
        rcases List.mem_cons.mp (hperm.mem_iff.mp hmem) with rfl | hx2
        · have := habs _ he
          rw [hcr.equal_refl key] at this
          cases this
        · have := (List.mem_filter.mp hx2).2
          rw [heq] at this
          simp at this
      · intro x hx hne
        refine hperm.mem_iff.mpr (List.mem_cons_of_mem _ (List.mem_filter.mpr ⟨hx, ?_⟩))
        cases hc : tree.equal cl x.1 default with
        | false => rfl
        | true =>
          exfalso
          apply hne
          apply hwf.pair_eq_of_left_equal hcl hx he
          rw [equal_congr_right hcl heq x.1]
          exact hc

/-- C21 on the container holding (0,"z"), (1,"a"), (2,"b"), (3,"c"): the default left value
0 is mapped to "z", so `at_right_or_default("q")` returns 0, evicts (0,"z") alone and
creates (0,"q"); the size stays 4. -/
theorem C21_at_right_or_default_witness :
    ∃ h2 es2, at_right_or_default Scenario.ltNat Scenario.ltStr 6 Scenario.s9 0 "q" 1 2 =
        .ok (h2, 0) ∧
      entries_left 6 h2 0 = .ok es2 ∧
      es2.Perm [(0, "q"), (1, "a"), (2, "b"), (3, "c")] ∧
      at_right Scenario.ltStr 6 h2 0 "q" = .ok 0 ∧
      size h2 0 = size Scenario.s9 0 ∧ (0, "z") ∉ es2 := by
  obtain ⟨h2, es2, h1, h3, h4, h5, _, h7, _⟩ :=
    (C21_at_right_or_default Scenario.swo_ltNat Scenario.swo_ltStr Scenario.inv_s9
      (show size Scenario.s9 0 + 2 ≤ 6 by decide)
      (show entries_left 6 Scenario.s9 0 = .ok [(0, "z"), (1, "a"), (2, "b"), (3, "c")]
        from rfl) "q" 1 2).2 (by decide)
  have h8 := h7 (0, "z") (by simp) rfl
  exact ⟨h2, es2, h1, h3, h4, h5, h8.1, h8.2.1⟩

end Spec

namespace Spec

open details bimap

/-- C22 at a failing input: in the container holding (0,"z"), (1,"a"), (2,"b"), (3,"c")
the right order is "a", "b", "c", "z". `erase_right` at the position of "c", which is
followed by the position of "z", returns `end_right()`: the flip of the position that
followed (3,"c") in left order. `erase_right` at the position of "z", the last right
position, returns the position of "a" instead of `end_right()`. The sibling `erase_left`
at the position of 1 returns the position of 2, which followed it in left order. -/
theorem C22_erase_right_returns_flipped_left_successor :
    positions_right 6 Scenario.s9 0 =
      .ok [some (Ptr.node 0 .right), some (Ptr.node 1 .right), some (Ptr.node 2 .right),
        some (Ptr.node 3 .right)] ∧
    get_value Scenario.s9.right_value (some (Ptr.node 2 .right)) = .ok "c" ∧
    get_value Scenario.s9.right_value (some (Ptr.node 3 .right)) = .ok "z" ∧
    get_next Scenario.s9.mem 6 (some (Ptr.node 2 .right)) = .ok (some (Ptr.node 3 .right)) ∧
    get_next Scenario.s9.mem 6 (some (Ptr.node 3 .right)) = .ok (end_right 0) ∧
    (∃ h2, erase_right 6 Scenario.s9 0 (some (Ptr.node 2 .right)) = .ok (h2, end_right 0) ∧
      positions_right 6 h2 0 =
        .ok [some (Ptr.node 0 .right), some (Ptr.node 1 .right), some (Ptr.node 3 .right)]) ∧
    (∃ h2, erase_right 6 Scenario.s9 0 (some (Ptr.node 3 .right)) =
        .ok (h2, some (Ptr.node 0 .right)) ∧
      positions_right 6 h2 0 =
        .ok [some (Ptr.node 0 .right), some (Ptr.node 1 .right), some (Ptr.node 2 .right)]) ∧
    (∃ h2, erase_left 6 Scenario.s9 0 (some (Ptr.node 0 .left)) =
        .ok (h2, some (Ptr.node 1 .left)) ∧
      positions_left 6 Scenario.s9 0 =
        .ok [some (Ptr.node 3 .left), some (Ptr.node 0 .left), some (Ptr.node 1 .left),
          some (Ptr.node 2 .left)]) :=
  ⟨rfl, rfl, rfl, rfl, rfl, ⟨_, rfl, rfl⟩, ⟨_, rfl, rfl⟩, ⟨_, rfl, rfl⟩⟩

end Spec

namespace details

theorem swap_parent_null_left (m : Mem) (y : Option Ptr) :
    swap_parent m none y = .error .null_deref := rfl

theorem swap_parent_null_right {m : Mem} {p : Ptr} {nb : node_base} (hp : m p = some nb) :
    swap_parent m (some p) none = .error .null_deref := by
  simp only [swap_parent, deref, hp]

end details

namespace bimap

open details

variable {L R : Type} {cl : L → L → Bool} {cr : R → R → Bool} {h : Heap L R}
  {a b : Nat} {tl : PTree L} {tr : PTree R} {tlb : PTree L} {trb : PTree R}

/-- The root of a well-formed left tree is null or an allocated node. -/
theorem WF.root_left_alloc (hwa : WF cl cr h a tl tr) {p : Ptr} (hp : tl.root = some p) :
    ∃ nb, h.mem p = some nb := by
  cases tl with
  | nil => cases hp
  | node l q k pr r =>
    simp only [PTree.root, Option.some.injEq] at hp
    subst hp
    obtain ⟨_, nb, hnb, _⟩ := hwa.left_tree.rep
    exact ⟨nb, hnb⟩

/-- A container whose count is zero has the empty left tree. -/
theorem WF.nil_of_size_zero (hwa : WF cl cr h a tl tr) (hz : size h a = 0) : tl = .nil := by
  have hs := hwa.size_eq
  simp only [size] at hz
  cases tl with
  | nil => rfl
  | node l q k pr r =>
    simp only [PTree.size] at hs
    omega

/-- `swap` of two well-formed containers of which one is empty dereferences the null root
in `actualize_children_parents`. -/
theorem WF.swap_empty (hwa : WF cl cr h a tl tr) (hwb : WF cl cr h b tlb trb)
    (he : tl = .nil ∨ tlb = .nil) : swap h a b = .error .null_deref := by
  obtain ⟨sa, hsa, hla, _⟩ := hwa.left_tree.sent
  obtain ⟨sb, hsb, hlb, _⟩ := hwb.left_tree.sent
  have key : swap_parent h.mem sa.left sb.left = .error .null_deref := by
    rw [hla, hlb]
    cases hra : tl.root with
    | none => exact swap_parent_null_left _ _
    | some p =>
      obtain ⟨nb, hnb⟩ := hwa.root_left_alloc hra
      rcases he with he | he
      · rw [he] at hra; cases hra
      · rw [he]
        exact swap_parent_null_right hnb
  simp only [swap, tree.swap, swap_sentinel, actualize_children_parents, deref, hsa, hsb, key]

end bimap


namespace bimap

open details

variable {L R : Type} {cl : L → L → Bool} {cr : R → R → Bool} {h : Heap L R}
  {a b : Nat} {tl : PTree L} {tr : PTree R} {tlb : PTree L} {trb : PTree R}

/-- `swap` faults as soon as the left root of either container is null. -/
theorem swap_null {sa sb : node_base} (hsa : h.mem (Ptr.sentinel a .left) = some sa)
    (hsb : h.mem (Ptr.sentinel b .left) = some sb)
    (key : sa.left = none ∨
      ((∃ p nb, sa.left = some p ∧ h.mem p = some nb) ∧ sb.left = none)) :
    swap h a b = .error .null_deref := by
  have hk : swap_parent h.mem sa.left sb.left = .error .null_deref := by
    rcases key with hk | ⟨⟨p, nb, hp, hnb⟩, hk⟩
    · rw [hk]; exact swap_parent_null_left _ _
    · rw [hp, hk]; exact swap_parent_null_right hnb
  simp only [swap, tree.swap, swap_sentinel, actualize_children_parents, deref, hsa, hsb, hk]

/-- The right tree of a container is empty when its left tree is. -/
theorem WF.right_nil (hwb : WF cl cr h b .nil trb) : trb = .nil := by
  have := hwb.size_right
  cases trb with
  | nil => rfl
  | node l q k pr r =>
    simp only [PTree.size] at this
    omega

/-- The move constructor of a tree copies the sentinel, writes the parent link of the
root, leaves every other sentinel as it is and frees nothing. -/
theorem tree_move_spec {m : Mem} (c : Nat) (sd : Side) {other : Ptr} {ob : node_base}
    (ho : m other = some ob)
    (hroot : ∀ r, ob.left = some r → (∃ e s, r = Ptr.node e s) ∧ ∃ nb, m r = some nb) :
    ∃ m2, tree.move m (Ptr.sentinel c sd) other = .ok m2 ∧
      m2 (Ptr.sentinel c sd) = some ob ∧
      (∀ c2 s2, Ptr.sentinel c2 s2 ≠ Ptr.sentinel c sd →
        m2 (Ptr.sentinel c2 s2) = m (Ptr.sentinel c2 s2)) ∧
      (∀ q nb, m q = some nb → ∃ nb2, m2 q = some nb2) := by
  cases hl : ob.left with
  | none =>
    refine ⟨Function.update m (Ptr.sentinel c sd) (some ob), ?_, ?_, ?_, ?_⟩
    · simp only [tree.move, deref, ho, hl]
    · simp
    · intro c2 s2 hne
      rw [Function.update_noteq hne]
    · intro q nb hq
      by_cases hqs : q = Ptr.sentinel c sd
      · subst hqs; exact ⟨ob, by simp⟩
      · exact ⟨nb, by rw [Function.update_noteq hqs]; exact hq⟩
  | some r =>
    obtain ⟨⟨e, s, rfl⟩, nb, hnb⟩ := hroot r hl
    have hne : Ptr.node e s ≠ Ptr.sentinel c sd := by simp
    refine ⟨Function.update (Function.update m (Ptr.sentinel c sd) (some ob)) (Ptr.node e s)
      (some { nb with parent := some (Ptr.sentinel c sd) }), ?_, ?_, ?_, ?_⟩
    · simp only [tree.move, deref, ho, hl, write_parent, Function.update_noteq hne, hnb]
    · rw [Function.update_noteq (Ne.symm hne)]; simp
    · intro c2 s2 hne2
      rw [Function.update_noteq (by simp), Function.update_noteq hne2]
    · intro q nb2 hq
      by_cases hq1 : q = Ptr.node e s
      · subst hq1; exact ⟨_, Function.update_same _ _ _⟩
      · by_cases hqs : q = Ptr.sentinel c sd
        · subst hqs; exact ⟨ob, by rw [Function.update_noteq hq1]; simp⟩
        · exact ⟨nb2, by rw [Function.update_noteq hq1, Function.update_noteq hqs]; exact hq⟩

/-- The roots of a well-formed container are nodes and are allocated. -/
theorem WF.roots_alloc (hwb : WF cl cr h b tlb trb) :
    (∀ r, tlb.root = some r → (∃ e s, r = Ptr.node e s) ∧ ∃ nb, h.mem r = some nb) ∧
    (∀ r, trb.root = some r → (∃ e s, r = Ptr.node e s) ∧ ∃ nb, h.mem r = some nb) := by
  constructor
  · intro r hr
    cases tlb with
    | nil => cases hr
    | node l q k pr rt =>
      simp only [PTree.root, Option.some.injEq] at hr
      subst hr
      obtain ⟨_, nb, hnb, _⟩ := hwb.left_tree.rep
      obtain ⟨e, he⟩ := hwb.left_side q (by simp [PTree.ptrs])
      exact ⟨⟨e, _, he⟩, nb, hnb⟩
  · intro r hr
    cases trb with
    | nil => cases hr
    | node l q k pr rt =>
      simp only [PTree.root, Option.some.injEq] at hr
      subst hr
      obtain ⟨_, nb, hnb, _⟩ := hwb.right_tree.rep
      obtain ⟨e, he⟩ := hwb.right_side q (by simp [PTree.ptrs])
      exact ⟨⟨e, _, he⟩, nb, hnb⟩

/-- The move constructor of container `t` from a well-formed container `b`: the left
sentinel of `t` anchors the root of `b`, which stays allocated, and the sentinels of the
other containers are not written. -/
theorem WF.bimap_move_reads (hwb : WF cl cr h b tlb trb) (t : Nat) :
    ∃ h1 st, bimap_move h t b = .ok h1 ∧ h1.mem (Ptr.sentinel t .left) = some st ∧
      st.left = tlb.root ∧ (∀ p, tlb.root = some p → ∃ nb, h1.mem p = some nb) ∧
      (∀ c s, c ≠ t → h1.mem (Ptr.sentinel c s) = h.mem (Ptr.sentinel c s)) := by
  obtain ⟨sl, hsl, hll, _⟩ := hwb.left_tree.sent
  obtain ⟨sr, hsr, hlr, _⟩ := hwb.right_tree.sent
  obtain ⟨hrl, hrr⟩ := hwb.roots_alloc
  have hne : Ptr.sentinel t .left ≠ Ptr.sentinel t .right := by simp
  obtain ⟨m1, hrun1, hs1, hk1, ha1⟩ := tree_move_spec t .left hsl
    (fun r hr => hrl r (by rw [← hll]; exact hr))
  have hsr1 : m1 (Ptr.sentinel b .right) = some sr := by
    rw [hk1 _ _ (by simp)]; exact hsr
  obtain ⟨m2, hrun2, hs2, hk2, ha2⟩ := tree_move_spec t .right hsr1
    (fun r hr => by
      obtain ⟨h1, nb, h2⟩ := hrr r (by rw [← hlr]; exact hr)
      exact ⟨h1, ha1 r nb h2⟩)
  have hs2l : m2 (Ptr.sentinel t .left) = some sl := by
    rw [hk2 _ _ hne]; exact hs1
  refine ⟨{ h with
      mem := Function.update (Function.update m2 (Ptr.sentinel t .left)
          (some { sl with right := some (Ptr.sentinel t .right) }))
        (Ptr.sentinel t .right) (some { sr with right := some (Ptr.sentinel t .left) })
      sz := Function.update h.sz t 0 },
    { sl with right := some (Ptr.sentinel t .right) }, ?_, ?_, hll, ?_, ?_⟩
  · simp only [bimap_move, hrun1, hrun2, share_pointers, tree.set_another_tree_pointer,
      write_right, hs2l, Function.update_noteq (Ne.symm hne), hs2]
  · simp only [Function.update_noteq hne, Function.update_same]
  · intro p hp
    obtain ⟨⟨e, s, rfl⟩, nb, hnb⟩ := hrl p hp
    obtain ⟨nb1, hnb1⟩ := ha1 _ _ hnb
    obtain ⟨nb2, hnb2⟩ := ha2 _ _ hnb1
    exact ⟨nb2, by
      simp only [Function.update_noteq (show Ptr.node e s ≠ Ptr.sentinel t .right by simp),
        Function.update_noteq (show Ptr.node e s ≠ Ptr.sentinel t .left by simp)]
      exact hnb2⟩
  · intro c s hc
    have h1 : Ptr.sentinel c s ≠ Ptr.sentinel t .left := by simp [hc]
    have h2 : Ptr.sentinel c s ≠ Ptr.sentinel t .right := by simp [hc]
    simp only [Function.update_noteq h1, Function.update_noteq h2]
    rw [hk2 _ _ h2, hk1 _ _ h1]

/-- A tree without pairs is the empty tree. -/
theorem WF.nil_of_pairs_nil (hwa : WF cl cr h a tl tr) (hp : pairs_of h tl.ptrs = []) :
    tl = .nil := by
  have hs := hwa.pairs_left_length
  rw [hp] at hs
  cases tl with
  | nil => rfl
  | node l q k pr r =>
    simp only [PTree.size, List.length_nil] at hs
    omega

/-- The copy assignment `a = b` between two distinct well-formed containers of which one
is empty faults in the `swap` with the temporary. -/
theorem WF.operator_assign_empty (hcl : StrictWeakOrder cl) (hcr : StrictWeakOrder cr)
    (hwa : WF cl cr h a tl tr) (hwb : WF cl cr h b tlb trb) (he : tl = .nil ∨ tlb = .nil)
    (hab : a ≠ b) {t : Nat} (hta : t ≠ a) (htb : t ≠ b) {fuel : Nat}
    (hf : tlb.size + 2 ≤ fuel) (p1 p2 : Nat) (prio : Nat → Nat × Nat) :
    operator_assign cl cr fuel h a b t p1 p2 prio = .error .null_deref := by
  obtain ⟨h1, tlt, trt, hrun, _, hwt1, hpl, _, _, _, hwa1⟩ :=
    bimap_copy_ok hcl hcr hwb (fun e => htb e.symm) hf p1 p2 prio hwa (fun e => hta e.symm)
  have hsw : swap h1 t a = .error .null_deref := by
    refine hwt1.swap_empty hwa1 ?_
    rcases he with he | he
    · exact Or.inr he
    · refine Or.inl (hwt1.nil_of_pairs_nil ?_)
      rw [hpl, he]
      rfl
  have hba : ¬ b = a := fun e => hab e.symm
  simp only [operator_assign, hba, if_false, hrun, hsw]

/-- The move assignment `a = std::move(b)` between two distinct well-formed containers of
which one is empty faults in the `swap` with the temporary. -/
theorem WF.operator_assign_move_empty (hwa : WF cl cr h a tl tr) (hwb : WF cl cr h b tlb trb)
    (he : tl = .nil ∨ tlb = .nil) (hab : a ≠ b) {t : Nat} (hta : t ≠ a) (fuel : Nat) :
    operator_assign_move fuel h a b t = .error .null_deref := by
  obtain ⟨h1, st, hrun, hst, hstl, halloc, hkeep⟩ := hwb.bimap_move_reads t
  obtain ⟨sa, hsa, hla, _⟩ := hwa.left_tree.sent
  have hsa1 : h1.mem (Ptr.sentinel a .left) = some sa := by
    rw [hkeep _ _ (Ne.symm hta)]; exact hsa
  have hsw : swap h1 t a = .error .null_deref := by
    refine swap_null hst hsa1 ?_
    cases hr : tlb.root with
    | none => exact Or.inl (by rw [hstl, hr])
    | some p =>
      obtain ⟨nb, hnb⟩ := halloc p hr
      refine Or.inr ⟨⟨p, nb, by rw [hstl, hr], hnb⟩, ?_⟩
      rcases he with he | he
      · rw [hla, he]; rfl
      · rw [he] at hr; cases hr
  have hba : ¬ b = a := fun e => hab e.symm
  simp only [operator_assign_move, hba, if_false, hrun, hsw]

end bimap

namespace Scenario

open details bimap

theorem construct_s10 : bimap.bimap s3 1 21 22 = .ok s10 := rfl

theorem inv_s10 : Inv ltNat ltStr s10 0 ∧ Inv ltNat ltStr s10 1 := by
  obtain ⟨tl, tr, hwf⟩ := inv_s3
  obtain ⟨h0, hrun, hwb, hwa, _⟩ := hwf.construct_other (show 0 ≠ 1 by decide) 21 22
  rw [construct_s10] at hrun
  simp only [Except.ok.injEq] at hrun
  subst hrun
  exact ⟨⟨_, _, hwa⟩, ⟨_, _, hwb⟩⟩

end Scenario

namespace Spec

open details bimap

variable {L R : Type} {cl : L → L → Bool} {cr : R → R → Bool} {h : Heap L R} {a b : Nat}

/-- C23 at the failing inputs: for all containers `a` and `b` satisfying their invariants
of which at least one is empty, `a.swap(b)` does not complete: `actualize_children_parents`
reads the parent link of the null root of the empty left tree. When `a` and `b` are
distinct, the copy assignment `a = b` and the move assignment `a = std::move(b)`, which
swap `a` with a temporary `t`, fault in the same way. -/
theorem C23_swap_with_empty_reads_null (hcl : StrictWeakOrder cl) (hcr : StrictWeakOrder cr)
    (hinva : Inv cl cr h a) (hinvb : Inv cl cr h b) (hempty : size h a = 0 ∨ size h b = 0) :
    swap h a b = .error .null_deref ∧
    (∀ (t fuel p1 p2 : Nat) (prio : Nat → Nat × Nat), a ≠ b → t ≠ a → t ≠ b →
      size h b + 2 ≤ fuel →
      operator_assign cl cr fuel h a b t p1 p2 prio = .error .null_deref) ∧
    (∀ t fuel : Nat, a ≠ b → t ≠ a →
      operator_assign_move fuel h a b t = .error .null_deref) := by
  obtain ⟨tl, tr, hwa⟩ := hinva
  obtain ⟨tlb, trb, hwb⟩ := hinvb
  have he : tl = .nil ∨ tlb = .nil := by
    rcases hempty with hz | hz
    · exact Or.inl (hwa.nil_of_size_zero hz)
    · exact Or.inr (hwb.nil_of_size_zero hz)
  refine ⟨hwa.swap_empty hwb he, ?_, ?_⟩
  · intro t fuel p1 p2 prio hab hta htb hf
    have hs := hwb.size_eq
    simp only [size] at hf
    exact hwa.operator_assign_empty hcl hcr hwb he hab hta htb (by omega) p1 p2 prio
  · intro t fuel hab hta
    exact hwa.operator_assign_move_empty hwb he hab hta fuel

/-- C23 on the state holding the container `0` with (1,"a"), (2,"b"), (3,"c") and the empty
container `1`: `swap` faults in either direction, and so do the copy assignment and the
move assignment of container `0` to the empty container `1`, through the temporary `2`.
On the two non-empty containers of the state `s8`, `swap` completes and exchanges the
pairs and the sizes, with the end positions still flipped to each other. -/
theorem C23_swap_with_empty_reads_null_witness :
    (size Scenario.s10 1 = 0 ∧ size Scenario.s10 0 = 3) ∧
    swap Scenario.s10 1 0 = .error .null_deref ∧
    swap Scenario.s10 0 1 = .error .null_deref ∧
    operator_assign Scenario.ltNat Scenario.ltStr 5 Scenario.s10 1 0 2 31 32
      (fun i => (i + 3, 7 - i)) = .error .null_deref ∧
    operator_assign_move 5 Scenario.s10 1 0 2 = .error .null_deref ∧
    (∃ h2, swap Scenario.s8 0 1 = .ok h2 ∧
      entries_left 6 Scenario.s8 0 = .ok [(1, "a"), (2, "b"), (3, "c")] ∧
      entries_left 6 Scenario.s8 1 = .ok [(1, "a"), (2, "b"), (3, "c"), (4, "d")] ∧
      entries_left 6 h2 0 = .ok [(1, "a"), (2, "b"), (3, "c"), (4, "d")] ∧
      entries_right 6 h2 0 = .ok [(1, "a"), (2, "b"), (3, "c"), (4, "d")] ∧
      entries_left 6 h2 1 = .ok [(1, "a"), (2, "b"), (3, "c")] ∧
      entries_right 6 h2 1 = .ok [(1, "a"), (2, "b"), (3, "c")] ∧
      size h2 0 = 4 ∧ size h2 1 = 3 ∧
      flip h2.mem (end_left 0) = .ok (end_right 0) ∧
      flip h2.mem (end_left 1) = .ok (end_right 1)) :=
  ⟨⟨rfl, rfl⟩,
    (C23_swap_with_empty_reads_null Scenario.swo_ltNat Scenario.swo_ltStr Scenario.inv_s10.2
      Scenario.inv_s10.1 (Or.inl rfl)).1,
    (C23_swap_with_empty_reads_null Scenario.swo_ltNat Scenario.swo_ltStr Scenario.inv_s10.1
      Scenario.inv_s10.2 (Or.inr rfl)).1,
    (C23_swap_with_empty_reads_null Scenario.swo_ltNat Scenario.swo_ltStr Scenario.inv_s10.2
      Scenario.inv_s10.1 (Or.inl rfl)).2.1 2 5 31 32 (fun i => (i + 3, 7 - i)) (by decide)
      (by decide) (by decide) (by decide),
    (C23_swap_with_empty_reads_null Scenario.swo_ltNat Scenario.swo_ltStr Scenario.inv_s10.2
      Scenario.inv_s10.1 (Or.inl rfl)).2.2 2 5 (by decide) (by decide),
    ⟨_, rfl, rfl, rfl, rfl, rfl, rfl, rfl, rfl, rfl, rfl, rfl⟩⟩

end Spec
